import Mathlib

/-!
# DepthGraph : `Digraph<T>` (src/digraph.h)

Shallow embedding of the generic class `Digraph<T>`:

* `std::map<T, std::set<std::tuple<T,double>>>` is an association list, read in
  iteration order; the vertex type `T` is any linear order;
* the definitions are generic in the number type `W` that stands for `double`: with
  `W = ℚ` (the default: `Digraph T` is `Digraph T ℚ`) the weights are taken as exact
  numbers; with `W = Double` they are IEEE 754 binary64 values, every sum and difference
  rounded to nearest (ties to even), with the infinities and NaN;
* `assert` failures and `std::out_of_range` (thrown by `std::map::at`) are values of
  `Erreur`; recursive searches and `while` loops take a fuel argument and report
  `Erreur.epuise` when it runs out.
-/

namespace DepthGraph

set_option linter.unusedSectionVars false
set_option linter.unnecessarySimpa false

/-- Abnormal endings of a call. -/
inductive Erreur where
  /-- an `assert(...)` was violated -/
  | assertion
  /-- `std::map::at` on a missing key, or an access outside a vector -/
  | horsLimite
  /-- the fuel of the model ran out (no counterpart in the source) -/
  | epuise
deriving DecidableEq, Repr

deriving instance DecidableEq for Except

/-- Result of a call that may end abnormally. -/
abbrev Res (α : Type) := Except Erreur α

/-- The adjacency container `std::set<std::tuple<T,double>>`, in iteration order. -/
abbrev Voisins (T : Type) (W : Type := ℚ) := List (T × W)

/-- The container `std::map<T, std::set<std::tuple<T,double>>>`, in iteration order. -/
abbrev Carte (T : Type) (W : Type := ℚ) := List (T × Voisins T W)

/-- The class `Digraph<T>`: its only data member is `graphe`. -/
structure Digraph (T : Type) (W : Type := ℚ) where
  graphe : Carte T W
deriving DecidableEq, Repr

/-- The constant `std::numeric_limits<double>::max()`, i.e. (2^53 - 1) * 2^971. -/
def doubleMax : ℚ := (2 ^ 53 - 1) * 2 ^ 971

/-- The number type `W` that stands for `double` provides
`std::numeric_limits<double>::max()`. -/
class Limites (W : Type) where
  /-- the value of `std::numeric_limits<double>::max()` -/
  max : W

instance instLimitesRat : Limites ℚ := ⟨doubleMax⟩

/-! ## The type `double` as IEEE 754 binary64 -/

/-- A value of the type `double`: a finite value, an infinity or a NaN. The two zeros
are one value: every test of the source (`<`, `<=`, `>=`, `==`) treats them alike. -/
inductive Double where
  /-- a finite value, here any rational; the operations return representable ones -/
  | fini (v : ℚ)
  /-- plus infinity, or minus infinity when `negatif` -/
  | infini (negatif : Bool)
  /-- not a number -/
  | nan
deriving DecidableEq, Repr

namespace Double

/-- The least `e` such that `n / 2^e < 2^53`, searched upwards at most `reserve` times:
the exponent of the binade of `n` units of `2^-1074`. -/
def exposant : Nat → Nat → Nat
  | 0, _ => 0
  | reserve + 1, n => if n < 2 ^ 53 then 0 else exposant reserve (n / 2) + 1

/-- Rounding of the real `x >= 0` to binary64, to nearest and ties to even. In units of
`2^-1074` (the smallest positive value) the representable values below `2^53` are the
integers, and those of `[2^(52+e), 2^(53+e))` the multiples of `2^e`; a result of
`2^2098` units, i.e. `2^1024`, or more is an overflow and gives plus infinity (the
search of `e` stops at 2046, where every result is an overflow). -/
def arrondiPositif (x : ℚ) : Double :=
  let y : ℚ := x * 2 ^ 1074
  let e : ℕ := exposant 2046 ⌊y⌋.toNat
  let z : ℚ := y / 2 ^ e
  let q : ℕ := ⌊z⌋.toNat
  let r : ℚ := z - q
  let q1 : ℕ :=
    if r < 1 / 2 then q else if 1 / 2 < r then q + 1 else if q % 2 = 0 then q else q + 1
  if 2 ^ 2098 ≤ q1 * 2 ^ e then infini false else fini ((q1 * 2 ^ e : ℕ) / 2 ^ 1074)

/-- Unary minus. -/
def oppose : Double → Double
  | fini v => fini (-v)
  | infini negatif => infini (!negatif)
  | nan => nan

/-- Rounding of a real to binary64, to nearest and ties to even: the value of a decimal
literal, and the result of an operation on finite values. -/
def arrondi (x : ℚ) : Double :=
  if 0 ≤ x then arrondiPositif x else oppose (arrondiPositif (-x))

/-- The operation `a + b` on `double`. -/
def plus : Double → Double → Double
  | fini a, fini b => arrondi (a + b)
  | fini _, infini negatif => infini negatif
  | infini negatif, fini _ => infini negatif
  | infini n1, infini n2 => if n1 = n2 then infini n1 else nan
  | _, _ => nan

/-- The comparison `a < b` on `double`: false as soon as one side is a NaN. -/
def inferieur : Double → Double → Bool
  | fini a, fini b => decide (a < b)
  | fini _, infini negatif => !negatif
  | infini negatif, fini _ => negatif
  | infini n1, infini n2 => n1 && !n2
  | _, _ => false

/-- The comparison `a <= b` on `double`: false as soon as one side is a NaN. -/
def inferieurOuEgal : Double → Double → Bool
  | fini a, fini b => decide (a ≤ b)
  | fini _, infini negatif => !negatif
  | infini negatif, fini _ => negatif
  | infini n1, infini n2 => n1 || !n2
  | _, _ => false

instance instOfNatZero : OfNat Double 0 := ⟨fini 0⟩

instance instAdd : Add Double := ⟨plus⟩

instance instSub : Sub Double := ⟨fun a b => plus a (oppose b)⟩

instance instLT : LT Double := ⟨fun a b => inferieur a b = true⟩

instance instLE : LE Double := ⟨fun a b => inferieurOuEgal a b = true⟩

instance instDecidableLT : DecidableRel (LT.lt : Double → Double → Prop) :=
  fun a b => inferInstanceAs (Decidable (inferieur a b = true))

instance instDecidableLE : DecidableRel (LE.le : Double → Double → Prop) :=
  fun a b => inferInstanceAs (Decidable (inferieurOuEgal a b = true))

/-- The function `std::min(a, b)`: `b` when `b < a`, otherwise `a`. -/
instance instMin : Min Double := ⟨fun a b => if b < a then b else a⟩

instance instLimites : Limites Double := ⟨fini doubleMax⟩

/-- The real value of a finite `double`, `0` for the other values. -/
def valeur : Double → ℚ
  | fini v => v
  | _ => 0

end Double

section Conteneurs

variable {T : Type} [LinearOrder T] {W : Type} [OfNat W 0] [Add W] [Sub W] [LE W] [LT W] [Min W]
  [DecidableRel (LE.le : W → W → Prop)] [DecidableRel (LT.lt : W → W → Prop)] [Limites W]

/-- Lookup `graphe.find(u)`: the adjacency stored under key `u`, if any. -/
def trouve : Carte T W → T → Option (Voisins T W)
  | [], _ => none
  | (k, vs) :: reste, u => if k = u then some vs else trouve reste u

/-- Ordered insertion of the new key `u` with an empty adjacency: what `graphe[u]`
does when `u` is not yet a key. -/
def placer : Carte T W → T → Carte T W
  | [], u => [(u, [])]
  | (k, vs) :: reste, u =>
    if u < k then (u, []) :: (k, vs) :: reste else (k, vs) :: placer reste u

/-- Update through the reference `graphe[u]` (or `it->second`): the adjacency stored
under key `u` becomes `f` of it. -/
def surVoisins : Carte T W → T → (Voisins T W → Voisins T W) → Carte T W
  | [], _, _ => []
  | (k, vs) :: reste, u, f =>
    if k = u then (k, f vs) :: reste else (k, vs) :: surVoisins reste u f

/-- Order of `std::tuple<T,double>`: lexicographic. -/
def tupleLt (a b : T × W) : Bool :=
  decide (a.1 < b.1) || (decide (a.1 = b.1) && decide (a.2 < b.2))

/-- Insertion `voisins.insert(x)` in a `std::set` of tuples: ordered, and nothing
happens when an equivalent tuple is already there. -/
def insererTuple : Voisins T W → T × W → Voisins T W
  | [], x => [x]
  | y :: reste, x =>
    if tupleLt x y then x :: y :: reste
    else if tupleLt y x then y :: insererTuple reste x
    else y :: reste

/-- The loop of `supprimer(u, v)`: erase the first tuple whose neighbour is `v`, then
return. -/
def retirerPremier : Voisins T W → T → Voisins T W
  | [], _ => []
  | x :: reste, v => if x.1 = v then reste else x :: retirerPremier reste v

/-- The inner loops of `reduireDetteCirculaire`: on the first tuple whose neighbour is
`v` the weight `emprunt` becomes `f emprunt`, the tuple is erased when the new weight
is `<= 0`, and the loop stops (`break`). -/
def modifierPoids : Voisins T W → T → (W → W) → Voisins T W
  | [], _, _ => []
  | x :: reste, v, f =>
    if x.1 = v then (if f x.2 ≤ 0 then reste else (x.1, f x.2) :: reste)
    else x :: modifierPoids reste v f

end Conteneurs

namespace Digraph

variable {T : Type} [LinearOrder T] {W : Type} [OfNat W 0] [Add W] [Sub W] [LE W] [LT W] [Min W]
  [DecidableRel (LE.le : W → W → Prop)] [DecidableRel (LT.lt : W → W → Prop)] [Limites W]

/-- The constructor `Digraph()`: the empty graph. -/
def vide : Digraph T W := ⟨[]⟩

/-- The adjacency of `u`, empty when `u` is not a key (what a reference `graphe[u]`
reads once `u` has been created). -/
def voisinsDe (g : Digraph T W) (u : T) : Voisins T W := (trouve g.graphe u).getD []

/-- Access `graphe.at(u)`: throws `std::out_of_range` when `u` is not a key. -/
def auSommet (g : Digraph T W) (u : T) : Res (Voisins T W) :=
  match trouve g.graphe u with
  | some vs => .ok vs
  | none => .error .horsLimite

/-- Method `sommets()`. -/
def sommets (g : Digraph T W) : Nat := g.graphe.length

/-- Method `arcs()`. -/
def arcs (g : Digraph T W) : Nat :=
  g.graphe.foldl (fun nbArcs paire => paire.2.foldl (fun nb _ => nb + 1) nbArcs) 0

/-- Method `sommet(u)`. -/
def sommet (g : Digraph T W) (u : T) : Bool := (trouve g.graphe u).isSome

/-- Method `arc(u, v)`. -/
def arc (g : Digraph T W) (u v : T) : Bool :=
  match trouve g.graphe u with
  | some voisins => voisins.any (fun x => decide (x.1 = v))
  | none => false

/-- Method `inserer(u)`; it is also the effect of evaluating `graphe[u]`. -/
def inserer (g : Digraph T W) (u : T) : Digraph T W :=
  if g.sommet u then g else ⟨placer g.graphe u⟩

/-- Method `inserer(u, v, emprunt)`. The assertion is the one of the source,
`u != v && emprunt >= 0`. -/
def insererArc (g : Digraph T W) (u v : T) (emprunt : W) : Res (Digraph T W) :=
  if u ≠ v ∧ emprunt ≥ 0 then
    let g1 := (g.inserer u).inserer v
    if (g1.voisinsDe u).any (fun voisin => decide (voisin.1 = v)) then .ok g1
    else .ok ⟨surVoisins g1.graphe u (fun voisins => insererTuple voisins (v, emprunt))⟩
  else .error .assertion

/-- Method `supprimer(u)`: `graphe.erase(u)`, then every tuple whose neighbour is `u`
is erased from every adjacency. -/
def supprimer (g : Digraph T W) (u : T) : Digraph T W :=
  ⟨(g.graphe.filter (fun paire => decide (paire.1 ≠ u))).map
    (fun paire => (paire.1, paire.2.filter (fun x => decide (x.1 ≠ u))))⟩

/-- Method `supprimer(u, v)`. -/
def supprimerArc (g : Digraph T W) (u v : T) : Digraph T W :=
  ⟨surVoisins g.graphe u (fun voisins => retirerPremier voisins v)⟩

/-- Body of the inner loop of `cooperative`, for the tuple `voisin` of the adjacency of
`u`: `if (S.count(v) > 0) SG.inserer(u, v, emprunt)`. -/
def cooperativeArc (S : List T) (u : T) (SG : Digraph T W) (voisin : T × W) : Res (Digraph T W) :=
  if voisin.1 ∈ S then SG.insererArc u voisin.1 voisin.2 else .ok SG

/-- Body of the last loop of `cooperative`, for the vertex `u` of `S`: the loop over
`graphe.at(u)`. -/
def cooperativeSommet (g : Digraph T W) (S : List T) (SG : Digraph T W) (u : T) :
    Res (Digraph T W) :=
  match g.auSommet u with
  | .error err => .error err
  | .ok voisins => voisins.foldlM (cooperativeArc S u) SG

/-- Method `cooperative(S)`; the `std::set<T>` argument is the list of its elements
in iteration order. -/
def cooperative (g : Digraph T W) (S : List T) : Res (Digraph T W) :=
  if S.all (fun u => g.sommet u) then
    S.foldlM (cooperativeSommet g S) (S.foldl inserer vide)
  else .error .assertion

/-- Method `dette(u)`. -/
def dette (g : Digraph T W) (u : T) : W :=
  g.graphe.foldl (fun total paire =>
    if paire.1 ≠ u then
      paire.2.foldl (fun total voisin => if voisin.1 = u then total + voisin.2 else total) total
    else total) 0

/-- Method `dette(SG)`. -/
def detteSG (g SG : Digraph T W) : W :=
  g.graphe.foldl (fun totalDette paire =>
    if !SG.sommet paire.1 then
      paire.2.foldl (fun total voisin => if SG.sommet voisin.1 then total + voisin.2 else total)
        totalDette
    else totalDette) 0

/-- Method `pret(u)`. -/
def pret (g : Digraph T W) (u : T) : Res W := do
  let voisins ← g.auSommet u
  pure (voisins.foldl (fun total voisin => total + voisin.2) 0)

/-- Method `pret(SG)`. -/
def pretSG (g SG : Digraph T W) : W :=
  g.graphe.foldl (fun totalPret paire =>
    if SG.sommet paire.1 then
      paire.2.foldl (fun total voisin => if !SG.sommet voisin.1 then total + voisin.2 else total)
        totalPret
    else totalPret) 0

end Digraph

/-! ## Private functions: circuit search and cancellation -/

/-- The pairs `(circuit[i], circuit[i + 1])` for `i < circuit.size() - 1`, in order. -/
def paires {T : Type} : List T → List (T × T)
  | a :: b :: reste => (a, b) :: paires (b :: reste)
  | _ => []

/-- Local state of the search `rechercheProfondeur`: the arguments passed by
reference. -/
structure EtatRecherche (T : Type) where
  visiter : List T
  circuit : List T
  trouver : Bool
deriving DecidableEq, Repr

namespace Digraph

variable {T : Type} [LinearOrder T] {W : Type} [OfNat W 0] [Add W] [Sub W] [LE W] [LT W] [Min W]
  [DecidableRel (LE.le : W → W → Prop)] [DecidableRel (LT.lt : W → W → Prop)] [Limites W]

/-- First loop of `reduireDetteCirculaire`: `minDette` starts at the largest double and
takes the minimum with the weight of every arc `(circuit[i], circuit[i+1])`; evaluating
`graphe[u]` creates `u` when it is missing. -/
def minDetteCircuit (g : Digraph T W) (circuit : List T) : Digraph T W × W :=
  (paires circuit).foldl (fun (acc : Digraph T W × W) uv =>
    let g1 := acc.1.inserer uv.1
    (g1, (g1.voisinsDe uv.1).foldl
      (fun minDette arc => if arc.1 = uv.2 then min minDette arc.2 else minDette) acc.2))
    (g, Limites.max)

/-- Second loop of `reduireDetteCirculaire`: `minDette` is subtracted from the arc
`(circuit[i], circuit[i+1])`, which is erased when its weight becomes `<= 0`. -/
def reduireChemin (g : Digraph T W) (circuit : List T) (minDette : W) : Digraph T W :=
  (paires circuit).foldl (fun g uv =>
    ⟨surVoisins (g.inserer uv.1).graphe uv.1
      (fun voisins => modifierPoids voisins uv.2 (fun emprunt => emprunt - minDette))⟩) g

/-- Last part of `reduireDetteCirculaire`: the update between `start` and `end` when
they differ. -/
def ajusterExtremites (g : Digraph T W) (start fin : T) (minDette : W) : Res (Digraph T W) :=
  if start ≠ fin then
    let g1 := (g.inserer start).inserer fin
    if g1.arc start fin then
      .ok ⟨surVoisins g1.graphe start
        (fun voisins => modifierPoids voisins fin (fun emprunt => emprunt + minDette))⟩
    else if g1.arc fin start then
      .ok ⟨surVoisins g1.graphe fin
        (fun voisins => modifierPoids voisins start (fun emprunt => emprunt - minDette))⟩
    else g1.insererArc start fin minDette
  else .ok g

/-- Private method `reduireDetteCirculaire(circuit)`. Both callers pass a non-empty
circuit; on an empty one the source reads outside the vector. -/
def reduireDetteCirculaire (g : Digraph T W) (circuit : List T) : Res (Digraph T W) :=
  match circuit with
  | [] => .error .horsLimite
  | start :: reste =>
    let acc := minDetteCircuit g (start :: reste)
    ajusterExtremites (reduireChemin acc.1 (start :: reste) acc.2) start
      (reste.getLastD start) acc.2

/-- The `for` loop of the helper `rechercheProfondeur(u, visiter, circuit, debut,
trouver)` over the neighbours of `u`; `appel` is the recursive call. When the loop
runs to its end the last vertex of `circuit` is popped. -/
def boucleRecherche (appel : T → EtatRecherche T → Res (EtatRecherche T)) (debut u : T) :
    Voisins T W → EtatRecherche T → Res (EtatRecherche T)
  | [], e => .ok { e with circuit := e.circuit.dropLast }
  | voisin :: reste, e =>
    if voisin.1 = debut ∧ u ∈ e.visiter then
      .ok { e with circuit := e.circuit ++ [debut], trouver := true }
    else if voisin.1 ∉ e.visiter ∧ e.trouver = false then
      match appel voisin.1 e with
      | .error err => .error err
      | .ok e1 => if e1.trouver then .ok e1 else boucleRecherche appel debut u reste e1
    else boucleRecherche appel debut u reste e

/-- The helper `rechercheProfondeur(u, visiter, circuit, debut, trouver)`, with fuel
bounding the depth of the recursion. -/
def rechercheProfondeurAux (g : Digraph T W) (debut : T) :
    Nat → T → EtatRecherche T → Res (EtatRecherche T)
  | 0, _, _ => .error .epuise
  | n + 1, u, e =>
    match g.auSommet u with
    | .error err => .error err
    | .ok voisins =>
      boucleRecherche (rechercheProfondeurAux g debut n) debut u voisins
        { e with visiter := u :: e.visiter, circuit := e.circuit ++ [u] }

/-- Private method `rechercheProfondeur(u)`. -/
def rechercheProfondeur (g : Digraph T W) (n : Nat) (u : T) : Res (List T) :=
  match rechercheProfondeurAux g u n u ⟨[], [], false⟩ with
  | .error err => .error err
  | .ok e => if e.circuit.length > 2 then .ok e.circuit else .ok []

/-- The `for` loop of the helper `rechercheProfondeurSG(courrant, visiter, SG, chemin,
trouver, exterieurSG)`; `exterieurSG` is a by-value parameter, local to each call. -/
def boucleRechercheSG (g SG : Digraph T W)
    (appel : T → EtatRecherche T → Bool → Res (EtatRecherche T)) (courrant : T) :
    Voisins T W → EtatRecherche T → Bool → Res (EtatRecherche T)
  | [], e, _ => .ok { e with circuit := e.circuit.dropLast }
  | voisin :: reste, e, exterieurSG =>
    let neighbor := voisin.1
    let voisinDansSG := SG.sommet neighbor
    let liaisonExterieur := g.arc courrant neighbor
    let exterieur1 := if !voisinDansSG then true else exterieurSG
    if !exterieur1 && voisinDansSG then
      boucleRechercheSG g SG appel courrant reste e exterieur1
    else if voisinDansSG && exterieur1 && liaisonExterieur then
      .ok { e with circuit := e.circuit ++ [neighbor], trouver := true }
    else
      let exterieur2 := if !voisinDansSG then false else exterieur1
      if neighbor ∉ e.visiter ∧ e.trouver = false then
        match appel neighbor e (!voisinDansSG) with
        | .error err => .error err
        | .ok e1 =>
          if e1.trouver then .ok e1
          else boucleRechercheSG g SG appel courrant reste e1 exterieur2
      else boucleRechercheSG g SG appel courrant reste e exterieur2

/-- The helper `rechercheProfondeurSG(courrant, visiter, SG, chemin, trouver,
exterieurSG)`, with fuel bounding the depth of the recursion; the field `circuit` of
the state is the argument `chemin`. -/
def rechercheProfondeurSGAux (g SG : Digraph T W) :
    Nat → T → EtatRecherche T → Bool → Res (EtatRecherche T)
  | 0, _, _, _ => .error .epuise
  | n + 1, courrant, e, exterieurSG =>
    match g.auSommet courrant with
    | .error err => .error err
    | .ok voisins =>
      boucleRechercheSG g SG (rechercheProfondeurSGAux g SG n) courrant voisins
        { e with visiter := courrant :: e.visiter, circuit := e.circuit ++ [courrant] }
        exterieurSG

/-- The loop of `rechercheProfondeurSG(SG)` over the vertices of `SG`. -/
def departsSG (g SG : Digraph T W) (n : Nat) : Carte T W → Res (List T)
  | [] => .ok []
  | sommet :: reste =>
    match rechercheProfondeurSGAux g SG n sommet.1 ⟨[], [], false⟩ false with
    | .error err => .error err
    | .ok e => if e.trouver then .ok e.circuit else departsSG g SG n reste

/-- Private method `rechercheProfondeurSG(SG)`. -/
def rechercheProfondeurSG (g : Digraph T W) (n : Nat) (SG : Digraph T W) : Res (List T) :=
  departsSG g SG n SG.graphe

/-- The `while` loop of `reduire(s)`: `k` bounds the number of searches, `n` is the
fuel of each search. -/
def boucleReduire (s : T) (n : Nat) : Nat → Digraph T W → Res (Digraph T W)
  | 0, _ => .error .epuise
  | k + 1, g =>
    match g.rechercheProfondeur n s with
    | .error err => .error err
    | .ok circuit =>
      if circuit.isEmpty then .ok g
      else
        match g.reduireDetteCirculaire circuit with
        | .error err => .error err
        | .ok g1 => boucleReduire s n k g1

/-- Method `reduire(s)`, with fuel `n`. -/
def reduire (g : Digraph T W) (n : Nat) (s : T) : Res (Digraph T W) :=
  if g.sommet s then boucleReduire s n n g else .error .assertion

/-- The `while` loop of `reduire(SG)`. -/
def boucleReduireSG (SG : Digraph T W) (n : Nat) : Nat → Digraph T W → Res (Digraph T W)
  | 0, _ => .error .epuise
  | k + 1, g =>
    match g.rechercheProfondeurSG n SG with
    | .error err => .error err
    | .ok circuit =>
      if circuit.isEmpty then .ok g
      else
        match g.reduireDetteCirculaire circuit with
        | .error err => .error err
        | .ok g1 => boucleReduireSG SG n k g1

/-- Method `reduire(SG)`, with fuel `n`. -/
def reduireSG (g : Digraph T W) (n : Nat) (SG : Digraph T W) : Res (Digraph T W) :=
  boucleReduireSG SG n n g

end Digraph

/-! ## Invariants and derived quantities -/

namespace Digraph

variable {T : Type} [LinearOrder T] {W : Type} [OfNat W 0] [Add W] [Sub W] [LE W] [LT W] [Min W]
  [DecidableRel (LE.le : W → W → Prop)] [DecidableRel (LT.lt : W → W → Prop)] [Limites W]

/-- The keys of `graphe`, in iteration order: the vertices of the graph. -/
def cles (g : Digraph T W) : List T := g.graphe.map Prod.fst

/-- The structural invariants: the keys of the `std::map` are distinct, and
(1) no arc goes from a vertex to itself, (2) every weight is strictly positive,
(3) an adjacency holds at most one tuple per neighbour, (4) every neighbour is a
vertex. -/
def Inv (g : Digraph T W) : Prop :=
  g.cles.Nodup ∧
  (∀ p ∈ g.graphe, ∀ x ∈ p.2, x.1 ≠ p.1) ∧
  (∀ p ∈ g.graphe, ∀ x ∈ p.2, 0 < x.2) ∧
  (∀ p ∈ g.graphe, (p.2.map Prod.fst).Nodup) ∧
  (∀ p ∈ g.graphe, ∀ x ∈ p.2, g.sommet x.1 = true)

instance instDecidableInv (g : Digraph T W) : Decidable g.Inv := by
  unfold Inv; infer_instance

/-- The weight stored for the arc `(u, v)`: the weight of the first tuple of the
adjacency of `u` whose neighbour is `v`. -/
def poids (g : Digraph T W) (u v : T) : Option W :=
  ((g.voisinsDe u).find? (fun x => decide (x.1 = v))).map Prod.snd

/-- The arcs `(u, v, w)` of the graph, in iteration order. -/
def aretes (g : Digraph T W) : List (T × T × W) :=
  g.graphe.flatMap (fun paire => paire.2.map (fun x => (paire.1, x.1, x.2)))

/-- Sum of `φ` over the arcs of the graph. -/
def total {M : Type} [AddCommMonoid M] (φ : T × T × W → M) (g : Digraph T W) : M :=
  (g.aretes.map φ).sum

/-- The sum of the weights of the adjacency of `u`: the value computed by `pret(u)` when
`u` is a vertex. -/
def credit (g : Digraph T) (u : T) : ℚ := ((g.voisinsDe u).map Prod.snd).sum

/-- The sequence `circuit` is a cycle through `s`: it reads `s, v1, ..., vk, s` with at
least one intermediate vertex, the vertices `s, v1, ..., vk` are pairwise distinct, and
every consecutive pair is an arc of the graph. -/
def EstCycle (g : Digraph T W) (s : T) (circuit : List T) : Prop :=
  ∃ milieu, circuit = s :: milieu ++ [s] ∧ milieu ≠ [] ∧ (s :: milieu).Nodup ∧
    List.Chain' (fun a b => g.arc a b = true) circuit

/-- The vertex `x` can be reached from `s` along arcs of the graph. -/
def Atteint (g : Digraph T W) (s x : T) : Prop :=
  Relation.ReflTransGen (fun a b => g.arc a b = true) s x

/-- Number of vertices of the graph that are not in `visiter`. -/
def restants (g : Digraph T W) (visiter : List T) : Nat :=
  g.cles.countP (fun k => decide (k ∉ visiter))

/-- Number of times the largest double can still be subtracted from the weights of the
graph: the sum over the arcs of the weight divided by `doubleMax`, rounded up. When no
weight exceeds `doubleMax` it is the number of arcs. -/
def potentiel (g : Digraph T) : Nat :=
  total (fun e => ⌈e.2.2 / doubleMax⌉₊) g

/-- Relation between the state `e` before a call of the helper `rechercheProfondeur` on
`u` and the state `e'` after it: the visited set grows and contains `u`; when nothing is
found `circuit` is as before and every newly visited vertex has all its neighbours
visited and none equal to `debut`; when a circuit is found, a path from `u` through new
distinct vertices, closed by an arc to `debut`, has been appended to `circuit`. -/
def PostRecherche (g : Digraph T W) (debut u : T) (e e' : EtatRecherche T) : Prop :=
  (∀ x ∈ e.visiter, x ∈ e'.visiter) ∧ u ∈ e'.visiter ∧
  (e'.trouver = false → e'.circuit = e.circuit ∧
    ∀ x ∈ e'.visiter, x ∉ e.visiter → ∀ y, g.arc x y = true → y ∈ e'.visiter ∧ y ≠ debut) ∧
  (e'.trouver = true → ∃ chemin, e'.circuit = e.circuit ++ (u :: (chemin ++ [debut])) ∧
    List.Chain' (fun a b => g.arc a b = true) (u :: (chemin ++ [debut])) ∧
    (u :: chemin).Nodup ∧ ∀ x ∈ u :: chemin, x ∉ e.visiter)

/-- Relation between the states before and after the loop of the helper
`rechercheProfondeur` over the neighbours `vs` of `u`. -/
def PostBoucle (g : Digraph T W) (debut u : T) (vs : Voisins T W) (e e' : EtatRecherche T) :
    Prop :=
  (∀ x ∈ e.visiter, x ∈ e'.visiter) ∧
  (e'.trouver = false → e'.circuit = e.circuit.dropLast ∧
    (∀ x ∈ e'.visiter, x ∉ e.visiter → ∀ y, g.arc x y = true → y ∈ e'.visiter ∧ y ≠ debut) ∧
    (∀ x ∈ vs, x.1 ∈ e'.visiter ∧ x.1 ≠ debut)) ∧
  (e'.trouver = true → ∃ chemin, e'.circuit = e.circuit ++ (chemin ++ [debut]) ∧
    List.Chain' (fun a b => g.arc a b = true) (u :: (chemin ++ [debut])) ∧
    chemin.Nodup ∧ ∀ x ∈ chemin, x ∉ e.visiter)

/-- The sequence `c` leaves `SG` and comes back to it: it reads `v0, x1, ..., xk, v` with
`k >= 1`, `v0` and `v` vertices of `SG`, the `xi` pairwise distinct and outside `SG`,
and every consecutive pair an arc of the graph. -/
def EstCircuitSG (g SG : Digraph T W) (c : List T) : Prop :=
  ∃ v0 xs v, c = v0 :: (xs ++ [v]) ∧ xs ≠ [] ∧ SG.sommet v0 = true ∧ SG.sommet v = true ∧
    (∀ x ∈ xs, SG.sommet x = false) ∧ xs.Nodup ∧
    List.Chain' (fun a b => g.arc a b = true) c

/-- Relation between the state `e` before a call of the helper `rechercheProfondeurSG`
on `courrant` and the state `e'` after it: the visited set grows; when nothing is found
`chemin` is as before; when a circuit is found, a path from `courrant` through new
distinct vertices outside `SG`, ended by a vertex of `SG`, has been appended. -/
def PostRechercheSG (g SG : Digraph T W) (courrant : T) (e e' : EtatRecherche T) : Prop :=
  (∀ x ∈ e.visiter, x ∈ e'.visiter) ∧
  (e'.trouver = false → e'.circuit = e.circuit) ∧
  (e'.trouver = true → ∃ xs v, e'.circuit = e.circuit ++ (courrant :: (xs ++ [v])) ∧
    List.Chain' (fun a b => g.arc a b = true) (courrant :: (xs ++ [v])) ∧
    (courrant :: xs).Nodup ∧ (∀ x ∈ courrant :: xs, x ∉ e.visiter) ∧
    (∀ x ∈ xs, SG.sommet x = false) ∧ SG.sommet v = true ∧
    (xs = [] → SG.sommet courrant = false))

/-- Relation between the states before and after the loop of the helper
`rechercheProfondeurSG` over neighbours of `courrant`. -/
def PostBoucleSG (g SG : Digraph T W) (courrant : T) (e e' : EtatRecherche T) : Prop :=
  (∀ x ∈ e.visiter, x ∈ e'.visiter) ∧
  (e'.trouver = false → e'.circuit = e.circuit.dropLast) ∧
  (e'.trouver = true → ∃ xs v, e'.circuit = e.circuit ++ (xs ++ [v]) ∧
    List.Chain' (fun a b => g.arc a b = true) (courrant :: (xs ++ [v])) ∧
    xs.Nodup ∧ (∀ x ∈ xs, x ∉ e.visiter) ∧
    (∀ x ∈ xs, SG.sommet x = false) ∧ SG.sommet v = true ∧
    (xs = [] → SG.sommet courrant = false))

/-- The part of `potentiel` carried by the arcs that have an end outside `SG`. -/
def potentielSG (g SG : Digraph T) : Nat :=
  total (fun e => if ¬ (SG.sommet e.1 = true ∧ SG.sommet e.2.1 = true)
    then ⌈e.2.2 / doubleMax⌉₊ else 0) g

end Digraph

/-! ## Concrete graphs used in the statements -/

/-- Arcs `0 -> 2` (5), `2 -> 1` (5) and `1 -> 0` (3). -/
def exempleRetour : Digraph Nat := ⟨[(0, [(2, 5)]), (1, [(0, 3)]), (2, [(1, 5)])]⟩

/-- Arcs `1 -> 2`, `1 -> 5` and `5 -> 1`, each of weight 1. -/
def exempleBoucleExterne : Digraph Nat := ⟨[(1, [(2, 1), (5, 1)]), (2, []), (5, [(1, 1)])]⟩

/-! ## Range of the weights -/

namespace Digraph

variable {T : Type} [LinearOrder T] {W : Type} [OfNat W 0] [Add W] [Sub W] [LE W] [LT W] [Min W]
  [DecidableRel (LE.le : W → W → Prop)] [DecidableRel (LT.lt : W → W → Prop)] [Limites W]

/-- Every weight of the graph is a finite `double`: none exceeds the largest one. -/
def Borne (g : Digraph T) : Prop :=
  ∀ e ∈ g.aretes, e.2.2 ≤ doubleMax

instance instDecidableBorne (g : Digraph T) : Decidable g.Borne := by
  unfold Borne; infer_instance

/-- The weight of every arc that has an end outside `SG` is a finite `double`. -/
def BorneSG (g SG : Digraph T) : Prop :=
  ∀ e ∈ g.aretes, ¬ (SG.sommet e.1 = true ∧ SG.sommet e.2.1 = true) → e.2.2 ≤ doubleMax

instance instDecidableBorneSG (g SG : Digraph T) : Decidable (g.BorneSG SG) := by
  unfold BorneSG; infer_instance

end Digraph

/-! ## Concrete graphs with `double` weights -/

/-- Arcs `0 -> 1` (0.1) and `0 -> 2` (0.2), the weights being the `double` values of
the two decimal literals. -/
def exempleDixiemes : Digraph Nat Double :=
  ⟨[(0, [(1, Double.arrondi (1 / 10)), (2, Double.arrondi (2 / 10))]), (1, []), (2, [])]⟩

/-- Arcs `1 -> 0` (0.1) and `2 -> 0` (0.2). -/
def exempleDixiemesDus : Digraph Nat Double :=
  ⟨[(0, []), (1, [(0, Double.arrondi (1 / 10))]), (2, [(0, Double.arrondi (2 / 10))])]⟩

/-- Arcs `2 -> 0` (0.3), `2 -> 1` (100.0) and `0 -> 2` (0.9). -/
def exempleFrontiere : Digraph Nat Double :=
  ⟨[(0, [(2, Double.arrondi (9 / 10))]), (1, []),
    (2, [(0, Double.arrondi (3 / 10)), (1, Double.arrondi 100)])]⟩

/-- Arcs `0 -> 1` (1e20) and `1 -> 0` (1.0). -/
def exempleGrandEcart : Digraph Nat Double :=
  ⟨[(0, [(1, Double.arrondi (10 ^ 20))]), (1, [(0, Double.arrondi 1)])]⟩

/-- Arcs `0 -> 1` and `1 -> 0`, both of weight plus infinity. -/
def exempleInfini : Digraph Nat Double :=
  ⟨[(0, [(1, Double.infini false)]), (1, [(0, Double.infini false)])]⟩

/-- Arcs `0 -> 1`, `1 -> 2` and `2 -> 0` of weight 10.0. -/
def exempleTriangleDouble : Digraph Nat Double :=
  ⟨[(0, [(1, Double.arrondi 10)]), (1, [(2, Double.arrondi 10)]),
    (2, [(0, Double.arrondi 10)])]⟩

/-- Arcs `0 -> 1` (10.0) and `1 -> 0` (4.0). -/
def exempleAllerRetourDouble : Digraph Nat Double :=
  ⟨[(0, [(1, Double.arrondi 10)]), (1, [(0, Double.arrondi 4)])]⟩

/-! ## Sums as the loops compute them -/

/-- The sum of a list of numbers as the loops of the source compute it: accumulated from
`0` in the order of the list, with the addition of the number type (rounded at every
step when the numbers are `Double`). -/
def cumul {W : Type} [OfNat W 0] [Add W] (l : List W) : W :=
  l.foldl (fun total w => total + w) 0

/-! ## Finite weights -/

namespace Double

/-- A positive finite `double`: as every such value, it is a positive multiple of
`2^-1074`, the smallest positive value, and does not exceed the largest double. -/
def PoidsFini : Double → Prop
  | fini v => 0 < v ∧ v ≤ doubleMax ∧ (v * 2 ^ 1074).den = 1
  | _ => False

instance instDecidablePoidsFini (w : Double) : Decidable (PoidsFini w) := by
  cases w <;> (unfold PoidsFini; infer_instance)

end Double

namespace Digraph

variable {T : Type} [LinearOrder T] {W : Type} [OfNat W 0] [Add W] [Sub W] [LE W] [LT W] [Min W]
  [DecidableRel (LE.le : W → W → Prop)] [DecidableRel (LT.lt : W → W → Prop)] [Limites W]

/-- Every weight of the graph is a positive finite `double`. -/
def PoidsFinis (g : Digraph T Double) : Prop :=
  ∀ e ∈ g.aretes, Double.PoidsFini e.2.2

instance instDecidablePoidsFinis (g : Digraph T Double) : Decidable g.PoidsFinis := by
  unfold PoidsFinis; infer_instance

/-- The weight of every arc that has an end outside `SG` is a positive finite `double`. -/
def PoidsFinisSG (g SG : Digraph T Double) : Prop :=
  ∀ e ∈ g.aretes, ¬ (SG.sommet e.1 = true ∧ SG.sommet e.2.1 = true) → Double.PoidsFini e.2.2

instance instDecidablePoidsFinisSG (g SG : Digraph T Double) : Decidable (g.PoidsFinisSG SG) := by
  unfold PoidsFinisSG; infer_instance

/-- Number of arcs of the graph that have an end outside `SG`. -/
def arcsExternes (g SG : Digraph T W) : Nat :=
  total (fun e => if ¬ (SG.sommet e.1 = true ∧ SG.sommet e.2.1 = true) then 1 else 0) g

end Digraph

/-! ## Lemmas on the containers -/

section LemmesConteneurs

variable {T : Type} [LinearOrder T] {W : Type} [OfNat W 0] [Add W] [Sub W] [LE W] [LT W] [Min W]
  [DecidableRel (LE.le : W → W → Prop)] [DecidableRel (LT.lt : W → W → Prop)] [Limites W]

theorem trouve_isSome (m : Carte T W) (u : T) :
    (trouve m u).isSome = true ↔ u ∈ m.map Prod.fst := by
  induction m with
  | nil => simp [trouve]
  | cons p reste ih =>
    obtain ⟨k, vs⟩ := p
    by_cases h : k = u
    · simp [trouve, h]
    · have h2 : ¬ u = k := fun e => h e.symm
      simp [trouve, h, h2, ih]

theorem trouve_eq_none (m : Carte T W) (u : T) :
    trouve m u = none ↔ u ∉ m.map Prod.fst := by
  rw [← trouve_isSome]; cases trouve m u <;> simp

theorem mem_of_trouve {m : Carte T W} {u : T} {vs : Voisins T W} (h : trouve m u = some vs) :
    (u, vs) ∈ m := by
  induction m with
  | nil => simp [trouve] at h
  | cons p reste ih =>
    obtain ⟨k, ws⟩ := p
    by_cases hk : k = u
    · simp [trouve, hk] at h; simp [hk, h]
    · simp [trouve, hk] at h; exact List.mem_cons_of_mem _ (ih h)

theorem trouve_of_mem {m : Carte T W} (hn : (m.map Prod.fst).Nodup) {u : T} {vs : Voisins T W}
    (h : (u, vs) ∈ m) : trouve m u = some vs := by
  induction m with
  | nil => simp at h
  | cons p reste ih =>
    obtain ⟨k, ws⟩ := p
    simp only [List.map_cons, List.nodup_cons] at hn
    rcases List.mem_cons.1 h with h1 | h1
    · cases h1; simp [trouve]
    · have hk : k ≠ u := by
        rintro rfl
        exact hn.1 (List.mem_map.2 ⟨(k, vs), h1, rfl⟩)
      simp [trouve, hk, ih hn.2 h1]

theorem cles_surVoisins (m : Carte T W) (a : T) (f : Voisins T W → Voisins T W) :
    (surVoisins m a f).map Prod.fst = m.map Prod.fst := by
  induction m with
  | nil => simp [surVoisins]
  | cons p reste ih =>
    obtain ⟨k, ws⟩ := p
    by_cases hk : k = a <;> simp [surVoisins, hk, ih]

theorem trouve_surVoisins (m : Carte T W) (a : T) (f : Voisins T W → Voisins T W) (b : T) :
    trouve (surVoisins m a f) b = if b = a then (trouve m a).map f else trouve m b := by
  induction m with
  | nil => simp [surVoisins, trouve]
  | cons p reste ih =>
    obtain ⟨k, ws⟩ := p
    by_cases hk : k = a
    · subst hk
      by_cases hb : b = k
      · subst hb; simp [surVoisins, trouve]
      · have hb2 : ¬ k = b := fun e => hb e.symm
        simp [surVoisins, trouve, hb, hb2]
    · by_cases hb : b = a
      · subst hb
        simp [surVoisins, trouve, hk, ih]
      · by_cases hkb : k = b <;> simp [surVoisins, trouve, hk, hb, hkb, ih]

theorem perm_placer (m : Carte T W) (u : T) : (placer m u).Perm ((u, []) :: m) := by
  induction m with
  | nil => simp [placer]
  | cons p reste ih =>
    obtain ⟨k, ws⟩ := p
    by_cases hk : u < k
    · simp [placer, hk]
    · simp only [placer, hk, if_false]
      exact (List.Perm.cons _ ih).trans (List.Perm.swap _ _ _)

theorem trouve_placer (m : Carte T W) (u : T) (h : trouve m u = none) (b : T) :
    trouve (placer m u) b = if b = u then some [] else trouve m b := by
  induction m with
  | nil =>
    by_cases hb : b = u
    · simp [placer, trouve, hb]
    · have hb2 : ¬ u = b := fun e => hb e.symm
      simp [placer, trouve, hb, hb2]
  | cons p reste ih =>
    obtain ⟨k, ws⟩ := p
    have hku : k ≠ u := by
      intro e; simp [trouve, e] at h
    have h2 : trouve reste u = none := by simpa [trouve, hku] using h
    by_cases hk : u < k
    · by_cases hb : b = u
      · simp [placer, hk, trouve, hb]
      · have hb2 : ¬ u = b := fun e => hb e.symm
        simp [placer, hk, trouve, hb, hb2]
    · by_cases hb : b = u
      · subst hb
        simp [placer, hk, trouve, hku, ih h2]
      · by_cases hkb : k = b
        · subst hkb; simp [placer, hk, trouve, hb]
        · simp [placer, hk, trouve, hkb, hb, ih h2]

end LemmesConteneurs

namespace Digraph
variable {T : Type} [LinearOrder T] {W : Type} [OfNat W 0] [Add W] [Sub W] [LE W] [LT W] [Min W]
  [DecidableRel (LE.le : W → W → Prop)] [DecidableRel (LT.lt : W → W → Prop)] [Limites W]

theorem sommet_iff (g : Digraph T W) (u : T) : g.sommet u = true ↔ u ∈ g.cles :=
  trouve_isSome _ _

theorem sommet_eq_false_iff (g : Digraph T W) (u : T) : g.sommet u = false ↔ u ∉ g.cles := by
  rw [← sommet_iff]; simp

theorem voisinsDe_of_trouve {g : Digraph T W} {u : T} {vs : Voisins T W}
    (h : trouve g.graphe u = some vs) : g.voisinsDe u = vs := by
  simp [voisinsDe, h]

theorem voisinsDe_of_mem {g : Digraph T W} (hn : g.cles.Nodup) {u : T} {vs : Voisins T W}
    (h : (u, vs) ∈ g.graphe) : g.voisinsDe u = vs :=
  voisinsDe_of_trouve (trouve_of_mem hn h)

theorem trouve_of_sommet {g : Digraph T W} {u : T} (h : g.sommet u = true) :
    trouve g.graphe u = some (g.voisinsDe u) := by
  unfold sommet at h
  unfold voisinsDe
  cases hh : trouve g.graphe u with
  | none => simp [hh] at h
  | some vs => simp

theorem voisinsDe_of_absent {g : Digraph T W} {u : T} (h : g.sommet u = false) :
    g.voisinsDe u = [] := by
  unfold sommet at h
  unfold voisinsDe
  cases hh : trouve g.graphe u with
  | none => simp
  | some vs => simp [hh] at h

theorem auSommet_of_sommet {g : Digraph T W} {u : T} (h : g.sommet u = true) :
    g.auSommet u = .ok (g.voisinsDe u) := by
  simp [auSommet, trouve_of_sommet h]

theorem arc_eq_any (g : Digraph T W) (u v : T) :
    g.arc u v = (g.voisinsDe u).any (fun x => decide (x.1 = v)) := by
  unfold arc voisinsDe
  cases trouve g.graphe u <;> simp

theorem arc_iff (g : Digraph T W) (u v : T) :
    g.arc u v = true ↔ ∃ w, (v, w) ∈ g.voisinsDe u := by
  rw [arc_eq_any]
  simp only [List.any_eq_true, decide_eq_true_eq]
  constructor
  · rintro ⟨x, hx, rfl⟩; exact ⟨x.2, hx⟩
  · rintro ⟨w, hw⟩; exact ⟨(v, w), hw, rfl⟩

theorem sommet_of_arc {g : Digraph T W} {u v : T} (h : g.arc u v = true) : g.sommet u = true := by
  unfold arc at h
  unfold sommet
  cases hh : trouve g.graphe u with
  | none => simp [hh] at h
  | some vs => simp

theorem inv_iff (g : Digraph T W) :
    g.Inv ↔ g.cles.Nodup ∧ ∀ u,
      (∀ x ∈ g.voisinsDe u, x.1 ≠ u ∧ 0 < x.2 ∧ g.sommet x.1 = true) ∧
        ((g.voisinsDe u).map Prod.fst).Nodup := by
  constructor
  · rintro ⟨h0, h1, h2, h3, h4⟩
    refine ⟨h0, fun u => ?_⟩
    by_cases hu : g.sommet u = true
    · have hm := mem_of_trouve (trouve_of_sommet hu)
      exact ⟨fun x hx => ⟨h1 _ hm x hx, h2 _ hm x hx, h4 _ hm x hx⟩, h3 _ hm⟩
    · have : g.voisinsDe u = [] := voisinsDe_of_absent (by simpa using hu)
      simp [this]
  · rintro ⟨h0, h⟩
    refine ⟨h0, ?_, ?_, ?_, ?_⟩
    · rintro ⟨k, vs⟩ hp x hx
      have := voisinsDe_of_mem h0 hp
      exact ((h k).1 x (this ▸ hx)).1
    · rintro ⟨k, vs⟩ hp x hx
      have := voisinsDe_of_mem h0 hp
      exact ((h k).1 x (this ▸ hx)).2.1
    · rintro ⟨k, vs⟩ hp
      have := voisinsDe_of_mem h0 hp
      exact this ▸ (h k).2
    · rintro ⟨k, vs⟩ hp x hx
      have := voisinsDe_of_mem h0 hp
      exact ((h k).1 x (this ▸ hx)).2.2

theorem inserer_of_sommet {g : Digraph T W} {u : T} (h : g.sommet u = true) : g.inserer u = g := by
  simp [inserer, h]

theorem trouve_inserer (g : Digraph T W) (u b : T) :
    trouve (g.inserer u).graphe b =
      if b = u ∧ g.sommet u = false then some [] else trouve g.graphe b := by
  unfold inserer
  by_cases h : g.sommet u = true
  · simp [h]
  · have h' : g.sommet u = false := by simpa using h
    have hn : trouve g.graphe u = none := by
      unfold sommet at h'
      cases hh : trouve g.graphe u with
      | none => rfl
      | some vs => simp [hh] at h'
    simp [h', trouve_placer _ _ hn]

theorem sommet_inserer (g : Digraph T W) (u v : T) :
    (g.inserer u).sommet v = true ↔ v = u ∨ g.sommet v = true := by
  unfold sommet
  rw [trouve_inserer]
  by_cases hv : v = u
  · subst hv
    by_cases h : g.sommet v = true
    · have h2 := h
      unfold sommet at h2
      simp [h, h2]
    · have h' : g.sommet v = false := by simpa using h
      simp [h']
  · simp [hv]

theorem voisinsDe_inserer (g : Digraph T W) (u v : T) :
    (g.inserer u).voisinsDe v = g.voisinsDe v := by
  unfold voisinsDe
  rw [trouve_inserer]
  by_cases h : v = u ∧ g.sommet u = false
  · obtain ⟨rfl, h2⟩ := h
    have := voisinsDe_of_absent h2
    unfold voisinsDe at this
    simp [h2, this]
  · simp [h]

theorem cles_inserer_perm {g : Digraph T W} {u : T} (h : g.sommet u = false) :
    (g.inserer u).cles.Perm (u :: g.cles) := by
  unfold inserer cles
  simp only [h]
  exact (perm_placer g.graphe u).map Prod.fst

theorem Inv.inserer {g : Digraph T W} (h : g.Inv) (u : T) : (g.inserer u).Inv := by
  by_cases hu : g.sommet u = true
  · rwa [inserer_of_sommet hu]
  · have hu' : g.sommet u = false := by simpa using hu
    rw [inv_iff] at h ⊢
    refine ⟨?_, fun a => ?_⟩
    · rw [(cles_inserer_perm hu').nodup_iff, List.nodup_cons]
      exact ⟨(sommet_eq_false_iff _ _).1 hu', h.1⟩
    · rw [voisinsDe_inserer]
      refine ⟨fun x hx => ?_, (h.2 a).2⟩
      obtain ⟨h1, h2, h3⟩ := (h.2 a).1 x hx
      exact ⟨h1, h2, (sommet_inserer _ _ _).2 (Or.inr h3)⟩

end Digraph

namespace Digraph
variable {T : Type} [LinearOrder T] {W : Type} [OfNat W 0] [Add W] [Sub W] [LE W] [LT W] [Min W]
  [DecidableRel (LE.le : W → W → Prop)] [DecidableRel (LT.lt : W → W → Prop)] [Limites W]

theorem poids_isSome (g : Digraph T W) (u v : T) : (g.poids u v).isSome = g.arc u v := by
  rw [arc_eq_any]
  unfold poids
  rw [Option.isSome_map', Bool.eq_iff_iff, List.find?_isSome]
  simp

theorem cles_supprimer (g : Digraph T W) (u : T) :
    (g.supprimer u).cles = g.cles.filter (fun k => decide (k ≠ u)) := by
  unfold supprimer cles
  simp only [List.map_map]
  induction g.graphe with
  | nil => simp
  | cons p reste ih =>
    by_cases h : p.1 = u
    · simpa [List.filter_cons, h] using ih
    · simpa [List.filter_cons, h] using ih

theorem trouve_supprimer (g : Digraph T W) (u a : T) :
    trouve (g.supprimer u).graphe a =
      if a = u then none
      else (trouve g.graphe a).map (fun vs => vs.filter (fun x => decide (x.1 ≠ u))) := by
  unfold supprimer
  simp only
  induction g.graphe with
  | nil => simp [trouve]
  | cons p reste ih =>
    obtain ⟨k, vs⟩ := p
    by_cases hk : k = u
    · subst hk
      by_cases ha : a = k
      · subst ha; simpa [List.filter_cons] using ih
      · have ha2 : ¬ k = a := fun e => ha e.symm
        simpa [List.filter_cons, trouve, ha, ha2] using ih
    · by_cases ha : a = u
      · subst ha
        simpa [List.filter_cons, hk, trouve] using ih
      · by_cases hka : k = a
        · subst hka; simp [List.filter_cons, hk, trouve]
        · simpa [List.filter_cons, hk, trouve, hka, ha] using ih

theorem voisinsDe_supprimer (g : Digraph T W) (u a : T) :
    (g.supprimer u).voisinsDe a =
      if a = u then [] else (g.voisinsDe a).filter (fun x => decide (x.1 ≠ u)) := by
  unfold voisinsDe
  rw [trouve_supprimer]
  by_cases ha : a = u
  · simp [ha]
  · cases trouve g.graphe a <;> simp [ha]

theorem supprimer_of_absent {g : Digraph T W} (h : g.Inv) {u : T} (hu : g.sommet u = false) :
    g.supprimer u = g := by
  obtain ⟨_, _, _, _, h4⟩ := h
  have hu' := (sommet_eq_false_iff _ _).1 hu
  unfold supprimer
  have h1 : g.graphe.filter (fun paire => decide (paire.1 ≠ u)) = g.graphe := by
    rw [List.filter_eq_self]
    intro p hp
    have : p.1 ∈ g.cles := List.mem_map.2 ⟨p, hp, rfl⟩
    simp only [decide_eq_true_eq]
    rintro rfl
    exact hu' this
  rw [h1]
  have h2 : g.graphe.map (fun paire => (paire.1, paire.2.filter (fun x => decide (x.1 ≠ u))))
      = g.graphe.map id := by
    apply List.map_congr_left
    intro p hp
    have : p.2.filter (fun x => decide (x.1 ≠ u)) = p.2 := by
      rw [List.filter_eq_self]
      intro x hx
      simp only [decide_eq_true_eq]
      rintro rfl
      have := h4 p hp x hx
      rw [hu] at this
      exact absurd this (by simp)
    rw [this]; rfl
  rw [h2, List.map_id]

end Digraph

section Enonces

open Digraph

variable {T : Type} [LinearOrder T]

/-- C5 (source behaviour): `inserer(u, v, emprunt)` stops on its assertion when `u == v`
and when `emprunt < 0`, but the assertion is `emprunt >= 0`: the weight `0` is accepted,
and on the empty graph `inserer(0, 1, 0)` creates both vertices and an arc of weight
`0`. -/
theorem C5_inserer_poids_nul_accepte :
    (∀ (g : Digraph Nat) (u : Nat) (w : ℚ), g.insererArc u u w = .error .assertion) ∧
    (∀ (g : Digraph Nat) (u v : Nat) (w : ℚ), w < 0 → g.insererArc u v w = .error .assertion) ∧
    (vide : Digraph Nat).insererArc 0 1 0 = .ok ⟨[(0, [(1, 0)]), (1, [])]⟩ ∧
    (⟨[(0, [(1, 0)]), (1, [])]⟩ : Digraph Nat).poids 0 1 = some 0 := by
  refine ⟨?_, ?_, by decide, by decide⟩
  · intro g u w; simp [insererArc]
  · intro g u v w hw
    have : ¬ (0 ≤ w) := not_le.2 hw
    simp [insererArc, this]

/-- C7: on a graph satisfying the structural invariants, `inserer(u)` on a vertex
already present and `inserer(u, v, w')` (with `u != v` and `w' > 0`) on an arc `(u, v)`
already present return the very same graph: same vertices, same arcs, same counts, and
the arc `(u, v)` keeps its weight whatever `w'` is. -/
theorem C7_insertion_idempotente (g : Digraph T) (hinv : g.Inv) (u v : T) (w' : ℚ) :
    (g.sommet u = true → g.inserer u = g) ∧
    (g.arc u v = true → u ≠ v → 0 < w' →
      g.insererArc u v w' = .ok g ∧
        ∀ g', g.insererArc u v w' = .ok g' →
          g'.sommets = g.sommets ∧ g'.arcs = g.arcs ∧ g'.poids u v = g.poids u v) := by
  refine ⟨fun h => inserer_of_sommet h, fun harc huv hw => ?_⟩
  have hu : g.sommet u = true := sommet_of_arc harc
  have hv : g.sommet v = true := by
    obtain ⟨w, hw⟩ := (arc_iff _ _ _).1 harc
    exact (((inv_iff g).1 hinv).2 u).1 _ hw |>.2.2
  have key : g.insererArc u v w' = .ok g := by
    unfold insererArc
    rw [inserer_of_sommet hu, inserer_of_sommet hv]
    rw [arc_eq_any] at harc
    simp [huv, le_of_lt hw, harc]
  refine ⟨key, fun g' hg' => ?_⟩
  rw [key] at hg'
  cases hg'
  exact ⟨rfl, rfl, rfl⟩

theorem C7_insertion_idempotente_witness :
    ((⟨[(0, [(1, 10)]), (1, [])]⟩ : Digraph Nat).sommet 0 = true →
      (⟨[(0, [(1, 10)]), (1, [])]⟩ : Digraph Nat).inserer 0 = ⟨[(0, [(1, 10)]), (1, [])]⟩) ∧
    ((⟨[(0, [(1, 10)]), (1, [])]⟩ : Digraph Nat).arc 0 1 = true → (0 : Nat) ≠ 1 → (0 : ℚ) < 7 →
      (⟨[(0, [(1, 10)]), (1, [])]⟩ : Digraph Nat).insererArc 0 1 7
          = .ok ⟨[(0, [(1, 10)]), (1, [])]⟩ ∧
        ∀ g', (⟨[(0, [(1, 10)]), (1, [])]⟩ : Digraph Nat).insererArc 0 1 7 = .ok g' →
          g'.sommets = (⟨[(0, [(1, 10)]), (1, [])]⟩ : Digraph Nat).sommets ∧
          g'.arcs = (⟨[(0, [(1, 10)]), (1, [])]⟩ : Digraph Nat).arcs ∧
          g'.poids 0 1 = (⟨[(0, [(1, 10)]), (1, [])]⟩ : Digraph Nat).poids 0 1) :=
  C7_insertion_idempotente ⟨[(0, [(1, 10)]), (1, [])]⟩ (by decide) 0 1 7

/-- C8: for every graph and every `u`, after `supprimer(u)` the vertex `u` is gone and no
arc leaves or enters `u`; every other vertex is a vertex exactly when it was, and every
arc between other vertices is kept with its weight; when `u` was not a vertex of a graph
satisfying the structural invariants the graph is unchanged. -/
theorem C8_suppression_en_cascade (g : Digraph T) (u : T) :
    (g.supprimer u).sommet u = false ∧
    (∀ v, (g.supprimer u).arc u v = false ∧ (g.supprimer u).arc v u = false) ∧
    (∀ v, v ≠ u → (g.supprimer u).sommet v = g.sommet v) ∧
    (∀ a b, a ≠ u → b ≠ u → (g.supprimer u).poids a b = g.poids a b ∧
      (g.supprimer u).arc a b = g.arc a b) ∧
    (g.Inv → g.sommet u = false → g.supprimer u = g) := by
  have hp : ∀ a b, a ≠ u → b ≠ u → (g.supprimer u).poids a b = g.poids a b := by
    intro a b ha hb
    unfold poids
    rw [voisinsDe_supprimer, if_neg ha]
    congr 1
    induction g.voisinsDe a with
    | nil => simp
    | cons x reste ih =>
      by_cases hx : x.1 = u
      · have hxb : ¬ x.1 = b := by rw [hx]; exact fun e => hb e.symm
        rw [List.filter_cons_of_neg (by simpa using hx),
          List.find?_cons_of_neg _ (by simpa using hxb), ih]
      · rw [List.filter_cons_of_pos (by simpa using hx)]
        by_cases hxb : x.1 = b
        · rw [List.find?_cons_of_pos _ (by simpa using hxb),
            List.find?_cons_of_pos _ (by simpa using hxb)]
        · rw [List.find?_cons_of_neg _ (by simpa using hxb),
            List.find?_cons_of_neg _ (by simpa using hxb), ih]
  refine ⟨?_, ?_, ?_, ?_, fun hinv hu => supprimer_of_absent hinv hu⟩
  · unfold sommet; rw [trouve_supprimer]; simp
  · intro v
    constructor
    · rw [arc_eq_any, voisinsDe_supprimer]; simp
    · rw [arc_eq_any, voisinsDe_supprimer]
      by_cases hv : v = u
      · simp [hv]
      · simp [hv]
  · intro v hv
    unfold sommet; rw [trouve_supprimer]
    cases trouve g.graphe v <;> simp [hv]
  · intro a b ha hb
    refine ⟨hp a b ha hb, ?_⟩
    rw [← poids_isSome, ← poids_isSome, hp a b ha hb]

theorem C8_suppression_en_cascade_witness :
    (⟨[(0, [(1, 10)]), (1, [])]⟩ : Digraph Nat).Inv ∧
    (⟨[(0, [(1, 10)]), (1, [])]⟩ : Digraph Nat).sommet 2 = false ∧
    (⟨[(0, [(1, 10)]), (1, [])]⟩ : Digraph Nat).supprimer 2 = ⟨[(0, [(1, 10)]), (1, [])]⟩ :=
  ⟨by decide, by decide,
    (C8_suppression_en_cascade ⟨[(0, [(1, 10)]), (1, [])]⟩ 2).2.2.2.2 (by decide) (by decide)⟩

end Enonces

section LemmesTuples

variable {T : Type} [LinearOrder T] {W : Type} [OfNat W 0] [Add W] [Sub W] [LE W] [LT W] [Min W]
  [DecidableRel (LE.le : W → W → Prop)] [DecidableRel (LT.lt : W → W → Prop)] [Limites W]

theorem perm_insererTuple (vs : Voisins T W) (y : T × W) (h : y.1 ∉ vs.map Prod.fst) :
    (insererTuple vs y).Perm (y :: vs) := by
  induction vs with
  | nil => simp [insererTuple]
  | cons x reste ih =>
    simp only [List.map_cons, List.mem_cons, not_or] at h
    unfold insererTuple
    by_cases h1 : tupleLt y x = true
    · simp [h1]
    · by_cases h2 : tupleLt x y = true
      · simp only [h1, h2, if_true, if_false]
        exact (List.Perm.cons _ (ih h.2)).trans (List.Perm.swap _ _ _)
      · exfalso
        simp only [tupleLt, Bool.or_eq_true, Bool.and_eq_true, decide_eq_true_eq, not_or,
          not_and, not_lt] at h1 h2
        exact h.1 (le_antisymm h2.1 h1.1)

theorem mem_insererTuple (vs : Voisins T W) (y : T × W) (h : y.1 ∉ vs.map Prod.fst) (x : T × W) :
    x ∈ insererTuple vs y ↔ x = y ∨ x ∈ vs := by
  rw [(perm_insererTuple vs y h).mem_iff, List.mem_cons]

theorem surVoisins_of_absent (m : Carte T W) (a : T) (f : Voisins T W → Voisins T W)
    (h : a ∉ m.map Prod.fst) : surVoisins m a f = m := by
  induction m with
  | nil => simp [surVoisins]
  | cons p reste ih =>
    obtain ⟨k, ws⟩ := p
    simp only [List.map_cons, List.mem_cons, not_or] at h
    have hk : ¬ k = a := fun e => h.1 e.symm
    simp [surVoisins, hk, ih h.2]

end LemmesTuples

namespace Digraph
variable {T : Type} [LinearOrder T] {W : Type} [OfNat W 0] [Add W] [Sub W] [LE W] [LT W] [Min W]
  [DecidableRel (LE.le : W → W → Prop)] [DecidableRel (LT.lt : W → W → Prop)] [Limites W]

theorem cles_maj (g : Digraph T W) (a : T) (f : Voisins T W → Voisins T W) :
    (Digraph.mk (surVoisins g.graphe a f)).cles = g.cles :=
  cles_surVoisins _ _ _

theorem sommet_maj (g : Digraph T W) (a : T) (f : Voisins T W → Voisins T W) (b : T) :
    (Digraph.mk (surVoisins g.graphe a f)).sommet b = g.sommet b := by
  rw [Bool.eq_iff_iff, sommet_iff, sommet_iff, cles_maj]

theorem voisinsDe_maj {g : Digraph T W} {a : T} (h : g.sommet a = true) (f : Voisins T W → Voisins T W)
    (b : T) :
    (Digraph.mk (surVoisins g.graphe a f)).voisinsDe b =
      if b = a then f (g.voisinsDe a) else g.voisinsDe b := by
  unfold voisinsDe
  simp only [trouve_surVoisins]
  by_cases hb : b = a
  · simp [hb, trouve_of_sommet h]
  · simp [hb]

theorem maj_of_absent {g : Digraph T W} {a : T} (h : g.sommet a = false)
    (f : Voisins T W → Voisins T W) : Digraph.mk (surVoisins g.graphe a f) = g := by
  have h' := (sommet_eq_false_iff _ _).1 h
  unfold cles at h'
  rw [surVoisins_of_absent _ _ _ h']

/-- The invariants are kept when the adjacency of `a` is replaced by a list that
satisfies the conditions on the adjacency of `a`. -/
theorem Inv.maj {g : Digraph T W} (h : g.Inv) {a : T} (ha : g.sommet a = true)
    (f : Voisins T W → Voisins T W)
    (hf : (∀ x ∈ f (g.voisinsDe a), x.1 ≠ a ∧ 0 < x.2 ∧ g.sommet x.1 = true) ∧
      ((f (g.voisinsDe a)).map Prod.fst).Nodup) :
    (Digraph.mk (surVoisins g.graphe a f)).Inv := by
  rw [inv_iff] at h ⊢
  refine ⟨by rw [cles_maj]; exact h.1, fun u => ?_⟩
  rw [voisinsDe_maj ha]
  by_cases hu : u = a
  · subst hu
    simp only [if_true]
    refine ⟨fun x hx => ?_, hf.2⟩
    obtain ⟨h1, h2, h3⟩ := hf.1 x hx
    exact ⟨h1, h2, by rw [sommet_maj]; exact h3⟩
  · simp only [hu, if_false]
    refine ⟨fun x hx => ?_, (h.2 u).2⟩
    obtain ⟨h1, h2, h3⟩ := (h.2 u).1 x hx
    exact ⟨h1, h2, by rw [sommet_maj]; exact h3⟩

theorem arc_eq_false_iff (g : Digraph T W) (u v : T) :
    g.arc u v = false ↔ v ∉ (g.voisinsDe u).map Prod.fst := by
  rw [← Bool.not_eq_true, arc_iff]
  simp

/-- What `inserer(u, v, w)` does when its assertion holds. -/
theorem insererArc_spec (g : Digraph T W) {u v : T} (huv : u ≠ v) {w : W} (hw : 0 ≤ w) :
    ∃ g', g.insererArc u v w = .ok g' ∧
      (∀ b, g'.sommet b = true ↔ b = u ∨ b = v ∨ g.sommet b = true) ∧
      (∀ b, g'.voisinsDe b =
        if b = u ∧ g.arc u v = false then insererTuple (g.voisinsDe u) (v, w)
        else g.voisinsDe b) ∧
      (g.Inv → 0 < w → g'.Inv) := by
  have hu1 : ((g.inserer u).inserer v).sommet u = true := by
    rw [sommet_inserer, sommet_inserer]; simp
  have hs : ∀ b, ((g.inserer u).inserer v).sommet b = true ↔ b = u ∨ b = v ∨ g.sommet b = true := by
    intro b
    rw [sommet_inserer, sommet_inserer]
    tauto
  have hv : ∀ b, ((g.inserer u).inserer v).voisinsDe b = g.voisinsDe b := by
    intro b; rw [voisinsDe_inserer, voisinsDe_inserer]
  have harc : (((g.inserer u).inserer v).voisinsDe u).any (fun voisin => decide (voisin.1 = v))
      = g.arc u v := by
    rw [hv, arc_eq_any]
  unfold insererArc
  simp only [huv, ne_eq, not_false_eq_true, ge_iff_le, hw, and_self, if_true, harc]
  by_cases ha : g.arc u v = true
  · simp only [ha, if_true]
    refine ⟨_, rfl, hs, fun b => by simp [ha, hv], fun hinv _ => (hinv.inserer u).inserer v⟩
  · have ha' : g.arc u v = false := by simpa using ha
    simp only [ha', Bool.false_eq_true, if_false]
    refine ⟨_, rfl, fun b => by rw [sommet_maj]; exact hs b, fun b => ?_, fun hinv hw' => ?_⟩
    · rw [voisinsDe_maj hu1, hv, hv]
      by_cases hb : b = u <;> simp [hb]
    · have hinv1 : ((g.inserer u).inserer v).Inv := (hinv.inserer u).inserer v
      apply hinv1.maj hu1
      rw [hv]
      have hnot := (arc_eq_false_iff g u v).1 ha'
      have hg := ((inv_iff g).1 hinv).2 u
      constructor
      · intro x hx
        rcases (mem_insererTuple _ _ hnot x).1 hx with rfl | hx
        · exact ⟨fun e => huv e.symm, hw', (hs _).2 (Or.inr (Or.inl rfl))⟩
        · obtain ⟨h1, h2, h3⟩ := hg.1 x hx
          exact ⟨h1, h2, (hs _).2 (Or.inr (Or.inr h3))⟩
      · rw [((perm_insererTuple _ _ hnot).map Prod.fst).nodup_iff]
        simp only [List.map_cons, List.nodup_cons]
        exact ⟨hnot, hg.2⟩

end Digraph

namespace Digraph
variable {T : Type} [LinearOrder T] {W : Type} [OfNat W 0] [Add W] [Sub W] [LE W] [LT W] [Min W]
  [DecidableRel (LE.le : W → W → Prop)] [DecidableRel (LT.lt : W → W → Prop)] [Limites W]

theorem find_eq_some_of_mem {vs : Voisins T W} (hn : (vs.map Prod.fst).Nodup) {v : T} {w : W}
    (h : (v, w) ∈ vs) : vs.find? (fun x => decide (x.1 = v)) = some (v, w) := by
  induction vs with
  | nil => simp at h
  | cons x reste ih =>
    simp only [List.map_cons, List.nodup_cons] at hn
    rcases List.mem_cons.1 h with h1 | h1
    · subst h1; simp
    · have hx : ¬ x.1 = v := by
        intro e
        exact hn.1 (e ▸ List.mem_map.2 ⟨(v, w), h1, rfl⟩)
      rw [List.find?_cons_of_neg _ (by simpa using hx)]
      exact ih hn.2 h1

theorem poids_eq_some_iff {g : Digraph T W} (h : g.Inv) (u v : T) (w : W) :
    g.poids u v = some w ↔ (v, w) ∈ g.voisinsDe u := by
  have hn := (((inv_iff g).1 h).2 u).2
  unfold poids
  constructor
  · intro hp
    rw [Option.map_eq_some'] at hp
    obtain ⟨x, hx, rfl⟩ := hp
    have h1 := List.mem_of_find?_eq_some hx
    have h2 := List.find?_some hx
    simp only [decide_eq_true_eq] at h2
    subst h2
    exact h1
  · intro hm
    rw [find_eq_some_of_mem hn hm]; rfl

theorem poids_ext {g g' : Digraph T W} (h : g.Inv) (h' : g'.Inv) (u v : T)
    (hm : ∀ w, (v, w) ∈ g'.voisinsDe u ↔ (v, w) ∈ g.voisinsDe u) :
    g'.poids u v = g.poids u v := by
  apply Option.ext
  intro w
  simp only [Option.mem_def]
  rw [poids_eq_some_iff h', poids_eq_some_iff h, hm]

theorem foldl_inserer_spec (S : List T) (g0 : Digraph T W) :
    (∀ v, (S.foldl inserer g0).sommet v = true ↔ v ∈ S ∨ g0.sommet v = true) ∧
    (∀ v, (S.foldl inserer g0).voisinsDe v = g0.voisinsDe v) ∧
    (g0.Inv → (S.foldl inserer g0).Inv) := by
  induction S generalizing g0 with
  | nil => simp
  | cons a reste ih =>
    obtain ⟨h1, h2, h3⟩ := ih (g0.inserer a)
    simp only [List.foldl_cons]
    refine ⟨fun v => ?_, fun v => ?_, fun hinv => h3 (hinv.inserer a)⟩
    · rw [h1, sommet_inserer, List.mem_cons]; tauto
    · rw [h2, voisinsDe_inserer]

/-- One call `SG.inserer(u, v, emprunt)` of the inner loop of `cooperative`. -/
theorem cooperative_pas {g SG : Digraph T} (hinv : g.Inv) {S : List T} {u : T} (hu : u ∈ S)
    {y : T × ℚ} (hy : y ∈ g.voisinsDe u) (hyS : y.1 ∈ S) (hSG : SG.Inv)
    (hs : ∀ v, SG.sommet v = true ↔ v ∈ S)
    (hsub : ∀ b x, x ∈ SG.voisinsDe b → x ∈ g.voisinsDe b) :
    ∃ SG1, SG.insererArc u y.1 y.2 = .ok SG1 ∧ SG1.Inv ∧
      (∀ v, SG1.sommet v = true ↔ v ∈ S) ∧
      (∀ b x, x ∈ SG1.voisinsDe b ↔ x ∈ SG.voisinsDe b ∨ (b = u ∧ x = y)) := by
  obtain ⟨hg1, hg2⟩ := ((inv_iff g).1 hinv).2 u
  obtain ⟨hne, hpos, -⟩ := hg1 y hy
  obtain ⟨SG1, h1, h2, h3, h4⟩ := insererArc_spec SG (Ne.symm hne) (le_of_lt hpos)
  refine ⟨SG1, h1, h4 hSG hpos, fun v => ?_, fun b x => ?_⟩
  · rw [h2, hs]
    constructor
    · rintro (rfl | rfl | h) <;> assumption
    · exact fun h => Or.inr (Or.inr h)
  · rw [h3]
    by_cases hb : b = u
    · subst hb
      by_cases ha : SG.arc b y.1 = true
      · have : ¬ (SG.arc b y.1 = false) := by simp [ha]
        simp only [this, and_false, if_false, true_and]
        constructor
        · exact Or.inl
        · rintro (h | rfl)
          · exact h
          · obtain ⟨w', hw'⟩ := (arc_iff _ _ _).1 ha
            have hw'' := hsub _ _ hw'
            have : (x.1, w') = x := by
              have e1 := find_eq_some_of_mem hg2 hw''
              have e2 := find_eq_some_of_mem hg2 (show (x.1, x.2) ∈ g.voisinsDe b from hy)
              rw [e1] at e2
              exact Option.some.inj e2
            rw [← this]; exact hw'
      · have ha' : SG.arc b y.1 = false := by simpa using ha
        simp only [ha', and_self, if_true, true_and]
        rw [mem_insererTuple _ _ ((arc_eq_false_iff _ _ _).1 ha')]
        tauto
    · simp [hb]

theorem cooperative_interne {g : Digraph T} (hinv : g.Inv) {S : List T} {u : T} (hu : u ∈ S)
    (R : Voisins T) (hR : ∀ x ∈ R, x ∈ g.voisinsDe u) (SG : Digraph T) (hSG : SG.Inv)
    (hs : ∀ v, SG.sommet v = true ↔ v ∈ S)
    (hsub : ∀ b x, x ∈ SG.voisinsDe b → x ∈ g.voisinsDe b) :
    ∃ SG1, R.foldlM (cooperativeArc S u) SG = .ok SG1 ∧
      SG1.Inv ∧ (∀ v, SG1.sommet v = true ↔ v ∈ S) ∧
      (∀ b x, x ∈ SG1.voisinsDe b ↔ x ∈ SG.voisinsDe b ∨ (b = u ∧ x ∈ R ∧ x.1 ∈ S)) := by
  induction R generalizing SG with
  | nil => exact ⟨SG, rfl, hSG, hs, by simp⟩
  | cons y reste ih =>
    have hR' : ∀ x ∈ reste, x ∈ g.voisinsDe u := fun x hx => hR x (List.mem_cons_of_mem _ hx)
    by_cases hyS : y.1 ∈ S
    · obtain ⟨SG1, e1, i1, s1, m1⟩ :=
        cooperative_pas hinv hu (hR y (List.mem_cons_self _ _)) hyS hSG hs hsub
      have hsub1 : ∀ b x, x ∈ SG1.voisinsDe b → x ∈ g.voisinsDe b := by
        intro b x hx
        rcases (m1 b x).1 hx with h | ⟨rfl, rfl⟩
        · exact hsub b x h
        · exact hR x (List.mem_cons_self _ _)
      obtain ⟨SG2, e2, i2, s2, m2⟩ := ih hR' SG1 i1 s1 hsub1
      refine ⟨SG2, ?_, i2, s2, fun b x => ?_⟩
      · simp only [List.foldlM_cons, cooperativeArc, hyS, if_true, e1]
        exact e2
      · rw [m2, m1, List.mem_cons]
        constructor
        · rintro ((h | ⟨rfl, rfl⟩) | ⟨rfl, h1, h2⟩)
          · exact Or.inl h
          · exact Or.inr ⟨rfl, Or.inl rfl, hyS⟩
          · exact Or.inr ⟨rfl, Or.inr h1, h2⟩
        · rintro (h | ⟨rfl, rfl | h1, h2⟩)
          · exact Or.inl (Or.inl h)
          · exact Or.inl (Or.inr ⟨rfl, rfl⟩)
          · exact Or.inr ⟨rfl, h1, h2⟩
    · obtain ⟨SG2, e2, i2, s2, m2⟩ := ih hR' SG hSG hs hsub
      refine ⟨SG2, ?_, i2, s2, fun b x => ?_⟩
      · simp only [List.foldlM_cons, cooperativeArc, hyS, if_false]
        exact e2
      · rw [m2, List.mem_cons]
        constructor
        · rintro (h | ⟨rfl, h1, h2⟩)
          · exact Or.inl h
          · exact Or.inr ⟨rfl, Or.inr h1, h2⟩
        · rintro (h | ⟨rfl, rfl | h1, h2⟩)
          · exact Or.inl h
          · exact absurd h2 hyS
          · exact Or.inr ⟨rfl, h1, h2⟩

theorem cooperative_externe {g : Digraph T} (hinv : g.Inv) {S : List T}
    (R : List T) (hR : ∀ u ∈ R, u ∈ S) (hS : ∀ u ∈ S, g.sommet u = true)
    (SG : Digraph T) (hSG : SG.Inv)
    (hs : ∀ v, SG.sommet v = true ↔ v ∈ S)
    (hsub : ∀ b x, x ∈ SG.voisinsDe b → x ∈ g.voisinsDe b) :
    ∃ SG1, R.foldlM (cooperativeSommet g S) SG = .ok SG1 ∧
      SG1.Inv ∧ (∀ v, SG1.sommet v = true ↔ v ∈ S) ∧
      (∀ b x, x ∈ SG1.voisinsDe b ↔
        x ∈ SG.voisinsDe b ∨ (b ∈ R ∧ x ∈ g.voisinsDe b ∧ x.1 ∈ S)) := by
  induction R generalizing SG with
  | nil => exact ⟨SG, rfl, hSG, hs, by simp⟩
  | cons u reste ih =>
    have hu : u ∈ S := hR u (List.mem_cons_self _ _)
    have hR' : ∀ a ∈ reste, a ∈ S := fun a ha => hR a (List.mem_cons_of_mem _ ha)
    obtain ⟨SG1, e1, i1, s1, m1⟩ :=
      cooperative_interne hinv hu (g.voisinsDe u) (fun x hx => hx) SG hSG hs hsub
    have hsub1 : ∀ b x, x ∈ SG1.voisinsDe b → x ∈ g.voisinsDe b := by
      intro b x hx
      rcases (m1 b x).1 hx with h | ⟨rfl, h, -⟩
      · exact hsub b x h
      · exact h
    obtain ⟨SG2, e2, i2, s2, m2⟩ := ih hR' SG1 i1 s1 hsub1
    refine ⟨SG2, ?_, i2, s2, fun b x => ?_⟩
    · simp only [List.foldlM_cons, cooperativeSommet, auSommet_of_sommet (hS u hu), e1]
      exact e2
    · rw [m2, m1, List.mem_cons]
      constructor
      · rintro ((h | ⟨rfl, h1, h2⟩) | ⟨h0, h1, h2⟩)
        · exact Or.inl h
        · exact Or.inr ⟨Or.inl rfl, h1, h2⟩
        · exact Or.inr ⟨Or.inr h0, h1, h2⟩
      · rintro (h | ⟨rfl | h0, h1, h2⟩)
        · exact Or.inl (Or.inl h)
        · exact Or.inl (Or.inr ⟨rfl, h1, h2⟩)
        · exact Or.inr ⟨h0, h1, h2⟩

/-- What `cooperative(S)` returns when every element of `S` is a vertex. -/
theorem cooperative_spec {g : Digraph T} (hinv : g.Inv) {S : List T}
    (hS : ∀ u ∈ S, g.sommet u = true) :
    ∃ SG, g.cooperative S = .ok SG ∧ SG.Inv ∧ (∀ v, SG.sommet v = true ↔ v ∈ S) ∧
      (∀ b x, x ∈ SG.voisinsDe b ↔ b ∈ S ∧ x ∈ g.voisinsDe b ∧ x.1 ∈ S) := by
  obtain ⟨f1, f2, f3⟩ := foldl_inserer_spec S (vide : Digraph T)
  have hv : ∀ v, (vide : Digraph T).voisinsDe v = [] := fun v => rfl
  have hvs : ∀ v, ¬ ((vide : Digraph T).sommet v = true) := fun v => by simp [vide, sommet, trouve]
  have hvi : (vide : Digraph T).Inv := by simp [Inv, vide, cles]
  obtain ⟨SG, e, i, s, m⟩ := cooperative_externe hinv S (fun u hu => hu) hS
    (S.foldl inserer vide) (f3 hvi) (fun v => by rw [f1]; simp [hvs])
    (fun b x hx => by rw [f2, hv] at hx; simp at hx)
  refine ⟨SG, ?_, i, s, fun b x => ?_⟩
  · unfold cooperative
    have : S.all (fun u => g.sommet u) = true := by
      rw [List.all_eq_true]; exact hS
    simp only [this, if_true]
    exact e
  · rw [m, f2, hv]; simp

end Digraph

namespace Digraph
variable {T : Type} [LinearOrder T] {W : Type} [OfNat W 0] [Add W] [Sub W] [LE W] [LT W] [Min W]
  [DecidableRel (LE.le : W → W → Prop)] [DecidableRel (LT.lt : W → W → Prop)] [Limites W]

theorem foldl_ajout {α : Type} (l : List α) (h : α → ℚ) (t : ℚ) :
    l.foldl (fun total x => total + h x) t = t + (l.map h).sum := by
  induction l generalizing t with
  | nil => simp
  | cons x reste ih => simp [ih, add_assoc]

theorem foldl_voisins_cond (l : Voisins T) (c : T × ℚ → Prop) [DecidablePred c] (t : ℚ) :
    l.foldl (fun total voisin => if c voisin then total + voisin.2 else total) t
      = t + (l.map (fun x => if c x then x.2 else 0)).sum := by
  have : (fun (total : ℚ) (voisin : T × ℚ) => if c voisin then total + voisin.2 else total)
      = fun total voisin => total + (if c voisin then voisin.2 else 0) := by
    funext total voisin; split_ifs <;> simp
  rw [this, foldl_ajout]

theorem aretes_cons (p : T × Voisins T W) (m : Carte T W) :
    (Digraph.mk (p :: m)).aretes = p.2.map (fun x => (p.1, x.1, x.2)) ++ (Digraph.mk m).aretes := by
  simp [aretes]

theorem total_cons {M : Type} [AddCommMonoid M] (φ : T × T × W → M) (p : T × Voisins T W)
    (m : Carte T W) :
    total φ (Digraph.mk (p :: m)) = (p.2.map (fun x => φ (p.1, x.1, x.2))).sum + total φ ⟨m⟩ := by
  simp [total, aretes_cons, Function.comp_def]

/-- A double loop that adds the weights of the arcs satisfying `c` computes a `total`. -/
theorem foldl_graphe_cond (c : T × T × ℚ → Prop) [DecidablePred c] (m : Carte T) (t : ℚ) :
    m.foldl (fun total paire =>
        paire.2.foldl (fun total voisin =>
          if c (paire.1, voisin.1, voisin.2) then total + voisin.2 else total) total) t
      = t + total (fun e => if c e then e.2.2 else 0) ⟨m⟩ := by
  induction m generalizing t with
  | nil => simp [total, aretes]
  | cons p reste ih =>
    rw [List.foldl_cons, ih, total_cons, foldl_voisins_cond (c := fun x => c (p.1, x.1, x.2))]
    ring

theorem dette_eq_total (g : Digraph T) (u : T) :
    g.dette u = total (fun e => if e.1 ≠ u ∧ e.2.1 = u then e.2.2 else 0) g := by
  have h := foldl_graphe_cond (fun e : T × T × ℚ => e.1 ≠ u ∧ e.2.1 = u) g.graphe 0
  rw [zero_add] at h
  rw [← h]
  unfold dette
  congr 1
  funext total paire
  by_cases hp : paire.1 = u
  · simp only [hp, ne_eq, not_true_eq_false, if_false, false_and]
    induction paire.2 generalizing total with
    | nil => rfl
    | cons x reste ih => simpa using ih total
  · simp [hp]

theorem detteSG_eq_total (g SG : Digraph T) :
    g.detteSG SG =
      total (fun e => if SG.sommet e.1 = false ∧ SG.sommet e.2.1 = true then e.2.2 else 0) g := by
  have h := foldl_graphe_cond
    (fun e : T × T × ℚ => SG.sommet e.1 = false ∧ SG.sommet e.2.1 = true) g.graphe 0
  rw [zero_add] at h
  rw [← h]
  unfold detteSG
  congr 1
  funext total paire
  by_cases hp : SG.sommet paire.1 = true
  · simp only [hp, Bool.not_true, Bool.false_eq_true, if_false, false_and]
    induction paire.2 generalizing total with
    | nil => rfl
    | cons x reste ih => simpa using ih total
  · simp [hp]

theorem pretSG_eq_total (g SG : Digraph T) :
    g.pretSG SG =
      total (fun e => if SG.sommet e.1 = true ∧ SG.sommet e.2.1 = false then e.2.2 else 0) g := by
  have h := foldl_graphe_cond
    (fun e : T × T × ℚ => SG.sommet e.1 = true ∧ SG.sommet e.2.1 = false) g.graphe 0
  rw [zero_add] at h
  rw [← h]
  unfold pretSG
  congr 1
  funext total paire
  by_cases hp : SG.sommet paire.1 = true
  · simp [hp]
  · simp only [hp, if_false, false_and]
    induction paire.2 generalizing total with
    | nil => rfl
    | cons x reste ih => simpa using ih total

theorem pret_eq_credit {g : Digraph T} {u : T} (h : g.sommet u = true) :
    g.pret u = .ok (g.credit u) := by
  unfold pret credit
  rw [auSommet_of_sommet h]
  have := foldl_ajout (g.voisinsDe u) Prod.snd 0
  rw [zero_add] at this
  simp only [bind, Except.bind, pure, Except.pure]
  rw [this]

theorem mem_aretes (g : Digraph T W) (e : T × T × W) :
    e ∈ g.aretes ↔ ∃ p ∈ g.graphe, p.1 = e.1 ∧ (e.2.1, e.2.2) ∈ p.2 := by
  unfold aretes
  simp only [List.mem_flatMap, List.mem_map]
  constructor
  · rintro ⟨p, hp, x, hx, rfl⟩; exact ⟨p, hp, rfl, hx⟩
  · rintro ⟨p, hp, h1, h2⟩; exact ⟨p, hp, (e.2.1, e.2.2), h2, by rw [h1]⟩

theorem mem_aretes_iff {g : Digraph T W} (h : g.cles.Nodup) (e : T × T × W) :
    e ∈ g.aretes ↔ (e.2.1, e.2.2) ∈ g.voisinsDe e.1 := by
  rw [mem_aretes]
  constructor
  · rintro ⟨⟨k, vs⟩, hp, h1, h2⟩
    simp only at h1 h2
    subst h1
    rw [voisinsDe_of_mem h hp]; exact h2
  · intro he
    by_cases hs : g.sommet e.1 = true
    · exact ⟨(e.1, g.voisinsDe e.1), mem_of_trouve (trouve_of_sommet hs), rfl, he⟩
    · rw [voisinsDe_of_absent (by simpa using hs)] at he
      simp at he

theorem nodup_aretes_carte (m : Carte T W) (h0 : (m.map Prod.fst).Nodup)
    (h3 : ∀ p ∈ m, (p.2.map Prod.fst).Nodup) : (Digraph.mk m).aretes.Nodup := by
  induction m with
  | nil => simp [aretes]
  | cons p reste ih =>
    simp only [List.map_cons, List.nodup_cons] at h0
    rw [aretes_cons, List.nodup_append]
    refine ⟨?_, ih h0.2 (fun q hq => h3 q (List.mem_cons_of_mem _ hq)), ?_⟩
    · have hn := h3 p (List.mem_cons_self _ _)
      have hinj : (p.2.map (fun x => (p.1, x.1, x.2))).map (fun e => e.2.1) = p.2.map Prod.fst := by
        simp [Function.comp_def]
      exact List.Nodup.of_map (fun e => e.2.1) (hinj ▸ hn)
    · intro e he1 he2
      simp only [List.mem_map] at he1
      obtain ⟨x, -, rfl⟩ := he1
      rw [mem_aretes] at he2
      obtain ⟨q, hq, hq1, -⟩ := he2
      exact h0.1 (List.mem_map.2 ⟨q, hq, hq1⟩)

theorem nodup_aretes {g : Digraph T W} (h : g.Inv) : g.aretes.Nodup :=
  nodup_aretes_carte g.graphe h.1 h.2.2.2.1

/-- With the invariants, a `total` is a sum over the finite set of arcs. -/
theorem total_eq_sum {g : Digraph T} (h : g.Inv) (φ : T × T × ℚ → ℚ) :
    total φ g = g.aretes.toFinset.sum φ := by
  unfold total
  rw [List.sum_toFinset _ (nodup_aretes h)]

end Digraph

namespace Digraph
variable {T : Type} [LinearOrder T] {W : Type} [OfNat W 0] [Add W] [Sub W] [LE W] [LT W] [Min W]
  [DecidableRel (LE.le : W → W → Prop)] [DecidableRel (LT.lt : W → W → Prop)] [Limites W]

theorem credit_eq_total_carte (m : Carte T) (h : (m.map Prod.fst).Nodup) (u : T) :
    (Digraph.mk m).credit u = total (fun e => if e.1 = u then e.2.2 else 0) ⟨m⟩ := by
  induction m with
  | nil => simp [credit, voisinsDe, trouve, total, aretes]
  | cons p reste ih =>
    obtain ⟨k, vs⟩ := p
    simp only [List.map_cons, List.nodup_cons] at h
    rw [total_cons, ← ih h.2]
    by_cases hk : k = u
    · subst hk
      have h0 : (Digraph.mk reste).credit k = 0 := by
        have : (Digraph.mk reste).voisinsDe k = [] :=
          voisinsDe_of_absent ((sommet_eq_false_iff _ _).2 h.1)
        simp [credit, this]
      rw [h0]
      simp [credit, voisinsDe, trouve]
    · simp [credit, voisinsDe, trouve, hk]

theorem credit_eq_total {g : Digraph T} (h : g.Inv) (u : T) :
    g.credit u = total (fun e => if e.1 = u then e.2.2 else 0) g :=
  credit_eq_total_carte g.graphe h.1 u

theorem ne_of_mem_aretes {g : Digraph T W} (h : g.Inv) {e : T × T × W} (he : e ∈ g.aretes) :
    e.1 ≠ e.2.1 := by
  rw [mem_aretes_iff h.1] at he
  exact fun e' => (((inv_iff g).1 h).2 e.1).1 _ he |>.1 e'.symm

/-- The debts of the vertices of `S` add up to the weight of the arcs that enter `S`. -/
theorem somme_dette {g : Digraph T} (h : g.Inv) {S : List T} (hS : S.Nodup) :
    (S.map g.dette).sum = total (fun e => if e.2.1 ∈ S then e.2.2 else 0) g := by
  rw [← List.sum_toFinset _ hS, total_eq_sum h]
  simp only [dette_eq_total, total_eq_sum h]
  rw [Finset.sum_comm]
  apply Finset.sum_congr rfl
  intro e he
  have hne := ne_of_mem_aretes h (List.mem_toFinset.1 he)
  have : ∀ v ∈ S.toFinset, (if e.1 ≠ v ∧ e.2.1 = v then e.2.2 else 0)
      = if e.2.1 = v then e.2.2 else 0 := by
    intro v _
    by_cases hv : e.2.1 = v
    · have : e.1 ≠ v := hv ▸ hne
      simp [hv, this]
    · simp [hv]
  rw [Finset.sum_congr rfl this, Finset.sum_ite_eq]
  simp

/-- The credits of the vertices of `S` add up to the weight of the arcs that leave a
vertex of `S`. -/
theorem somme_credit {g : Digraph T} (h : g.Inv) {S : List T} (hS : S.Nodup) :
    (S.map g.credit).sum = total (fun e => if e.1 ∈ S then e.2.2 else 0) g := by
  rw [← List.sum_toFinset _ hS, total_eq_sum h]
  simp only [credit_eq_total h, total_eq_sum h]
  rw [Finset.sum_comm]
  apply Finset.sum_congr rfl
  intro e _
  rw [Finset.sum_ite_eq]
  simp

/-- The arcs of `cooperative(S)` are the arcs of the graph between vertices of `S`. -/
theorem aretes_cooperative {g SG : Digraph T} (h : g.Inv) (hSG : SG.Inv) {S : List T}
    (hm : ∀ b x, x ∈ SG.voisinsDe b ↔ b ∈ S ∧ x ∈ g.voisinsDe b ∧ x.1 ∈ S) :
    SG.aretes.toFinset = g.aretes.toFinset.filter (fun e => e.1 ∈ S ∧ e.2.1 ∈ S) := by
  ext e
  simp only [List.mem_toFinset, Finset.mem_filter]
  rw [mem_aretes_iff hSG.1, mem_aretes_iff h.1, hm]
  tauto

end Digraph

section EnoncesCooperative

open Digraph

variable {T : Type} [LinearOrder T]

/-- C9: for every graph `G` satisfying the structural invariants and every set `S` of
vertices of `G`, `G.cooperative(S)` returns a graph `SG` whose vertices are exactly the
elements of `S`, in which `arc(u, v)` holds iff it holds in `G` with `u` and `v` in
`S`, and in which each such arc has the weight it has in `G`. -/
theorem C9_sous_graphe_induit (g : Digraph T) (hinv : g.Inv) (S : List T)
    (hS : ∀ u ∈ S, g.sommet u = true) :
    ∃ SG, g.cooperative S = .ok SG ∧
      (∀ v, SG.sommet v = true ↔ v ∈ S) ∧
      (∀ u v, SG.arc u v = true ↔ g.arc u v = true ∧ u ∈ S ∧ v ∈ S) ∧
      (∀ u v, u ∈ S → v ∈ S → SG.poids u v = g.poids u v) := by
  obtain ⟨SG, e, i, s, m⟩ := cooperative_spec hinv hS
  refine ⟨SG, e, s, fun u v => ?_, fun u v hu hv => ?_⟩
  · rw [arc_iff, arc_iff]
    constructor
    · rintro ⟨w, hw⟩
      obtain ⟨h1, h2, h3⟩ := (m _ _).1 hw
      exact ⟨⟨w, h2⟩, h1, h3⟩
    · rintro ⟨⟨w, hw⟩, h1, h3⟩
      exact ⟨w, (m _ _).2 ⟨h1, hw, h3⟩⟩
  · apply poids_ext hinv i
    intro w
    rw [m]
    simp [hu, hv]

theorem C9_sous_graphe_induit_witness :
    ∃ SG, exempleRetour.cooperative [0, 1] = .ok SG ∧
      (∀ v, SG.sommet v = true ↔ v ∈ [0, 1]) ∧
      (∀ u v, SG.arc u v = true ↔ exempleRetour.arc u v = true ∧ u ∈ [0, 1] ∧ v ∈ [0, 1]) ∧
      (∀ u v, u ∈ [0, 1] → v ∈ [0, 1] → SG.poids u v = exempleRetour.poids u v) :=
  C9_sous_graphe_induit exempleRetour (by decide) [0, 1] (by decide)

/-- C10: for every graph `G` satisfying the structural invariants, every set `S` of
vertices of `G` and `SG = G.cooperative(S)`, the sum over `S` of `G.dette(v)` is
`G.dette(SG)` plus the sum over `S` of `SG.dette(v)`, and the sum over `S` of the values
returned by `G.pret(v)` is `G.pret(SG)` plus the sum over `S` of the values returned
by `SG.pret(v)`. -/
theorem C10_complementarite (g : Digraph T) (hinv : g.Inv) (S : List T) (hnd : S.Nodup)
    (hS : ∀ u ∈ S, g.sommet u = true) :
    ∃ SG, g.cooperative S = .ok SG ∧
      (S.map g.dette).sum = g.detteSG SG + (S.map SG.dette).sum ∧
      ∃ p q : T → ℚ, (∀ v ∈ S, g.pret v = .ok (p v)) ∧ (∀ v ∈ S, SG.pret v = .ok (q v)) ∧
        (S.map p).sum = g.pretSG SG + (S.map q).sum := by
  obtain ⟨SG, e, i, s, m⟩ := cooperative_spec hinv hS
  have hE := aretes_cooperative hinv i m
  have hs : ∀ v, SG.sommet v = false ↔ v ∉ S := by
    intro v; rw [← s]; simp
  refine ⟨SG, e, ?_, g.credit, SG.credit, fun v hv => pret_eq_credit (hS v hv),
    fun v hv => pret_eq_credit ((s v).2 hv), ?_⟩
  · rw [somme_dette hinv hnd, somme_dette i hnd, detteSG_eq_total, total_eq_sum hinv,
      total_eq_sum hinv, total_eq_sum i, hE, Finset.sum_filter, ← Finset.sum_add_distrib]
    apply Finset.sum_congr rfl
    intro x _
    simp only [s, hs]
    by_cases h1 : x.1 ∈ S <;> by_cases h2 : x.2.1 ∈ S <;> simp [h1, h2]
  · rw [somme_credit hinv hnd, somme_credit i hnd, pretSG_eq_total, total_eq_sum hinv,
      total_eq_sum hinv, total_eq_sum i, hE, Finset.sum_filter, ← Finset.sum_add_distrib]
    apply Finset.sum_congr rfl
    intro x _
    simp only [s, hs]
    by_cases h1 : x.1 ∈ S <;> by_cases h2 : x.2.1 ∈ S <;> simp [h1, h2]

theorem C10_complementarite_witness :
    ∃ SG, exempleRetour.cooperative [0, 1] = .ok SG ∧
      ([0, 1].map exempleRetour.dette).sum
        = exempleRetour.detteSG SG + ([0, 1].map SG.dette).sum ∧
      ∃ p q : Nat → ℚ, (∀ v ∈ [0, 1], exempleRetour.pret v = .ok (p v)) ∧
        (∀ v ∈ [0, 1], SG.pret v = .ok (q v)) ∧
        ([0, 1].map p).sum = exempleRetour.pretSG SG + ([0, 1].map q).sum :=
  C10_complementarite exempleRetour (by decide) [0, 1] (by decide) (by decide)

end EnoncesCooperative

section LemmesModifierPoids

variable {T : Type} [LinearOrder T] {W : Type} [OfNat W 0] [Add W] [Sub W] [LE W] [LT W] [Min W]
  [DecidableRel (LE.le : W → W → Prop)] [DecidableRel (LT.lt : W → W → Prop)] [Limites W]

theorem modifierPoids_of_absent (vs : Voisins T W) (v : T) (f : W → W)
    (h : v ∉ vs.map Prod.fst) : modifierPoids vs v f = vs := by
  induction vs with
  | nil => rfl
  | cons x reste ih =>
    simp only [List.map_cons, List.mem_cons, not_or] at h
    have hx : ¬ x.1 = v := fun e => h.1 e.symm
    simp [modifierPoids, hx, ih h.2]

theorem sublist_modifierPoids (vs : Voisins T W) (v : T) (f : W → W) :
    ((modifierPoids vs v f).map Prod.fst).Sublist (vs.map Prod.fst) := by
  induction vs with
  | nil => simp [modifierPoids]
  | cons x reste ih =>
    unfold modifierPoids
    by_cases hx : x.1 = v
    · by_cases hf : f x.2 ≤ 0
      · simp only [hx, hf, if_true, List.map_cons]
        exact List.sublist_cons_self _ _
      · simp only [hx, hf, if_true, if_false, List.map_cons]
        exact List.Sublist.refl _
    · simp only [hx, if_false, List.map_cons]
      exact ih.cons₂ _

theorem mem_modifierPoids {vs : Voisins T} (hn : (vs.map Prod.fst).Nodup) {v : T} {w : ℚ}
    (hw : (v, w) ∈ vs) (f : ℚ → ℚ) (x : T × ℚ) :
    x ∈ modifierPoids vs v f ↔ (x ∈ vs ∧ x.1 ≠ v) ∨ (x = (v, f w) ∧ 0 < f w) := by
  induction vs with
  | nil => simp at hw
  | cons y reste ih =>
    simp only [List.map_cons, List.nodup_cons] at hn
    unfold modifierPoids
    rcases List.mem_cons.1 hw with h1 | h1
    · subst h1
      have hv : ∀ z ∈ reste, z.1 ≠ v := fun z hz e =>
        hn.1 (List.mem_map.2 ⟨z, hz, e⟩)
      by_cases hf : f w ≤ 0
      · simp only [if_true, hf, List.mem_cons]
        constructor
        · intro hx; exact Or.inl ⟨Or.inr hx, hv x hx⟩
        · rintro (⟨rfl | hx, h2⟩ | ⟨-, h2⟩)
          · exact absurd rfl h2
          · exact hx
          · exact absurd h2 (not_lt.2 hf)
      · simp only [if_true, hf, if_false, List.mem_cons]
        constructor
        · rintro (rfl | hx)
          · exact Or.inr ⟨rfl, not_le.1 hf⟩
          · exact Or.inl ⟨Or.inr hx, hv x hx⟩
        · rintro (⟨rfl | hx, h2⟩ | ⟨rfl, -⟩)
          · exact absurd rfl h2
          · exact Or.inr hx
          · exact Or.inl rfl
    · have hy : ¬ y.1 = v := fun e =>
        hn.1 (e ▸ List.mem_map.2 ⟨(v, w), h1, rfl⟩)
      simp only [hy, if_false, List.mem_cons, ih hn.2 h1]
      constructor
      · rintro (rfl | ⟨hx, h2⟩ | h)
        · exact Or.inl ⟨Or.inl rfl, hy⟩
        · exact Or.inl ⟨Or.inr hx, h2⟩
        · exact Or.inr h
      · rintro (⟨rfl | hx, h2⟩ | h)
        · exact Or.inl rfl
        · exact Or.inr (Or.inl ⟨hx, h2⟩)
        · exact Or.inr (Or.inr h)

/-- Effect of `modifierPoids` on a sum over the adjacency. -/
theorem sum_modifierPoids {M : Type} [AddCommMonoid M] {vs : Voisins T W}
    (hn : (vs.map Prod.fst).Nodup) {v : T} {w : W} (hw : (v, w) ∈ vs) (f : W → W)
    (φ : T × W → M) :
    ((modifierPoids vs v f).map φ).sum + φ (v, w)
      = (vs.map φ).sum + (if f w ≤ 0 then 0 else φ (v, f w)) := by
  induction vs with
  | nil => simp at hw
  | cons y reste ih =>
    simp only [List.map_cons, List.nodup_cons] at hn
    unfold modifierPoids
    rcases List.mem_cons.1 hw with h1 | h1
    · subst h1
      by_cases hf : f w ≤ 0
      · simp only [if_true, hf, List.map_cons, List.sum_cons, add_zero]
        exact add_comm _ _
      · simp only [if_true, hf, if_false, List.map_cons, List.sum_cons]
        abel
    · have hy : ¬ y.1 = v := fun e =>
        hn.1 (e ▸ List.mem_map.2 ⟨(v, w), h1, rfl⟩)
      simp only [hy, if_false, List.map_cons, List.sum_cons]
      rw [add_assoc, ih hn.2 h1, add_assoc]

end LemmesModifierPoids

namespace Digraph
variable {T : Type} [LinearOrder T] {W : Type} [OfNat W 0] [Add W] [Sub W] [LE W] [LT W] [Min W]
  [DecidableRel (LE.le : W → W → Prop)] [DecidableRel (LT.lt : W → W → Prop)] [Limites W]

/-- Effect on a `total` of replacing the adjacency of `a`. -/
theorem total_maj_carte {M : Type} [AddCommMonoid M] (φ : T × T × W → M) (m : Carte T W) (a : T)
    (f : Voisins T W → Voisins T W) {vs : Voisins T W} (h : trouve m a = some vs) :
    total φ ⟨surVoisins m a f⟩ + (vs.map (fun x => φ (a, x.1, x.2))).sum
      = total φ ⟨m⟩ + ((f vs).map (fun x => φ (a, x.1, x.2))).sum := by
  induction m with
  | nil => simp [trouve] at h
  | cons p reste ih =>
    obtain ⟨k, ws⟩ := p
    unfold surVoisins
    by_cases hk : k = a
    · subst hk
      have : ws = vs := by simpa [trouve] using h
      subst this
      simp only [if_true, total_cons]
      abel
    · have h' : trouve reste a = some vs := by simpa [trouve, hk] using h
      simp only [hk, if_false, total_cons]
      rw [add_assoc, ih h', add_assoc]

theorem total_maj {M : Type} [AddCommMonoid M] (φ : T × T × W → M) {g : Digraph T W} {a : T}
    (ha : g.sommet a = true) (f : Voisins T W → Voisins T W) :
    total φ ⟨surVoisins g.graphe a f⟩ + ((g.voisinsDe a).map (fun x => φ (a, x.1, x.2))).sum
      = total φ g + ((f (g.voisinsDe a)).map (fun x => φ (a, x.1, x.2))).sum :=
  total_maj_carte φ g.graphe a f (trouve_of_sommet ha)

/-- The invariants are kept by a change of weight (with erasure) in an adjacency. -/
theorem Inv.modifierPoids {g : Digraph T} (h : g.Inv) (a v : T) (f : ℚ → ℚ) :
    (Digraph.mk (surVoisins g.graphe a (fun vs => modifierPoids vs v f))).Inv := by
  by_cases ha : g.sommet a = true
  · apply h.maj ha
    obtain ⟨hg1, hg2⟩ := ((inv_iff g).1 h).2 a
    by_cases hv : v ∈ (g.voisinsDe a).map Prod.fst
    · obtain ⟨⟨v', w⟩, hw, rfl⟩ := List.mem_map.1 hv
      refine ⟨fun x hx => ?_, (sublist_modifierPoids _ _ _).nodup hg2⟩
      rcases (mem_modifierPoids hg2 hw f x).1 hx with ⟨h1, -⟩ | ⟨rfl, h2⟩
      · exact hg1 x h1
      · obtain ⟨h3, -, h5⟩ := hg1 _ hw
        exact ⟨h3, h2, h5⟩
    · rw [modifierPoids_of_absent _ _ _ hv]
      exact ⟨hg1, hg2⟩
  · rw [maj_of_absent (by simpa using ha)]
    exact h

/-- Effect on a `total` of changing the weight of the arc `(a, v)`, of weight `w`. -/
theorem total_modifierPoids {M : Type} [AddCancelCommMonoid M] (φ : T × T × W → M) {g : Digraph T W}
    (h : g.Inv) {a v : T} {w : W} (hw : (v, w) ∈ g.voisinsDe a) (f : W → W) :
    total φ ⟨surVoisins g.graphe a (fun vs => modifierPoids vs v f)⟩ + φ (a, v, w)
      = total φ g + (if f w ≤ 0 then 0 else φ (a, v, f w)) := by
  have ha : g.sommet a = true := by
    by_contra hc
    rw [voisinsDe_of_absent (by simpa using hc)] at hw
    simp at hw
  have hn := (((inv_iff g).1 h).2 a).2
  have h1 := total_maj φ ha (fun vs => modifierPoids vs v f)
  have h2 := sum_modifierPoids hn hw f (fun x => φ (a, x.1, x.2))
  simp only at h2
  have h3 : total φ ⟨surVoisins g.graphe a (fun vs => modifierPoids vs v f)⟩ + φ (a, v, w)
      + ((g.voisinsDe a).map (fun x => φ (a, x.1, x.2))).sum
      = total φ g + (if f w ≤ 0 then 0 else φ (a, v, f w))
      + ((g.voisinsDe a).map (fun x => φ (a, x.1, x.2))).sum := by
    rw [add_right_comm, h1, add_assoc, h2, ← add_assoc]
    split_ifs <;> abel
  exact add_right_cancel h3

end Digraph

namespace Digraph
variable {T : Type} [LinearOrder T] {W : Type} [OfNat W 0] [Add W] [Sub W] [LE W] [LT W] [Min W]
  [DecidableRel (LE.le : W → W → Prop)] [DecidableRel (LT.lt : W → W → Prop)] [Limites W]

theorem sommet_of_mem_voisinsDe {g : Digraph T W} {a : T} {x : T × W} (h : x ∈ g.voisinsDe a) :
    g.sommet a = true := by
  by_contra hc
  rw [voisinsDe_of_absent (by simpa using hc)] at h
  simp at h

theorem poids_of_mem {g : Digraph T W} (h : g.Inv) {a v : T} {w : W} (hw : (v, w) ∈ g.voisinsDe a) :
    (g.poids a v).getD 0 = w := by
  rw [(poids_eq_some_iff h a v w).2 hw]; rfl

/-- One step of the second loop of `reduireDetteCirculaire` on the arc `(a, v)`. -/
theorem pasChemin_spec {g : Digraph T} (h : g.Inv) {a : T} (ha : g.sommet a = true) (v : T)
    (m : ℚ) :
    (Digraph.mk (surVoisins (g.inserer a).graphe a
        (fun voisins => modifierPoids voisins v (fun emprunt => emprunt - m)))).Inv ∧
    (Digraph.mk (surVoisins (g.inserer a).graphe a
        (fun voisins => modifierPoids voisins v (fun emprunt => emprunt - m)))).cles = g.cles ∧
    ∀ b, (Digraph.mk (surVoisins (g.inserer a).graphe a
        (fun voisins => modifierPoids voisins v (fun emprunt => emprunt - m)))).voisinsDe b =
      if b = a then modifierPoids (g.voisinsDe a) v (fun emprunt => emprunt - m)
      else g.voisinsDe b := by
  rw [inserer_of_sommet ha]
  exact ⟨h.modifierPoids a v _, cles_maj _ _ _, fun b => voisinsDe_maj ha _ b⟩

/-- The second loop of `reduireDetteCirculaire` keeps the invariants and the vertices,
whatever the circuit. -/
theorem reduirePaires_inv (L : List (T × T)) (m : ℚ) (g : Digraph T) (h : g.Inv) :
    (L.foldl (fun g uv => Digraph.mk (surVoisins (g.inserer uv.1).graphe uv.1
      (fun voisins => modifierPoids voisins uv.2 (fun emprunt => emprunt - m)))) g).Inv ∧
    ∀ x, (L.foldl (fun g uv => Digraph.mk (surVoisins (g.inserer uv.1).graphe uv.1
      (fun voisins => modifierPoids voisins uv.2 (fun emprunt => emprunt - m)))) g).sommet x = true
        ↔ x ∈ L.map Prod.fst ∨ g.sommet x = true := by
  induction L generalizing g with
  | nil => simp [h]
  | cons uv reste ih =>
    simp only [List.foldl_cons]
    have h1 : (Digraph.mk (surVoisins (g.inserer uv.1).graphe uv.1
      (fun voisins => modifierPoids voisins uv.2 (fun emprunt => emprunt - m)))).Inv :=
      (h.inserer uv.1).modifierPoids _ _ _
    obtain ⟨i1, i2⟩ := ih _ h1
    refine ⟨i1, fun x => ?_⟩
    rw [i2, sommet_maj, sommet_inserer, List.map_cons, List.mem_cons]
    tauto

/-- The second loop of `reduireDetteCirculaire` along arcs of the graph whose sources are
distinct and whose weights are at least `m`: the invariants and the vertices are kept,
the adjacency of a vertex that is not a source is unchanged, and the adjacency of a
source loses `m` on the arc of the path. -/
theorem reduirePaires_spec (L : List (T × T)) (m : ℚ) (g : Digraph T) (h : g.Inv)
    (hsrc : (L.map Prod.fst).Nodup)
    (hval : ∀ uv ∈ L, ∃ w, (uv.2, w) ∈ g.voisinsDe uv.1) :
    (L.foldl (fun g uv => Digraph.mk (surVoisins (g.inserer uv.1).graphe uv.1
      (fun voisins => modifierPoids voisins uv.2 (fun emprunt => emprunt - m)))) g).cles = g.cles ∧
    (∀ b, b ∉ L.map Prod.fst →
      (L.foldl (fun g uv => Digraph.mk (surVoisins (g.inserer uv.1).graphe uv.1
        (fun voisins => modifierPoids voisins uv.2 (fun emprunt => emprunt - m)))) g).voisinsDe b
        = g.voisinsDe b) ∧
    (∀ uv ∈ L,
      (L.foldl (fun g uv => Digraph.mk (surVoisins (g.inserer uv.1).graphe uv.1
        (fun voisins => modifierPoids voisins uv.2 (fun emprunt => emprunt - m)))) g).voisinsDe uv.1
        = modifierPoids (g.voisinsDe uv.1) uv.2 (fun emprunt => emprunt - m)) := by
  induction L generalizing g with
  | nil => simp
  | cons uv reste ih =>
    simp only [List.map_cons, List.nodup_cons] at hsrc
    simp only [List.foldl_cons]
    obtain ⟨w, hw⟩ := hval uv (List.mem_cons_self _ _)
    have ha := sommet_of_mem_voisinsDe hw
    obtain ⟨i1, c1, v1⟩ := pasChemin_spec h ha uv.2 m
    have hval1 : ∀ p ∈ reste, ∃ w, (p.2, w) ∈ (Digraph.mk (surVoisins (g.inserer uv.1).graphe uv.1
        (fun voisins => modifierPoids voisins uv.2 (fun emprunt => emprunt - m)))).voisinsDe p.1 := by
      intro p hp
      have hne : p.1 ≠ uv.1 := fun e => hsrc.1 (e ▸ List.mem_map.2 ⟨p, hp, rfl⟩)
      rw [v1, if_neg hne]
      exact hval p (List.mem_cons_of_mem _ hp)
    obtain ⟨c2, n2, s2⟩ := ih _ i1 hsrc.2 hval1
    refine ⟨c2.trans c1, fun b hb => ?_, fun p hp => ?_⟩
    · simp only [List.map_cons, List.mem_cons, not_or] at hb
      rw [n2 b hb.2, v1, if_neg hb.1]
    · rcases List.mem_cons.1 hp with rfl | hp
      · rw [n2 _ hsrc.1, v1, if_pos rfl]
      · have hne : p.1 ≠ uv.1 := fun e => hsrc.1 (e ▸ List.mem_map.2 ⟨p, hp, rfl⟩)
        rw [s2 p hp, v1, if_neg hne]

theorem chaine_arith {M : Type} [AddCommMonoid M] {X' A X1 B c X d : M}
    (e1 : X' + A = X1 + B) (e2 : X1 + c = X + d) : X' + (c + A) = X + (d + B) := by
  calc X' + (c + A) = (X' + A) + c := by abel
    _ = (X1 + B) + c := by rw [e1]
    _ = (X1 + c) + B := by abel
    _ = (X + d) + B := by rw [e2]
    _ = X + (d + B) := by abel

/-- Effect of the second loop of `reduireDetteCirculaire` on a `total`. -/
theorem total_reduirePaires {M : Type} [AddCancelCommMonoid M] (φ : T × T × ℚ → M)
    (L : List (T × T)) (m : ℚ) (g : Digraph T) (h : g.Inv)
    (hsrc : (L.map Prod.fst).Nodup)
    (hval : ∀ uv ∈ L, ∃ w, (uv.2, w) ∈ g.voisinsDe uv.1) :
    total φ (L.foldl (fun g uv => Digraph.mk (surVoisins (g.inserer uv.1).graphe uv.1
        (fun voisins => modifierPoids voisins uv.2 (fun emprunt => emprunt - m)))) g)
      + (L.map (fun uv => φ (uv.1, uv.2, (g.poids uv.1 uv.2).getD 0))).sum
    = total φ g + (L.map (fun uv =>
        if (g.poids uv.1 uv.2).getD 0 - m ≤ 0 then 0
        else φ (uv.1, uv.2, (g.poids uv.1 uv.2).getD 0 - m))).sum := by
  induction L generalizing g with
  | nil => simp
  | cons uv reste ih =>
    simp only [List.map_cons, List.nodup_cons] at hsrc
    simp only [List.foldl_cons, List.map_cons, List.sum_cons]
    obtain ⟨w, hw⟩ := hval uv (List.mem_cons_self _ _)
    have ha := sommet_of_mem_voisinsDe hw
    obtain ⟨i1, -, v1⟩ := pasChemin_spec h ha uv.2 m
    rw [inserer_of_sommet ha] at i1 v1 ⊢
    have e2 := total_modifierPoids φ h hw (fun emprunt => emprunt - m)
    rw [poids_of_mem h hw]
    generalize Digraph.mk (surVoisins g.graphe uv.1
      (fun voisins => modifierPoids voisins uv.2 (fun emprunt => emprunt - m))) = g1
      at i1 v1 e2 ⊢
    have hsame : ∀ p ∈ reste, g1.voisinsDe p.1 = g.voisinsDe p.1 := by
      intro p hp
      have hne : p.1 ≠ uv.1 := fun e => hsrc.1 (e ▸ List.mem_map.2 ⟨p, hp, rfl⟩)
      rw [v1, if_neg hne]
    have hval1 : ∀ p ∈ reste, ∃ w, (p.2, w) ∈ g1.voisinsDe p.1 := by
      intro p hp
      rw [hsame p hp]
      exact hval p (List.mem_cons_of_mem _ hp)
    have hpoids : ∀ p ∈ reste, g1.poids p.1 p.2 = g.poids p.1 p.2 := by
      intro p hp
      unfold poids
      rw [hsame p hp]
    have e1 := ih g1 i1 hsrc.2 hval1
    have hA : reste.map (fun uv => φ (uv.1, uv.2, (g1.poids uv.1 uv.2).getD 0))
        = reste.map (fun uv => φ (uv.1, uv.2, (g.poids uv.1 uv.2).getD 0)) :=
      List.map_congr_left (fun p hp => by simp only [hpoids p hp])
    have hB : reste.map (fun uv => if (g1.poids uv.1 uv.2).getD 0 - m ≤ 0 then 0
          else φ (uv.1, uv.2, (g1.poids uv.1 uv.2).getD 0 - m))
        = reste.map (fun uv => if (g.poids uv.1 uv.2).getD 0 - m ≤ 0 then 0
          else φ (uv.1, uv.2, (g.poids uv.1 uv.2).getD 0 - m)) :=
      List.map_congr_left (fun p hp => by simp only [hpoids p hp])
    rw [hA, hB] at e1
    exact chaine_arith e1 e2

end Digraph

namespace Digraph
variable {T : Type} [LinearOrder T] {W : Type} [OfNat W 0] [Add W] [Sub W] [LE W] [LT W] [Min W]
  [DecidableRel (LE.le : W → W → Prop)] [DecidableRel (LT.lt : W → W → Prop)] [Limites W]

theorem doubleMax_pos : 0 < doubleMax := by
  unfold doubleMax; norm_num

/-- The inner loop of the first loop of `reduireDetteCirculaire`. -/
theorem minVoisins_spec (vs : Voisins T) (v : T) (m0 : ℚ) :
    vs.foldl (fun minDette arc => if arc.1 = v then min minDette arc.2 else minDette) m0 ≤ m0 ∧
    (∀ w, (v, w) ∈ vs →
      vs.foldl (fun minDette arc => if arc.1 = v then min minDette arc.2 else minDette) m0 ≤ w) ∧
    (vs.foldl (fun minDette arc => if arc.1 = v then min minDette arc.2 else minDette) m0 = m0 ∨
      (v, vs.foldl (fun minDette arc => if arc.1 = v then min minDette arc.2 else minDette) m0)
        ∈ vs) := by
  induction vs generalizing m0 with
  | nil => simp
  | cons x reste ih =>
    simp only [List.foldl_cons]
    by_cases hx : x.1 = v
    · simp only [hx, if_true]
      obtain ⟨h1, h2, h3⟩ := ih (min m0 x.2)
      refine ⟨le_trans h1 (min_le_left _ _), fun w hw => ?_, ?_⟩
      · rcases List.mem_cons.1 hw with e | hw
        · have : x.2 = w := by rw [← e]
          exact this ▸ le_trans h1 (min_le_right _ _)
        · exact h2 w hw
      · rcases h3 with e | hmem
        · rcases min_choice m0 x.2 with e' | e'
          · exact Or.inl (e.trans e')
          · right
            rw [e, e']
            have : (v, x.2) = x := by rw [← hx]
            rw [this]; exact List.mem_cons_self _ _
        · exact Or.inr (List.mem_cons_of_mem _ hmem)
    · simp only [hx, if_false]
      obtain ⟨h1, h2, h3⟩ := ih m0
      refine ⟨h1, fun w hw => ?_, ?_⟩
      · rcases List.mem_cons.1 hw with e | hw
        · exact absurd (by rw [← e]) hx
        · exact h2 w hw
      · rcases h3 with e | hmem
        · exact Or.inl e
        · exact Or.inr (List.mem_cons_of_mem _ hmem)

/-- The first loop of `reduireDetteCirculaire` over the pairs `L`, from the state
`(g, m0)`: the graph only gains the missing sources as vertices, and the value is the
minimum of `m0` and of the weights of the arcs of `L`. -/
theorem minPaires_spec (L : List (T × T)) (g : Digraph T) (m0 : ℚ) :
    (L.foldl (fun (acc : Digraph T × ℚ) uv =>
      ((acc.1.inserer uv.1), ((acc.1.inserer uv.1).voisinsDe uv.1).foldl
        (fun minDette arc => if arc.1 = uv.2 then min minDette arc.2 else minDette) acc.2))
      (g, m0)).1 = (L.map Prod.fst).foldl inserer g ∧
    (L.foldl (fun (acc : Digraph T × ℚ) uv =>
      ((acc.1.inserer uv.1), ((acc.1.inserer uv.1).voisinsDe uv.1).foldl
        (fun minDette arc => if arc.1 = uv.2 then min minDette arc.2 else minDette) acc.2))
      (g, m0)).2 ≤ m0 ∧
    (∀ uv ∈ L, ∀ w, (uv.2, w) ∈ g.voisinsDe uv.1 →
      (L.foldl (fun (acc : Digraph T × ℚ) uv =>
        ((acc.1.inserer uv.1), ((acc.1.inserer uv.1).voisinsDe uv.1).foldl
          (fun minDette arc => if arc.1 = uv.2 then min minDette arc.2 else minDette) acc.2))
        (g, m0)).2 ≤ w) ∧
    ((L.foldl (fun (acc : Digraph T × ℚ) uv =>
        ((acc.1.inserer uv.1), ((acc.1.inserer uv.1).voisinsDe uv.1).foldl
          (fun minDette arc => if arc.1 = uv.2 then min minDette arc.2 else minDette) acc.2))
        (g, m0)).2 = m0 ∨
      ∃ uv ∈ L, (uv.2, (L.foldl (fun (acc : Digraph T × ℚ) uv =>
        ((acc.1.inserer uv.1), ((acc.1.inserer uv.1).voisinsDe uv.1).foldl
          (fun minDette arc => if arc.1 = uv.2 then min minDette arc.2 else minDette) acc.2))
        (g, m0)).2) ∈ g.voisinsDe uv.1) := by
  induction L generalizing g m0 with
  | nil => simp
  | cons uv reste ih =>
    simp only [List.foldl_cons, List.map_cons]
    obtain ⟨a1, a2, a3⟩ := minVoisins_spec ((g.inserer uv.1).voisinsDe uv.1) uv.2 m0
    obtain ⟨b1, b2, b3, b4⟩ := ih (g.inserer uv.1)
      (((g.inserer uv.1).voisinsDe uv.1).foldl
        (fun minDette arc => if arc.1 = uv.2 then min minDette arc.2 else minDette) m0)
    refine ⟨b1, le_trans b2 a1, fun p hp w hw => ?_, ?_⟩
    · rcases List.mem_cons.1 hp with rfl | hp
      · rw [← voisinsDe_inserer g p.1] at hw
        exact le_trans b2 (a2 w hw)
      · rw [← voisinsDe_inserer g uv.1] at hw
        exact b3 p hp w hw
    · rcases b4 with e | ⟨p, hp, hmem⟩
      · rcases a3 with e' | hmem
        · exact Or.inl (e.trans e')
        · right
          refine ⟨uv, List.mem_cons_self _ _, ?_⟩
          rw [e, ← voisinsDe_inserer g uv.1]
          exact hmem
      · right
        refine ⟨p, List.mem_cons_of_mem _ hp, ?_⟩
        rw [← voisinsDe_inserer g uv.1]
        exact hmem

theorem foldl_inserer_of_sommets (l : List T) (g : Digraph T W)
    (h : ∀ x ∈ l, g.sommet x = true) : l.foldl inserer g = g := by
  induction l with
  | nil => rfl
  | cons x reste ih =>
    rw [List.foldl_cons, inserer_of_sommet (h x (List.mem_cons_self _ _))]
    exact ih (fun y hy => h y (List.mem_cons_of_mem _ hy))

/-- The value `minDette` computed on a graph satisfying the invariants is positive. -/
theorem minDetteCircuit_pos {g : Digraph T} (h : g.Inv) (circuit : List T) :
    0 < (g.minDetteCircuit circuit).2 := by
  obtain ⟨-, -, -, h4⟩ := minPaires_spec (paires circuit) g Limites.max
  unfold minDetteCircuit
  rcases h4 with e | ⟨uv, -, hmem⟩
  · rw [e]; exact doubleMax_pos
  · exact ((((inv_iff g).1 h).2 uv.1).1 _ hmem).2.1

theorem minDetteCircuit_inv {g : Digraph T} (h : g.Inv) (circuit : List T) :
    (g.minDetteCircuit circuit).1.Inv ∧
      ∀ x, g.sommet x = true → (g.minDetteCircuit circuit).1.sommet x = true := by
  obtain ⟨h1, -⟩ := minPaires_spec (paires circuit) g Limites.max
  obtain ⟨f1, -, f3⟩ := foldl_inserer_spec ((paires circuit).map Prod.fst) g
  unfold minDetteCircuit
  rw [h1]
  exact ⟨f3 h, fun x hx => (f1 x).2 (Or.inr hx)⟩

/-- The update between the two ends of the circuit returns a graph that satisfies the
invariants and keeps the vertices. -/
theorem ajusterExtremites_inv {g : Digraph T} (h : g.Inv) (start fin : T) {m : ℚ} (hm : 0 < m) :
    ∃ g', g.ajusterExtremites start fin m = .ok g' ∧ g'.Inv ∧
      ∀ x, g.sommet x = true → g'.sommet x = true := by
  unfold ajusterExtremites
  by_cases hse : start = fin
  · simp only [hse, ne_eq, not_true_eq_false, if_false]
    exact ⟨g, rfl, h, fun x hx => hx⟩
  · simp only [ne_eq, hse, not_false_eq_true, if_true]
    have h1 : ((g.inserer start).inserer fin).Inv := (h.inserer start).inserer fin
    have hs1 : ∀ x, g.sommet x = true → ((g.inserer start).inserer fin).sommet x = true := by
      intro x hx
      rw [sommet_inserer, sommet_inserer]; exact Or.inr (Or.inr hx)
    by_cases ha : ((g.inserer start).inserer fin).arc start fin = true
    · simp only [ha, if_true]
      exact ⟨_, rfl, h1.modifierPoids _ _ _, fun x hx => by rw [sommet_maj]; exact hs1 x hx⟩
    · simp only [ha, if_false]
      by_cases hb : ((g.inserer start).inserer fin).arc fin start = true
      · simp only [hb, if_true]
        exact ⟨_, rfl, h1.modifierPoids _ _ _, fun x hx => by rw [sommet_maj]; exact hs1 x hx⟩
      · simp only [hb, if_false]
        obtain ⟨g', e, s, -, i⟩ := insererArc_spec ((g.inserer start).inserer fin) hse (le_of_lt hm)
        exact ⟨g', e, i h1 hm, fun x hx => (s x).2 (Or.inr (Or.inr (hs1 x hx)))⟩

/-- On a graph satisfying the invariants, `reduireDetteCirculaire` returns for every
non-empty circuit; the result satisfies the invariants and keeps the vertices. -/
theorem reduireDetteCirculaire_inv {g : Digraph T} (h : g.Inv) {circuit : List T}
    (hc : circuit ≠ []) :
    ∃ g', g.reduireDetteCirculaire circuit = .ok g' ∧ g'.Inv ∧
      ∀ x, g.sommet x = true → g'.sommet x = true := by
  cases circuit with
  | nil => exact absurd rfl hc
  | cons start reste =>
    unfold reduireDetteCirculaire
    simp only
    obtain ⟨i1, s1⟩ := minDetteCircuit_inv h (start :: reste)
    have hm := minDetteCircuit_pos h (start :: reste)
    obtain ⟨i2, s2⟩ := reduirePaires_inv (paires (start :: reste))
      (g.minDetteCircuit (start :: reste)).2 _ i1
    obtain ⟨g', e, i3, s3⟩ := ajusterExtremites_inv i2 start (reste.getLastD start) hm
    exact ⟨g', e, i3, fun x hx => s3 x ((s2 x).2 (Or.inr (s1 x hx)))⟩

end Digraph

namespace Digraph
variable {T : Type} [LinearOrder T] {W : Type} [OfNat W 0] [Add W] [Sub W] [LE W] [LT W] [Min W]
  [DecidableRel (LE.le : W → W → Prop)] [DecidableRel (LT.lt : W → W → Prop)] [Limites W]

theorem restants_mono (g : Digraph T W) {v1 v2 : List T} (h : ∀ x ∈ v1, x ∈ v2) :
    g.restants v2 ≤ g.restants v1 := by
  unfold restants
  apply List.countP_mono_left
  intro x _ hx
  simp only [decide_eq_true_eq] at hx ⊢
  exact fun hc => hx (h x hc)

theorem countP_lt_of_mem {α : Type} (l : List α) (p q : α → Bool)
    (hqp : ∀ x, q x = true → p x = true) {u : α} (hu : u ∈ l) (hp : p u = true)
    (hq : q u = false) : l.countP q < l.countP p := by
  induction l with
  | nil => simp at hu
  | cons x reste ih =>
    have hle : reste.countP q ≤ reste.countP p :=
      List.countP_mono_left (fun y _ hy => hqp y hy)
    rcases List.mem_cons.1 hu with rfl | hu
    · rw [List.countP_cons_of_pos _ _ hp, List.countP_cons_of_neg _ _ (by simp [hq])]
      omega
    · have := ih hu
      by_cases hx : q x = true
      · rw [List.countP_cons_of_pos _ _ hx, List.countP_cons_of_pos _ _ (hqp x hx)]
        omega
      · rw [List.countP_cons_of_neg _ _ hx]
        by_cases hx' : p x = true
        · rw [List.countP_cons_of_pos _ _ hx']; omega
        · rw [List.countP_cons_of_neg _ _ hx']; exact this

theorem restants_cons_lt (g : Digraph T W) {u : T} {vis : List T} (hu : g.sommet u = true)
    (hn : u ∉ vis) : g.restants (u :: vis) < g.restants vis := by
  unfold restants
  apply countP_lt_of_mem _ _ _ _ ((sommet_iff g u).1 hu)
  · simpa using hn
  · simp
  · intro x hx
    simp only [decide_eq_true_eq, List.mem_cons, not_or] at hx ⊢
    exact hx.2

theorem arc_of_mem {g : Digraph T W} {u : T} {x : T × W} (h : x ∈ g.voisinsDe u) :
    g.arc u x.1 = true :=
  (arc_iff g u x.1).2 ⟨x.2, h⟩

/-- The loop of the helper `rechercheProfondeur`, for any recursive call that satisfies
the specification of the helper. -/
theorem boucleRecherche_spec {g : Digraph T W} (hinv : g.Inv) (debut u : T) (n : Nat)
    (appel : T → EtatRecherche T → Res (EtatRecherche T))
    (happel : ∀ v e1, g.sommet v = true → v ∉ e1.visiter → e1.trouver = false →
      g.restants e1.visiter ≤ n → ∃ e2, appel v e1 = .ok e2 ∧ PostRecherche g debut v e1 e2)
    (vs : Voisins T W) (hvs : ∀ x ∈ vs, x ∈ g.voisinsDe u) (e : EtatRecherche T)
    (hu : u ∈ e.visiter) (ht : e.trouver = false) (hr : g.restants e.visiter ≤ n) :
    ∃ e', boucleRecherche appel debut u vs e = .ok e' ∧ PostBoucle g debut u vs e e' := by
  induction vs generalizing e with
  | nil =>
    refine ⟨_, rfl, fun x hx => hx, fun _ => ⟨rfl, fun x hx hx' => absurd hx hx', by simp⟩, ?_⟩
    intro h; simp [ht] at h
  | cons x reste ih =>
    have hx := hvs x (List.mem_cons_self _ _)
    have hvs' : ∀ y ∈ reste, y ∈ g.voisinsDe u := fun y hy => hvs y (List.mem_cons_of_mem _ hy)
    have harc : g.arc u x.1 = true := arc_of_mem hx
    unfold boucleRecherche
    by_cases h1 : x.1 = debut ∧ u ∈ e.visiter
    · simp only [h1, and_self, if_true]
      refine ⟨_, rfl, fun y hy => hy, fun h => by simp at h, fun _ => ⟨[], by simp, ?_, by simp,
        by simp⟩⟩
      simp only [List.nil_append, List.chain'_cons, List.chain'_singleton, and_true]
      exact h1.1 ▸ harc
    · have hne : x.1 ≠ debut := fun e' => h1 ⟨e', hu⟩
      simp only [h1, if_false]
      by_cases h2 : x.1 ∉ e.visiter ∧ e.trouver = false
      · simp only [h2, not_false_eq_true, and_self, if_true]
        have hsx : g.sommet x.1 = true := ((((inv_iff g).1 hinv).2 u).1 x hx).2.2
        obtain ⟨e1, a1, p1, p2, p3, p4⟩ := happel x.1 e hsx h2.1 ht hr
        simp only [a1]
        by_cases ht1 : e1.trouver = true
        · simp only [ht1, if_true]
          obtain ⟨chemin, c1, c2, c3, c4⟩ := p4 ht1
          refine ⟨e1, rfl, p1, fun h => by simp [ht1] at h, fun _ => ⟨x.1 :: chemin, ?_, ?_, c3, c4⟩⟩
          · rw [c1]; simp
          · rw [List.cons_append, List.chain'_cons]
            exact ⟨harc, c2⟩
        · have ht1' : e1.trouver = false := by simpa using ht1
          simp only [ht1', Bool.false_eq_true, if_false]
          obtain ⟨q1, q2⟩ := p3 ht1'
          obtain ⟨e', a2, r1, r2, r3⟩ := ih hvs' e1 (p1 u hu) ht1'
            (le_trans (restants_mono g p1) hr)
          refine ⟨e', a2, fun y hy => r1 y (p1 y hy), fun h => ?_, fun h => ?_⟩
          · obtain ⟨s1, s2, s3⟩ := r2 h
            refine ⟨by rw [s1, q1], fun y hy hy' z hz => ?_, fun y hy => ?_⟩
            · by_cases hy1 : y ∈ e1.visiter
              · obtain ⟨t1, t2⟩ := q2 y hy1 hy' z hz
                exact ⟨r1 z t1, t2⟩
              · exact s2 y hy hy1 z hz
            · rcases List.mem_cons.1 hy with rfl | hy
              · exact ⟨r1 _ p2, hne⟩
              · exact s3 y hy
          · obtain ⟨chemin, c1, c2, c3, c4⟩ := r3 h
            exact ⟨chemin, by rw [c1, q1], c2, c3, fun y hy hy' => c4 y hy (p1 y hy')⟩
      · simp only [h2, if_false]
        have hxv : x.1 ∈ e.visiter := by
          by_contra hc; exact h2 ⟨hc, ht⟩
        obtain ⟨e', a2, r1, r2, r3⟩ := ih hvs' e hu ht hr
        refine ⟨e', a2, r1, fun h => ?_, r3⟩
        obtain ⟨s1, s2, s3⟩ := r2 h
        refine ⟨s1, s2, fun y hy => ?_⟩
        rcases List.mem_cons.1 hy with rfl | hy
        · exact ⟨r1 _ hxv, hne⟩
        · exact s3 y hy

/-- The helper `rechercheProfondeur`: with fuel at least the number of vertices not yet
visited, the call returns and satisfies `PostRecherche`. -/
theorem rechercheProfondeurAux_spec {g : Digraph T W} (hinv : g.Inv) (debut : T) (n : Nat) :
    ∀ u e, g.sommet u = true → u ∉ e.visiter → e.trouver = false →
      g.restants e.visiter ≤ n →
      ∃ e', g.rechercheProfondeurAux debut n u e = .ok e' ∧ PostRecherche g debut u e e' := by
  induction n with
  | zero =>
    intro u e hu hn _ hr
    have := restants_cons_lt g hu hn
    omega
  | succ n ih =>
    intro u e hu hn ht hr
    unfold rechercheProfondeurAux
    simp only [auSommet_of_sommet hu]
    have hr1 : g.restants (u :: e.visiter) ≤ n := by
      have := restants_cons_lt g hu hn
      omega
    obtain ⟨e', a, r1, r2, r3⟩ := boucleRecherche_spec hinv debut u n
      (g.rechercheProfondeurAux debut n) ih (g.voisinsDe u) (fun x hx => hx)
      { e with visiter := u :: e.visiter, circuit := e.circuit ++ [u] }
      (List.mem_cons_self _ _) ht hr1
    refine ⟨e', a, fun x hx => r1 x (List.mem_cons_of_mem _ hx), r1 u (List.mem_cons_self _ _),
      fun h => ?_, fun h => ?_⟩
    · obtain ⟨s1, s2, s3⟩ := r2 h
      refine ⟨by rw [s1]; simp, fun x hx hx' y hy => ?_⟩
      by_cases hxu : x = u
      · subst hxu
        obtain ⟨w, hw⟩ := (arc_iff _ _ _).1 hy
        exact s3 _ hw
      · exact s2 x hx (by simp [hxu, hx']) y hy
    · obtain ⟨chemin, c1, c2, c3, c4⟩ := r3 h
      refine ⟨chemin, by rw [c1]; simp, c2, ?_, ?_⟩
      · rw [List.nodup_cons]
        exact ⟨fun hc => c4 u hc (List.mem_cons_self _ _), c3⟩
      · intro x hx
        rcases List.mem_cons.1 hx with rfl | hx
        · exact hn
        · exact fun hc => c4 x hx (List.mem_cons_of_mem _ hc)

end Digraph

theorem paires_map_fst {T : Type} (c : List T) : (paires c).map Prod.fst = c.dropLast := by
  induction c with
  | nil => rfl
  | cons a reste ih =>
    cases reste with
    | nil => rfl
    | cons b r => simp [paires, ih]

theorem paires_map_snd {T : Type} (c : List T) : (paires c).map Prod.snd = c.tail := by
  induction c with
  | nil => rfl
  | cons a reste ih =>
    cases reste with
    | nil => rfl
    | cons b r => simpa [paires] using ih

theorem chain_iff_paires {T : Type} (R : T → T → Prop) (c : List T) :
    List.Chain' R c ↔ ∀ uv ∈ paires c, R uv.1 uv.2 := by
  induction c with
  | nil => simp [paires]
  | cons a reste ih =>
    cases reste with
    | nil => simp [paires]
    | cons b r =>
      rw [List.chain'_cons, ih]
      simp [paires]

namespace Digraph
variable {T : Type} [LinearOrder T] {W : Type} [OfNat W 0] [Add W] [Sub W] [LE W] [LT W] [Min W]
  [DecidableRel (LE.le : W → W → Prop)] [DecidableRel (LT.lt : W → W → Prop)] [Limites W]

/-- Effect of the second loop of `reduireDetteCirculaire` on the total weight of the arcs
whose ends satisfy `c`: each arc of the path that satisfies `c` loses `m`. -/
theorem total_cond_reduirePaires (c : T → T → Prop) [∀ a b, Decidable (c a b)]
    (L : List (T × T)) (m : ℚ) (g : Digraph T) (h : g.Inv) (hsrc : (L.map Prod.fst).Nodup)
    (hval : ∀ uv ∈ L, ∃ w, (uv.2, w) ∈ g.voisinsDe uv.1 ∧ m ≤ w) :
    total (fun e => if c e.1 e.2.1 then e.2.2 else 0)
        (L.foldl (fun g uv => Digraph.mk (surVoisins (g.inserer uv.1).graphe uv.1
          (fun voisins => modifierPoids voisins uv.2 (fun emprunt => emprunt - m)))) g)
      = total (fun e => if c e.1 e.2.1 then e.2.2 else 0) g
        - (L.map (fun uv => if c uv.1 uv.2 then m else 0)).sum := by
  have e := total_reduirePaires (fun e : T × T × ℚ => if c e.1 e.2.1 then e.2.2 else 0) L m g h hsrc
    (fun uv huv => by obtain ⟨w, hw, -⟩ := hval uv huv; exact ⟨w, hw⟩)
  simp only at e
  have hpt : (L.map (fun uv =>
        if (g.poids uv.1 uv.2).getD 0 - m ≤ 0 then (0 : ℚ)
        else if c uv.1 uv.2 then (g.poids uv.1 uv.2).getD 0 - m else 0)).sum
      + (L.map (fun uv => if c uv.1 uv.2 then m else 0)).sum
      = (L.map (fun uv => if c uv.1 uv.2 then (g.poids uv.1 uv.2).getD 0 else 0)).sum := by
    rw [← List.sum_map_add]
    congr 1
    apply List.map_congr_left
    intro uv huv
    obtain ⟨w, hw, hmw⟩ := hval uv huv
    rw [poids_of_mem h hw]
    by_cases hc : c uv.1 uv.2
    · by_cases hle : w - m ≤ 0
      · have : w = m := le_antisymm (by linarith) hmw
        simp [hc, this]
      · simp [hc, hle]
    · simp [hc]
  linarith

theorem dette_reduirePaires (L : List (T × T)) (m : ℚ) (g : Digraph T) (h : g.Inv)
    (hsrc : (L.map Prod.fst).Nodup)
    (hval : ∀ uv ∈ L, ∃ w, (uv.2, w) ∈ g.voisinsDe uv.1 ∧ m ≤ w) (u : T) :
    (L.foldl (fun g uv => Digraph.mk (surVoisins (g.inserer uv.1).graphe uv.1
        (fun voisins => modifierPoids voisins uv.2 (fun emprunt => emprunt - m)))) g).dette u
      = g.dette u - (L.map (fun uv => if uv.1 ≠ u ∧ uv.2 = u then m else 0)).sum := by
  rw [dette_eq_total, dette_eq_total]
  exact total_cond_reduirePaires (fun a b => a ≠ u ∧ b = u) L m g h hsrc hval

theorem credit_reduirePaires (L : List (T × T)) (m : ℚ) (g : Digraph T) (h : g.Inv)
    (hsrc : (L.map Prod.fst).Nodup)
    (hval : ∀ uv ∈ L, ∃ w, (uv.2, w) ∈ g.voisinsDe uv.1 ∧ m ≤ w) (u : T) :
    (L.foldl (fun g uv => Digraph.mk (surVoisins (g.inserer uv.1).graphe uv.1
        (fun voisins => modifierPoids voisins uv.2 (fun emprunt => emprunt - m)))) g).credit u
      = g.credit u - (L.map (fun uv => if uv.1 = u then m else 0)).sum := by
  rw [credit_eq_total (reduirePaires_inv L m g h).1, credit_eq_total h]
  exact total_cond_reduirePaires (fun a _ => a = u) L m g h hsrc hval

end Digraph

namespace Digraph
variable {T : Type} [LinearOrder T] {W : Type} [OfNat W 0] [Add W] [Sub W] [LE W] [LT W] [Min W]
  [DecidableRel (LE.le : W → W → Prop)] [DecidableRel (LT.lt : W → W → Prop)] [Limites W]

theorem plafond_le (W m : ℚ) (hm : 0 < m) :
    (if W - m ≤ 0 then 0 else ⌈(W - m) / doubleMax⌉₊) ≤ ⌈W / doubleMax⌉₊ := by
  split_ifs with h
  · exact Nat.zero_le _
  · apply Nat.ceil_mono
    apply div_le_div_of_nonneg_right _ (le_of_lt doubleMax_pos)
    linarith

theorem plafond_lt (W m : ℚ) (hW : 0 < W) (h : m = doubleMax ∨ W = m) :
    (if W - m ≤ 0 then 0 else ⌈(W - m) / doubleMax⌉₊) < ⌈W / doubleMax⌉₊ := by
  have hpos : 0 < ⌈W / doubleMax⌉₊ := Nat.ceil_pos.2 (div_pos hW doubleMax_pos)
  split_ifs with hle
  · exact hpos
  · rcases h with rfl | rfl
    · have hne : doubleMax ≠ 0 := ne_of_gt doubleMax_pos
      have e : W / doubleMax = (W - doubleMax) / doubleMax + 1 := by
        field_simp
      have h0 : 0 ≤ (W - doubleMax) / doubleMax :=
        div_nonneg (by linarith) (le_of_lt doubleMax_pos)
      rw [e, Nat.ceil_add_one h0]
      exact Nat.lt_succ_self _
    · exact absurd (by simp) hle

/-- The second loop of `reduireDetteCirculaire` along a valid path lowers the number of
subtractions still possible on the arcs whose ends satisfy `c`, when the arcs of the
path satisfy `c`. -/
theorem potentiel_cond_reduirePaires (c : T → T → Prop) [∀ a b, Decidable (c a b)]
    (L : List (T × T)) (m : ℚ) (hm : 0 < m) (g : Digraph T) (h : g.Inv)
    (hsrc : (L.map Prod.fst).Nodup)
    (hval : ∀ uv ∈ L, ∃ w, (uv.2, w) ∈ g.voisinsDe uv.1 ∧ m ≤ w)
    (hc : ∀ uv ∈ L, c uv.1 uv.2) (hL : L ≠ [])
    (hmin : m = doubleMax ∨ ∃ uv ∈ L, (uv.2, m) ∈ g.voisinsDe uv.1) :
    total (fun e => if c e.1 e.2.1 then ⌈e.2.2 / doubleMax⌉₊ else 0)
        (L.foldl (fun g uv => Digraph.mk (surVoisins (g.inserer uv.1).graphe uv.1
          (fun voisins => modifierPoids voisins uv.2 (fun emprunt => emprunt - m)))) g)
      < total (fun e => if c e.1 e.2.1 then ⌈e.2.2 / doubleMax⌉₊ else 0) g := by
  have e := total_reduirePaires
    (fun e : T × T × ℚ => if c e.1 e.2.1 then ⌈e.2.2 / doubleMax⌉₊ else 0) L m g h hsrc
    (fun uv huv => by obtain ⟨w, hw, -⟩ := hval uv huv; exact ⟨w, hw⟩)
  simp only at e
  have hlt : (L.map (fun uv => if (g.poids uv.1 uv.2).getD 0 - m ≤ 0 then 0
        else if c uv.1 uv.2 then ⌈((g.poids uv.1 uv.2).getD 0 - m) / doubleMax⌉₊ else 0)).sum
      < (L.map (fun uv =>
        if c uv.1 uv.2 then ⌈(g.poids uv.1 uv.2).getD 0 / doubleMax⌉₊ else 0)).sum := by
    apply List.sum_lt_sum
    · intro uv huv
      obtain ⟨w, hw, -⟩ := hval uv huv
      simp only [hc uv huv, if_true]
      exact plafond_le _ _ hm
    · have key : ∀ uv ∈ L, ∀ w, (uv.2, w) ∈ g.voisinsDe uv.1 → (m = doubleMax ∨ w = m) →
          (if (g.poids uv.1 uv.2).getD 0 - m ≤ 0 then 0
            else if c uv.1 uv.2 then ⌈((g.poids uv.1 uv.2).getD 0 - m) / doubleMax⌉₊ else 0)
          < (if c uv.1 uv.2 then ⌈(g.poids uv.1 uv.2).getD 0 / doubleMax⌉₊ else 0) := by
        intro uv huv w hw hor
        have hpos : 0 < w := ((((inv_iff g).1 h).2 uv.1).1 _ hw).2.1
        rw [poids_of_mem h hw]
        simp only [hc uv huv, if_true]
        exact plafond_lt w m hpos hor
      rcases hmin with hD | ⟨uv, huv, hmem⟩
      · cases L with
        | nil => exact absurd rfl hL
        | cons uv reste =>
          obtain ⟨w, hw, -⟩ := hval uv (List.mem_cons_self _ _)
          exact ⟨uv, List.mem_cons_self _ _, key uv (List.mem_cons_self _ _) w hw (Or.inl hD)⟩
      · exact ⟨uv, huv, key uv huv m hmem (Or.inr rfl)⟩
  omega

theorem potentiel_reduirePaires (L : List (T × T)) (m : ℚ) (hm : 0 < m) (g : Digraph T)
    (h : g.Inv) (hsrc : (L.map Prod.fst).Nodup)
    (hval : ∀ uv ∈ L, ∃ w, (uv.2, w) ∈ g.voisinsDe uv.1 ∧ m ≤ w) (hL : L ≠ [])
    (hmin : m = doubleMax ∨ ∃ uv ∈ L, (uv.2, m) ∈ g.voisinsDe uv.1) :
    (L.foldl (fun g uv => Digraph.mk (surVoisins (g.inserer uv.1).graphe uv.1
        (fun voisins => modifierPoids voisins uv.2 (fun emprunt => emprunt - m)))) g).potentiel
      < g.potentiel := by
  have := potentiel_cond_reduirePaires (fun _ _ => True) L m hm g h hsrc hval
    (fun _ _ => trivial) hL hmin
  simpa [potentiel] using this

end Digraph

namespace Digraph
variable {T : Type} [LinearOrder T] {W : Type} [OfNat W 0] [Add W] [Sub W] [LE W] [LT W] [Min W]
  [DecidableRel (LE.le : W → W → Prop)] [DecidableRel (LT.lt : W → W → Prop)] [Limites W]

theorem restants_nil (g : Digraph T W) : g.restants [] = g.sommets := by
  simp [restants, sommets, cles]

theorem not_arc_self {g : Digraph T W} (h : g.Inv) (s : T) : ¬ (g.arc s s = true) := by
  intro ha
  obtain ⟨w, hw⟩ := (arc_iff _ _ _).1 ha
  exact ((((inv_iff g).1 h).2 s).1 _ hw).1 rfl

/-- The search `rechercheProfondeur(s)` from a vertex `s`, with fuel at least the number
of vertices, returns either the empty sequence, and then no vertex reachable from `s`
has an arc to `s`, or a cycle through `s`. -/
theorem rechercheProfondeur_spec {g : Digraph T W} (hinv : g.Inv) {s : T}
    (hs : g.sommet s = true) {n : Nat} (hn : g.sommets ≤ n) :
    ∃ c, g.rechercheProfondeur n s = .ok c ∧
      ((c = [] ∧ ∀ x, g.Atteint s x → g.arc x s = false) ∨ g.EstCycle s c) := by
  obtain ⟨e', a, p1, p2, p3, p4⟩ := rechercheProfondeurAux_spec hinv s n s ⟨[], [], false⟩ hs
    (by simp) rfl (by rw [restants_nil]; exact hn)
  unfold rechercheProfondeur
  simp only [a]
  by_cases ht : e'.trouver = true
  · obtain ⟨chemin, c1, c2, c3, -⟩ := p4 ht
    simp only [List.nil_append] at c1
    have hne : chemin ≠ [] := by
      rintro rfl
      simp only [List.nil_append, List.chain'_cons, List.chain'_singleton, and_true] at c2
      exact not_arc_self hinv s c2
    have hlen : e'.circuit.length > 2 := by
      rw [c1]
      cases chemin with
      | nil => exact absurd rfl hne
      | cons a r => simp
    simp only [hlen, if_true]
    exact ⟨_, rfl, Or.inr ⟨chemin, by rw [c1]; simp, hne, c3, by rw [c1]; exact c2⟩⟩
  · have ht' : e'.trouver = false := by simpa using ht
    obtain ⟨q1, q2⟩ := p3 ht'
    simp only at q1
    have hlen : ¬ (e'.circuit.length > 2) := by rw [q1]; simp
    simp only [hlen, if_false]
    refine ⟨[], rfl, Or.inl ⟨rfl, fun x hx => ?_⟩⟩
    have hvis : x ∈ e'.visiter := by
      induction hx with
      | refl => exact p2
      | tail _ hab ih => exact (q2 _ ih (by simp) _ hab).1
    by_contra hc
    exact (q2 x hvis (by simp) s (by simpa using hc)).2 rfl

/-- On a cycle through `s`, `reduireDetteCirculaire` is its second loop alone, run on the
graph itself with a positive value `m` that is at most the weight of every arc of the
cycle and is either `doubleMax` or the weight of an arc of the cycle. -/
theorem reduireDetteCirculaire_cycle_eq {g : Digraph T} (hinv : g.Inv) {s : T} {c : List T}
    (hc : g.EstCycle s c) :
    ∃ m, 0 < m ∧ paires c ≠ [] ∧ ((paires c).map Prod.fst).Nodup ∧
      (∀ uv ∈ paires c, ∃ w, (uv.2, w) ∈ g.voisinsDe uv.1 ∧ m ≤ w) ∧
      (m = doubleMax ∨ ∃ uv ∈ paires c, (uv.2, m) ∈ g.voisinsDe uv.1) ∧
      g.reduireDetteCirculaire c = .ok (g.reduireChemin c m) := by
  obtain ⟨milieu, rfl, hne, hnd, hch⟩ := hc
  have harc : ∀ uv ∈ paires (s :: milieu ++ [s]), g.arc uv.1 uv.2 = true :=
    (chain_iff_paires _ _).1 hch
  have hsrc : (paires (s :: milieu ++ [s])).map Prod.fst = s :: milieu := by
    rw [paires_map_fst]
    exact List.dropLast_concat
  obtain ⟨m1, m2, m3, m4⟩ := minPaires_spec (paires (s :: milieu ++ [s])) g Limites.max
  have hg : (g.minDetteCircuit (s :: milieu ++ [s])).1 = g := by
    unfold minDetteCircuit
    rw [m1]
    apply foldl_inserer_of_sommets
    intro x hx
    obtain ⟨uv, huv, rfl⟩ := List.mem_map.1 hx
    exact sommet_of_arc (harc uv huv)
  have hlast : (milieu ++ [s]).getLastD s = s := by
    cases milieu with
    | nil => rfl
    | cons a r => simp [List.getLastD]
  refine ⟨(g.minDetteCircuit (s :: milieu ++ [s])).2, minDetteCircuit_pos hinv _, ?_,
    by rw [hsrc]; exact hnd, fun uv huv => ?_, m4, ?_⟩
  · cases milieu with
    | nil => exact absurd rfl hne
    | cons a r => simp [paires]
  · obtain ⟨w, hw⟩ := (arc_iff _ _ _).1 (harc uv huv)
    exact ⟨w, hw, m3 uv huv w hw⟩
  · show g.reduireDetteCirculaire (s :: (milieu ++ [s])) = _
    unfold reduireDetteCirculaire
    simp only
    have hg' : (g.minDetteCircuit (s :: (milieu ++ [s]))).1 = g := hg
    rw [hg', hlast]
    simp [ajusterExtremites]

theorem somme_indicatrice_perm {l1 l2 : List T} (h : l1.Perm l2) (u : T) (m : ℚ) :
    (l1.map (fun x => if x = u then m else 0)).sum
      = (l2.map (fun x => if x = u then m else 0)).sum :=
  (h.map _).sum_eq

/-- Cancelling a cycle keeps the invariants, the vertices and every net position, and
lowers `potentiel`. -/
theorem reduireDetteCirculaire_cycle {g : Digraph T} (hinv : g.Inv) {s : T} {c : List T}
    (hc : g.EstCycle s c) :
    ∃ g', g.reduireDetteCirculaire c = .ok g' ∧ g'.Inv ∧ g'.cles = g.cles ∧
      (∀ u, g'.credit u - g'.dette u = g.credit u - g.dette u) ∧
      g'.potentiel < g.potentiel := by
  obtain ⟨m, hm, hL, hsrc, hval, hmin, e⟩ := reduireDetteCirculaire_cycle_eq hinv hc
  have hval' : ∀ uv ∈ paires c, ∃ w, (uv.2, w) ∈ g.voisinsDe uv.1 := fun uv huv => by
    obtain ⟨w, hw, -⟩ := hval uv huv; exact ⟨w, hw⟩
  refine ⟨_, e, (reduirePaires_inv _ m g hinv).1, (reduirePaires_spec _ m g hinv hsrc hval').1,
    fun u => ?_, potentiel_reduirePaires _ m hm g hinv hsrc hval hL hmin⟩
  unfold reduireChemin
  rw [credit_reduirePaires _ m g hinv hsrc hval, dette_reduirePaires _ m g hinv hsrc hval]
  have h1 : ((paires c).map (fun uv => if uv.1 ≠ u ∧ uv.2 = u then m else 0))
      = (paires c).map (fun uv => if uv.2 = u then m else 0) := by
    apply List.map_congr_left
    intro uv huv
    obtain ⟨w, hw, -⟩ := hval uv huv
    have hne : uv.2 ≠ uv.1 := ((((inv_iff g).1 hinv).2 uv.1).1 _ hw).1
    by_cases h2 : uv.2 = u
    · have : uv.1 ≠ u := fun e' => hne (h2.trans e'.symm)
      simp [h2, this]
    · simp [h2]
  have h2 : ((paires c).map (fun uv => if uv.1 = u then m else 0)).sum
      = ((paires c).map (fun uv => if uv.2 = u then m else 0)).sum := by
    have e1 : (paires c).map (fun uv => if uv.1 = u then m else 0)
        = ((paires c).map Prod.fst).map (fun x => if x = u then m else 0) := by
      simp [Function.comp_def]
    have e2 : (paires c).map (fun uv => if uv.2 = u then m else 0)
        = ((paires c).map Prod.snd).map (fun x => if x = u then m else 0) := by
      simp [Function.comp_def]
    rw [e1, e2, paires_map_fst, paires_map_snd]
    obtain ⟨milieu, rfl, -, -, -⟩ := hc
    apply somme_indicatrice_perm
    have : (s :: milieu ++ [s]).dropLast = s :: milieu := List.dropLast_concat
    rw [this]
    simp only [List.cons_append, List.tail_cons]
    exact (List.perm_append_singleton s milieu).symm
  rw [h1, h2]
  ring

end Digraph

namespace Digraph
variable {T : Type} [LinearOrder T] {W : Type} [OfNat W 0] [Add W] [Sub W] [LE W] [LT W] [Min W]
  [DecidableRel (LE.le : W → W → Prop)] [DecidableRel (LT.lt : W → W → Prop)] [Limites W]

theorem sommets_eq_of_cles {g g' : Digraph T W} (h : g'.cles = g.cles) : g'.sommets = g.sommets := by
  have : g'.cles.length = g.cles.length := by rw [h]
  simpa [cles, sommets] using this

theorem sommet_eq_of_cles {g g' : Digraph T W} (h : g'.cles = g.cles) (x : T) :
    g'.sommet x = g.sommet x := by
  rw [Bool.eq_iff_iff, sommet_iff, sommet_iff, h]

/-- The loop of `reduire(s)`: with enough fuel it returns; the result satisfies the
invariants, has the same vertices and the same net positions, and the search from `s`
finds nothing in it. -/
theorem boucleReduire_spec {s : T} {n : Nat} (k : Nat) :
    ∀ g : Digraph T, g.Inv → g.sommet s = true → g.sommets ≤ n → g.potentiel < k →
      ∃ g', boucleReduire s n k g = .ok g' ∧ g'.Inv ∧ g'.cles = g.cles ∧
        (∀ u, g'.credit u - g'.dette u = g.credit u - g.dette u) ∧
        g'.rechercheProfondeur n s = .ok [] ∧
        (∀ x, g'.Atteint s x → g'.arc x s = false) ∧
        g'.potentiel ≤ g.potentiel := by
  induction k with
  | zero => intro g _ _ _ hk; omega
  | succ k ih =>
    intro g hinv hs hn hk
    obtain ⟨c, a, hc⟩ := rechercheProfondeur_spec hinv hs hn
    unfold boucleReduire
    simp only [a]
    rcases hc with ⟨rfl, hat⟩ | hcyc
    · simp only [List.isEmpty_nil, if_true]
      exact ⟨g, rfl, hinv, rfl, fun _ => rfl, a, hat, le_refl _⟩
    · have hne : c.isEmpty = false := by
        obtain ⟨milieu, rfl, -⟩ := hcyc
        rfl
      simp only [hne, Bool.false_eq_true, if_false]
      obtain ⟨g1, e1, i1, c1, s1, p1⟩ := reduireDetteCirculaire_cycle hinv hcyc
      simp only [e1]
      obtain ⟨g', e', i', c', s', r', t', p'⟩ := ih g1 i1
        (by rw [sommet_eq_of_cles c1]; exact hs)
        (by rw [sommets_eq_of_cles c1]; exact hn) (by omega)
      exact ⟨g', e', i', c'.trans c1, fun u => (s' u).trans (s1 u), r', t', by omega⟩

/-- The method `reduire(s)` on a vertex `s`, with enough fuel. -/
theorem reduire_spec {g : Digraph T} (hinv : g.Inv) {s : T} (hs : g.sommet s = true) {n : Nat}
    (hn : g.sommets + g.potentiel < n) :
    ∃ g', g.reduire n s = .ok g' ∧ g'.Inv ∧ g'.cles = g.cles ∧
      (∀ u, g'.credit u - g'.dette u = g.credit u - g.dette u) ∧
      g'.rechercheProfondeur n s = .ok [] ∧
      (∀ x, g'.Atteint s x → g'.arc x s = false) ∧
      g'.potentiel ≤ g.potentiel := by
  unfold reduire
  simp only [hs, if_true]
  exact boucleReduire_spec n g hinv hs (by omega) (by omega)

end Digraph

section LemmesRetirer
variable {T : Type} [LinearOrder T] {W : Type} [OfNat W 0] [Add W] [Sub W] [LE W] [LT W] [Min W]
  [DecidableRel (LE.le : W → W → Prop)] [DecidableRel (LT.lt : W → W → Prop)] [Limites W]

theorem sublist_retirerPremier (vs : Voisins T W) (v : T) : (retirerPremier vs v).Sublist vs := by
  induction vs with
  | nil => simp [retirerPremier]
  | cons x reste ih =>
    unfold retirerPremier
    by_cases hx : x.1 = v
    · simp only [hx, if_true]; exact List.sublist_cons_self _ _
    · simp only [hx, if_false]; exact ih.cons₂ _

end LemmesRetirer

namespace Digraph
variable {T : Type} [LinearOrder T] {W : Type} [OfNat W 0] [Add W] [Sub W] [LE W] [LT W] [Min W]
  [DecidableRel (LE.le : W → W → Prop)] [DecidableRel (LT.lt : W → W → Prop)] [Limites W]

theorem vide_inv : (vide : Digraph T W).Inv := by simp [Inv, vide, cles]

theorem Inv.supprimer {g : Digraph T W} (h : g.Inv) (u : T) : (g.supprimer u).Inv := by
  rw [inv_iff] at h ⊢
  refine ⟨by rw [cles_supprimer]; exact h.1.filter _, fun a => ?_⟩
  rw [voisinsDe_supprimer]
  by_cases ha : a = u
  · simp [ha]
  · simp only [ha, if_false]
    refine ⟨fun x hx => ?_, ?_⟩
    · rw [List.mem_filter] at hx
      obtain ⟨h1, h2, h3⟩ := (h.2 a).1 x hx.1
      refine ⟨h1, h2, ?_⟩
      have hxu : x.1 ≠ u := by simpa using hx.2
      unfold sommet at h3 ⊢
      rw [trouve_supprimer, if_neg hxu]
      cases hh : trouve g.graphe x.1 with
      | none => simp [hh] at h3
      | some vs => simp
    · exact ((List.filter_sublist _).map Prod.fst).nodup (h.2 a).2

theorem Inv.supprimerArc {g : Digraph T W} (h : g.Inv) (u v : T) : (g.supprimerArc u v).Inv := by
  unfold Digraph.supprimerArc
  by_cases hu : g.sommet u = true
  · apply h.maj hu
    obtain ⟨h1, h2⟩ := ((inv_iff g).1 h).2 u
    exact ⟨fun x hx => h1 x ((sublist_retirerPremier _ _).subset hx),
      ((sublist_retirerPremier _ _).map Prod.fst).nodup h2⟩
  · rw [maj_of_absent (by simpa using hu)]
    exact h

/-- Whatever the fuel, when the loop of `reduire(SG)` returns a graph, it satisfies the
invariants and keeps the vertices. -/
theorem boucleReduireSG_inv (SG : Digraph T) (n k : Nat) :
    ∀ g g' : Digraph T, g.Inv → boucleReduireSG SG n k g = .ok g' →
      g'.Inv ∧ ∀ x, g.sommet x = true → g'.sommet x = true := by
  induction k with
  | zero => intro g g' _ h; simp [boucleReduireSG] at h
  | succ k ih =>
    intro g g' hinv h
    unfold boucleReduireSG at h
    cases hc : g.rechercheProfondeurSG n SG with
    | error err => simp [hc] at h
    | ok circuit =>
      simp only [hc] at h
      by_cases he : circuit.isEmpty = true
      · simp only [he, if_true] at h
        cases h
        exact ⟨hinv, fun x hx => hx⟩
      · simp only [he, if_false] at h
        have hne : circuit ≠ [] := by
          rintro rfl; simp at he
        obtain ⟨g1, e1, i1, s1⟩ := reduireDetteCirculaire_inv hinv hne
        simp only [e1] at h
        obtain ⟨i2, s2⟩ := ih g1 g' i1 h
        exact ⟨i2, fun x hx => s2 x (s1 x hx)⟩

end Digraph

namespace Digraph
variable {T : Type} [LinearOrder T] {W : Type} [OfNat W 0] [Add W] [Sub W] [LE W] [LT W] [Min W]
  [DecidableRel (LE.le : W → W → Prop)] [DecidableRel (LT.lt : W → W → Prop)] [Limites W]

/-- The loop of the helper `rechercheProfondeurSG`, for any recursive call that satisfies
the specification of the helper on vertices outside `SG`. -/
theorem boucleRechercheSG_spec {g : Digraph T W} (hinv : g.Inv) (SG : Digraph T W) (courrant : T)
    (n : Nat) (appel : T → EtatRecherche T → Bool → Res (EtatRecherche T))
    (happel : ∀ v e1 ext, g.sommet v = true → SG.sommet v = false → v ∉ e1.visiter →
      e1.trouver = false → g.restants e1.visiter ≤ n →
      ∃ e2, appel v e1 ext = .ok e2 ∧ PostRechercheSG g SG v e1 e2)
    (vs : Voisins T W) (hvs : ∀ x ∈ vs, x ∈ g.voisinsDe courrant) (e : EtatRecherche T)
    (ext : Bool) (hext : SG.sommet courrant = true → ext = false)
    (ht : e.trouver = false) (hr : g.restants e.visiter ≤ n) :
    ∃ e', boucleRechercheSG g SG appel courrant vs e ext = .ok e' ∧
      PostBoucleSG g SG courrant e e' := by
  induction vs generalizing e ext with
  | nil =>
    refine ⟨_, rfl, fun x hx => hx, fun _ => rfl, ?_⟩
    intro h; simp [ht] at h
  | cons x reste ih =>
    have hx := hvs x (List.mem_cons_self _ _)
    have hvs' : ∀ y ∈ reste, y ∈ g.voisinsDe courrant :=
      fun y hy => hvs y (List.mem_cons_of_mem _ hy)
    have harc : g.arc courrant x.1 = true := arc_of_mem hx
    unfold boucleRechercheSG
    simp only [harc]
    cases hS : SG.sommet x.1 with
    | true =>
      cases hE : ext with
      | false =>
        simp only [Bool.not_true, Bool.false_eq_true, if_false, Bool.not_false, Bool.and_self,
          if_true]
        exact ih hvs' e false (fun _ => rfl) ht hr
      | true =>
        simp only [Bool.not_true, Bool.false_eq_true, if_false, Bool.and_self, if_true,
          Bool.false_and]
        refine ⟨_, rfl, fun y hy => hy, fun h => by simp at h, fun _ =>
          ⟨[], x.1, by simp, ?_, by simp, by simp, by simp, hS, fun _ => ?_⟩⟩
        · simp only [List.nil_append, List.chain'_cons, List.chain'_singleton, and_true]
          exact harc
        · by_contra hc
          have := hext (by simpa using hc)
          rw [hE] at this
          exact absurd this (by simp)
    | false =>
      simp only [Bool.not_false, if_true, Bool.not_true, Bool.and_false, Bool.false_eq_true,
        if_false, Bool.false_and]
      by_cases h2 : x.1 ∉ e.visiter ∧ e.trouver = false
      · simp only [h2, not_false_eq_true, and_self, if_true]
        have hsx : g.sommet x.1 = true := ((((inv_iff g).1 hinv).2 courrant).1 x hx).2.2
        obtain ⟨e1, a1, p1, p3, p4⟩ := happel x.1 e true hsx hS h2.1 ht hr
        simp only [a1]
        by_cases ht1 : e1.trouver = true
        · simp only [ht1, if_true]
          obtain ⟨xs, v, c1, c2, c3, c4, c5, c6, -⟩ := p4 ht1
          refine ⟨e1, rfl, p1, fun h => by simp [ht1] at h, fun _ =>
            ⟨x.1 :: xs, v, by rw [c1]; simp, ?_, c3, c4, ?_, c6, by simp⟩⟩
          · rw [List.cons_append, List.chain'_cons]
            exact ⟨harc, c2⟩
          · intro y hy
            rcases List.mem_cons.1 hy with rfl | hy
            · exact hS
            · exact c5 y hy
        · have ht1' : e1.trouver = false := by simpa using ht1
          simp only [ht1', Bool.false_eq_true, if_false]
          obtain ⟨e', a2, r1, r2, r3⟩ := ih hvs' e1 false (fun _ => rfl) ht1'
            (le_trans (restants_mono g p1) hr)
          refine ⟨e', a2, fun y hy => r1 y (p1 y hy), fun h => by rw [r2 h, p3 ht1'],
            fun h => ?_⟩
          obtain ⟨xs, v, c1, c2, c3, c4, c5, c6, c7⟩ := r3 h
          exact ⟨xs, v, by rw [c1, p3 ht1'], c2, c3, fun y hy hy' => c4 y hy (p1 y hy'), c5, c6,
            c7⟩
      · simp only [h2, if_false]
        exact ih hvs' e false (fun _ => rfl) ht hr

/-- The helper `rechercheProfondeurSG`: with fuel at least the number of vertices not yet
visited, the call returns and satisfies `PostRechercheSG`. -/
theorem rechercheProfondeurSGAux_spec {g : Digraph T W} (hinv : g.Inv) (SG : Digraph T W)
    (n : Nat) :
    ∀ courrant e ext, g.sommet courrant = true → (SG.sommet courrant = true → ext = false) →
      courrant ∉ e.visiter → e.trouver = false → g.restants e.visiter ≤ n →
      ∃ e', g.rechercheProfondeurSGAux SG n courrant e ext = .ok e' ∧
        PostRechercheSG g SG courrant e e' := by
  induction n with
  | zero =>
    intro u e _ hu _ hn _ hr
    have := restants_cons_lt g hu hn
    omega
  | succ n ih =>
    intro u e ext hu hext hn ht hr
    unfold rechercheProfondeurSGAux
    simp only [auSommet_of_sommet hu]
    have hr1 : g.restants (u :: e.visiter) ≤ n := by
      have := restants_cons_lt g hu hn
      omega
    obtain ⟨e', a, r1, r2, r3⟩ := boucleRechercheSG_spec hinv SG u n
      (g.rechercheProfondeurSGAux SG n)
      (fun v e1 ext1 h1 h2 h3 h4 h5 => ih v e1 ext1 h1 (fun h => by rw [h2] at h; simp at h)
        h3 h4 h5)
      (g.voisinsDe u) (fun x hx => hx)
      { e with visiter := u :: e.visiter, circuit := e.circuit ++ [u] } ext hext ht hr1
    refine ⟨e', a, fun x hx => r1 x (List.mem_cons_of_mem _ hx), fun h => ?_, fun h => ?_⟩
    · rw [r2 h]; simp
    · obtain ⟨xs, v, c1, c2, c3, c4, c5, c6, c7⟩ := r3 h
      refine ⟨xs, v, by rw [c1]; simp, c2, ?_, ?_, c5, c6, c7⟩
      · rw [List.nodup_cons]
        exact ⟨fun hc => c4 u hc (List.mem_cons_self _ _), c3⟩
      · intro x hx
        rcases List.mem_cons.1 hx with rfl | hx
        · exact hn
        · exact fun hc => c4 x hx (List.mem_cons_of_mem _ hc)

/-- The loop of `rechercheProfondeurSG(SG)` over starting vertices that are vertices of
both graphs: it returns the empty sequence or a circuit that leaves `SG` and comes back
to it. -/
theorem departsSG_spec {g : Digraph T W} (hinv : g.Inv) (SG : Digraph T W) {n : Nat}
    (hn : g.sommets ≤ n) (carte : Carte T W)
    (hc : ∀ p ∈ carte, g.sommet p.1 = true ∧ SG.sommet p.1 = true) :
    ∃ c, departsSG g SG n carte = .ok c ∧ (c = [] ∨ g.EstCircuitSG SG c) := by
  induction carte with
  | nil => exact ⟨[], rfl, Or.inl rfl⟩
  | cons p reste ih =>
    obtain ⟨h1, h2⟩ := hc p (List.mem_cons_self _ _)
    obtain ⟨e', a, -, -, p4⟩ := rechercheProfondeurSGAux_spec hinv SG n p.1 ⟨[], [], false⟩
      false h1 (fun _ => rfl) (by simp) rfl (by rw [restants_nil]; exact hn)
    unfold departsSG
    simp only [a]
    by_cases ht : e'.trouver = true
    · simp only [ht, if_true]
      obtain ⟨xs, v, c1, c2, c3, -, c5, c6, c7⟩ := p4 ht
      refine ⟨_, rfl, Or.inr ⟨p.1, xs, v, by rw [c1]; simp, fun hx => ?_, h2, c6, c5,
        (List.nodup_cons.1 c3).2, by rw [c1]; simpa using c2⟩⟩
      rw [c7 hx] at h2
      exact absurd h2 (by simp)
    · simp only [ht, if_false]
      exact ih (fun q hq => hc q (List.mem_cons_of_mem _ hq))

end Digraph

theorem paires_circuitSG {T : Type} (xs : List T) (hne : xs ≠ []) (v0 v : T) :
    ∀ uv ∈ paires (v0 :: (xs ++ [v])), uv.1 ∈ xs ∨ uv.2 ∈ xs := by
  induction xs generalizing v0 with
  | nil => exact absurd rfl hne
  | cons x r ih =>
    intro uv huv
    simp only [List.cons_append, paires, List.mem_cons] at huv
    rcases huv with rfl | huv
    · exact Or.inr (List.mem_cons_self _ _)
    · cases r with
      | nil =>
        simp only [List.nil_append, paires, List.mem_cons, List.not_mem_nil, or_false] at huv
        subst huv
        exact Or.inl (List.mem_cons_self _ _)
      | cons y r' =>
        rcases ih (by simp) x uv (by simpa using huv) with h | h
        · exact Or.inl (List.mem_cons_of_mem _ h)
        · exact Or.inr (List.mem_cons_of_mem _ h)

namespace Digraph
variable {T : Type} [LinearOrder T] {W : Type} [OfNat W 0] [Add W] [Sub W] [LE W] [LT W] [Min W]
  [DecidableRel (LE.le : W → W → Prop)] [DecidableRel (LT.lt : W → W → Prop)] [Limites W]

/-- The update between the two ends of the circuit does not change a `total` that
ignores the arcs between these two ends. -/
theorem total_ajusterExtremites {M : Type} [AddCancelCommMonoid M] (φ : T × T × ℚ → M)
    {g : Digraph T} (hinv : g.Inv) (start fin : T) (hs : g.sommet start = true)
    (hf : g.sommet fin = true)
    (hφ : ∀ w, φ (start, fin, w) = 0 ∧ φ (fin, start, w) = 0) {m : ℚ} (hm : 0 < m) :
    ∃ g', g.ajusterExtremites start fin m = .ok g' ∧ g'.Inv ∧ g'.cles = g.cles ∧
      total φ g' = total φ g := by
  unfold ajusterExtremites
  by_cases hse : start = fin
  · simp only [hse, ne_eq, not_true_eq_false, if_false]
    exact ⟨g, rfl, hinv, rfl, rfl⟩
  · simp only [ne_eq, hse, not_false_eq_true, if_true, inserer_of_sommet hs,
      inserer_of_sommet hf]
    by_cases ha : g.arc start fin = true
    · simp only [ha, if_true]
      obtain ⟨w, hw⟩ := (arc_iff _ _ _).1 ha
      refine ⟨_, rfl, hinv.modifierPoids _ _ _, cles_maj _ _ _, ?_⟩
      have e := total_modifierPoids φ hinv hw (fun emprunt => emprunt + m)
      simp only [(hφ _).1, ite_self, add_zero] at e
      exact e
    · simp only [ha, if_false]
      by_cases hb : g.arc fin start = true
      · simp only [hb, if_true]
        obtain ⟨w, hw⟩ := (arc_iff _ _ _).1 hb
        refine ⟨_, rfl, hinv.modifierPoids _ _ _, cles_maj _ _ _, ?_⟩
        have e := total_modifierPoids φ hinv hw (fun emprunt => emprunt - m)
        simp only [(hφ _).2, ite_self, add_zero] at e
        exact e
      · simp only [hb, if_false]
        have ha' : g.arc start fin = false := by simpa using ha
        obtain ⟨g', e, -, -, i⟩ := insererArc_spec g hse (le_of_lt hm)
        have hform : g.insererArc start fin m = .ok ⟨surVoisins g.graphe start
            (fun voisins => insererTuple voisins (fin, m))⟩ := by
          have hany : (g.voisinsDe start).any (fun voisin => decide (voisin.1 = fin)) = false := by
            rw [← arc_eq_any]; exact ha'
          unfold insererArc
          rw [inserer_of_sommet hs, inserer_of_sommet hf]
          simp only [ne_eq, hse, not_false_eq_true, ge_iff_le, le_of_lt hm, and_self, if_true,
            hany, Bool.false_eq_true, if_false]
        rw [hform] at e ⊢
        cases e
        refine ⟨_, rfl, i hinv hm, cles_maj _ _ _, ?_⟩
        have e1 := total_maj φ hs (fun voisins => insererTuple voisins (fin, m))
        have hp := ((perm_insererTuple (g.voisinsDe start) (fin, m)
          ((arc_eq_false_iff _ _ _).1 ha')).map (fun x => φ (start, x.1, x.2))).sum_eq
        simp only at e1
        rw [hp, List.map_cons, List.sum_cons, (hφ _).1, zero_add] at e1
        exact add_right_cancel e1

/-- Cancelling a circuit that leaves `SG` and comes back to it keeps the invariants and
the vertices, and lowers `potentielSG`. -/
theorem reduireDetteCirculaire_circuitSG {g : Digraph T} (hinv : g.Inv) (SG : Digraph T)
    {c : List T} (hc : g.EstCircuitSG SG c) :
    ∃ g', g.reduireDetteCirculaire c = .ok g' ∧ g'.Inv ∧ g'.cles = g.cles ∧
      g'.potentielSG SG < g.potentielSG SG := by
  obtain ⟨v0, xs, v, rfl, hne, hv0, hv, hxs, hnd, hch⟩ := hc
  have harc : ∀ uv ∈ paires (v0 :: (xs ++ [v])), g.arc uv.1 uv.2 = true :=
    (chain_iff_paires _ _).1 hch
  have hsrc : (paires (v0 :: (xs ++ [v]))).map Prod.fst = v0 :: xs := by
    rw [paires_map_fst]
    exact @List.dropLast_concat T (v0 :: xs) v
  have hsnd : ((paires (v0 :: (xs ++ [v]))).map Prod.fst).Nodup := by
    rw [hsrc, List.nodup_cons]
    refine ⟨fun hmem => ?_, hnd⟩
    rw [hxs v0 hmem] at hv0
    exact absurd hv0 (by simp)
  obtain ⟨m1, m2, m3, m4⟩ := minPaires_spec (paires (v0 :: (xs ++ [v]))) g Limites.max
  have hg : (g.minDetteCircuit (v0 :: (xs ++ [v]))).1 = g := by
    unfold minDetteCircuit
    rw [m1]
    apply foldl_inserer_of_sommets
    intro x hx
    obtain ⟨uv, huv, rfl⟩ := List.mem_map.1 hx
    exact sommet_of_arc (harc uv huv)
  have hm := minDetteCircuit_pos hinv (v0 :: (xs ++ [v]))
  have hval : ∀ uv ∈ paires (v0 :: (xs ++ [v])), ∃ w, (uv.2, w) ∈ g.voisinsDe uv.1 ∧
      (g.minDetteCircuit (v0 :: (xs ++ [v]))).2 ≤ w := by
    intro uv huv
    obtain ⟨w, hw⟩ := (arc_iff _ _ _).1 (harc uv huv)
    exact ⟨w, hw, m3 uv huv w hw⟩
  have hval' : ∀ uv ∈ paires (v0 :: (xs ++ [v])), ∃ w, (uv.2, w) ∈ g.voisinsDe uv.1 :=
    fun uv huv => by obtain ⟨w, hw, -⟩ := hval uv huv; exact ⟨w, hw⟩
  have hL : paires (v0 :: (xs ++ [v])) ≠ [] := by
    cases xs with
    | nil => exact absurd rfl hne
    | cons a r => simp [paires]
  have hlast : (xs ++ [v]).getLastD v0 = v := by
    cases xs with
    | nil => exact absurd rfl hne
    | cons a r => simp [List.getLastD]
  have hcond : ∀ uv ∈ paires (v0 :: (xs ++ [v])),
      ¬ (SG.sommet uv.1 = true ∧ SG.sommet uv.2 = true) := by
    intro uv huv hboth
    rcases paires_circuitSG xs hne v0 v uv huv with h | h
    · rw [hxs _ h] at hboth; simp at hboth
    · rw [hxs _ h] at hboth; simp at hboth
  have i2 := (reduirePaires_inv (paires (v0 :: (xs ++ [v])))
    (g.minDetteCircuit (v0 :: (xs ++ [v]))).2 g hinv).1
  have c2 := (reduirePaires_spec (paires (v0 :: (xs ++ [v])))
    (g.minDetteCircuit (v0 :: (xs ++ [v]))).2 g hinv hsnd hval').1
  have p2 := potentiel_cond_reduirePaires
    (fun a b => ¬ (SG.sommet a = true ∧ SG.sommet b = true)) (paires (v0 :: (xs ++ [v])))
    (g.minDetteCircuit (v0 :: (xs ++ [v]))).2 hm g hinv hsnd hval hcond hL m4
  have hsv0 : g.sommet v0 = true := by
    have : v0 ∈ (paires (v0 :: (xs ++ [v]))).map Prod.fst := by rw [hsrc]; simp
    obtain ⟨uv, huv, e⟩ := List.mem_map.1 this
    exact e ▸ sommet_of_arc (harc uv huv)
  have hsv : g.sommet v = true := by
    have : v ∈ (paires (v0 :: (xs ++ [v]))).map Prod.snd := by
      rw [paires_map_snd]; simp
    obtain ⟨uv, huv, e⟩ := List.mem_map.1 this
    obtain ⟨w, hw⟩ := (arc_iff _ _ _).1 (harc uv huv)
    exact e ▸ ((((inv_iff g).1 hinv).2 uv.1).1 _ hw).2.2
  obtain ⟨g', e3, i3, c3, t3⟩ := total_ajusterExtremites
    (fun e : T × T × ℚ => if ¬ (SG.sommet e.1 = true ∧ SG.sommet e.2.1 = true)
      then ⌈e.2.2 / doubleMax⌉₊ else 0) i2 v0 v
    (by rw [sommet_eq_of_cles c2]; exact hsv0) (by rw [sommet_eq_of_cles c2]; exact hsv)
    (fun w => by simp [hv0, hv]) hm
  refine ⟨g', ?_, i3, c3.trans c2, ?_⟩
  · unfold reduireDetteCirculaire
    simp only
    rw [hg, hlast]
    exact e3
  · unfold potentielSG
    rw [t3]
    exact p2

/-- The loop of `reduire(SG)`, when the vertices of `SG` are vertices of the graph: with
enough fuel it returns; the result satisfies the invariants and has the same vertices. -/
theorem boucleReduireSG_spec (SG : Digraph T) {n : Nat} (k : Nat) :
    ∀ g : Digraph T, g.Inv → (∀ x, SG.sommet x = true → g.sommet x = true) → g.sommets ≤ n →
      g.potentielSG SG < k →
      ∃ g', boucleReduireSG SG n k g = .ok g' ∧ g'.Inv ∧ g'.cles = g.cles ∧
        g'.rechercheProfondeurSG n SG = .ok [] := by
  induction k with
  | zero => intro g _ _ _ hk; omega
  | succ k ih =>
    intro g hinv hsub hn hk
    have hcarte : ∀ p ∈ SG.graphe, g.sommet p.1 = true ∧ SG.sommet p.1 = true := by
      intro p hp
      have : SG.sommet p.1 = true := (sommet_iff _ _).2 (List.mem_map.2 ⟨p, hp, rfl⟩)
      exact ⟨hsub _ this, this⟩
    obtain ⟨c, a, hc⟩ := departsSG_spec hinv SG hn SG.graphe hcarte
    unfold boucleReduireSG
    have a' : g.rechercheProfondeurSG n SG = .ok c := a
    simp only [a']
    rcases hc with rfl | hcirc
    · simp only [List.isEmpty_nil, if_true]
      exact ⟨g, rfl, hinv, rfl, a'⟩
    · have hne : c.isEmpty = false := by
        obtain ⟨v0, xs, v, rfl, -⟩ := hcirc
        rfl
      simp only [hne, Bool.false_eq_true, if_false]
      obtain ⟨g1, e1, i1, c1, p1⟩ := reduireDetteCirculaire_circuitSG hinv SG hcirc
      simp only [e1]
      obtain ⟨g', e', i', c', r'⟩ := ih g1 i1
        (fun x hx => by rw [sommet_eq_of_cles c1]; exact hsub x hx)
        (by rw [sommets_eq_of_cles c1]; exact hn) (by omega)
      exact ⟨g', e', i', c'.trans c1, r'⟩

end Digraph

namespace Digraph
variable {T : Type} [LinearOrder T] {W : Type} [OfNat W 0] [Add W] [Sub W] [LE W] [LT W] [Min W]
  [DecidableRel (LE.le : W → W → Prop)] [DecidableRel (LT.lt : W → W → Prop)] [Limites W]

/-! ### The fuel has no influence on a result -/

theorem boucleRecherche_mono (appel appel' : T → EtatRecherche T → Res (EtatRecherche T))
    (h : ∀ v e e', appel v e = .ok e' → appel' v e = .ok e') (debut u : T) (vs : Voisins T W) :
    ∀ e e', boucleRecherche appel debut u vs e = .ok e' →
      boucleRecherche appel' debut u vs e = .ok e' := by
  induction vs with
  | nil => intro e e' he; simpa [boucleRecherche] using he
  | cons x reste ih =>
    intro e e' he
    unfold boucleRecherche at he ⊢
    by_cases h1 : x.1 = debut ∧ u ∈ e.visiter
    · simpa only [h1, and_self, if_true] using he
    · simp only [h1, if_false] at he ⊢
      by_cases h2 : x.1 ∉ e.visiter ∧ e.trouver = false
      · simp only [h2, not_false_eq_true, and_self, if_true] at he ⊢
        cases ha : appel x.1 e with
        | error err => simp [ha] at he
        | ok e1 =>
          simp only [ha] at he
          simp only [h _ _ _ ha]
          by_cases ht : e1.trouver = true
          · simpa only [ht, if_true] using he
          · simp only [ht, if_false] at he ⊢
            exact ih _ _ he
      · simp only [h2, if_false] at he ⊢
        exact ih _ _ he

theorem rechercheProfondeurAux_succ (g : Digraph T W) (debut : T) (n : Nat) :
    ∀ u e e', g.rechercheProfondeurAux debut n u e = .ok e' →
      g.rechercheProfondeurAux debut (n + 1) u e = .ok e' := by
  induction n with
  | zero => intro u e e' h; simp [rechercheProfondeurAux] at h
  | succ n ih =>
    intro u e e' h
    unfold rechercheProfondeurAux at h ⊢
    cases ha : g.auSommet u with
    | error err => simp [ha] at h
    | ok voisins =>
      simp only [ha] at h ⊢
      exact boucleRecherche_mono _ _ ih debut u voisins _ _ h

theorem rechercheProfondeurAux_mono (g : Digraph T W) (debut : T) {n n' : Nat} (hn : n ≤ n')
    {u : T} {e e' : EtatRecherche T} (h : g.rechercheProfondeurAux debut n u e = .ok e') :
    g.rechercheProfondeurAux debut n' u e = .ok e' := by
  induction hn with
  | refl => exact h
  | step _ ih => exact rechercheProfondeurAux_succ g debut _ u e e' ih

theorem rechercheProfondeur_mono (g : Digraph T W) {n n' : Nat} (hn : n ≤ n') {s : T}
    {c : List T} (h : g.rechercheProfondeur n s = .ok c) :
    g.rechercheProfondeur n' s = .ok c := by
  unfold rechercheProfondeur at h ⊢
  cases ha : g.rechercheProfondeurAux s n s ⟨[], [], false⟩ with
  | error err => simp [ha] at h
  | ok e =>
    rw [rechercheProfondeurAux_mono g s hn ha]
    simpa only [ha] using h

theorem boucleReduire_mono (s : T) {n n' : Nat} (hn : n ≤ n') (k : Nat) :
    ∀ k', k ≤ k' → ∀ g g' : Digraph T W, boucleReduire s n k g = .ok g' →
      boucleReduire s n' k' g = .ok g' := by
  induction k with
  | zero => intro k' _ g g' h; simp [boucleReduire] at h
  | succ k ih =>
    intro k' hk g g' h
    obtain ⟨j, rfl⟩ : ∃ j, k' = j + 1 := ⟨k' - 1, by omega⟩
    unfold boucleReduire at h ⊢
    cases hc : g.rechercheProfondeur n s with
    | error err => simp [hc] at h
    | ok c =>
      simp only [hc] at h
      simp only [rechercheProfondeur_mono g hn hc]
      by_cases he : c.isEmpty = true
      · simpa only [he, if_true] using h
      · simp only [he, if_false] at h ⊢
        cases hr : g.reduireDetteCirculaire c with
        | error err => simp [hr] at h
        | ok g1 =>
          simp only [hr] at h ⊢
          exact ih j (by omega) g1 g' h

theorem reduire_mono (g : Digraph T W) {n n' : Nat} (hn : n ≤ n') {s : T} {g' : Digraph T W}
    (h : g.reduire n s = .ok g') : g.reduire n' s = .ok g' := by
  unfold reduire at h ⊢
  by_cases hs : g.sommet s = true
  · simp only [hs, if_true] at h ⊢
    exact boucleReduire_mono s hn n n' hn g g' h
  · simp [hs] at h

theorem boucleRechercheSG_mono (g SG : Digraph T W)
    (appel appel' : T → EtatRecherche T → Bool → Res (EtatRecherche T))
    (h : ∀ v e ext e', appel v e ext = .ok e' → appel' v e ext = .ok e') (courrant : T)
    (vs : Voisins T W) :
    ∀ e ext e', boucleRechercheSG g SG appel courrant vs e ext = .ok e' →
      boucleRechercheSG g SG appel' courrant vs e ext = .ok e' := by
  induction vs with
  | nil => intro e ext e' he; simpa [boucleRechercheSG] using he
  | cons x reste ih =>
    intro e ext e' he
    unfold boucleRechercheSG at he ⊢
    cases hS : SG.sommet x.1 with
    | true =>
      cases hE : ext with
      | false =>
        simp only [hS, hE, Bool.not_true, Bool.false_eq_true, if_false, Bool.not_false,
          Bool.and_self, if_true] at he ⊢
        exact ih _ _ _ he
      | true =>
        cases hA : g.arc courrant x.1 with
        | true =>
          simpa only [hS, hE, hA, Bool.not_true, Bool.false_eq_true, if_false, Bool.and_self,
            if_true, Bool.false_and] using he
        | false =>
          simp only [hS, hE, hA, Bool.not_true, Bool.false_eq_true, if_false, Bool.and_self,
            Bool.and_false, Bool.false_and] at he ⊢
          by_cases h2 : x.1 ∉ e.visiter ∧ e.trouver = false
          · simp only [h2, not_false_eq_true, and_self, if_true] at he ⊢
            cases ha : appel x.1 e false with
            | error err => simp [ha] at he
            | ok e1 =>
              simp only [ha] at he
              simp only [h _ _ _ _ ha]
              by_cases ht : e1.trouver = true
              · simpa only [ht, if_true] using he
              · simp only [ht, if_false] at he ⊢
                exact ih _ _ _ he
          · simp only [h2, if_false] at he ⊢
            exact ih _ _ _ he
    | false =>
      simp only [hS, Bool.not_false, if_true, Bool.not_true, Bool.and_false, Bool.false_eq_true,
        if_false, Bool.false_and] at he ⊢
      by_cases h2 : x.1 ∉ e.visiter ∧ e.trouver = false
      · simp only [h2, not_false_eq_true, and_self, if_true] at he ⊢
        cases ha : appel x.1 e true with
        | error err => simp [ha] at he
        | ok e1 =>
          simp only [ha] at he
          simp only [h _ _ _ _ ha]
          by_cases ht : e1.trouver = true
          · simpa only [ht, if_true] using he
          · simp only [ht, if_false] at he ⊢
            exact ih _ _ _ he
      · simp only [h2, if_false] at he ⊢
        exact ih _ _ _ he

theorem rechercheProfondeurSGAux_succ (g SG : Digraph T W) (n : Nat) :
    ∀ u e ext e', g.rechercheProfondeurSGAux SG n u e ext = .ok e' →
      g.rechercheProfondeurSGAux SG (n + 1) u e ext = .ok e' := by
  induction n with
  | zero => intro u e ext e' h; simp [rechercheProfondeurSGAux] at h
  | succ n ih =>
    intro u e ext e' h
    unfold rechercheProfondeurSGAux at h ⊢
    cases ha : g.auSommet u with
    | error err => simp [ha] at h
    | ok voisins =>
      simp only [ha] at h ⊢
      exact boucleRechercheSG_mono g SG _ _ ih u voisins _ _ _ h

theorem rechercheProfondeurSGAux_mono (g SG : Digraph T W) {n n' : Nat} (hn : n ≤ n')
    {u : T} {e e' : EtatRecherche T} {ext : Bool}
    (h : g.rechercheProfondeurSGAux SG n u e ext = .ok e') :
    g.rechercheProfondeurSGAux SG n' u e ext = .ok e' := by
  induction hn with
  | refl => exact h
  | step _ ih => exact rechercheProfondeurSGAux_succ g SG _ u e ext e' ih

theorem departsSG_mono (g SG : Digraph T W) {n n' : Nat} (hn : n ≤ n') (carte : Carte T W) :
    ∀ c, departsSG g SG n carte = .ok c → departsSG g SG n' carte = .ok c := by
  induction carte with
  | nil => intro c h; simpa [departsSG] using h
  | cons p reste ih =>
    intro c h
    unfold departsSG at h ⊢
    cases ha : g.rechercheProfondeurSGAux SG n p.1 ⟨[], [], false⟩ false with
    | error err => simp [ha] at h
    | ok e =>
      simp only [ha] at h
      simp only [rechercheProfondeurSGAux_mono g SG hn ha]
      by_cases ht : e.trouver = true
      · simpa only [ht, if_true] using h
      · simp only [ht, if_false] at h ⊢
        exact ih c h

theorem boucleReduireSG_mono (SG : Digraph T W) {n n' : Nat} (hn : n ≤ n') (k : Nat) :
    ∀ k', k ≤ k' → ∀ g g' : Digraph T W, boucleReduireSG SG n k g = .ok g' →
      boucleReduireSG SG n' k' g = .ok g' := by
  induction k with
  | zero => intro k' _ g g' h; simp [boucleReduireSG] at h
  | succ k ih =>
    intro k' hk g g' h
    obtain ⟨j, rfl⟩ : ∃ j, k' = j + 1 := ⟨k' - 1, by omega⟩
    unfold boucleReduireSG at h ⊢
    cases hc : g.rechercheProfondeurSG n SG with
    | error err => simp [hc] at h
    | ok c =>
      simp only [hc] at h
      have hc' : g.rechercheProfondeurSG n' SG = .ok c := departsSG_mono g SG hn _ c hc
      simp only [hc']
      by_cases he : c.isEmpty = true
      · simpa only [he, if_true] using h
      · simp only [he, if_false] at h ⊢
        cases hr : g.reduireDetteCirculaire c with
        | error err => simp [hr] at h
        | ok g1 =>
          simp only [hr] at h ⊢
          exact ih j (by omega) g1 g' h

theorem reduireSG_mono (g SG : Digraph T W) {n n' : Nat} (hn : n ≤ n') {g' : Digraph T W}
    (h : g.reduireSG n SG = .ok g') : g.reduireSG n' SG = .ok g' :=
  boucleReduireSG_mono SG hn n n' hn g g' h

end Digraph

namespace Digraph
variable {T : Type} [LinearOrder T] {W : Type} [OfNat W 0] [Add W] [Sub W] [LE W] [LT W] [Min W]
  [DecidableRel (LE.le : W → W → Prop)] [DecidableRel (LT.lt : W → W → Prop)] [Limites W]

/-- The loop of `reduire(s)` stops on a graph in which the search finds nothing. -/
theorem boucleReduire_fin (s : T) (n k : Nat) :
    ∀ g g' : Digraph T W, boucleReduire s n k g = .ok g' → g'.rechercheProfondeur n s = .ok [] := by
  induction k with
  | zero => intro g g' h; simp [boucleReduire] at h
  | succ k ih =>
    intro g g' h
    unfold boucleReduire at h
    cases hc : g.rechercheProfondeur n s with
    | error err => simp [hc] at h
    | ok c =>
      simp only [hc] at h
      by_cases he : c.isEmpty = true
      · simp only [he, if_true] at h
        cases h
        rw [hc, List.isEmpty_iff.1 he]
      · simp only [he, if_false] at h
        cases hr : g.reduireDetteCirculaire c with
        | error err => simp [hr] at h
        | ok g1 =>
          simp only [hr] at h
          exact ih g1 g' h

/-- Whatever the fuel, a graph returned by `reduire(s)` satisfies the invariants, has the
same vertices and the same net positions, has no arc to `s` from a vertex reachable from
`s`, and is returned unchanged by a second `reduire(s)`. -/
theorem reduire_correct {g : Digraph T} (hinv : g.Inv) {s : T} {n : Nat} {g' : Digraph T}
    (h : g.reduire n s = .ok g') :
    g'.Inv ∧ g'.cles = g.cles ∧
      (∀ u, g'.credit u - g'.dette u = g.credit u - g.dette u) ∧
      (∀ x, g'.Atteint s x → g'.arc x s = false) ∧
      g'.rechercheProfondeur n s = .ok [] ∧ g'.reduire n s = .ok g' := by
  have hs : g.sommet s = true := by
    by_contra hc
    simp [reduire, hc] at h
  have hN : g.sommets + g.potentiel < max n (g.sommets + g.potentiel + 1) := by
    have := le_max_right n (g.sommets + g.potentiel + 1)
    omega
  obtain ⟨g'', e, i, c, sld, -, t, -⟩ := reduire_spec hinv hs hN
  have e' := reduire_mono g (le_max_left n (g.sommets + g.potentiel + 1)) h
  rw [e'] at e
  cases e
  have hfin : g'.rechercheProfondeur n s = .ok [] := by
    unfold reduire at h
    simp only [hs, if_true] at h
    exact boucleReduire_fin s n n g g' h
  refine ⟨i, c, sld, t, hfin, ?_⟩
  have hs' : g'.sommet s = true := by rw [sommet_eq_of_cles c]; exact hs
  have hn : n ≠ 0 := by
    rintro rfl
    simp [reduire, hs, boucleReduire] at h
  obtain ⟨k, rfl⟩ : ∃ k, n = k + 1 := ⟨n - 1, by omega⟩
  unfold reduire
  simp only [hs', if_true]
  unfold boucleReduire
  simp [hfin]

/-- Whatever the fuel, a graph returned by `reduire(SG)` satisfies the invariants. -/
theorem reduireSG_correct {g : Digraph T} (hinv : g.Inv) {SG : Digraph T} {n : Nat}
    {g' : Digraph T} (h : g.reduireSG n SG = .ok g') : g'.Inv :=
  (boucleReduireSG_inv SG n n g g' hinv h).1

/-- The method `reduire(SG)` returns when the vertices of `SG` are vertices of the graph
and the fuel is above the number of vertices plus `potentielSG`. -/
theorem reduireSG_termine {g : Digraph T} (hinv : g.Inv) {SG : Digraph T}
    (hsub : ∀ x, SG.sommet x = true → g.sommet x = true) {n : Nat}
    (hn : g.sommets + g.potentielSG SG < n) :
    ∃ g', g.reduireSG n SG = .ok g' ∧ g'.Inv ∧ g'.cles = g.cles ∧
      g'.rechercheProfondeurSG n SG = .ok [] :=
  boucleReduireSG_spec SG n g hinv hsub (by omega) (by omega)

end Digraph

section EnoncesReduire

open Digraph

variable {T : Type} [LinearOrder T]

/-- C1: for every graph satisfying the structural invariants and every vertex `s`,
`reduire(s)` returns as soon as the fuel exceeds the number of vertices plus `potentiel`,
and whenever it returns a graph, for every vertex `v` the value `pret(v) - dette(v)` is
the same in that graph as in the graph before the call (weights are exact rationals). -/
theorem C1_conservation_reduire (g : Digraph T) (hinv : g.Inv) (s : T)
    (hs : g.sommet s = true) :
    (∀ n, g.sommets + g.potentiel < n → ∃ g', g.reduire n s = .ok g') ∧
    ∀ n g', g.reduire n s = .ok g' →
      ∀ v, g.sommet v = true →
        ∃ p p', g.pret v = .ok p ∧ g'.pret v = .ok p' ∧ p' - g'.dette v = p - g.dette v := by
  refine ⟨fun n hn => ?_, fun n g' h v hv => ?_⟩
  · obtain ⟨g', e, -⟩ := reduire_spec hinv hs hn
    exact ⟨g', e⟩
  · obtain ⟨-, c, sld, -⟩ := reduire_correct hinv h
    exact ⟨g.credit v, g'.credit v, pret_eq_credit hv,
      pret_eq_credit (by rw [sommet_eq_of_cles c]; exact hv), sld v⟩

theorem C1_conservation_reduire_witness :
    exempleRetour.Inv ∧ exempleRetour.sommet 0 = true ∧
    exempleRetour.reduire 7 0 = .ok ⟨[(0, [(2, 2)]), (1, []), (2, [(1, 2)])]⟩ ∧
    ((∀ n, exempleRetour.sommets + exempleRetour.potentiel < n →
        ∃ g', exempleRetour.reduire n 0 = .ok g') ∧
      ∀ n g', exempleRetour.reduire n 0 = .ok g' →
        ∀ v, exempleRetour.sommet v = true →
          ∃ p p', exempleRetour.pret v = .ok p ∧ g'.pret v = .ok p' ∧
            p' - g'.dette v = p - exempleRetour.dette v) :=
  ⟨by decide, by decide, by decide!,
    C1_conservation_reduire exempleRetour (by decide) 0 (by decide)⟩

/-- C3: for every graph satisfying the structural invariants and every vertex `s`,
`reduire(s)` returns as soon as the fuel exceeds the number of vertices plus `potentiel`,
and whenever it returns a graph, no vertex reachable from `s` in that graph has an arc
to `s`, the search from `s` returns the empty sequence on it, and a second `reduire(s)`
returns the same graph (no cancellation is performed). -/
theorem C3_idempotence_reduire (g : Digraph T) (hinv : g.Inv) (s : T)
    (hs : g.sommet s = true) :
    (∀ n, g.sommets + g.potentiel < n → ∃ g', g.reduire n s = .ok g') ∧
    ∀ n g', g.reduire n s = .ok g' →
      (∀ x, g'.Atteint s x → g'.arc x s = false) ∧
      g'.rechercheProfondeur n s = .ok [] ∧
      g'.reduire n s = .ok g' := by
  refine ⟨fun n hn => ?_, fun n g' h => ?_⟩
  · obtain ⟨g', e, -⟩ := reduire_spec hinv hs hn
    exact ⟨g', e⟩
  · obtain ⟨-, -, -, t, r, e⟩ := reduire_correct hinv h
    exact ⟨t, r, e⟩

theorem C3_idempotence_reduire_witness :
    exempleRetour.Inv ∧ exempleRetour.sommet 0 = true ∧
    exempleRetour.reduire 7 0 = .ok ⟨[(0, [(2, 2)]), (1, []), (2, [(1, 2)])]⟩ ∧
    ((∀ n, exempleRetour.sommets + exempleRetour.potentiel < n →
        ∃ g', exempleRetour.reduire n 0 = .ok g') ∧
      ∀ n g', exempleRetour.reduire n 0 = .ok g' →
        (∀ x, g'.Atteint 0 x → g'.arc x 0 = false) ∧
        g'.rechercheProfondeur n 0 = .ok [] ∧
        g'.reduire n 0 = .ok g') :=
  ⟨by decide, by decide, by decide!,
    C3_idempotence_reduire exempleRetour (by decide) 0 (by decide)⟩

end EnoncesReduire

section EnoncesInvariants

open Digraph

variable {T : Type} [LinearOrder T]

/-- C6: the structural invariants (no arc from a vertex to itself, strictly positive
weights, at most one arc per ordered pair, every end of an arc a vertex; together with
the distinctness of the keys of the map) hold of the empty graph, and when they hold of
a graph they hold after `inserer(u)`, after `inserer(u, v, w)` with `u != v` and
`w > 0`, after `supprimer(u)`, after `supprimer(u, v)`, after `reduire(s)` with `s` a
vertex, of `SG = cooperative(S)` for a set `S` of vertices, and after `reduire(SG)`.
The calls that can fail return: the insertion and the extraction always, the two
reductions as soon as the fuel exceeds the number of vertices plus the number of
subtractions still possible; and whatever the fuel, a graph returned by a reduction
satisfies the invariants. -/
theorem C6_invariants_preserves (g : Digraph T) (hinv : g.Inv) :
    (vide : Digraph T).Inv ∧
    (∀ u, (g.inserer u).Inv) ∧
    (∀ u v w, u ≠ v → 0 < w → ∃ g', g.insererArc u v w = .ok g' ∧ g'.Inv) ∧
    (∀ u, (g.supprimer u).Inv) ∧
    (∀ u v, (g.supprimerArc u v).Inv) ∧
    (∀ s, g.sommet s = true →
      (∀ n, g.sommets + g.potentiel < n → ∃ g', g.reduire n s = .ok g') ∧
      (∀ n g', g.reduire n s = .ok g' → g'.Inv)) ∧
    (∀ S, (∀ u ∈ S, g.sommet u = true) →
      ∃ SG, g.cooperative S = .ok SG ∧ SG.Inv ∧
        (∀ n, g.sommets + g.potentielSG SG < n → ∃ g', g.reduireSG n SG = .ok g') ∧
        (∀ n g', g.reduireSG n SG = .ok g' → g'.Inv)) := by
  refine ⟨vide_inv, fun u => hinv.inserer u, fun u v w huv hw => ?_, fun u => hinv.supprimer u,
    fun u v => hinv.supprimerArc u v, fun s hs => ⟨fun n hn => ?_, fun n g' h => ?_⟩,
    fun S hS => ?_⟩
  · obtain ⟨g', e, -, -, i⟩ := insererArc_spec g huv (le_of_lt hw)
    exact ⟨g', e, i hinv hw⟩
  · obtain ⟨g', e, -⟩ := reduire_spec hinv hs hn
    exact ⟨g', e⟩
  · exact (reduire_correct hinv h).1
  · obtain ⟨SG, e, i, s, -⟩ := cooperative_spec hinv hS
    refine ⟨SG, e, i, fun n hn => ?_, fun n g' h => reduireSG_correct hinv h⟩
    obtain ⟨g', e', -⟩ := reduireSG_termine hinv (fun x hx => hS x ((s x).1 hx)) hn
    exact ⟨g', e'⟩

theorem C6_invariants_preserves_witness :
    exempleRetour.Inv ∧
    ((vide : Digraph Nat).Inv ∧
    (∀ u, (exempleRetour.inserer u).Inv) ∧
    (∀ u v w, u ≠ v → 0 < w → ∃ g', exempleRetour.insererArc u v w = .ok g' ∧ g'.Inv) ∧
    (∀ u, (exempleRetour.supprimer u).Inv) ∧
    (∀ u v, (exempleRetour.supprimerArc u v).Inv) ∧
    (∀ s, exempleRetour.sommet s = true →
      (∀ n, exempleRetour.sommets + exempleRetour.potentiel < n →
        ∃ g', exempleRetour.reduire n s = .ok g') ∧
      (∀ n g', exempleRetour.reduire n s = .ok g' → g'.Inv)) ∧
    (∀ S, (∀ u ∈ S, exempleRetour.sommet u = true) →
      ∃ SG, exempleRetour.cooperative S = .ok SG ∧ SG.Inv ∧
        (∀ n, exempleRetour.sommets + exempleRetour.potentielSG SG < n →
          ∃ g', exempleRetour.reduireSG n SG = .ok g') ∧
        (∀ n g', exempleRetour.reduireSG n SG = .ok g' → g'.Inv))) :=
  ⟨by decide, C6_invariants_preserves exempleRetour (by decide)⟩

end EnoncesInvariants

section EnoncesReduireSG

open Digraph

/-- C2 (source behaviour): on the graph with arcs `0 -> 2` (5), `2 -> 1` (5), `1 -> 0` (3)
and `SG = cooperative({0, 1})`, the search finds the circuit `0, 2, 1`, whose minimum is
5; the arc `(1, 0)` of weight 3 is smaller than 5 and is erased by the update between
the two ends. Whatever the fuel (at least 4), `reduire(SG)` returns the graph without
arcs: `pret(0) - dette(0)` goes from `5 - 3 = 2` to `0`, and `pret(1) - dette(1)` from
`3 - 5 = -2` to `0`. -/
theorem C2_reduireSG_modifie_solde :
    exempleRetour.Inv ∧
    exempleRetour.cooperative [0, 1] = .ok ⟨[(0, []), (1, [(0, 3)])]⟩ ∧
    (∀ n, 4 ≤ n →
      exempleRetour.rechercheProfondeurSG n ⟨[(0, []), (1, [(0, 3)])]⟩ = .ok [0, 2, 1]) ∧
    exempleRetour.reduireDetteCirculaire [0, 2, 1] = .ok ⟨[(0, []), (1, []), (2, [])]⟩ ∧
    (∀ n, 4 ≤ n →
      exempleRetour.reduireSG n ⟨[(0, []), (1, [(0, 3)])]⟩ = .ok ⟨[(0, []), (1, []), (2, [])]⟩) ∧
    exempleRetour.pret 0 = .ok 5 ∧ exempleRetour.dette 0 = 3 ∧
    (⟨[(0, []), (1, []), (2, [])]⟩ : Digraph Nat).pret 0 = .ok 0 ∧
    (⟨[(0, []), (1, []), (2, [])]⟩ : Digraph Nat).dette 0 = 0 ∧
    exempleRetour.pret 1 = .ok 3 ∧ exempleRetour.dette 1 = 5 ∧
    (⟨[(0, []), (1, []), (2, [])]⟩ : Digraph Nat).pret 1 = .ok 0 ∧
    (⟨[(0, []), (1, []), (2, [])]⟩ : Digraph Nat).dette 1 = 0 := by
  refine ⟨by decide, by decide!, fun n hn => ?_, by decide!, fun n hn => ?_, by decide!,
    by decide!, by decide!, by decide!, by decide!, by decide!, by decide!, by decide!⟩
  · exact departsSG_mono exempleRetour _ hn _ _ (by decide!)
  · exact reduireSG_mono exempleRetour _ hn (by decide!)

/-- C4 (source behaviour): on the graph with arcs `1 -> 2`, `1 -> 5`, `5 -> 1` and
`SG = cooperative({5})`, the search from 5 enters 1, explores the outside neighbour 2
first, which resets the flag `exterieurSG`, and then skips the neighbour 5: whatever the
fuel (at least 4), no circuit is found and `reduire(SG)` returns the graph unchanged,
although `5, 1, 5` leaves `SG` and comes back to it along arcs of the graph. -/
theorem C4_reduireSG_laisse_un_circuit :
    exempleBoucleExterne.Inv ∧
    exempleBoucleExterne.cooperative [5] = .ok ⟨[(5, [])]⟩ ∧
    (∀ n, 4 ≤ n → exempleBoucleExterne.rechercheProfondeurSG n ⟨[(5, [])]⟩ = .ok []) ∧
    (∀ n, 4 ≤ n → exempleBoucleExterne.reduireSG n ⟨[(5, [])]⟩ = .ok exempleBoucleExterne) ∧
    exempleBoucleExterne.arc 5 1 = true ∧ exempleBoucleExterne.arc 1 5 = true ∧
    (⟨[(5, [])]⟩ : Digraph Nat).sommet 5 = true ∧
    (⟨[(5, [])]⟩ : Digraph Nat).sommet 1 = false := by
  refine ⟨by decide, by decide, fun n hn => ?_, fun n hn => ?_, by decide, by decide,
    by decide, by decide⟩
  · exact departsSG_mono exempleBoucleExterne _ hn _ _ (by decide)
  · exact reduireSG_mono exempleBoucleExterne _ hn (by decide)

end EnoncesReduireSG

section LemmesRetirerPremier
variable {T : Type} [LinearOrder T] {W : Type} [OfNat W 0] [Add W] [Sub W] [LE W] [LT W] [Min W]
  [DecidableRel (LE.le : W → W → Prop)] [DecidableRel (LT.lt : W → W → Prop)] [Limites W]

theorem retirerPremier_of_absent (vs : Voisins T W) (v : T) (h : v ∉ vs.map Prod.fst) :
    retirerPremier vs v = vs := by
  induction vs with
  | nil => rfl
  | cons x reste ih =>
    simp only [List.map_cons, List.mem_cons, not_or] at h
    have hx : ¬ x.1 = v := fun e => h.1 e.symm
    simp [retirerPremier, hx, ih h.2]

theorem not_mem_retirerPremier (vs : Voisins T W) (v : T) (hn : (vs.map Prod.fst).Nodup) :
    v ∉ (retirerPremier vs v).map Prod.fst := by
  induction vs with
  | nil => simp [retirerPremier]
  | cons x reste ih =>
    simp only [List.map_cons, List.nodup_cons] at hn
    unfold retirerPremier
    by_cases hx : x.1 = v
    · simp only [hx, if_true]
      exact hx ▸ hn.1
    · simp only [hx, if_false, List.map_cons, List.mem_cons, not_or]
      exact ⟨fun e => hx e.symm, ih hn.2⟩

theorem find_retirerPremier (vs : Voisins T W) (v b : T) (hb : b ≠ v) :
    (retirerPremier vs v).find? (fun x => decide (x.1 = b))
      = vs.find? (fun x => decide (x.1 = b)) := by
  induction vs with
  | nil => rfl
  | cons x reste ih =>
    unfold retirerPremier
    by_cases hx : x.1 = v
    · have hxb : ¬ x.1 = b := by rw [hx]; exact fun e => hb e.symm
      simp only [hx, if_true]
      rw [List.find?_cons_of_neg _ (by simpa [hx] using hxb)]
    · simp only [hx, if_false]
      by_cases hxb : x.1 = b
      · rw [List.find?_cons_of_pos _ (by simpa using hxb),
          List.find?_cons_of_pos _ (by simpa using hxb)]
      · rw [List.find?_cons_of_neg _ (by simpa using hxb),
          List.find?_cons_of_neg _ (by simpa using hxb), ih]

theorem surVoisins_id (m : Carte T W) (a : T) (f : Voisins T W → Voisins T W)
    (h : ∀ vs, trouve m a = some vs → f vs = vs) : surVoisins m a f = m := by
  induction m with
  | nil => rfl
  | cons p reste ih =>
    obtain ⟨k, ws⟩ := p
    unfold surVoisins
    by_cases hk : k = a
    · have := h ws (by simp [trouve, hk])
      simp [hk, this]
    · simp only [hk, if_false]
      rw [ih (fun vs hvs => h vs (by simpa [trouve, hk] using hvs))]

end LemmesRetirerPremier

section EnoncesRequetes

open Digraph

variable {T : Type} [LinearOrder T]

/-- C14: for every graph satisfying the structural invariants and every `u`, `v`,
`supprimer(u, v)` always returns a graph; in it `arc(u, v)` is false, the vertices are
the same, and every other ordered pair has the weight (or the absence of arc) it had;
when the arc `(u, v)` was absent, in particular when `u` is not a vertex, the graph is
unchanged. -/
theorem C14_suppression_arc (g : Digraph T) (hinv : g.Inv) (u v : T) :
    (g.supprimerArc u v).arc u v = false ∧
    (g.supprimerArc u v).cles = g.cles ∧
    (∀ a b, (a, b) ≠ (u, v) →
      (g.supprimerArc u v).poids a b = g.poids a b ∧
      (g.supprimerArc u v).arc a b = g.arc a b) ∧
    (g.arc u v = false → g.supprimerArc u v = g) ∧
    (g.sommet u = false → g.supprimerArc u v = g) := by
  have habs : g.sommet u = false → g.supprimerArc u v = g := fun hu => maj_of_absent hu _
  have hpoids : ∀ a b, (a, b) ≠ (u, v) → (g.supprimerArc u v).poids a b = g.poids a b := by
    intro a b hab
    by_cases hu : g.sommet u = true
    · unfold poids supprimerArc
      rw [voisinsDe_maj hu]
      by_cases ha : a = u
      · subst ha
        have hb : b ≠ v := fun e => hab (by rw [e])
        simp only [if_true]
        rw [find_retirerPremier _ _ _ hb]
      · simp only [ha, if_false]
    · rw [habs (by simpa using hu)]
  refine ⟨?_, cles_maj _ _ _, fun a b hab => ⟨hpoids a b hab, ?_⟩, fun ha => ?_, habs⟩
  · by_cases hu : g.sommet u = true
    · rw [arc_eq_false_iff]
      unfold supprimerArc
      rw [voisinsDe_maj hu, if_pos rfl]
      exact not_mem_retirerPremier _ _ (((inv_iff g).1 hinv).2 u).2
    · rw [habs (by simpa using hu), arc_eq_false_iff, voisinsDe_of_absent (by simpa using hu)]
      simp
  · rw [← poids_isSome, ← poids_isSome, hpoids a b hab]
  · unfold supprimerArc
    congr 1
    apply surVoisins_id
    intro vs hvs
    apply retirerPremier_of_absent
    have := (arc_eq_false_iff g u v).1 ha
    rwa [voisinsDe_of_trouve hvs] at this

theorem C14_suppression_arc_witness :
    exempleRetour.Inv ∧
    exempleRetour.supprimerArc 0 2 = ⟨[(0, []), (1, [(0, 3)]), (2, [(1, 5)])]⟩ ∧
    ((exempleRetour.supprimerArc 0 2).arc 0 2 = false ∧
    (exempleRetour.supprimerArc 0 2).cles = exempleRetour.cles ∧
    (∀ a b, (a, b) ≠ (0, 2) →
      (exempleRetour.supprimerArc 0 2).poids a b = exempleRetour.poids a b ∧
      (exempleRetour.supprimerArc 0 2).arc a b = exempleRetour.arc a b) ∧
    (exempleRetour.arc 0 2 = false → exempleRetour.supprimerArc 0 2 = exempleRetour) ∧
    (exempleRetour.sommet 0 = false → exempleRetour.supprimerArc 0 2 = exempleRetour)) :=
  ⟨by decide, by decide, C14_suppression_arc exempleRetour (by decide) 0 2⟩

/-- C15: for every graph `G` satisfying the structural invariants and every set `S`,
`G.cooperative(S)` fails if and only if some element of `S` is not a vertex of `G`,
and then it fails on its assertion; otherwise it returns a graph. The method is a
function of `G` and `S` that returns a new graph only. -/
theorem C15_cooperative_echec (g : Digraph T) (hinv : g.Inv) (S : List T) :
    ((∃ err, g.cooperative S = .error err) ↔ ∃ u ∈ S, g.sommet u = false) ∧
    ((∃ u ∈ S, g.sommet u = false) → g.cooperative S = .error .assertion) ∧
    ((∀ u ∈ S, g.sommet u = true) → ∃ SG, g.cooperative S = .ok SG) := by
  have h1 : (∃ u ∈ S, g.sommet u = false) → g.cooperative S = .error .assertion := by
    rintro ⟨u, hu, hs⟩
    have : S.all (fun u => g.sommet u) = false := by
      rw [List.all_eq_false]
      exact ⟨u, hu, by simp [hs]⟩
    simp [cooperative, this]
  have h2 : (∀ u ∈ S, g.sommet u = true) → ∃ SG, g.cooperative S = .ok SG := by
    intro hS
    obtain ⟨SG, e, -⟩ := cooperative_spec hinv hS
    exact ⟨SG, e⟩
  refine ⟨⟨?_, fun h => ⟨_, h1 h⟩⟩, h1, h2⟩
  rintro ⟨err, herr⟩
  by_contra hc
  have hS : ∀ u ∈ S, g.sommet u = true := by
    intro u hu
    by_contra hu'
    exact hc ⟨u, hu, by simpa using hu'⟩
  obtain ⟨SG, e⟩ := h2 hS
  rw [e] at herr
  cases herr

theorem C15_cooperative_echec_witness :
    exempleRetour.Inv ∧ exempleRetour.cooperative [0, 7] = .error .assertion ∧
    (((∃ err, exempleRetour.cooperative [0, 7] = .error err)
        ↔ ∃ u ∈ [0, 7], exempleRetour.sommet u = false) ∧
    ((∃ u ∈ [0, 7], exempleRetour.sommet u = false) →
      exempleRetour.cooperative [0, 7] = .error .assertion) ∧
    ((∀ u ∈ [0, 7], exempleRetour.sommet u = true) →
      ∃ SG, exempleRetour.cooperative [0, 7] = .ok SG)) :=
  ⟨by decide, by decide, C15_cooperative_echec exempleRetour (by decide) [0, 7]⟩

end EnoncesRequetes

namespace Digraph
variable {T : Type} [LinearOrder T] {W : Type} [OfNat W 0] [Add W] [Sub W] [LE W] [LT W] [Min W]
  [DecidableRel (LE.le : W → W → Prop)] [DecidableRel (LT.lt : W → W → Prop)] [Limites W]

theorem chain_atteint (R : T → T → Prop) (l : List T) :
    ∀ a b, List.Chain' R (a :: (l ++ [b])) → ∃ x, Relation.ReflTransGen R a x ∧ R x b := by
  induction l with
  | nil =>
    intro a b h
    simp only [List.nil_append, List.chain'_cons, List.chain'_singleton, and_true] at h
    exact ⟨a, Relation.ReflTransGen.refl, h⟩
  | cons y r ih =>
    intro a b h
    rw [List.cons_append, List.chain'_cons] at h
    obtain ⟨x, hx, hxb⟩ := ih y b h.2
    exact ⟨x, Relation.ReflTransGen.head h.1 hx, hxb⟩

/-- A cycle through `s` gives a vertex reachable from `s` with an arc to `s`. -/
theorem atteint_of_estCycle {g : Digraph T W} {s : T} {c : List T} (h : g.EstCycle s c) :
    ∃ x, g.Atteint s x ∧ g.arc x s = true := by
  obtain ⟨milieu, rfl, -, -, hch⟩ := h
  exact chain_atteint _ milieu s s hch

/-- Whatever the fuel, a sequence returned by `rechercheProfondeur(s)` on a vertex `s`
is empty, and then no vertex reachable from `s` has an arc to `s`, or is a cycle
through `s`. -/
theorem rechercheProfondeur_correct {g : Digraph T W} (hinv : g.Inv) {s : T}
    (hs : g.sommet s = true) {n : Nat} {c : List T} (h : g.rechercheProfondeur n s = .ok c) :
    (c = [] ∧ ∀ x, g.Atteint s x → g.arc x s = false) ∨ g.EstCycle s c := by
  obtain ⟨c', e, hc'⟩ := rechercheProfondeur_spec hinv hs (le_max_right n g.sommets)
  have e' := rechercheProfondeur_mono g (le_max_left n g.sommets) h
  rw [e'] at e
  cases e
  exact hc'

end Digraph

section EnoncesRecherche

open Digraph

variable {T : Type} [LinearOrder T]

/-- C17: for every graph satisfying the structural invariants and every vertex `s`,
`rechercheProfondeur(s)` returns (as soon as the fuel is at least the number of
vertices), and what it returns is either the empty sequence or a sequence
`s = v0, v1, ..., vk = s` with `k >= 2` whose consecutive pairs are arcs and whose
vertices `v0, ..., v(k-1)` are pairwise distinct; it is the empty sequence if and only
if no vertex reachable from `s` has an arc to `s`, that is if and only if the graph has
no cycle through `s`. The search is a function that returns a sequence only. -/
theorem C17_recherche_cycle (g : Digraph T) (hinv : g.Inv) (s : T) (hs : g.sommet s = true) :
    (∀ n, g.sommets ≤ n → ∃ c, g.rechercheProfondeur n s = .ok c) ∧
    ∀ n c, g.rechercheProfondeur n s = .ok c →
      (c = [] ∨ g.EstCycle s c) ∧
      (c = [] ↔ ¬ ∃ x, g.Atteint s x ∧ g.arc x s = true) ∧
      (c = [] ↔ ¬ ∃ c', g.EstCycle s c') := by
  refine ⟨fun n hn => ?_, fun n c h => ?_⟩
  · obtain ⟨c, e, -⟩ := rechercheProfondeur_spec hinv hs hn
    exact ⟨c, e⟩
  · rcases rechercheProfondeur_correct hinv hs h with ⟨rfl, hno⟩ | hcyc
    · have h1 : ¬ ∃ x, g.Atteint s x ∧ g.arc x s = true := by
        rintro ⟨x, hx, ha⟩
        rw [hno x hx] at ha
        exact absurd ha (by simp)
      refine ⟨Or.inl rfl, ⟨fun _ => h1, fun _ => rfl⟩, ⟨fun _ => ?_, fun _ => rfl⟩⟩
      rintro ⟨c', hc'⟩
      exact h1 (atteint_of_estCycle hc')
    · have hne : c ≠ [] := by
        obtain ⟨milieu, rfl, -⟩ := hcyc
        simp
      refine ⟨Or.inr hcyc, ⟨fun h0 => absurd h0 hne, fun hno => ?_⟩,
        ⟨fun h0 => absurd h0 hne, fun hno => ?_⟩⟩
      · exact absurd (atteint_of_estCycle hcyc) hno
      · exact absurd ⟨c, hcyc⟩ hno

theorem C17_recherche_cycle_witness :
    exempleRetour.Inv ∧ exempleRetour.sommet 0 = true ∧
    exempleRetour.rechercheProfondeur 3 0 = .ok [0, 2, 1, 0] ∧
    ((∀ n, exempleRetour.sommets ≤ n → ∃ c, exempleRetour.rechercheProfondeur n 0 = .ok c) ∧
    ∀ n c, exempleRetour.rechercheProfondeur n 0 = .ok c →
      (c = [] ∨ exempleRetour.EstCycle 0 c) ∧
      (c = [] ↔ ¬ ∃ x, exempleRetour.Atteint 0 x ∧ exempleRetour.arc x 0 = true) ∧
      (c = [] ↔ ¬ ∃ c', exempleRetour.EstCycle 0 c')) :=
  ⟨by decide, by decide, by decide,
    C17_recherche_cycle exempleRetour (by decide) 0 (by decide)⟩

end EnoncesRecherche

section LemmesOrdre
variable {T : Type} [LinearOrder T] {W : Type} [OfNat W 0] [Add W] [Sub W] [LE W] [LT W] [Min W]
  [DecidableRel (LE.le : W → W → Prop)] [DecidableRel (LT.lt : W → W → Prop)] [Limites W]

theorem pairwise_placer (m : Carte T W) (u : T) (h : (m.map Prod.fst).Pairwise (· < ·))
    (hu : trouve m u = none) : ((placer m u).map Prod.fst).Pairwise (· < ·) := by
  induction m with
  | nil => simp [placer]
  | cons p reste ih =>
    obtain ⟨k, ws⟩ := p
    simp only [List.map_cons, List.pairwise_cons] at h
    have hku : k ≠ u := by
      intro e; simp [trouve, e] at hu
    have hu' : trouve reste u = none := by simpa [trouve, hku] using hu
    unfold placer
    by_cases hlt : u < k
    · simp only [hlt, if_true, List.map_cons, List.pairwise_cons]
      refine ⟨fun a ha => ?_, h⟩
      rcases List.mem_cons.1 ha with rfl | ha
      · exact hlt
      · exact lt_trans hlt (h.1 a ha)
    · simp only [hlt, if_false, List.map_cons, List.pairwise_cons]
      refine ⟨fun a ha => ?_, ih h.2 hu'⟩
      have hmem := ((perm_placer reste u).map Prod.fst).mem_iff.1 ha
      rcases List.mem_cons.1 hmem with rfl | hmem
      · exact lt_of_le_of_ne (not_lt.1 hlt) hku
      · exact h.1 a hmem

end LemmesOrdre

namespace Digraph
variable {T : Type} [LinearOrder T] {W : Type} [OfNat W 0] [Add W] [Sub W] [LE W] [LT W] [Min W]
  [DecidableRel (LE.le : W → W → Prop)] [DecidableRel (LT.lt : W → W → Prop)] [Limites W]

theorem pairwise_inserer {g : Digraph T W} (h : g.cles.Pairwise (· < ·)) (u : T) :
    (g.inserer u).cles.Pairwise (· < ·) := by
  unfold inserer
  by_cases hu : g.sommet u = true
  · simpa [hu] using h
  · have hn : trouve g.graphe u = none := by
      unfold sommet at hu
      cases hh : trouve g.graphe u with
      | none => rfl
      | some vs => simp [hh] at hu
    simp only [hu, if_false]
    exact pairwise_placer g.graphe u h hn

theorem pairwise_foldl_inserer (S : List T) (g : Digraph T W) (h : g.cles.Pairwise (· < ·)) :
    (S.foldl inserer g).cles.Pairwise (· < ·) := by
  induction S generalizing g with
  | nil => exact h
  | cons a reste ih => exact ih _ (pairwise_inserer h a)

/-- Inserting an arc between two vertices does not change the keys. -/
theorem insererArc_cles {g g' : Digraph T W} {u v : T} {w : W} (hu : g.sommet u = true)
    (hv : g.sommet v = true) (h : g.insererArc u v w = .ok g') : g'.cles = g.cles := by
  unfold insererArc at h
  rw [inserer_of_sommet hu, inserer_of_sommet hv] at h
  by_cases hc : u ≠ v ∧ w ≥ 0
  · rw [if_pos hc] at h
    dsimp only at h
    cases ha : (g.voisinsDe u).any (fun voisin => decide (voisin.1 = v)) with
    | true =>
      rw [ha] at h
      simp only [if_true] at h
      cases h; rfl
    | false =>
      rw [ha] at h
      simp only [Bool.false_eq_true, if_false] at h
      cases h; exact cles_maj _ _ _
  · rw [if_neg hc] at h
    cases h

theorem cooperativeArc_cles {S : List T} {u : T} (vs : Voisins T W) :
    ∀ SG SG' : Digraph T W, SG.sommet u = true → (∀ v ∈ S, SG.sommet v = true) →
      vs.foldlM (cooperativeArc S u) SG = .ok SG' → SG'.cles = SG.cles := by
  induction vs with
  | nil => intro SG SG' _ _ h; cases h; rfl
  | cons y reste ih =>
    intro SG SG' hu hS h
    rw [List.foldlM_cons] at h
    cases h1 : cooperativeArc S u SG y with
    | error err => simp [h1, bind, Except.bind] at h
    | ok SG1 =>
      simp only [h1, bind, Except.bind] at h
      have c1 : SG1.cles = SG.cles := by
        unfold cooperativeArc at h1
        split_ifs at h1 with hy
        · exact insererArc_cles hu (hS _ hy) h1
        · cases h1; rfl
      have := ih SG1 SG' (by rw [sommet_eq_of_cles c1]; exact hu)
        (fun v hv => by rw [sommet_eq_of_cles c1]; exact hS v hv) h
      exact this.trans c1

theorem cooperativeSommet_cles (g : Digraph T W) {S : List T} (R : List T) (hR : ∀ u ∈ R, u ∈ S) :
    ∀ SG SG' : Digraph T W, (∀ v ∈ S, SG.sommet v = true) →
      R.foldlM (cooperativeSommet g S) SG = .ok SG' → SG'.cles = SG.cles := by
  induction R with
  | nil => intro SG SG' _ h; cases h; rfl
  | cons u reste ih =>
    intro SG SG' hS h
    rw [List.foldlM_cons] at h
    cases h1 : cooperativeSommet g S SG u with
    | error err => simp [h1, bind, Except.bind] at h
    | ok SG1 =>
      simp only [h1, bind, Except.bind] at h
      have c1 : SG1.cles = SG.cles := by
        unfold cooperativeSommet at h1
        cases ha : g.auSommet u with
        | error err => simp [ha] at h1
        | ok vs =>
          simp only [ha] at h1
          exact cooperativeArc_cles vs SG SG1 (hS u (hR u (List.mem_cons_self _ _))) hS h1
      have := ih (fun a ha => hR a (List.mem_cons_of_mem _ ha)) SG1 SG'
        (fun v hv => by rw [sommet_eq_of_cles c1]; exact hS v hv) h
      exact this.trans c1

/-- The keys of the graph returned by `cooperative(S)` are in strictly ascending
order. -/
theorem cooperative_cles_croissantes {g SG : Digraph T W} {S : List T}
    (h : g.cooperative S = .ok SG) : SG.cles.Pairwise (· < ·) := by
  unfold cooperative at h
  split_ifs at h
  obtain ⟨f1, -, -⟩ := foldl_inserer_spec S (vide : Digraph T W)
  have c := cooperativeSommet_cles g S (fun u hu => hu) _ SG
    (fun v hv => (f1 v).2 (Or.inl hv)) h
  rw [c]
  exact pairwise_foldl_inserer S vide (by simp [vide, cles])

/-- When the loop of `rechercheProfondeurSG(SG)` returns a non-empty sequence, it is the
path built from some starting vertex, and the search from every earlier starting vertex
has found nothing. -/
theorem departsSG_premier (g SG : Digraph T W) (n : Nat) (carte : Carte T W) :
    ∀ c, departsSG g SG n carte = .ok c → c ≠ [] →
      ∃ pre p post e, carte = pre ++ p :: post ∧
        g.rechercheProfondeurSGAux SG n p.1 ⟨[], [], false⟩ false = .ok e ∧
        e.trouver = true ∧ e.circuit = c ∧
        ∀ q ∈ pre, ∃ e', g.rechercheProfondeurSGAux SG n q.1 ⟨[], [], false⟩ false = .ok e' ∧
          e'.trouver = false := by
  induction carte with
  | nil => intro c h hc; simp [departsSG] at h; exact absurd h hc
  | cons p reste ih =>
    intro c h hc
    unfold departsSG at h
    cases ha : g.rechercheProfondeurSGAux SG n p.1 ⟨[], [], false⟩ false with
    | error err => simp [ha] at h
    | ok e =>
      simp only [ha] at h
      by_cases ht : e.trouver = true
      · simp only [ht, if_true] at h
        cases h
        exact ⟨[], p, reste, e, rfl, ha, ht, rfl, by simp⟩
      · simp only [ht, if_false] at h
        obtain ⟨pre, p', post, e', h1, h2, h3, h4, h5⟩ := ih c h hc
        refine ⟨p :: pre, p', post, e', by rw [h1]; rfl, h2, h3, h4, fun q hq => ?_⟩
        rcases List.mem_cons.1 hq with rfl | hq
        · exact ⟨e, ha, by simpa using ht⟩
        · exact h5 q hq

/-- Whatever the fuel, a sequence returned by `rechercheProfondeurSG(SG)` is empty or
leaves `SG` and comes back to it, when the vertices of `SG` are vertices of the graph. -/
theorem rechercheProfondeurSG_correct {g : Digraph T W} (hinv : g.Inv) {SG : Digraph T W}
    (hsub : ∀ x, SG.sommet x = true → g.sommet x = true) {n : Nat} {c : List T}
    (h : g.rechercheProfondeurSG n SG = .ok c) : c = [] ∨ g.EstCircuitSG SG c := by
  have hcarte : ∀ p ∈ SG.graphe, g.sommet p.1 = true ∧ SG.sommet p.1 = true := by
    intro p hp
    have : SG.sommet p.1 = true := (sommet_iff _ _).2 (List.mem_map.2 ⟨p, hp, rfl⟩)
    exact ⟨hsub _ this, this⟩
  obtain ⟨c', e, hc'⟩ := departsSG_spec hinv SG (le_max_right n g.sommets) SG.graphe hcarte
  have e' := departsSG_mono g SG (le_max_left n g.sommets) SG.graphe c h
  rw [e'] at e
  cases e
  exact hc'

end Digraph

section EnoncesRechercheSG

open Digraph

variable {T : Type} [LinearOrder T]

/-- C18: for every graph `G` satisfying the structural invariants and `SG =
cooperative(S)`, `rechercheProfondeurSG(SG)` returns (as soon as the fuel is at least
the number of vertices), and every non-empty sequence it returns reads
`v0, x1, ..., xk, v` with `k >= 1`, `v0` and `v` vertices of `SG`, the `xi` pairwise
distinct and outside `SG`, and every consecutive pair an arc of `G`; moreover the search
started at `v0` is the one that found the sequence, and the search started at every
vertex of `SG` smaller than `v0` returns without finding a path. -/
theorem C18_forme_circuit_SG (g : Digraph T) (hinv : g.Inv) (S : List T)
    (hS : ∀ u ∈ S, g.sommet u = true) :
    ∃ SG, g.cooperative S = .ok SG ∧
      (∀ n, g.sommets ≤ n → ∃ c, g.rechercheProfondeurSG n SG = .ok c) ∧
      ∀ n c, g.rechercheProfondeurSG n SG = .ok c → c ≠ [] →
        g.EstCircuitSG SG c ∧
        ∃ v0 reste, c = v0 :: reste ∧
          (∃ e, g.rechercheProfondeurSGAux SG n v0 ⟨[], [], false⟩ false = .ok e ∧
            e.trouver = true ∧ e.circuit = c) ∧
          ∀ u, SG.sommet u = true → u < v0 →
            ∃ e, g.rechercheProfondeurSGAux SG n u ⟨[], [], false⟩ false = .ok e ∧
              e.trouver = false := by
  obtain ⟨SG, e, i, s, -⟩ := cooperative_spec hinv hS
  have hsub : ∀ x, SG.sommet x = true → g.sommet x = true := fun x hx => hS x ((s x).1 hx)
  have hcarte : ∀ p ∈ SG.graphe, g.sommet p.1 = true ∧ SG.sommet p.1 = true := by
    intro p hp
    have : SG.sommet p.1 = true := (sommet_iff _ _).2 (List.mem_map.2 ⟨p, hp, rfl⟩)
    exact ⟨hsub _ this, this⟩
  have hsorted := cooperative_cles_croissantes e
  refine ⟨SG, e, fun n hn => ?_, fun n c h hc => ?_⟩
  · obtain ⟨c, a, -⟩ := departsSG_spec hinv SG hn SG.graphe hcarte
    exact ⟨c, a⟩
  · have hcirc : g.EstCircuitSG SG c := by
      rcases rechercheProfondeurSG_correct hinv hsub h with h0 | h1
      · exact absurd h0 hc
      · exact h1
    refine ⟨hcirc, ?_⟩
    obtain ⟨pre, p, post, e1, h1, h2, h3, h4, h5⟩ := departsSG_premier g SG n SG.graphe c h hc
    obtain ⟨e2, a2, -, -, q4⟩ := rechercheProfondeurSGAux_spec hinv SG (max n g.sommets) p.1
      ⟨[], [], false⟩ false
      (hcarte p (by rw [h1]; simp)).1 (fun _ => rfl) (by simp) rfl
      (by rw [restants_nil]; exact le_max_right _ _)
    have a2' := rechercheProfondeurSGAux_mono g SG (le_max_left n g.sommets) h2
    rw [a2'] at a2
    cases a2
    obtain ⟨xs, v, c1, -⟩ := q4 h3
    simp only [List.nil_append] at c1
    refine ⟨p.1, xs ++ [v], by rw [← h4, c1], ⟨e1, h2, h3, h4⟩, fun u hu hlt => ?_⟩
    have hmem : u ∈ SG.cles := (sommet_iff _ _).1 hu
    unfold cles at hmem hsorted
    rw [h1] at hmem hsorted
    simp only [List.map_append, List.map_cons, List.mem_append, List.mem_cons] at hmem
    rw [List.map_append, List.map_cons, List.pairwise_append] at hsorted
    rcases hmem with hpre | rfl | hpost
    · obtain ⟨q, hq, rfl⟩ := List.mem_map.1 hpre
      exact h5 q hq
    · exact absurd hlt (lt_irrefl _)
    · have := (List.pairwise_cons.1 hsorted.2.1).1 u hpost
      exact absurd (lt_trans this hlt) (lt_irrefl _)

theorem C18_forme_circuit_SG_witness :
    exempleRetour.Inv ∧
    exempleRetour.cooperative [0, 1] = .ok ⟨[(0, []), (1, [(0, 3)])]⟩ ∧
    exempleRetour.rechercheProfondeurSG 3 ⟨[(0, []), (1, [(0, 3)])]⟩ = .ok [0, 2, 1] ∧
    ∃ SG, exempleRetour.cooperative [0, 1] = .ok SG ∧
      (∀ n, exempleRetour.sommets ≤ n → ∃ c, exempleRetour.rechercheProfondeurSG n SG = .ok c) ∧
      ∀ n c, exempleRetour.rechercheProfondeurSG n SG = .ok c → c ≠ [] →
        exempleRetour.EstCircuitSG SG c ∧
        ∃ v0 reste, c = v0 :: reste ∧
          (∃ e, exempleRetour.rechercheProfondeurSGAux SG n v0 ⟨[], [], false⟩ false = .ok e ∧
            e.trouver = true ∧ e.circuit = c) ∧
          ∀ u, SG.sommet u = true → u < v0 →
            ∃ e, exempleRetour.rechercheProfondeurSGAux SG n u ⟨[], [], false⟩ false = .ok e ∧
              e.trouver = false :=
  ⟨by decide, by decide, by decide,
    C18_forme_circuit_SG exempleRetour (by decide) [0, 1] (by decide)⟩

end EnoncesRechercheSG

namespace Digraph
variable {T : Type} [LinearOrder T] {W : Type} [OfNat W 0] [Add W] [Sub W] [LE W] [LT W] [Min W]
  [DecidableRel (LE.le : W → W → Prop)] [DecidableRel (LT.lt : W → W → Prop)] [Limites W]

theorem foldl_compte {α : Type} (l : List α) (t : Nat) :
    l.foldl (fun nb _ => nb + 1) t = t + l.length := by
  induction l generalizing t with
  | nil => rfl
  | cons a r ih => rw [List.foldl_cons, ih, List.length_cons]; omega

theorem somme_uns {α : Type} (L : List α) : (L.map (fun _ => (1 : ℕ))).sum = L.length := by
  induction L with
  | nil => rfl
  | cons a r ih => rw [List.map_cons, List.sum_cons, ih, List.length_cons]; omega

theorem arcs_carte (m : Carte T W) (t : Nat) :
    m.foldl (fun nbArcs paire => paire.2.foldl (fun nb _ => nb + 1) nbArcs) t
      = t + total (fun _ => (1 : ℕ)) (Digraph.mk m) := by
  induction m generalizing t with
  | nil => simp [total, aretes]
  | cons p r ih =>
    rw [List.foldl_cons, ih, total_cons, foldl_compte, somme_uns]
    omega

/-- The value of `arcs()` is the number of arcs. -/
theorem arcs_eq_total (g : Digraph T W) : g.arcs = total (fun _ => (1 : ℕ)) g := by
  unfold arcs
  rw [arcs_carte, Nat.zero_add]

theorem total_eq_zero_iff (φ : T × T × W → ℕ) (g : Digraph T W) :
    total φ g = 0 ↔ ∀ e ∈ g.aretes, φ e = 0 := by
  unfold total
  rw [List.sum_eq_zero_iff]
  constructor
  · intro h e he
    exact h _ (List.mem_map.2 ⟨e, he, rfl⟩)
  · intro h x hx
    obtain ⟨e, he, rfl⟩ := List.mem_map.1 hx
    exact h e he

theorem somme_indic_le {α : Type} (L : List α) (p : α → Prop) [DecidablePred p] :
    (L.map (fun x => if p x then 0 else 1)).sum ≤ L.length := by
  induction L with
  | nil => simp
  | cons a r ih =>
    simp only [List.map_cons, List.sum_cons, List.length_cons]
    split_ifs <;> omega

theorem somme_indic_lt {α : Type} (L : List α) (p : α → Prop) [DecidablePred p]
    (h : ∃ x ∈ L, p x) : (L.map (fun x => if p x then 0 else 1)).sum < L.length := by
  induction L with
  | nil => obtain ⟨x, hx, -⟩ := h; simp at hx
  | cons a r ih =>
    simp only [List.map_cons, List.sum_cons, List.length_cons]
    have hle := somme_indic_le r p
    by_cases ha : p a
    · simp only [ha, if_true]; omega
    · simp only [ha, if_false]
      obtain ⟨x, hx, hp⟩ := h
      rcases List.mem_cons.1 hx with rfl | hx
      · exact absurd hp ha
      · have := ih ⟨x, hx, hp⟩
        omega

/-- The subtraction loop of `reduireDetteCirculaire` removes an arc as soon as one of
the weights on the path does not exceed the amount subtracted. -/
theorem arcs_reduirePaires_lt (L : List (T × T)) (m : ℚ) (g : Digraph T) (h : g.Inv)
    (hsrc : (L.map Prod.fst).Nodup)
    (hval : ∀ uv ∈ L, ∃ w, (uv.2, w) ∈ g.voisinsDe uv.1)
    (hex : ∃ uv ∈ L, ∃ w, (uv.2, w) ∈ g.voisinsDe uv.1 ∧ w ≤ m) :
    (L.foldl (fun g uv => Digraph.mk (surVoisins (g.inserer uv.1).graphe uv.1
        (fun voisins => modifierPoids voisins uv.2 (fun emprunt => emprunt - m)))) g).arcs
      < g.arcs := by
  have e := total_reduirePaires (fun _ => (1 : ℕ)) L m g h hsrc hval
  rw [← arcs_eq_total, ← arcs_eq_total] at e
  have h1 : (L.map (fun uv => if (g.poids uv.1 uv.2).getD 0 - m ≤ 0 then 0 else 1)).sum
      < L.length := somme_indic_lt L (fun uv => (g.poids uv.1 uv.2).getD 0 - m ≤ 0) (by
    obtain ⟨uv, huv, w, hw, hle⟩ := hex
    refine ⟨uv, huv, ?_⟩
    show (g.poids uv.1 uv.2).getD 0 - m ≤ 0
    rw [poids_of_mem h hw]
    linarith)
  rw [somme_uns] at e
  simp only at e
  omega

/-- After the subtraction loop of `reduireDetteCirculaire`, every arc is an arc of the
graph before, with a weight that has not grown. -/
theorem reduirePaires_poids_le (L : List (T × T)) (m : ℚ) (hm : 0 ≤ m) (g : Digraph T)
    (h : g.Inv) (hsrc : (L.map Prod.fst).Nodup)
    (hval : ∀ uv ∈ L, ∃ w, (uv.2, w) ∈ g.voisinsDe uv.1) (a : T) (x : T × ℚ)
    (hx : x ∈ (L.foldl (fun g uv => Digraph.mk (surVoisins (g.inserer uv.1).graphe uv.1
        (fun voisins => modifierPoids voisins uv.2 (fun emprunt => emprunt - m)))) g).voisinsDe a) :
    ∃ w, (x.1, w) ∈ g.voisinsDe a ∧ x.2 ≤ w := by
  obtain ⟨-, s2, s3⟩ := reduirePaires_spec L m g h hsrc hval
  by_cases ha : a ∈ L.map Prod.fst
  · obtain ⟨uv, huv, rfl⟩ := List.mem_map.1 ha
    rw [s3 uv huv] at hx
    obtain ⟨w, hw⟩ := hval uv huv
    rcases (mem_modifierPoids (((inv_iff g).1 h).2 uv.1).2 hw _ x).1 hx with ⟨h1, -⟩ | ⟨rfl, -⟩
    · exact ⟨x.2, h1, le_refl _⟩
    · exact ⟨w, hw, by simp only; linarith⟩
  · rw [s2 a ha] at hx
    exact ⟨x.2, hx, le_refl _⟩

end Digraph

namespace Digraph
variable {T : Type} [LinearOrder T] {W : Type} [OfNat W 0] [Add W] [Sub W] [LE W] [LT W] [Min W]
  [DecidableRel (LE.le : W → W → Prop)] [DecidableRel (LT.lt : W → W → Prop)] [Limites W]

/-- Effect of the update between the two ends of a circuit on a sum over the arcs, in
each of the four branches of the source: equal ends; arc `(start, fin)` present;
arc `(fin, start)` present; no arc between the two. -/
theorem total_ajusterExtremites_cas {M : Type} [AddCancelCommMonoid M] (φ : T × T × ℚ → M)
    {g : Digraph T} (hinv : g.Inv) (start fin : T) (hs : g.sommet start = true)
    (hf : g.sommet fin = true) {m : ℚ} (hm : 0 < m) :
    ∃ g', g.ajusterExtremites start fin m = .ok g' ∧ g'.Inv ∧ g'.cles = g.cles ∧
      ((start = fin ∧ g' = g) ∨
       (start ≠ fin ∧ ∃ w, (fin, w) ∈ g.voisinsDe start ∧
          total φ g' + φ (start, fin, w) = total φ g + φ (start, fin, w + m)) ∨
       (start ≠ fin ∧ g.arc start fin = false ∧ ∃ w, (start, w) ∈ g.voisinsDe fin ∧
          total φ g' + φ (fin, start, w)
            = total φ g + (if w - m ≤ 0 then 0 else φ (fin, start, w - m))) ∨
       (start ≠ fin ∧ g.arc start fin = false ∧ g.arc fin start = false ∧
          total φ g' = total φ g + φ (start, fin, m))) := by
  unfold ajusterExtremites
  by_cases hse : start = fin
  · simp only [hse, ne_eq, not_true_eq_false, if_false]
    exact ⟨g, rfl, hinv, rfl, Or.inl ⟨trivial, rfl⟩⟩
  · simp only [ne_eq, hse, not_false_eq_true, if_true, inserer_of_sommet hs,
      inserer_of_sommet hf]
    by_cases ha : g.arc start fin = true
    · simp only [ha, if_true]
      obtain ⟨w, hw⟩ := (arc_iff _ _ _).1 ha
      refine ⟨_, rfl, hinv.modifierPoids _ _ _, cles_maj _ _ _, Or.inr (Or.inl ⟨trivial, w, hw, ?_⟩)⟩
      have e := total_modifierPoids φ hinv hw (fun emprunt => emprunt + m)
      have hpos : ¬ (w + m ≤ 0) := by
        have := ((((inv_iff g).1 hinv).2 start).1 _ hw).2.1
        simp only at this
        linarith
      simp only [hpos, if_false] at e
      exact e
    · simp only [ha, if_false]
      have ha' : g.arc start fin = false := by simpa using ha
      by_cases hb : g.arc fin start = true
      · simp only [hb, if_true]
        obtain ⟨w, hw⟩ := (arc_iff _ _ _).1 hb
        refine ⟨_, rfl, hinv.modifierPoids _ _ _, cles_maj _ _ _,
          Or.inr (Or.inr (Or.inl ⟨trivial, trivial, w, hw, ?_⟩))⟩
        exact total_modifierPoids φ hinv hw (fun emprunt => emprunt - m)
      · simp only [hb, if_false]
        have hb' : g.arc fin start = false := by simpa using hb
        obtain ⟨g', e, -, -, i⟩ := insererArc_spec g hse (le_of_lt hm)
        have hform : g.insererArc start fin m = .ok ⟨surVoisins g.graphe start
            (fun voisins => insererTuple voisins (fin, m))⟩ := by
          have hany : (g.voisinsDe start).any (fun voisin => decide (voisin.1 = fin)) = false := by
            rw [← arc_eq_any]; exact ha'
          unfold insererArc
          rw [inserer_of_sommet hs, inserer_of_sommet hf]
          simp only [ne_eq, hse, not_false_eq_true, ge_iff_le, le_of_lt hm, and_self, if_true,
            hany, Bool.false_eq_true, if_false]
        rw [hform] at e ⊢
        cases e
        refine ⟨_, rfl, i hinv hm, cles_maj _ _ _,
          Or.inr (Or.inr (Or.inr ⟨trivial, trivial, trivial, ?_⟩))⟩
        have e1 := total_maj φ hs (fun voisins => insererTuple voisins (fin, m))
        have hp := ((perm_insererTuple (g.voisinsDe start) (fin, m)
          ((arc_eq_false_iff _ _ _).1 ha')).map (fun x => φ (start, x.1, x.2))).sum_eq
        simp only at e1
        rw [hp, List.map_cons, List.sum_cons] at e1
        rw [← add_assoc] at e1
        exact add_right_cancel e1

/-- The update between the two ends of a circuit raises a sum of weights over selected
arcs by at most `minDette`, and only when the arc `(start, fin)` is selected. -/
theorem total_cond_ajusterExtremites_le (c : T → T → Prop) [∀ a b, Decidable (c a b)]
    {g : Digraph T} (hinv : g.Inv) (start fin : T) (hs : g.sommet start = true)
    (hf : g.sommet fin = true) {m : ℚ} (hm : 0 < m) :
    ∃ g', g.ajusterExtremites start fin m = .ok g' ∧ g'.Inv ∧ g'.cles = g.cles ∧
      total (fun e => if c e.1 e.2.1 then e.2.2 else 0) g'
        ≤ total (fun e => if c e.1 e.2.1 then e.2.2 else 0) g
          + (if start ≠ fin ∧ c start fin then m else 0) := by
  obtain ⟨g', e, i, k, h⟩ := total_ajusterExtremites_cas
    (fun e : T × T × ℚ => if c e.1 e.2.1 then e.2.2 else 0) hinv start fin hs hf hm
  refine ⟨g', e, i, k, ?_⟩
  rcases h with ⟨h1, rfl⟩ | ⟨hne, w, hw, h2⟩ | ⟨hne, -, w, hw, h2⟩ | ⟨hne, -, -, h2⟩
  · simp [h1]
  · simp only at h2
    by_cases hc : c start fin
    · simp only [hc, if_true, hne, ne_eq, not_false_eq_true, and_self] at h2 ⊢
      linarith
    · simp only [hc, if_false, and_false] at h2 ⊢
      linarith
  · simp only at h2
    have hw0 : 0 < w := ((((inv_iff g).1 hinv).2 fin).1 _ hw).2.1
    have hge : (0 : ℚ) ≤ if start ≠ fin ∧ c start fin then m else 0 := by
      split_ifs
      · exact le_of_lt hm
      · exact le_refl _
    by_cases hc : c fin start
    · simp only [hc, if_true] at h2
      by_cases hwm : w - m ≤ 0
      · simp only [hwm, if_true] at h2
        linarith
      · simp only [hwm, if_false] at h2
        linarith
    · simp only [hc, if_false, ite_self] at h2
      linarith
  · simp only at h2
    rw [h2]
    by_cases hc : c start fin
    · simp [hc, hne]
    · simp [hc]

/-- The update between the two ends of a circuit adds at most one arc. -/
theorem arcs_ajusterExtremites_le {g : Digraph T} (hinv : g.Inv) (start fin : T)
    (hs : g.sommet start = true) (hf : g.sommet fin = true) {m : ℚ} (hm : 0 < m) :
    ∃ g', g.ajusterExtremites start fin m = .ok g' ∧ g'.arcs ≤ g.arcs + 1 := by
  obtain ⟨g', e, i, k, h⟩ := total_ajusterExtremites_cas
    (fun _ : T × T × ℚ => (1 : ℕ)) hinv start fin hs hf hm
  refine ⟨g', e, ?_⟩
  rw [← arcs_eq_total, ← arcs_eq_total] at h
  rcases h with ⟨h1, rfl⟩ | ⟨hne, w, hw, h2⟩ | ⟨hne, -, w, hw, h2⟩ | ⟨hne, -, -, h2⟩
  · omega
  · omega
  · split_ifs at h2 <;> omega
  · omega

end Digraph

namespace Digraph
variable {T : Type} [LinearOrder T] {W : Type} [OfNat W 0] [Add W] [Sub W] [LE W] [LT W] [Min W]
  [DecidableRel (LE.le : W → W → Prop)] [DecidableRel (LT.lt : W → W → Prop)] [Limites W]

theorem somme_indicatrice_absent (l : List T) (u : T) (m : ℚ) (h : u ∉ l) :
    (l.map (fun x => if x = u then m else 0)).sum = 0 := by
  induction l with
  | nil => rfl
  | cons a r ih =>
    have ha : a ≠ u := fun e => h (e ▸ List.mem_cons_self _ _)
    rw [List.map_cons, List.sum_cons, ih (fun hr => h (List.mem_cons_of_mem _ hr))]
    simp [ha]

theorem somme_cond_nonneg {α : Type} (L : List α) (c : α → Prop) [DecidablePred c] {m : ℚ}
    (hm : 0 ≤ m) : 0 ≤ (L.map (fun x => if c x then m else 0)).sum := by
  apply List.sum_nonneg
  intro y hy
  obtain ⟨x, -, rfl⟩ := List.mem_map.1 hy
  split_ifs
  · exact hm
  · exact le_refl _

theorem somme_cond_ge {α : Type} (L : List α) (c : α → Prop) [DecidablePred c] {m : ℚ}
    (hm : 0 ≤ m) (h : ∃ x ∈ L, c x) : m ≤ (L.map (fun x => if c x then m else 0)).sum := by
  induction L with
  | nil => obtain ⟨x, hx, -⟩ := h; simp at hx
  | cons a r ih =>
    rw [List.map_cons, List.sum_cons]
    have h0 := somme_cond_nonneg r c hm
    by_cases ha : c a
    · simp only [ha, if_true]; linarith
    · simp only [ha, if_false, zero_add]
      obtain ⟨x, hx, hc⟩ := h
      rcases List.mem_cons.1 hx with rfl | hx
      · exact absurd hc ha
      · exact ih ⟨x, hx, hc⟩

/-- The weights of the arcs selected by `c` are bounded exactly when none of them is
counted as exceeding the bound. -/
theorem borne_iff_total (c : T → T → Prop) [∀ a b, Decidable (c a b)] (g : Digraph T) :
    (∀ e ∈ g.aretes, c e.1 e.2.1 → e.2.2 ≤ doubleMax) ↔
      total (fun e => if c e.1 e.2.1 ∧ doubleMax < e.2.2 then (1 : ℕ) else 0) g = 0 := by
  rw [total_eq_zero_iff]
  constructor
  · intro h e he
    by_cases hc : c e.1 e.2.1
    · have := h e he hc
      simp [hc, not_lt.2 this]
    · simp [hc]
  · intro h e he hc
    have := h e he
    by_contra hlt
    simp [hc, not_le.1 hlt] at this

/-- Decomposition of `reduireDetteCirculaire` on a circuit that leaves `SG` and comes
back to it: the subtraction loop with the minimum `m` of the path, followed by the update
between the two ends. -/
theorem reduireDetteCirculaire_circuitSG_eq {g : Digraph T} (hinv : g.Inv) (SG : Digraph T)
    {v0 v : T} {xs : List T} (hne : xs ≠ []) (hv0 : SG.sommet v0 = true)
    (hxs : ∀ x ∈ xs, SG.sommet x = false) (hnd : xs.Nodup)
    (hch : List.Chain' (fun a b => g.arc a b = true) (v0 :: (xs ++ [v]))) :
    ∃ m, 0 < m ∧ paires (v0 :: (xs ++ [v])) ≠ [] ∧
      (paires (v0 :: (xs ++ [v]))).map Prod.fst = v0 :: xs ∧
      (paires (v0 :: (xs ++ [v]))).map Prod.snd = xs ++ [v] ∧
      ((paires (v0 :: (xs ++ [v]))).map Prod.fst).Nodup ∧
      (∀ uv ∈ paires (v0 :: (xs ++ [v])), ∃ w, (uv.2, w) ∈ g.voisinsDe uv.1 ∧ m ≤ w) ∧
      (m = doubleMax ∨ ∃ uv ∈ paires (v0 :: (xs ++ [v])), (uv.2, m) ∈ g.voisinsDe uv.1) ∧
      g.sommet v0 = true ∧ g.sommet v = true ∧
      g.reduireDetteCirculaire (v0 :: (xs ++ [v]))
        = (g.reduireChemin (v0 :: (xs ++ [v])) m).ajusterExtremites v0 v m := by
  have harc : ∀ uv ∈ paires (v0 :: (xs ++ [v])), g.arc uv.1 uv.2 = true :=
    (chain_iff_paires _ _).1 hch
  have hsrc : (paires (v0 :: (xs ++ [v]))).map Prod.fst = v0 :: xs := by
    rw [paires_map_fst]
    exact @List.dropLast_concat T (v0 :: xs) v
  have hcib : (paires (v0 :: (xs ++ [v]))).map Prod.snd = xs ++ [v] := by
    rw [paires_map_snd]; rfl
  have hsnd : ((paires (v0 :: (xs ++ [v]))).map Prod.fst).Nodup := by
    rw [hsrc, List.nodup_cons]
    refine ⟨fun hmem => ?_, hnd⟩
    rw [hxs v0 hmem] at hv0
    exact absurd hv0 (by simp)
  obtain ⟨m1, m2, m3, m4⟩ := minPaires_spec (paires (v0 :: (xs ++ [v]))) g Limites.max
  have hg : (g.minDetteCircuit (v0 :: (xs ++ [v]))).1 = g := by
    unfold minDetteCircuit
    rw [m1]
    apply foldl_inserer_of_sommets
    intro x hx
    obtain ⟨uv, huv, rfl⟩ := List.mem_map.1 hx
    exact sommet_of_arc (harc uv huv)
  have hm := minDetteCircuit_pos hinv (v0 :: (xs ++ [v]))
  have hval : ∀ uv ∈ paires (v0 :: (xs ++ [v])), ∃ w, (uv.2, w) ∈ g.voisinsDe uv.1 ∧
      (g.minDetteCircuit (v0 :: (xs ++ [v]))).2 ≤ w := by
    intro uv huv
    obtain ⟨w, hw⟩ := (arc_iff _ _ _).1 (harc uv huv)
    exact ⟨w, hw, m3 uv huv w hw⟩
  have hL : paires (v0 :: (xs ++ [v])) ≠ [] := by
    cases xs with
    | nil => exact absurd rfl hne
    | cons a r => simp [paires]
  have hlast : (xs ++ [v]).getLastD v0 = v := by
    cases xs with
    | nil => exact absurd rfl hne
    | cons a r => simp [List.getLastD]
  have hsv0 : g.sommet v0 = true := by
    have : v0 ∈ (paires (v0 :: (xs ++ [v]))).map Prod.fst := by rw [hsrc]; simp
    obtain ⟨uv, huv, e⟩ := List.mem_map.1 this
    exact e ▸ sommet_of_arc (harc uv huv)
  have hsv : g.sommet v = true := by
    have : v ∈ (paires (v0 :: (xs ++ [v]))).map Prod.snd := by
      rw [paires_map_snd]; simp
    obtain ⟨uv, huv, e⟩ := List.mem_map.1 this
    obtain ⟨w, hw⟩ := (arc_iff _ _ _).1 (harc uv huv)
    exact e ▸ ((((inv_iff g).1 hinv).2 uv.1).1 _ hw).2.2
  refine ⟨(g.minDetteCircuit (v0 :: (xs ++ [v]))).2, hm, hL, hsrc, hcib, hsnd, hval, m4,
    hsv0, hsv, ?_⟩
  unfold reduireDetteCirculaire
  simp only
  rw [hg, hlast]

end Digraph

namespace Digraph
variable {T : Type} [LinearOrder T] {W : Type} [OfNat W 0] [Add W] [Sub W] [LE W] [LT W] [Min W]
  [DecidableRel (LE.le : W → W → Prop)] [DecidableRel (LT.lt : W → W → Prop)] [Limites W]

/-- Cancelling a circuit that leaves `SG` and comes back to it: no gross obligation
grows, `pret(SG)` and `dette(SG)` drop by the same amount, and when the weights of the
arcs with an end outside `SG` are bounded the number of arcs does not grow. -/
theorem reduireDetteCirculaire_circuitSG_bilan {g : Digraph T} (hinv : g.Inv) (SG : Digraph T)
    {c : List T} (hc : g.EstCircuitSG SG c) :
    ∃ g', g.reduireDetteCirculaire c = .ok g' ∧ g'.Inv ∧ g'.cles = g.cles ∧
      (∀ u, g'.dette u ≤ g.dette u ∧ g'.credit u ≤ g.credit u) ∧
      (∃ m, 0 < m ∧ g'.pretSG SG = g.pretSG SG - m ∧ g'.detteSG SG = g.detteSG SG - m) ∧
      (g.BorneSG SG → g'.BorneSG SG ∧ g'.arcs ≤ g.arcs) := by
  obtain ⟨v0, xs, v, rfl, hne, hv0, hv, hxs, hnd, hch⟩ := hc
  obtain ⟨m, hm, hL, hsrc, hcib, hsnd, hval, hmin, hsv0, hsv, e⟩ :=
    reduireDetteCirculaire_circuitSG_eq hinv SG hne hv0 hxs hnd hch
  have hval' : ∀ uv ∈ paires (v0 :: (xs ++ [v])), ∃ w, (uv.2, w) ∈ g.voisinsDe uv.1 :=
    fun uv huv => by obtain ⟨w, hw, -⟩ := hval uv huv; exact ⟨w, hw⟩
  have i2 := (reduirePaires_inv (paires (v0 :: (xs ++ [v]))) m g hinv).1
  have c2 := (reduirePaires_spec (paires (v0 :: (xs ++ [v]))) m g hinv hsnd hval').1
  have hpoids := reduirePaires_poids_le (paires (v0 :: (xs ++ [v]))) m (le_of_lt hm) g hinv
    hsnd hval'
  have hs2 : (g.reduireChemin (v0 :: (xs ++ [v])) m).sommet v0 = true := by
    unfold reduireChemin; rw [sommet_eq_of_cles c2]; exact hsv0
  have hf2 : (g.reduireChemin (v0 :: (xs ++ [v])) m).sommet v = true := by
    unfold reduireChemin; rw [sommet_eq_of_cles c2]; exact hsv
  have i2' : (g.reduireChemin (v0 :: (xs ++ [v])) m).Inv := i2
  have hv0xs : v0 ∉ xs := fun hmem => by rw [hxs v0 hmem] at hv0; simp at hv0
  have hvxs : v ∉ xs := fun hmem => by rw [hxs v hmem] at hv; simp at hv
  -- the pair leaving `v0` and the pair entering `v`
  have hdep : ∀ uv ∈ paires (v0 :: (xs ++ [v])), uv.1 = v0 → uv.2 ∈ xs := by
    intro uv huv h0
    rcases paires_circuitSG xs hne v0 v uv huv with h | h
    · exact absurd (h0 ▸ h) hv0xs
    · exact h
  have harr : ∀ uv ∈ paires (v0 :: (xs ++ [v])), uv.2 = v → uv.1 ∈ xs := by
    intro uv huv h0
    rcases paires_circuitSG xs hne v0 v uv huv with h | h
    · exact h
    · exact absurd (h0 ▸ h) hvxs
  have hsrcmem : ∀ uv ∈ paires (v0 :: (xs ++ [v])), uv.1 = v0 ∨ uv.1 ∈ xs := by
    intro uv huv
    have : uv.1 ∈ (paires (v0 :: (xs ++ [v]))).map Prod.fst := List.mem_map.2 ⟨uv, huv, rfl⟩
    rw [hsrc] at this
    exact List.mem_cons.1 this
  have hcibmem : ∀ uv ∈ paires (v0 :: (xs ++ [v])), uv.2 ∈ xs ∨ uv.2 = v := by
    intro uv huv
    have : uv.2 ∈ (paires (v0 :: (xs ++ [v]))).map Prod.snd := List.mem_map.2 ⟨uv, huv, rfl⟩
    rw [hcib] at this
    simpa using this
  have hex0 : ∃ uv ∈ paires (v0 :: (xs ++ [v])), uv.1 = v0 := by
    have : v0 ∈ (paires (v0 :: (xs ++ [v]))).map Prod.fst := by rw [hsrc]; simp
    obtain ⟨uv, huv, h⟩ := List.mem_map.1 this
    exact ⟨uv, huv, h⟩
  have hexv : ∃ uv ∈ paires (v0 :: (xs ++ [v])), uv.2 = v := by
    have : v ∈ (paires (v0 :: (xs ++ [v]))).map Prod.snd := by rw [hcib]; simp
    obtain ⟨uv, huv, h⟩ := List.mem_map.1 this
    exact ⟨uv, huv, h⟩
  obtain ⟨g', e', i', c', -⟩ := total_ajusterExtremites_cas (fun _ : T × T × ℚ => (1 : ℕ))
    i2' v0 v hs2 hf2 hm
  refine ⟨g', e.trans e', i', c'.trans c2, fun u => ⟨?_, ?_⟩, ⟨m, hm, ?_, ?_⟩, fun hb => ⟨?_, ?_⟩⟩
  · obtain ⟨g'', e'', -, -, hle⟩ := total_cond_ajusterExtremites_le
      (fun a b => a ≠ u ∧ b = u) i2' v0 v hs2 hf2 hm
    rw [e'] at e''
    cases e''
    rw [← dette_eq_total g' u, ← dette_eq_total (g.reduireChemin (v0 :: (xs ++ [v])) m) u] at hle
    unfold reduireChemin at hle
    rw [dette_reduirePaires _ m g hinv hsnd hval] at hle
    have h0 := somme_cond_nonneg (paires (v0 :: (xs ++ [v])))
      (fun uv => uv.1 ≠ u ∧ uv.2 = u) (le_of_lt hm)
    by_cases hcu : v0 ≠ v ∧ v0 ≠ u ∧ v = u
    · have h1 := somme_cond_ge (paires (v0 :: (xs ++ [v])))
        (fun uv => uv.1 ≠ u ∧ uv.2 = u) (le_of_lt hm) (by
          obtain ⟨uv, huv, h⟩ := hexv
          refine ⟨uv, huv, fun h' => ?_, h.trans hcu.2.2⟩
          have := harr uv huv h
          rw [h', ← hcu.2.2] at this
          exact hvxs this)
      rw [if_pos hcu] at hle
      linarith
    · rw [if_neg hcu] at hle
      linarith
  · obtain ⟨g'', e'', -, -, hle⟩ := total_cond_ajusterExtremites_le
      (fun a _ => a = u) i2' v0 v hs2 hf2 hm
    rw [e'] at e''
    cases e''
    rw [← credit_eq_total i' u, ← credit_eq_total i2' u] at hle
    unfold reduireChemin at hle
    rw [credit_reduirePaires _ m g hinv hsnd hval] at hle
    have h0 := somme_cond_nonneg (paires (v0 :: (xs ++ [v])))
      (fun uv => uv.1 = u) (le_of_lt hm)
    by_cases hcu : v0 ≠ v ∧ v0 = u
    · have h1 := somme_cond_ge (paires (v0 :: (xs ++ [v])))
        (fun uv => uv.1 = u) (le_of_lt hm) (by
          obtain ⟨uv, huv, h⟩ := hex0
          exact ⟨uv, huv, h.trans hcu.2⟩)
      rw [if_pos hcu] at hle
      linarith
    · rw [if_neg hcu] at hle
      linarith
  · obtain ⟨g'', e'', -, -, t⟩ := total_ajusterExtremites
      (fun e : T × T × ℚ => if SG.sommet e.1 = true ∧ SG.sommet e.2.1 = false then e.2.2 else 0)
      i2' v0 v hs2 hf2 (fun w => by simp [hv0, hv]) hm
    rw [e'] at e''
    cases e''
    rw [pretSG_eq_total, pretSG_eq_total, t]
    unfold reduireChemin
    rw [total_cond_reduirePaires (fun a b => SG.sommet a = true ∧ SG.sommet b = false)
      _ m g hinv hsnd hval]
    have h1 : (paires (v0 :: (xs ++ [v]))).map
        (fun uv => if SG.sommet uv.1 = true ∧ SG.sommet uv.2 = false then m else 0)
        = ((paires (v0 :: (xs ++ [v]))).map Prod.fst).map (fun x => if x = v0 then m else 0) := by
      rw [List.map_map]
      apply List.map_congr_left
      intro uv huv
      simp only [Function.comp]
      by_cases h0 : uv.1 = v0
      · rw [if_pos h0, if_pos ⟨h0 ▸ hv0, hxs _ (hdep uv huv h0)⟩]
      · rw [if_neg h0, if_neg]
        rintro ⟨h1, -⟩
        rcases hsrcmem uv huv with h | h
        · exact h0 h
        · rw [hxs _ h] at h1; simp at h1
    rw [h1, hsrc, List.map_cons, List.sum_cons, somme_indicatrice_absent xs v0 m hv0xs]
    simp
  · obtain ⟨g'', e'', -, -, t⟩ := total_ajusterExtremites
      (fun e : T × T × ℚ => if SG.sommet e.1 = false ∧ SG.sommet e.2.1 = true then e.2.2 else 0)
      i2' v0 v hs2 hf2 (fun w => by simp [hv0, hv]) hm
    rw [e'] at e''
    cases e''
    rw [detteSG_eq_total, detteSG_eq_total, t]
    unfold reduireChemin
    rw [total_cond_reduirePaires (fun a b => SG.sommet a = false ∧ SG.sommet b = true)
      _ m g hinv hsnd hval]
    have h1 : (paires (v0 :: (xs ++ [v]))).map
        (fun uv => if SG.sommet uv.1 = false ∧ SG.sommet uv.2 = true then m else 0)
        = ((paires (v0 :: (xs ++ [v]))).map Prod.snd).map (fun x => if x = v then m else 0) := by
      rw [List.map_map]
      apply List.map_congr_left
      intro uv huv
      simp only [Function.comp]
      by_cases h0 : uv.2 = v
      · rw [if_pos h0, if_pos ⟨hxs _ (harr uv huv h0), h0 ▸ hv⟩]
      · rw [if_neg h0, if_neg]
        rintro ⟨-, h1⟩
        rcases hcibmem uv huv with h | h
        · rw [hxs _ h] at h1; simp at h1
        · exact h0 h
    rw [h1, hcib, List.map_append, List.sum_append, somme_indicatrice_absent xs v m hvxs]
    simp
  · -- the bound on the arcs with an end outside `SG` is kept
    have hb2 : ∀ e ∈ (g.reduireChemin (v0 :: (xs ++ [v])) m).aretes,
        ¬ (SG.sommet e.1 = true ∧ SG.sommet e.2.1 = true) → e.2.2 ≤ doubleMax := by
      intro e0 he0 hce
      have hx := (mem_aretes_iff i2'.1 e0).1 he0
      obtain ⟨w, hw, hle⟩ := hpoids e0.1 (e0.2.1, e0.2.2) hx
      have := hb (e0.1, e0.2.1, w) ((mem_aretes_iff hinv.1 _).2 hw) hce
      simp only at this hle
      linarith
    obtain ⟨g'', e'', -, -, t⟩ := total_ajusterExtremites
      (fun e : T × T × ℚ => if ¬ (SG.sommet e.1 = true ∧ SG.sommet e.2.1 = true) ∧
        doubleMax < e.2.2 then (1 : ℕ) else 0)
      i2' v0 v hs2 hf2 (fun w => by simp [hv0, hv]) hm
    rw [e'] at e''
    cases e''
    have z2 := (borne_iff_total (fun a b => ¬ (SG.sommet a = true ∧ SG.sommet b = true)) _).1 hb2
    exact (borne_iff_total (fun a b => ¬ (SG.sommet a = true ∧ SG.sommet b = true)) _).2
      (t.trans z2)
  · obtain ⟨g'', e'', hle⟩ := arcs_ajusterExtremites_le i2' v0 v hs2 hf2 hm
    rw [e'] at e''
    cases e''
    have hlt : (g.reduireChemin (v0 :: (xs ++ [v])) m).arcs < g.arcs := by
      apply arcs_reduirePaires_lt _ m g hinv hsnd hval'
      have hcond : ∀ uv ∈ paires (v0 :: (xs ++ [v])),
          ¬ (SG.sommet uv.1 = true ∧ SG.sommet uv.2 = true) := by
        intro uv huv hboth
        rcases paires_circuitSG xs hne v0 v uv huv with h | h
        · rw [hxs _ h] at hboth; simp at hboth
        · rw [hxs _ h] at hboth; simp at hboth
      rcases hmin with rfl | ⟨uv, huv, hw⟩
      · obtain ⟨uv, huv⟩ := List.exists_mem_of_ne_nil _ hL
        obtain ⟨w, hw, -⟩ := hval uv huv
        exact ⟨uv, huv, w, hw, hb (uv.1, uv.2, w) ((mem_aretes_iff hinv.1 _).2 hw)
          (hcond uv huv)⟩
      · exact ⟨uv, huv, m, hw, le_refl _⟩
    omega

end Digraph

namespace Digraph
variable {T : Type} [LinearOrder T] {W : Type} [OfNat W 0] [Add W] [Sub W] [LE W] [LT W] [Min W]
  [DecidableRel (LE.le : W → W → Prop)] [DecidableRel (LT.lt : W → W → Prop)] [Limites W]

/-- A reflexive and transitive relation that holds across every cancellation of a circuit
leaving `SG` and coming back to it holds between a graph and the result of the loop of
`reduire(SG)`. -/
theorem boucleReduireSG_recurrence (SG : Digraph T) (P : Digraph T → Digraph T → Prop)
    (hrefl : ∀ g, P g g) (htrans : ∀ g1 g2 g3, P g1 g2 → P g2 g3 → P g1 g3)
    (hstep : ∀ g c g1, g.Inv → g.EstCircuitSG SG c → g.reduireDetteCirculaire c = .ok g1 →
      P g g1)
    (n k : Nat) :
    ∀ g g' : Digraph T, g.Inv → (∀ x, SG.sommet x = true → g.sommet x = true) →
      boucleReduireSG SG n k g = .ok g' → P g g' := by
  induction k with
  | zero => intro g g' _ _ h; simp [boucleReduireSG] at h
  | succ k ih =>
    intro g g' hinv hsub h
    unfold boucleReduireSG at h
    cases hc : g.rechercheProfondeurSG n SG with
    | error err => simp [hc] at h
    | ok circuit =>
      simp only [hc] at h
      by_cases he : circuit.isEmpty = true
      · simp only [he, if_true] at h
        cases h
        exact hrefl g
      · simp only [he, if_false] at h
        have hcy : g.EstCircuitSG SG circuit := by
          rcases rechercheProfondeurSG_correct hinv hsub hc with rfl | hcy
          · simp at he
          · exact hcy
        obtain ⟨g1, e1, i1, k1, -⟩ := reduireDetteCirculaire_circuitSG hinv SG hcy
        simp only [e1] at h
        exact htrans g g1 g' (hstep g circuit g1 hinv hcy e1)
          (ih g1 g' i1 (fun x hx => by rw [sommet_eq_of_cles k1]; exact hsub x hx) h)

/-- Whatever the fuel, a graph returned by `reduire(SG)` has the same keys and no larger
gross obligation, `pret(SG) - dette(SG)` is as before, and when the weights of the arcs
with an end outside `SG` are bounded the number of arcs has not grown. -/
theorem reduireSG_bilan {g : Digraph T} (hinv : g.Inv) {SG : Digraph T}
    (hsub : ∀ x, SG.sommet x = true → g.sommet x = true) {n : Nat} {g' : Digraph T}
    (h : g.reduireSG n SG = .ok g') :
    g'.cles = g.cles ∧
      (∀ u, g'.dette u ≤ g.dette u ∧ g'.credit u ≤ g.credit u) ∧
      g'.pretSG SG - g'.detteSG SG = g.pretSG SG - g.detteSG SG ∧
      g'.pretSG SG ≤ g.pretSG SG ∧
      (g.BorneSG SG → g'.BorneSG SG ∧ g'.arcs ≤ g.arcs) := by
  refine boucleReduireSG_recurrence SG
    (fun g g' => g'.cles = g.cles ∧
      (∀ u, g'.dette u ≤ g.dette u ∧ g'.credit u ≤ g.credit u) ∧
      g'.pretSG SG - g'.detteSG SG = g.pretSG SG - g.detteSG SG ∧
      g'.pretSG SG ≤ g.pretSG SG ∧
      (g.BorneSG SG → g'.BorneSG SG ∧ g'.arcs ≤ g.arcs))
    (fun g => ⟨rfl, fun u => ⟨le_refl _, le_refl _⟩, rfl, le_refl _,
      fun hb => ⟨hb, le_refl _⟩⟩)
    (fun g1 g2 g3 h12 h23 => ⟨h23.1.trans h12.1,
      fun u => ⟨le_trans (h23.2.1 u).1 (h12.2.1 u).1, le_trans (h23.2.1 u).2 (h12.2.1 u).2⟩,
      h23.2.2.1.trans h12.2.2.1, le_trans h23.2.2.2.1 h12.2.2.2.1,
      fun hb => ⟨(h23.2.2.2.2 (h12.2.2.2.2 hb).1).1,
        le_trans (h23.2.2.2.2 (h12.2.2.2.2 hb).1).2 (h12.2.2.2.2 hb).2⟩⟩)
    (fun g c g1 hi hc e => by
      obtain ⟨g2, e2, -, k2, d2, ⟨m, hm, p2, q2⟩, b2⟩ :=
        reduireDetteCirculaire_circuitSG_bilan hi SG hc
      rw [e] at e2
      cases e2
      refine ⟨k2, d2, ?_, ?_, b2⟩
      · rw [p2, q2]; ring
      · rw [p2]; linarith)
    n n g g' hinv hsub h

end Digraph

namespace Digraph
variable {T : Type} [LinearOrder T] {W : Type} [OfNat W 0] [Add W] [Sub W] [LE W] [LT W] [Min W]
  [DecidableRel (LE.le : W → W → Prop)] [DecidableRel (LT.lt : W → W → Prop)] [Limites W]

theorem arc_of_poids_le {g g' : Digraph T W}
    (h : ∀ a x, x ∈ g'.voisinsDe a → ∃ w, (x.1, w) ∈ g.voisinsDe a ∧ x.2 ≤ w) (a b : T)
    (hab : g'.arc a b = true) : g.arc a b = true := by
  obtain ⟨w, hw⟩ := (arc_iff _ _ _).1 hab
  obtain ⟨w', hw', -⟩ := h a (b, w) hw
  exact (arc_iff _ _ _).2 ⟨w', hw'⟩

end Digraph

section EnoncesBilan

open Digraph

variable {T : Type} [LinearOrder T]

/-- C19, with weights taken as exact numbers: on a graph satisfying the
structural invariants, with `SG = cooperative(S)`, `reduire(SG)` returns with enough
fuel and, whatever the fuel, the graph it returns has the same value of
`pret(SG) - dette(SG)`; every cancellation of a circuit that leaves `SG` and comes back
to it lowers `pret(SG)` and `dette(SG)` by the same positive amount. -/
theorem C19_solde_agrege (g : Digraph T) (hinv : g.Inv) (S : List T)
    (hS : ∀ u ∈ S, g.sommet u = true) :
    ∃ SG, g.cooperative S = .ok SG ∧
      (∀ n, g.sommets + g.potentielSG SG < n → ∃ g', g.reduireSG n SG = .ok g') ∧
      (∀ n g', g.reduireSG n SG = .ok g' →
        g'.pretSG SG - g'.detteSG SG = g.pretSG SG - g.detteSG SG) ∧
      (∀ c, g.EstCircuitSG SG c →
        ∃ g1 m, g.reduireDetteCirculaire c = .ok g1 ∧ 0 < m ∧
          g1.pretSG SG = g.pretSG SG - m ∧ g1.detteSG SG = g.detteSG SG - m) := by
  obtain ⟨SG, e, -, s, -⟩ := cooperative_spec hinv hS
  have hsub : ∀ x, SG.sommet x = true → g.sommet x = true := fun x hx => hS x ((s x).1 hx)
  refine ⟨SG, e, fun n hn => ?_, fun n g' h => (reduireSG_bilan hinv hsub h).2.2.1,
    fun c hc => ?_⟩
  · obtain ⟨g', e', -⟩ := reduireSG_termine hinv hsub hn
    exact ⟨g', e'⟩
  · obtain ⟨g1, e1, -, -, -, ⟨m, hm, p, q⟩, -⟩ := reduireDetteCirculaire_circuitSG_bilan hinv SG hc
    exact ⟨g1, m, e1, hm, p, q⟩

theorem C19_solde_agrege_witness :
    exempleRetour.Inv ∧ (∀ u ∈ [0, 1], exempleRetour.sommet u = true) ∧
    exempleRetour.cooperative [0, 1] = .ok ⟨[(0, []), (1, [(0, 3)])]⟩ ∧
    exempleRetour.pretSG ⟨[(0, []), (1, [(0, 3)])]⟩ = 5 ∧
    exempleRetour.detteSG ⟨[(0, []), (1, [(0, 3)])]⟩ = 5 ∧
    ∃ SG, exempleRetour.cooperative [0, 1] = .ok SG ∧
      (∀ n, exempleRetour.sommets + exempleRetour.potentielSG SG < n →
        ∃ g', exempleRetour.reduireSG n SG = .ok g') ∧
      (∀ n g', exempleRetour.reduireSG n SG = .ok g' →
        g'.pretSG SG - g'.detteSG SG = exempleRetour.pretSG SG - exempleRetour.detteSG SG) ∧
      (∀ c, exempleRetour.EstCircuitSG SG c →
        ∃ g1 m, exempleRetour.reduireDetteCirculaire c = .ok g1 ∧ 0 < m ∧
          g1.pretSG SG = exempleRetour.pretSG SG - m ∧
          g1.detteSG SG = exempleRetour.detteSG SG - m) :=
  ⟨by decide, by decide, by decide, by decide!, by decide!,
    C19_solde_agrege exempleRetour (by decide) [0, 1] (by decide)⟩

end EnoncesBilan

/-- Two paths from `a` to `s` that do not go through `s` before their end are equal when
every vertex has at most one successor. -/
theorem chaine_unique {T : Type} (R : T → T → Prop) (hR : ∀ a b b', R a b → R a b' → b = b')
    (s : T) :
    ∀ (l l' : List T) (a : T), List.Chain' R (a :: (l ++ [s])) →
      List.Chain' R (a :: (l' ++ [s])) → s ∉ l → s ∉ l' → l = l' := by
  intro l
  induction l with
  | nil =>
    intro l' a h h' _ hs'
    cases l' with
    | nil => rfl
    | cons b r =>
      simp only [List.nil_append, List.cons_append, List.chain'_cons] at h h'
      have := hR a s b h.1 h'.1
      exact absurd (this ▸ List.mem_cons_self _ _) hs'
  | cons b r ih =>
    intro l' a h h' hs hs'
    cases l' with
    | nil =>
      simp only [List.nil_append, List.cons_append, List.chain'_cons] at h h'
      have := hR a b s h.1 h'.1
      exact absurd (this ▸ List.mem_cons_self _ _) hs
    | cons b' r' =>
      simp only [List.cons_append, List.chain'_cons] at h h'
      have e := hR a b b' h.1 h'.1
      subst e
      rw [ih r' b h.2 h'.2 (fun hm => hs (List.mem_cons_of_mem _ hm))
        (fun hm => hs' (List.mem_cons_of_mem _ hm))]

namespace Digraph
variable {T : Type} [LinearOrder T] {W : Type} [OfNat W 0] [Add W] [Sub W] [LE W] [LT W] [Min W]
  [DecidableRel (LE.le : W → W → Prop)] [DecidableRel (LT.lt : W → W → Prop)] [Limites W]

/-- In a graph whose arcs all lie on the cycle `c` through `s`, `c` is the only cycle
through `s`. -/
theorem cycle_unique {g : Digraph T W} {s : T} {c c' : List T} (hc : g.EstCycle s c)
    (hseul : ∀ a b, g.arc a b = true → (a, b) ∈ paires c) (hc' : g.EstCycle s c') :
    c' = c := by
  obtain ⟨milieu, rfl, -, hnd, hch⟩ := hc
  obtain ⟨milieu', rfl, -, hnd', hch'⟩ := hc'
  have hsrc : ((paires (s :: milieu ++ [s])).map Prod.fst).Nodup := by
    rw [paires_map_fst]
    have : (s :: milieu ++ [s]).dropLast = s :: milieu := List.dropLast_concat
    rw [this]; exact hnd
  have hR : ∀ a b b', g.arc a b = true → g.arc a b' = true → b = b' := by
    intro a b b' h1 h2
    have := List.inj_on_of_nodup_map hsrc (hseul a b h1) (hseul a b' h2) rfl
    exact (Prod.mk.inj this).2
  have := chaine_unique (fun a b => g.arc a b = true) hR s milieu' milieu s hch' hch
    (List.nodup_cons.1 hnd').1 (List.nodup_cons.1 hnd).1
  rw [this]

end Digraph

namespace Digraph
variable {T : Type} [LinearOrder T] {W : Type} [OfNat W 0] [Add W] [Sub W] [LE W] [LT W] [Min W]
  [DecidableRel (LE.le : W → W → Prop)] [DecidableRel (LT.lt : W → W → Prop)] [Limites W]

theorem estCycle_of_arcs {g g' : Digraph T W} (h : ∀ a b, g'.arc a b = true → g.arc a b = true)
    {s : T} {c : List T} (hc : g'.EstCycle s c) : g.EstCycle s c := by
  obtain ⟨milieu, e, hne, hnd, hch⟩ := hc
  exact ⟨milieu, e, hne, hnd, hch.imp (fun {a b} hab => h a b hab)⟩

end Digraph

namespace Digraph
variable {T : Type} [LinearOrder T] {W : Type} [OfNat W 0] [Add W]

/-! ### The aggregations as accumulated sums, in any arithmetic -/

theorem cumul_eq_sum (l : List ℚ) : cumul l = l.sum := by
  unfold cumul
  rw [List.sum_eq_foldl]

end Digraph

section EnoncesSommes

open Digraph

variable {T : Type} [LinearOrder T] {W : Type} [OfNat W 0] [Add W]

/-- The sums of `pret(SG)` and `dette(SG)` on `double` weights are rounded at every step:
on the graph with arcs `0 -> 1` (0.1) and `0 -> 2` (0.2), built by two calls of
`inserer(u, v, emprunt)` and satisfying the structural invariants, `pret(SG)` for
`SG = cooperative({0})` returns 0.30000000000000004, i.e. 5404319552844596 / 2^54,
whereas the exact sum of the two `double` values is 10808639105689191 / 2^55;
`dette(SG)` for `SG = cooperative({1, 2})` returns the same value. -/
theorem pretSG_somme_arrondie :
    (do
      let g1 ← (vide : Digraph Nat Double).insererArc 0 1 (Double.arrondi (1 / 10))
      g1.insererArc 0 2 (Double.arrondi (2 / 10))) = .ok exempleDixiemes ∧
    exempleDixiemes.Inv ∧
    exempleDixiemes.cooperative [0] = .ok ⟨[(0, [])]⟩ ∧
    exempleDixiemes.cooperative [1, 2] = .ok ⟨[(1, []), (2, [])]⟩ ∧
    exempleDixiemes.pretSG ⟨[(0, [])]⟩ = Double.fini (5404319552844596 / 2 ^ 54) ∧
    exempleDixiemes.detteSG ⟨[(1, []), (2, [])]⟩ = Double.fini (5404319552844596 / 2 ^ 54) ∧
    total (fun e => if (⟨[(0, [])]⟩ : Digraph Nat Double).sommet e.1 = true ∧
        (⟨[(0, [])]⟩ : Digraph Nat Double).sommet e.2.1 = false then e.2.2.valeur else 0)
      exempleDixiemes = 10808639105689191 / 2 ^ 55 ∧
    total (fun e => if (⟨[(1, []), (2, [])]⟩ : Digraph Nat Double).sommet e.1 = false ∧
        (⟨[(1, []), (2, [])]⟩ : Digraph Nat Double).sommet e.2.1 = true then e.2.2.valeur else 0)
      exempleDixiemes = 10808639105689191 / 2 ^ 55 ∧
    (exempleDixiemes.pretSG ⟨[(0, [])]⟩).valeur
      ≠ total (fun e => if (⟨[(0, [])]⟩ : Digraph Nat Double).sommet e.1 = true ∧
          (⟨[(0, [])]⟩ : Digraph Nat Double).sommet e.2.1 = false then e.2.2.valeur else 0)
        exempleDixiemes ∧
    (exempleDixiemes.detteSG ⟨[(1, []), (2, [])]⟩).valeur
      ≠ total (fun e => if (⟨[(1, []), (2, [])]⟩ : Digraph Nat Double).sommet e.1 = false ∧
          (⟨[(1, []), (2, [])]⟩ : Digraph Nat Double).sommet e.2.1 = true then e.2.2.valeur
          else 0)
        exempleDixiemes := by
  refine ⟨by decide!, by decide!, by decide!, by decide!, by decide!, by decide!, by decide!,
    by decide!, by decide!, by decide!⟩

/-- The sums of `pret(u)` and `dette(u)` on `double` weights are rounded at every step: on
the graph with arcs `0 -> 1` (0.1) and `0 -> 2` (0.2), `pret(0)` returns
0.30000000000000004, i.e. 5404319552844596 / 2^54, whereas the exact sum of the two
`double` values is 10808639105689191 / 2^55; on the graph with arcs `1 -> 0` (0.1) and
`2 -> 0` (0.2), `dette(0)` returns the same value. -/
theorem pret_somme_arrondie :
    exempleDixiemes.Inv ∧ exempleDixiemesDus.Inv ∧
    exempleDixiemes.sommet 0 = true ∧ exempleDixiemesDus.sommet 0 = true ∧
    exempleDixiemes.pret 0 = .ok (Double.fini (5404319552844596 / 2 ^ 54)) ∧
    exempleDixiemesDus.dette 0 = Double.fini (5404319552844596 / 2 ^ 54) ∧
    total (fun e => if e.1 = 0 then e.2.2.valeur else 0) exempleDixiemes
      = 10808639105689191 / 2 ^ 55 ∧
    total (fun e => if e.2.1 = 0 then e.2.2.valeur else 0) exempleDixiemesDus
      = 10808639105689191 / 2 ^ 55 ∧
    (5404319552844596 / 2 ^ 54 : ℚ) ≠ 10808639105689191 / 2 ^ 55 := by
  refine ⟨by decide!, by decide!, by decide, by decide, by decide!, by decide!, by decide!,
    by decide!, by decide!⟩

end EnoncesSommes

namespace Digraph

/-- On the two-vertex graph whose two arcs weigh plus infinity, the loop of `reduire(0)`
runs out of any fuel: every search finds the cycle `0, 1, 0`, whose cancellation
subtracts the largest double from both weights and leaves them infinite. -/
theorem boucleReduire_infini (n k : Nat) :
    boucleReduire 0 n k exempleInfini = .error .epuise := by
  induction k with
  | zero => rfl
  | succ k ih =>
    unfold boucleReduire
    by_cases hn : 2 ≤ n
    · have hs : exempleInfini.rechercheProfondeur n 0 = .ok [0, 1, 0] :=
        rechercheProfondeur_mono exempleInfini hn (by decide)
      have hr : exempleInfini.reduireDetteCirculaire [0, 1, 0] = .ok exempleInfini := by decide
      simp only [hs, hr, List.isEmpty_cons, Bool.false_eq_true, if_false]
      exact ih
    · have hs : exempleInfini.rechercheProfondeur n 0 = .error .epuise := by
        have : n = 0 ∨ n = 1 := by omega
        rcases this with rfl | rfl <;> decide
      simp only [hs]

end Digraph

section EnoncesDoubles

open Digraph

/-- C11 on `double` weights: the graph with arcs `0 -> 1` and
`1 -> 0` of weight plus infinity is built by two calls of `inserer(u, v, emprunt)`, whose
assertion `emprunt >= 0` holds of plus infinity, and satisfies the structural invariants.
With any fuel of at least 2 the search from `0` finds the cycle `0, 1, 0`, and its
cancellation returns the same graph (the minimum is the largest double, and infinity
minus it is infinity, which is not `<= 0`). Hence `reduire(0)` runs out of every fuel:
the call does not terminate. -/
theorem C11_poids_infini_sans_fin :
    (do
      let g1 ← (vide : Digraph Nat Double).insererArc 0 1 (Double.infini false)
      g1.insererArc 1 0 (Double.infini false)) = .ok exempleInfini ∧
    exempleInfini.Inv ∧ exempleInfini.sommet 0 = true ∧
    (∀ n, 2 ≤ n → exempleInfini.rechercheProfondeur n 0 = .ok [0, 1, 0]) ∧
    exempleInfini.minDetteCircuit [0, 1, 0] = (exempleInfini, Limites.max) ∧
    (Double.infini false - Limites.max : Double) = Double.infini false ∧
    exempleInfini.reduireDetteCirculaire [0, 1, 0] = .ok exempleInfini ∧
    (∀ n, exempleInfini.reduire n 0 = .error .epuise) := by
  refine ⟨by decide, by decide, by decide,
    fun n hn => rechercheProfondeur_mono exempleInfini hn (by decide), by decide!, by decide,
    by decide, fun n => ?_⟩
  unfold reduire
  rw [if_pos (by decide)]
  exact boucleReduire_infini n n

/-- C12 on `double` weights. (1) The arcs of the graph with arcs `0 -> 1` and `1 -> 0` of
weight plus infinity, which satisfies the structural invariants, are exactly those of the
cycle `0, 1, 0`, with positive weights; `reduire(0)` runs out of every fuel on it: the
call does not terminate, and no graph is left. (2) The graph with arcs `0 -> 1` (1e20)
and `1 -> 0` (1.0), built by two calls of `inserer(u, v, emprunt)`, satisfies the
structural invariants, its weights are finite and its arcs are those of the cycle
`0, 1, 0`, of minimum 1. With any fuel of at least 5, `reduire(0)` returns the graph
whose only arc is `0 -> 1` with weight 1e20: the difference 1e20 - 1 computed on `double`
is 1e20, which is not the number 1e20 - 1. -/
theorem C12_cycle_infini :
    exempleInfini.Inv ∧ exempleInfini.EstCycle 0 [0, 1, 0] ∧
    (∀ e ∈ exempleInfini.aretes, (e.1, e.2.1) ∈ paires [0, 1, 0]) ∧
    (∀ e ∈ exempleInfini.aretes, (0 : Double) < e.2.2 ∧ e.2.2 = Double.infini false) ∧
    (∀ n, exempleInfini.reduire n 0 = .error .epuise) ∧
    (do
      let g1 ← (vide : Digraph Nat Double).insererArc 0 1 (Double.arrondi (10 ^ 20))
      g1.insererArc 1 0 (Double.arrondi 1)) = .ok exempleGrandEcart ∧
    exempleGrandEcart.Inv ∧ exempleGrandEcart.PoidsFinis ∧
    exempleGrandEcart.EstCycle 0 [0, 1, 0] ∧
    (∀ e ∈ exempleGrandEcart.aretes, (e.1, e.2.1) ∈ paires [0, 1, 0]) ∧
    exempleGrandEcart.aretes = [(0, 1, Double.fini (10 ^ 20)), (1, 0, Double.fini 1)] ∧
    (∀ n, 5 ≤ n →
      exempleGrandEcart.reduire n 0 = .ok ⟨[(0, [(1, Double.fini (10 ^ 20))]), (1, [])]⟩) ∧
    (Double.fini (10 ^ 20) - Double.fini 1 : Double) = Double.fini (10 ^ 20) ∧
    (10 ^ 20 : ℚ) ≠ 10 ^ 20 - 1 := by
  refine ⟨by decide, ⟨[1], rfl, by decide, by decide, (chain_iff_paires _ _).2 (by decide)⟩,
    by decide, by decide, fun n => ?_, by decide!, by decide!, by decide!,
    ⟨[1], rfl, by decide, by decide, (chain_iff_paires _ _).2 (by decide!)⟩, by decide!,
    by decide!, fun n hn => reduire_mono _ hn (by decide!), by decide!, by decide!⟩
  unfold reduire
  rw [if_pos (by decide)]
  exact boucleReduire_infini n n

/-- C19 on `double` weights: on the graph with arcs `2 -> 0` (0.3),
`2 -> 1` (100.0) and `0 -> 2` (0.9), built by three calls of `inserer(u, v, emprunt)` and
satisfying the structural invariants, with `SG = cooperative({2})`, `reduire(SG)`
cancels the circuit `2, 0, 2` of minimum 0.3. Before, `pret(SG)` is 100.3 and
`dette(SG)` is 0.9, and their difference is 99.39999999999999; after, `pret(SG)` is
100.0 and `dette(SG)` is 0.6000000000000001, and their difference is 99.4: the
difference is not conserved, neither as a `double` nor as the exact difference of the
two values. -/
theorem C19_solde_agrege_modifie :
    (do
      let g1 ← (vide : Digraph Nat Double).insererArc 2 0 (Double.arrondi (3 / 10))
      let g2 ← g1.insererArc 2 1 (Double.arrondi 100)
      g2.insererArc 0 2 (Double.arrondi (9 / 10))) = .ok exempleFrontiere ∧
    exempleFrontiere.Inv ∧
    exempleFrontiere.cooperative [2] = .ok ⟨[(2, [])]⟩ ∧
    (∀ n, 5 ≤ n →
      exempleFrontiere.reduireSG n ⟨[(2, [])]⟩
        = .ok ⟨[(0, [(2, Double.arrondi (6000000000000001 / 10 ^ 16))]), (1, []),
            (2, [(1, Double.arrondi 100)])]⟩) ∧
    exempleFrontiere.pretSG ⟨[(2, [])]⟩ = Double.arrondi (1003 / 10) ∧
    exempleFrontiere.detteSG ⟨[(2, [])]⟩ = Double.arrondi (9 / 10) ∧
    (⟨[(0, [(2, Double.arrondi (6000000000000001 / 10 ^ 16))]), (1, []),
        (2, [(1, Double.arrondi 100)])]⟩ : Digraph Nat Double).pretSG ⟨[(2, [])]⟩
      = Double.arrondi 100 ∧
    (⟨[(0, [(2, Double.arrondi (6000000000000001 / 10 ^ 16))]), (1, []),
        (2, [(1, Double.arrondi 100)])]⟩ : Digraph Nat Double).detteSG ⟨[(2, [])]⟩
      = Double.arrondi (6000000000000001 / 10 ^ 16) ∧
    (Double.arrondi (1003 / 10) - Double.arrondi (9 / 10) : Double)
      = Double.arrondi (9939999999999999 / 10 ^ 14) ∧
    (Double.arrondi 100 - Double.arrondi (6000000000000001 / 10 ^ 16) : Double)
      = Double.arrondi (994 / 10) ∧
    Double.arrondi (9939999999999999 / 10 ^ 14) ≠ Double.arrondi (994 / 10) ∧
    (Double.arrondi (1003 / 10)).valeur - (Double.arrondi (9 / 10)).valeur
      ≠ (Double.arrondi 100).valeur
        - (Double.arrondi (6000000000000001 / 10 ^ 16)).valeur := by
  refine ⟨by decide!, by decide!, by decide!, fun n hn => reduireSG_mono _ _ hn (by decide!),
    by decide!, by decide!, by decide!, by decide!, by decide!, by decide!, by decide!,
    by decide!⟩

end EnoncesDoubles

namespace Digraph
variable {T : Type} [LinearOrder T] {W : Type} [OfNat W 0] [Add W] [Sub W] [LE W] [LT W] [Min W]
  [DecidableRel (LE.le : W → W → Prop)] [DecidableRel (LT.lt : W → W → Prop)] [Limites W]

theorem total_le_total (φ ψ : T × T × W → ℕ) (g : Digraph T W)
    (h : ∀ e ∈ g.aretes, φ e ≤ ψ e) : total φ g ≤ total ψ g := by
  unfold total
  exact List.sum_le_sum h

end Digraph

/-! ## Arithmetic of the finite `double` values -/

namespace Double

theorem exposant_le (reserve : Nat) : ∀ n j, n < 2 ^ (53 + j) → exposant reserve n ≤ j := by
  induction reserve with
  | zero => intro n j _; exact Nat.zero_le _
  | succ r ih =>
    intro n j h
    unfold exposant
    by_cases hn : n < 2 ^ 53
    · rw [if_pos hn]; exact Nat.zero_le _
    · rw [if_neg hn]
      cases j with
      | zero => exact absurd h hn
      | succ j =>
        have : n / 2 < 2 ^ (53 + j) := by
          rw [Nat.div_lt_iff_lt_mul (by norm_num)]
          calc n < 2 ^ (53 + (j + 1)) := h
            _ = 2 ^ (53 + j) * 2 := by rw [← Nat.add_assoc, Nat.pow_succ]
        exact Nat.succ_le_succ (ih (n / 2) j this)

theorem deux_puissance_pos (k : ℕ) : (0 : ℚ) < 2 ^ k := pow_pos (by norm_num) k

theorem doubleMax_unites : doubleMax * 2 ^ 1074 = (((2 ^ 53 - 1) * 2 ^ 2045 : ℕ) : ℚ) := by
  unfold doubleMax
  norm_num

theorem mantisse_lt (k : ℕ) : (2 ^ 53 - 1) * 2 ^ k < 2 ^ (53 + k) := by
  rw [Nat.pow_add]
  exact Nat.mul_lt_mul_of_pos_right (by norm_num) (Nat.two_pow_pos k)

theorem toNat_floor_le {z : ℚ} (hz : 0 ≤ z) : ((⌊z⌋.toNat : ℕ) : ℚ) ≤ z := by
  rw [Int.floor_toNat]
  exact Nat.floor_le hz

/-- Rounding a real of `[0, doubleMax]` gives a number of units of `2^-1074` that does
not exceed the largest double. -/
theorem arrondiPositif_borne (x : ℚ) (h0 : 0 ≤ x) (h1 : x ≤ doubleMax) :
    ∃ n : ℕ, arrondiPositif x = fini ((n : ℚ) / 2 ^ 1074) ∧ (n : ℚ) / 2 ^ 1074 ≤ doubleMax := by
  have hy0 : (0 : ℚ) ≤ x * 2 ^ 1074 := mul_nonneg h0 (le_of_lt (deux_puissance_pos _))
  have hyM : x * 2 ^ 1074 ≤ (((2 ^ 53 - 1) * 2 ^ 2045 : ℕ) : ℚ) := by
    rw [← doubleMax_unites]
    exact mul_le_mul_of_nonneg_right h1 (le_of_lt (deux_puissance_pos _))
  unfold arrondiPositif
  simp only
  generalize x * 2 ^ 1074 = y at hy0 hyM
  have hn : ⌊y⌋.toNat < 2 ^ (53 + 2045) := by
    have h3 : ((⌊y⌋.toNat : ℕ) : ℚ) ≤ (((2 ^ 53 - 1) * 2 ^ 2045 : ℕ) : ℚ) :=
      le_trans (toNat_floor_le hy0) hyM
    have h4 : ⌊y⌋.toNat ≤ (2 ^ 53 - 1) * 2 ^ 2045 := Nat.cast_le.1 h3
    exact lt_of_le_of_lt h4 (mantisse_lt 2045)
  have he := exposant_le 2046 _ 2045 hn
  generalize exposant 2046 ⌊y⌋.toNat = e at he
  -- the bound in units of `2^e`
  obtain ⟨d, hd⟩ : ∃ d, e + d = 2045 := ⟨2045 - e, by omega⟩
  have hK : (((2 ^ 53 - 1) * 2 ^ 2045 : ℕ) : ℚ) = (((2 ^ 53 - 1) * 2 ^ d : ℕ) : ℚ) * 2 ^ e := by
    have : (2 ^ 53 - 1) * 2 ^ 2045 = (2 ^ 53 - 1) * 2 ^ d * 2 ^ e := by
      rw [Nat.mul_assoc, ← Nat.pow_add, Nat.add_comm d e, hd]
    rw [this, Nat.cast_mul (((2 : ℕ) ^ 53 - 1) * 2 ^ d) (2 ^ e), Nat.cast_pow]
    rfl
  have h2e : (0 : ℚ) < 2 ^ e := deux_puissance_pos e
  have hz0 : (0 : ℚ) ≤ y / 2 ^ e := div_nonneg hy0 (le_of_lt h2e)
  have hzK : y / 2 ^ e ≤ (((2 ^ 53 - 1) * 2 ^ d : ℕ) : ℚ) := by
    rw [div_le_iff₀ h2e, ← hK]
    exact hyM
  generalize y / 2 ^ e = z at hz0 hzK
  have hqz : ((⌊z⌋.toNat : ℕ) : ℚ) ≤ z := toNat_floor_le hz0
  -- the rounded mantissa does not exceed the bound
  have hq1 : (if z - (⌊z⌋.toNat : ℚ) < 1 / 2 then ⌊z⌋.toNat
      else if 1 / 2 < z - (⌊z⌋.toNat : ℚ) then ⌊z⌋.toNat + 1
      else if ⌊z⌋.toNat % 2 = 0 then ⌊z⌋.toNat else ⌊z⌋.toNat + 1)
      ≤ (2 ^ 53 - 1) * 2 ^ d := by
    have hle : ⌊z⌋.toNat ≤ (2 ^ 53 - 1) * 2 ^ d := Nat.cast_le.1 (le_trans hqz hzK)
    by_cases hr : z - (⌊z⌋.toNat : ℚ) < 1 / 2
    · rw [if_pos hr]; exact hle
    · rw [if_neg hr]
      have hlt : ⌊z⌋.toNat < (2 ^ 53 - 1) * 2 ^ d := by
        have h1 : ((⌊z⌋.toNat : ℕ) : ℚ) < z := by linarith
        exact Nat.cast_lt.1 (lt_of_lt_of_le h1 hzK)
      split_ifs <;> omega
  generalize (if z - (⌊z⌋.toNat : ℚ) < 1 / 2 then ⌊z⌋.toNat
      else if 1 / 2 < z - (⌊z⌋.toNat : ℚ) then ⌊z⌋.toNat + 1
      else if ⌊z⌋.toNat % 2 = 0 then ⌊z⌋.toNat else ⌊z⌋.toNat + 1) = q1 at hq1
  have hprod : q1 * 2 ^ e ≤ (2 ^ 53 - 1) * 2 ^ 2045 := by
    calc q1 * 2 ^ e ≤ (2 ^ 53 - 1) * 2 ^ d * 2 ^ e := Nat.mul_le_mul_right _ hq1
      _ = (2 ^ 53 - 1) * 2 ^ 2045 := by rw [Nat.mul_assoc, ← Nat.pow_add, Nat.add_comm, hd]
  have hno : ¬ (2 ^ 2098 ≤ q1 * 2 ^ e) := by
    have h98 : (2098 : ℕ) = 53 + 2045 := by norm_num
    rw [h98]
    exact fun h => absurd (lt_of_le_of_lt hprod (mantisse_lt 2045)) (not_lt.2 h)
  rw [if_neg hno]
  refine ⟨_, rfl, ?_⟩
  rw [div_le_iff₀ (deux_puissance_pos _), doubleMax_unites]
  exact Nat.cast_le.2 hprod

theorem arrondi_zero : arrondi 0 = fini 0 := by decide!

theorem moins_fini (a b : ℚ) : (fini a - fini b : Double) = arrondi (a - b) := by
  show plus (fini a) (oppose (fini b)) = arrondi (a - b)
  unfold oppose plus
  rw [sub_eq_add_neg]

theorem plus_fini (a b : ℚ) : (fini a + fini b : Double) = arrondi (a + b) := rfl

theorem arrondiPositif_ne_nan (x : ℚ) : arrondiPositif x ≠ nan := by
  unfold arrondiPositif
  simp only
  split_ifs <;> simp

theorem arrondi_ne_nan (x : ℚ) : arrondi x ≠ nan := by
  unfold arrondi
  split_ifs
  · exact arrondiPositif_ne_nan x
  · intro h
    cases h' : arrondiPositif (-x) with
    | fini v => rw [h'] at h; simp [oppose] at h
    | infini n => rw [h'] at h; simp [oppose] at h
    | nan => exact arrondiPositif_ne_nan _ h'

theorem unites_nonneg (n : ℕ) : (0 : ℚ) ≤ (n : ℚ) / 2 ^ 1074 :=
  div_nonneg (Nat.cast_nonneg _) (le_of_lt (deux_puissance_pos _))

theorem unites_den (n : ℕ) : ((n : ℚ) / 2 ^ 1074 * 2 ^ 1074).den = 1 := by
  rw [div_mul_cancel₀ _ (ne_of_gt (deux_puissance_pos 1074))]
  exact Rat.den_natCast n

theorem neg_unites_den (n : ℕ) : ((-((n : ℚ) / 2 ^ 1074)) * 2 ^ 1074).den = 1 := by
  rw [neg_mul, div_mul_cancel₀ _ (ne_of_gt (deux_puissance_pos 1074)), Rat.neg_den]
  exact Rat.den_natCast n

/-- Rounding a real of `[-doubleMax, doubleMax]` gives a finite value of the same sign,
a multiple of `2^-1074`. -/
theorem arrondi_borne (x : ℚ) (h0 : -doubleMax ≤ x) (h1 : x ≤ doubleMax) :
    ∃ v, arrondi x = fini v ∧ (0 ≤ x → 0 ≤ v) ∧ (x ≤ 0 → v ≤ 0) ∧ v ≤ doubleMax ∧
      (v * 2 ^ 1074).den = 1 := by
  unfold arrondi
  by_cases hx : 0 ≤ x
  · rw [if_pos hx]
    obtain ⟨n, e, q⟩ := arrondiPositif_borne x hx h1
    refine ⟨_, e, fun _ => unites_nonneg n, fun h => ?_, q, unites_den n⟩
    have hx0 : x = 0 := le_antisymm h hx
    subst hx0
    rw [show arrondiPositif 0 = fini 0 by decide!] at e
    have : (n : ℚ) / 2 ^ 1074 = 0 := (fini.inj e).symm
    rw [this]
  · rw [if_neg hx]
    obtain ⟨n, e, q⟩ := arrondiPositif_borne (-x) (by linarith) (by linarith)
    have h0' := unites_nonneg n
    refine ⟨-((n : ℚ) / 2 ^ 1074), by rw [e]; rfl, fun h => absurd h hx,
      fun _ => by linarith, ?_, neg_unites_den n⟩
    have := Digraph.doubleMax_pos
    linarith

theorem le_zero_fini (v : ℚ) : (fini v : Double) ≤ 0 ↔ v ≤ 0 := by
  show inferieurOuEgal (fini v) (fini 0) = true ↔ v ≤ 0
  simp [inferieurOuEgal]

theorem zero_lt_fini (v : ℚ) : (0 : Double) < fini v ↔ 0 < v := by
  show inferieur (fini 0) (fini v) = true ↔ 0 < v
  simp [inferieur]

theorem zero_le_fini (v : ℚ) : (0 : Double) ≤ fini v ↔ 0 ≤ v := by
  show inferieurOuEgal (fini 0) (fini v) = true ↔ 0 ≤ v
  simp [inferieurOuEgal]

/-- Apart from NaN, a value that is not `<= 0` is `> 0`. -/
theorem pos_of_not_le {w : Double} (hn : w ≠ nan) (h : ¬ (w ≤ 0)) : 0 < w := by
  cases w with
  | fini v =>
    rw [le_zero_fini] at h
    rw [zero_lt_fini]
    exact not_le.1 h
  | infini n =>
    cases n with
    | false => rfl
    | true => exact absurd (show (infini true : Double) ≤ 0 from rfl) h
  | nan => exact absurd rfl hn

theorem poidsFini_iff (w : Double) :
    PoidsFini w ↔ ∃ v, w = fini v ∧ 0 < v ∧ v ≤ doubleMax ∧ (v * 2 ^ 1074).den = 1 := by
  cases w with
  | fini v => simp [PoidsFini]
  | infini n => simp [PoidsFini]
  | nan => simp [PoidsFini]

theorem PoidsFini.pos {w : Double} (h : PoidsFini w) : 0 < w := by
  obtain ⟨v, rfl, hv, -, -⟩ := (poidsFini_iff w).1 h
  exact (zero_lt_fini v).2 hv

theorem PoidsFini.nonneg {w : Double} (h : PoidsFini w) : 0 ≤ w := by
  obtain ⟨v, rfl, hv, -, -⟩ := (poidsFini_iff w).1 h
  exact (zero_le_fini v).2 (le_of_lt hv)

theorem PoidsFini.min_max {w : Double} (h : PoidsFini w) : min Limites.max w = w := by
  obtain ⟨v, rfl, -, hv, -⟩ := (poidsFini_iff w).1 h
  show (if fini v < (fini doubleMax : Double) then fini v else fini doubleMax) = fini v
  by_cases hlt : (fini v : Double) < fini doubleMax
  · rw [if_pos hlt]
  · rw [if_neg hlt]
    have : ¬ v < doubleMax := by
      intro h'
      exact hlt (show inferieur (fini v) (fini doubleMax) = true by simp [inferieur, h'])
    rw [le_antisymm hv (not_lt.1 this)]

theorem min_choix (a b : Double) : min a b = a ∨ min a b = b := by
  show (if b < a then b else a) = a ∨ (if b < a then b else a) = b
  split_ifs
  · exact Or.inr rfl
  · exact Or.inl rfl

theorem PoidsFini.moins_soi {w : Double} (h : PoidsFini w) : w - w ≤ 0 := by
  obtain ⟨v, rfl, -, -, -⟩ := (poidsFini_iff w).1 h
  rw [moins_fini, sub_self, arrondi_zero]
  exact (le_zero_fini 0).2 (le_refl _)

theorem PoidsFini.moins {w m : Double} (hw : PoidsFini w) (hm : PoidsFini m)
    (h : ¬ (w - m ≤ 0)) : PoidsFini (w - m) := by
  obtain ⟨a, rfl, ha, ha', -⟩ := (poidsFini_iff w).1 hw
  obtain ⟨b, rfl, hb, hb', -⟩ := (poidsFini_iff m).1 hm
  rw [moins_fini] at h ⊢
  obtain ⟨v, e, p, q, r, d⟩ := arrondi_borne (a - b) (by linarith only [ha, ha', hb, hb'])
    (by linarith only [ha, ha', hb, hb'])
  rw [e] at h ⊢
  rw [le_zero_fini] at h
  exact (poidsFini_iff _).2 ⟨v, rfl, not_le.1 h, r, d⟩

theorem plus_ne_nan {w m : Double} (hw : 0 < w) (hm : PoidsFini m) : w + m ≠ nan := by
  obtain ⟨b, rfl, -, -, -⟩ := (poidsFini_iff m).1 hm
  cases w with
  | fini a => rw [plus_fini]; exact arrondi_ne_nan _
  | infini n => intro h; cases h
  | nan => exact absurd hw (by decide)

theorem moins_ne_nan {w m : Double} (hw : 0 < w) (hm : PoidsFini m) : w - m ≠ nan := by
  obtain ⟨b, rfl, -, -, -⟩ := (poidsFini_iff m).1 hm
  cases w with
  | fini a => rw [moins_fini]; exact arrondi_ne_nan _
  | infini n => intro h; cases h
  | nan => exact absurd hw (by decide)

theorem fini_le_fini (a b : ℚ) : (fini a : Double) ≤ fini b ↔ a ≤ b := by
  show inferieurOuEgal (fini a) (fini b) = true ↔ a ≤ b
  simp [inferieurOuEgal]

theorem fini_lt_fini (a b : ℚ) : (fini a : Double) < fini b ↔ a < b := by
  show inferieur (fini a) (fini b) = true ↔ a < b
  simp [inferieur]

/-- The function `std::min` on two finite values. -/
theorem min_fini (a b : ℚ) : (min (fini a) (fini b) : Double) = fini (min a b) := by
  show (if (fini b : Double) < fini a then fini b else fini a) = fini (min a b)
  by_cases h : b < a
  · rw [if_pos ((fini_lt_fini b a).2 h), min_eq_right (le_of_lt h)]
  · rw [if_neg (fun h' => h ((fini_lt_fini b a).1 h')), min_eq_left (not_lt.1 h)]

theorem limite_max : (Limites.max : Double) = fini doubleMax := rfl

/-- A value that is `> 0` is `>= 0`. -/
theorem nonneg_of_pos {w : Double} (h : 0 < w) : 0 ≤ w := by
  cases w with
  | fini v => exact (zero_le_fini v).2 (le_of_lt ((zero_lt_fini v).1 h))
  | infini n =>
    cases n with
    | false => rfl
    | true => exact absurd h (by decide)
  | nan => exact absurd h (by decide)

/-- Adding a finite weight to a positive value gives a positive value unless the sum is
`<= 0`. -/
theorem plus_pos {w m : Double} (hw : 0 < w) (hm : PoidsFini m) (h : ¬ (w + m ≤ 0)) :
    0 < w + m :=
  pos_of_not_le (plus_ne_nan hw hm) h

/-- Subtracting a finite weight from a positive value gives a positive value unless the
difference is `<= 0`. -/
theorem moins_pos {w m : Double} (hw : 0 < w) (hm : PoidsFini m) (h : ¬ (w - m ≤ 0)) :
    0 < w - m :=
  pos_of_not_le (moins_ne_nan hw hm) h

theorem PoidsFini.valeur_eq {w : Double} (h : PoidsFini w) : w = fini w.valeur := by
  obtain ⟨v, rfl, -, -, -⟩ := (poidsFini_iff w).1 h
  rfl

theorem PoidsFini.le_max {w : Double} (h : PoidsFini w) : w.valeur ≤ doubleMax := by
  obtain ⟨v, rfl, -, hv, -⟩ := (poidsFini_iff w).1 h
  exact hv

theorem exposant_pow_le (reserve : Nat) : ∀ n, 1 ≤ n → 2 ^ exposant reserve n ≤ n := by
  induction reserve with
  | zero => intro n hn; simpa [exposant] using hn
  | succ r ih =>
    intro n hn
    unfold exposant
    by_cases h : n < 2 ^ 53
    · rw [if_pos h]; simpa using hn
    · rw [if_neg h]
      have h2 : 1 ≤ n / 2 := by
        have : 2 ≤ n := by
          have h53 : 2 ≤ 2 ^ 53 := by norm_num
          omega
        omega
      have := ih (n / 2) h2
      rw [Nat.pow_succ]
      omega

/-- Rounding a real that is at least one unit of `2^-1074` does not give zero. -/
theorem arrondiPositif_pos (x : ℚ) (hx : 1 ≤ x * 2 ^ 1074) (v : ℚ)
    (h : arrondiPositif x = fini v) : 0 < v := by
  unfold arrondiPositif at h
  simp only at h
  generalize x * 2 ^ 1074 = y at hx h
  have hy0 : (0 : ℚ) ≤ y := le_trans zero_le_one hx
  have hn : 1 ≤ ⌊y⌋.toNat := by
    rw [Int.floor_toNat]
    exact Nat.le_floor (by simpa using hx)
  have he := exposant_pow_le 2046 _ hn
  generalize exposant 2046 ⌊y⌋.toNat = e at he h
  have h2e : (0 : ℚ) < 2 ^ e := deux_puissance_pos e
  have hz : (1 : ℚ) ≤ y / 2 ^ e := by
    rw [le_div_iff₀ h2e, one_mul]
    have h1 : ((2 ^ e : ℕ) : ℚ) ≤ ((⌊y⌋.toNat : ℕ) : ℚ) := Nat.cast_le.2 he
    have h2 := toNat_floor_le hy0
    calc (2 : ℚ) ^ e = ((2 ^ e : ℕ) : ℚ) := by push_cast; rfl
      _ ≤ ((⌊y⌋.toNat : ℕ) : ℚ) := h1
      _ ≤ y := h2
  generalize y / 2 ^ e = z at hz h
  have hq : 1 ≤ ⌊z⌋.toNat := by
    rw [Int.floor_toNat]
    exact Nat.le_floor (by simpa using hz)
  have hq1 : 1 ≤ (if z - (⌊z⌋.toNat : ℚ) < 1 / 2 then ⌊z⌋.toNat
      else if 1 / 2 < z - (⌊z⌋.toNat : ℚ) then ⌊z⌋.toNat + 1
      else if ⌊z⌋.toNat % 2 = 0 then ⌊z⌋.toNat else ⌊z⌋.toNat + 1) := by
    split_ifs <;> omega
  generalize (if z - (⌊z⌋.toNat : ℚ) < 1 / 2 then ⌊z⌋.toNat
      else if 1 / 2 < z - (⌊z⌋.toNat : ℚ) then ⌊z⌋.toNat + 1
      else if ⌊z⌋.toNat % 2 = 0 then ⌊z⌋.toNat else ⌊z⌋.toNat + 1) = q1 at hq1 h
  by_cases hov : 2 ^ 2098 ≤ q1 * 2 ^ e
  · rw [if_pos hov] at h
    cases h
  · rw [if_neg hov] at h
    have hv := fini.inj h
    rw [← hv]
    apply div_pos _ (deux_puissance_pos _)
    have : 0 < q1 * 2 ^ e := Nat.mul_pos (by omega) (Nat.two_pow_pos e)
    exact Nat.cast_pos.2 this

/-- The difference of two multiples of `2^-1074` is a multiple of `2^-1074`: when it is
positive it is at least one unit. -/
theorem unite_le_difference {a b : ℚ} (ha : (a * 2 ^ 1074).den = 1)
    (hb : (b * 2 ^ 1074).den = 1) (h : b < a) : 1 ≤ (a - b) * 2 ^ 1074 := by
  rw [Rat.den_eq_one_iff] at ha hb
  have hpos : 0 < (a - b) * 2 ^ 1074 := mul_pos (by linarith) (deux_puissance_pos _)
  have e : (a - b) * 2 ^ 1074 = (((a * 2 ^ 1074).num - (b * 2 ^ 1074).num : ℤ) : ℚ) := by
    rw [Int.cast_sub, ha, hb]; ring
  rw [e] at hpos ⊢
  have h1 : (0 : ℤ) < (a * 2 ^ 1074).num - (b * 2 ^ 1074).num := by exact_mod_cast hpos
  have h2 : (1 : ℤ) ≤ (a * 2 ^ 1074).num - (b * 2 ^ 1074).num := h1
  exact_mod_cast h2

/-- On finite weights the test `w - m <= 0` of the subtraction loop is the comparison
`w <= m`: the difference of two distinct `double` values is not rounded to zero. -/
theorem PoidsFini.moins_le_iff {w m : Double} (hw : PoidsFini w) (hm : PoidsFini m) :
    w - m ≤ 0 ↔ w ≤ m := by
  obtain ⟨a, rfl, ha, ha', da⟩ := (poidsFini_iff w).1 hw
  obtain ⟨b, rfl, hb, hb', db⟩ := (poidsFini_iff m).1 hm
  rw [moins_fini, fini_le_fini]
  obtain ⟨v, e, p, q, -, -⟩ := arrondi_borne (a - b) (by linarith) (by linarith)
  rw [e, le_zero_fini]
  constructor
  · intro hv
    by_contra hab
    have hlt : b < a := not_le.1 hab
    have h1 := unite_le_difference da db hlt
    have e' : arrondiPositif (a - b) = fini v := by
      unfold arrondi at e
      rw [if_pos (by linarith)] at e
      exact e
    have := arrondiPositif_pos (a - b) h1 v e'
    linarith
  · intro hab
    exact q (by linarith)

theorem PoidsFini.lt_iff_not_moins_le {w m : Double} (hw : PoidsFini w) (hm : PoidsFini m) :
    m < w ↔ ¬ (w - m ≤ 0) := by
  rw [hw.moins_le_iff hm]
  obtain ⟨a, rfl, -, -, -⟩ := (poidsFini_iff w).1 hw
  obtain ⟨b, rfl, -, -, -⟩ := (poidsFini_iff m).1 hm
  rw [fini_lt_fini, fini_le_fini, not_le]

theorem PoidsFini.eq_of_le {w m : Double} (hw : PoidsFini w) (hm : PoidsFini m)
    (h1 : w ≤ m) (h2 : m ≤ w) : w = m := by
  obtain ⟨a, rfl, -, -, -⟩ := (poidsFini_iff w).1 hw
  obtain ⟨b, rfl, -, -, -⟩ := (poidsFini_iff m).1 hm
  rw [fini_le_fini] at h1 h2
  rw [le_antisymm h1 h2]

end Double

/-! ## The cancellation in any arithmetic -/

section LemmesModifierPoidsGeneraux

variable {T : Type} [LinearOrder T] {W : Type} [OfNat W 0] [Add W] [Sub W] [LE W] [LT W] [Min W]
  [DecidableRel (LE.le : W → W → Prop)] [DecidableRel (LT.lt : W → W → Prop)] [Limites W]

/-- The tuples of an adjacency after the inner loop of `reduireDetteCirculaire` on the
neighbour `v`, of weight `w`: the other tuples, and `(v, f w)` unless `f w <= 0`. -/
theorem mem_modifierPoids_gen {vs : Voisins T W} (hn : (vs.map Prod.fst).Nodup) {v : T} {w : W}
    (hw : (v, w) ∈ vs) (f : W → W) (x : T × W) :
    x ∈ modifierPoids vs v f ↔ (x ∈ vs ∧ x.1 ≠ v) ∨ (x = (v, f w) ∧ ¬ (f w ≤ 0)) := by
  induction vs with
  | nil => simp at hw
  | cons y reste ih =>
    simp only [List.map_cons, List.nodup_cons] at hn
    unfold modifierPoids
    rcases List.mem_cons.1 hw with h1 | h1
    · subst h1
      have hv : ∀ z ∈ reste, z.1 ≠ v := fun z hz e =>
        hn.1 (List.mem_map.2 ⟨z, hz, e⟩)
      by_cases hf : f w ≤ 0
      · simp only [if_true, hf, List.mem_cons]
        constructor
        · intro hx; exact Or.inl ⟨Or.inr hx, hv x hx⟩
        · rintro (⟨rfl | hx, h2⟩ | ⟨-, h2⟩)
          · exact absurd rfl h2
          · exact hx
          · exact absurd trivial h2
      · simp only [if_true, hf, if_false, List.mem_cons]
        constructor
        · rintro (rfl | hx)
          · exact Or.inr ⟨rfl, not_false⟩
          · exact Or.inl ⟨Or.inr hx, hv x hx⟩
        · rintro (⟨rfl | hx, h2⟩ | ⟨rfl, -⟩)
          · exact absurd rfl h2
          · exact Or.inr hx
          · exact Or.inl rfl
    · have hy : ¬ y.1 = v := fun e =>
        hn.1 (e ▸ List.mem_map.2 ⟨(v, w), h1, rfl⟩)
      simp only [hy, if_false, List.mem_cons, ih hn.2 h1]
      constructor
      · rintro (rfl | ⟨hx, h2⟩ | h)
        · exact Or.inl ⟨Or.inl rfl, hy⟩
        · exact Or.inl ⟨Or.inr hx, h2⟩
        · exact Or.inr h
      · rintro (⟨rfl | hx, h2⟩ | h)
        · exact Or.inl rfl
        · exact Or.inr (Or.inl ⟨hx, h2⟩)
        · exact Or.inr (Or.inr h)

/-- Without a tuple of neighbour `v`, the minimum loop leaves `minDette` as it is. -/
theorem minVoisins_absent (vs : Voisins T W) (v : T) (m0 : W) (h : v ∉ vs.map Prod.fst) :
    vs.foldl (fun minDette arc => if arc.1 = v then min minDette arc.2 else minDette) m0 = m0 := by
  induction vs generalizing m0 with
  | nil => rfl
  | cons x reste ih =>
    simp only [List.map_cons, List.mem_cons, not_or] at h
    have hx : ¬ x.1 = v := fun e => h.1 e.symm
    simp only [List.foldl_cons, hx, if_false]
    exact ih m0 h.2

/-- With one tuple `(v, w)` of neighbour `v`, the minimum loop computes
`std::min(minDette, w)`. -/
theorem minVoisins_unique {vs : Voisins T W} (hn : (vs.map Prod.fst).Nodup) {v : T} {w : W}
    (hw : (v, w) ∈ vs) (m0 : W) :
    vs.foldl (fun minDette arc => if arc.1 = v then min minDette arc.2 else minDette) m0
      = min m0 w := by
  induction vs generalizing m0 with
  | nil => simp at hw
  | cons x reste ih =>
    simp only [List.map_cons, List.nodup_cons] at hn
    rcases List.mem_cons.1 hw with h1 | h1
    · subst h1
      simp only [List.foldl_cons, if_true]
      exact minVoisins_absent reste v _ hn.1
    · have hx : ¬ x.1 = v := fun e =>
        hn.1 (e ▸ List.mem_map.2 ⟨(v, w), h1, rfl⟩)
      simp only [List.foldl_cons, hx, if_false]
      exact ih hn.2 h1 m0

end LemmesModifierPoidsGeneraux

namespace Digraph

variable {T : Type} [LinearOrder T] {W : Type} [OfNat W 0] [Add W] [Sub W] [LE W] [LT W] [Min W]
  [DecidableRel (LE.le : W → W → Prop)] [DecidableRel (LT.lt : W → W → Prop)] [Limites W]

/-- The invariants are kept by a change of weight (with erasure) on the arc `(a, v)`, as
soon as a new weight that is not `<= 0` is `> 0`. -/
theorem inv_modifierPoids_gen {g : Digraph T W} (h : g.Inv) (a v : T) (f : W → W)
    (hf : ∀ w, (v, w) ∈ g.voisinsDe a → ¬ (f w ≤ 0) → 0 < f w) :
    (Digraph.mk (surVoisins g.graphe a (fun vs => modifierPoids vs v f))).Inv := by
  by_cases ha : g.sommet a = true
  · apply h.maj ha
    obtain ⟨hg1, hg2⟩ := ((inv_iff g).1 h).2 a
    by_cases hv : v ∈ (g.voisinsDe a).map Prod.fst
    · obtain ⟨⟨v', w⟩, hw, rfl⟩ := List.mem_map.1 hv
      refine ⟨fun x hx => ?_, (sublist_modifierPoids _ _ _).nodup hg2⟩
      rcases (mem_modifierPoids_gen hg2 hw f x).1 hx with ⟨h1, -⟩ | ⟨rfl, h2⟩
      · exact hg1 x h1
      · obtain ⟨h3, -, h5⟩ := hg1 _ hw
        exact ⟨h3, hf w hw h2, h5⟩
    · rw [modifierPoids_of_absent _ _ _ hv]
      exact ⟨hg1, hg2⟩
  · rw [maj_of_absent (by simpa using ha)]
    exact h

/-- The second loop of `reduireDetteCirculaire` along arcs of the graph whose sources are
distinct, when a difference that is not `<= 0` is `> 0`: the invariants and the vertices
are kept, the adjacency of a vertex that is not a source is unchanged, and the adjacency
of a source has `m` subtracted on the arc of the path. -/
theorem reduirePaires_gen (L : List (T × T)) (m : W) (g : Digraph T W) (h : g.Inv)
    (hsrc : (L.map Prod.fst).Nodup)
    (hval : ∀ uv ∈ L, ∃ w, (uv.2, w) ∈ g.voisinsDe uv.1)
    (hpos : ∀ uv ∈ L, ∀ w, (uv.2, w) ∈ g.voisinsDe uv.1 → ¬ (w - m ≤ 0) → 0 < w - m) :
    (L.foldl (fun g uv => Digraph.mk (surVoisins (g.inserer uv.1).graphe uv.1
      (fun voisins => modifierPoids voisins uv.2 (fun emprunt => emprunt - m)))) g).Inv ∧
    (L.foldl (fun g uv => Digraph.mk (surVoisins (g.inserer uv.1).graphe uv.1
      (fun voisins => modifierPoids voisins uv.2 (fun emprunt => emprunt - m)))) g).cles = g.cles ∧
    (∀ b, b ∉ L.map Prod.fst →
      (L.foldl (fun g uv => Digraph.mk (surVoisins (g.inserer uv.1).graphe uv.1
        (fun voisins => modifierPoids voisins uv.2 (fun emprunt => emprunt - m)))) g).voisinsDe b
        = g.voisinsDe b) ∧
    (∀ uv ∈ L,
      (L.foldl (fun g uv => Digraph.mk (surVoisins (g.inserer uv.1).graphe uv.1
        (fun voisins => modifierPoids voisins uv.2 (fun emprunt => emprunt - m)))) g).voisinsDe uv.1
        = modifierPoids (g.voisinsDe uv.1) uv.2 (fun emprunt => emprunt - m)) := by
  induction L generalizing g with
  | nil => simp [h]
  | cons uv reste ih =>
    simp only [List.map_cons, List.nodup_cons] at hsrc
    simp only [List.foldl_cons]
    obtain ⟨w, hw⟩ := hval uv (List.mem_cons_self _ _)
    have ha := sommet_of_mem_voisinsDe hw
    have i1 : (Digraph.mk (surVoisins (g.inserer uv.1).graphe uv.1
        (fun voisins => modifierPoids voisins uv.2 (fun emprunt => emprunt - m)))).Inv := by
      rw [inserer_of_sommet ha]
      exact inv_modifierPoids_gen h uv.1 uv.2 _ (hpos uv (List.mem_cons_self _ _))
    have c1 : (Digraph.mk (surVoisins (g.inserer uv.1).graphe uv.1
        (fun voisins => modifierPoids voisins uv.2 (fun emprunt => emprunt - m)))).cles
        = g.cles := by
      rw [inserer_of_sommet ha]; exact cles_maj _ _ _
    have v1 : ∀ b, (Digraph.mk (surVoisins (g.inserer uv.1).graphe uv.1
        (fun voisins => modifierPoids voisins uv.2 (fun emprunt => emprunt - m)))).voisinsDe b =
        if b = uv.1 then modifierPoids (g.voisinsDe uv.1) uv.2 (fun emprunt => emprunt - m)
        else g.voisinsDe b := by
      intro b
      rw [inserer_of_sommet ha]; exact voisinsDe_maj ha _ b
    have hsame : ∀ p ∈ reste, (Digraph.mk (surVoisins (g.inserer uv.1).graphe uv.1
        (fun voisins => modifierPoids voisins uv.2 (fun emprunt => emprunt - m)))).voisinsDe p.1
        = g.voisinsDe p.1 := by
      intro p hp
      have hne : p.1 ≠ uv.1 := fun e => hsrc.1 (e ▸ List.mem_map.2 ⟨p, hp, rfl⟩)
      rw [v1, if_neg hne]
    have hval1 : ∀ p ∈ reste, ∃ w, (p.2, w) ∈ (Digraph.mk (surVoisins (g.inserer uv.1).graphe uv.1
        (fun voisins => modifierPoids voisins uv.2 (fun emprunt => emprunt - m)))).voisinsDe p.1 := by
      intro p hp
      rw [hsame p hp]
      exact hval p (List.mem_cons_of_mem _ hp)
    have hpos1 : ∀ p ∈ reste, ∀ w, (p.2, w) ∈ (Digraph.mk (surVoisins (g.inserer uv.1).graphe uv.1
        (fun voisins => modifierPoids voisins uv.2 (fun emprunt => emprunt - m)))).voisinsDe p.1 →
        ¬ (w - m ≤ 0) → 0 < w - m := by
      intro p hp w hw'
      rw [hsame p hp] at hw'
      exact hpos p (List.mem_cons_of_mem _ hp) w hw'
    obtain ⟨i2, c2, n2, s2⟩ := ih _ i1 hsrc.2 hval1 hpos1
    refine ⟨i2, c2.trans c1, fun b hb => ?_, fun p hp => ?_⟩
    · simp only [List.map_cons, List.mem_cons, not_or] at hb
      rw [n2 b hb.2, v1, if_neg hb.1]
    · rcases List.mem_cons.1 hp with rfl | hp
      · rw [n2 _ hsrc.1, v1, if_pos rfl]
      · rw [s2 p hp, hsame p hp]

/-- Effect of the second loop of `reduireDetteCirculaire` on a sum over the arcs. -/
theorem total_reduirePaires_gen {M : Type} [AddCancelCommMonoid M] (φ : T × T × W → M)
    (L : List (T × T)) (m : W) (g : Digraph T W) (h : g.Inv)
    (hsrc : (L.map Prod.fst).Nodup)
    (hval : ∀ uv ∈ L, ∃ w, (uv.2, w) ∈ g.voisinsDe uv.1)
    (hpos : ∀ uv ∈ L, ∀ w, (uv.2, w) ∈ g.voisinsDe uv.1 → ¬ (w - m ≤ 0) → 0 < w - m) :
    total φ (L.foldl (fun g uv => Digraph.mk (surVoisins (g.inserer uv.1).graphe uv.1
        (fun voisins => modifierPoids voisins uv.2 (fun emprunt => emprunt - m)))) g)
      + (L.map (fun uv => φ (uv.1, uv.2, (g.poids uv.1 uv.2).getD 0))).sum
    = total φ g + (L.map (fun uv =>
        if (g.poids uv.1 uv.2).getD 0 - m ≤ 0 then 0
        else φ (uv.1, uv.2, (g.poids uv.1 uv.2).getD 0 - m))).sum := by
  induction L generalizing g with
  | nil => simp
  | cons uv reste ih =>
    have hsrc' := hsrc
    simp only [List.map_cons, List.nodup_cons] at hsrc
    simp only [List.foldl_cons, List.map_cons, List.sum_cons]
    obtain ⟨w, hw⟩ := hval uv (List.mem_cons_self _ _)
    have ha := sommet_of_mem_voisinsDe hw
    obtain ⟨i1, -, n1, -⟩ := reduirePaires_gen [uv] m g h (by simp)
      (fun p hp => by rw [List.mem_singleton.1 hp]; exact ⟨w, hw⟩)
      (fun p hp => by rw [List.mem_singleton.1 hp]; exact hpos uv (List.mem_cons_self _ _))
    simp only [List.foldl_cons, List.foldl_nil, List.map_cons, List.map_nil,
      List.mem_singleton] at i1 n1
    rw [inserer_of_sommet ha] at i1 n1 ⊢
    have e2 := total_modifierPoids φ h hw (fun emprunt => emprunt - m)
    rw [poids_of_mem h hw]
    generalize Digraph.mk (surVoisins g.graphe uv.1
      (fun voisins => modifierPoids voisins uv.2 (fun emprunt => emprunt - m))) = g1
      at i1 n1 e2 ⊢
    have hsame : ∀ p ∈ reste, g1.voisinsDe p.1 = g.voisinsDe p.1 := by
      intro p hp
      have hne : p.1 ≠ uv.1 := fun e => hsrc.1 (e ▸ List.mem_map.2 ⟨p, hp, rfl⟩)
      exact n1 _ hne
    have hval1 : ∀ p ∈ reste, ∃ w, (p.2, w) ∈ g1.voisinsDe p.1 := by
      intro p hp
      rw [hsame p hp]
      exact hval p (List.mem_cons_of_mem _ hp)
    have hpos1 : ∀ p ∈ reste, ∀ w, (p.2, w) ∈ g1.voisinsDe p.1 → ¬ (w - m ≤ 0) → 0 < w - m := by
      intro p hp w hw'
      rw [hsame p hp] at hw'
      exact hpos p (List.mem_cons_of_mem _ hp) w hw'
    have hpoids : ∀ p ∈ reste, g1.poids p.1 p.2 = g.poids p.1 p.2 := by
      intro p hp
      unfold poids
      rw [hsame p hp]
    have e1 := ih g1 i1 hsrc.2 hval1 hpos1
    have hA : reste.map (fun uv => φ (uv.1, uv.2, (g1.poids uv.1 uv.2).getD 0))
        = reste.map (fun uv => φ (uv.1, uv.2, (g.poids uv.1 uv.2).getD 0)) :=
      List.map_congr_left (fun p hp => by simp only [hpoids p hp])
    have hB : reste.map (fun uv => if (g1.poids uv.1 uv.2).getD 0 - m ≤ 0 then 0
          else φ (uv.1, uv.2, (g1.poids uv.1 uv.2).getD 0 - m))
        = reste.map (fun uv => if (g.poids uv.1 uv.2).getD 0 - m ≤ 0 then 0
          else φ (uv.1, uv.2, (g.poids uv.1 uv.2).getD 0 - m)) :=
      List.map_congr_left (fun p hp => by simp only [hpoids p hp])
    rw [hA, hB] at e1
    exact chaine_arith e1 e2

/-- The subtraction loop of `reduireDetteCirculaire` adds no arc, and removes one as soon
as one of the differences on the path is `<= 0`. -/
theorem arcs_reduirePaires_gen (L : List (T × T)) (m : W) (g : Digraph T W) (h : g.Inv)
    (hsrc : (L.map Prod.fst).Nodup)
    (hval : ∀ uv ∈ L, ∃ w, (uv.2, w) ∈ g.voisinsDe uv.1)
    (hpos : ∀ uv ∈ L, ∀ w, (uv.2, w) ∈ g.voisinsDe uv.1 → ¬ (w - m ≤ 0) → 0 < w - m) :
    (L.foldl (fun g uv => Digraph.mk (surVoisins (g.inserer uv.1).graphe uv.1
        (fun voisins => modifierPoids voisins uv.2 (fun emprunt => emprunt - m)))) g).arcs
      ≤ g.arcs ∧
    ((∃ uv ∈ L, ∃ w, (uv.2, w) ∈ g.voisinsDe uv.1 ∧ w - m ≤ 0) →
      (L.foldl (fun g uv => Digraph.mk (surVoisins (g.inserer uv.1).graphe uv.1
        (fun voisins => modifierPoids voisins uv.2 (fun emprunt => emprunt - m)))) g).arcs
      < g.arcs) := by
  have e := total_reduirePaires_gen (fun _ => (1 : ℕ)) L m g h hsrc hval hpos
  rw [← arcs_eq_total, ← arcs_eq_total] at e
  rw [somme_uns] at e
  simp only at e
  constructor
  · have h1 : (L.map (fun uv => if (g.poids uv.1 uv.2).getD 0 - m ≤ 0 then 0 else 1)).sum
        ≤ L.length := somme_indic_le L (fun uv => (g.poids uv.1 uv.2).getD 0 - m ≤ 0)
    omega
  · intro hex
    have h1 : (L.map (fun uv => if (g.poids uv.1 uv.2).getD 0 - m ≤ 0 then 0 else 1)).sum
        < L.length := somme_indic_lt L (fun uv => (g.poids uv.1 uv.2).getD 0 - m ≤ 0) (by
      obtain ⟨uv, huv, w, hw, hle⟩ := hex
      refine ⟨uv, huv, ?_⟩
      show (g.poids uv.1 uv.2).getD 0 - m ≤ 0
      rw [poids_of_mem h hw]
      exact hle)
    omega

end Digraph

namespace Digraph

variable {T : Type} [LinearOrder T] {W : Type} [OfNat W 0] [Add W] [Sub W] [LE W] [LT W] [Min W]
  [DecidableRel (LE.le : W → W → Prop)] [DecidableRel (LT.lt : W → W → Prop)] [Limites W]

/-- The first loop of `reduireDetteCirculaire` along arcs of the graph: the graph is
unchanged and `minDette` is the minimum, taken by `std::min` in the order of the path, of
the start value and of the weights of the arcs. -/
theorem minPaires_gen (L : List (T × T)) (g : Digraph T W) (h : g.Inv)
    (hval : ∀ uv ∈ L, ∃ w, (uv.2, w) ∈ g.voisinsDe uv.1) (m0 : W) :
    L.foldl (fun (acc : Digraph T W × W) uv =>
      ((acc.1.inserer uv.1), ((acc.1.inserer uv.1).voisinsDe uv.1).foldl
        (fun minDette arc => if arc.1 = uv.2 then min minDette arc.2 else minDette) acc.2))
      (g, m0)
    = (g, L.foldl (fun acc uv => min acc ((g.poids uv.1 uv.2).getD 0)) m0) := by
  induction L generalizing m0 with
  | nil => rfl
  | cons uv reste ih =>
    obtain ⟨w, hw⟩ := hval uv (List.mem_cons_self _ _)
    have ha := sommet_of_mem_voisinsDe hw
    have hn := (((inv_iff g).1 h).2 uv.1).2
    simp only [List.foldl_cons]
    rw [inserer_of_sommet ha, minVoisins_unique hn hw m0, poids_of_mem h hw]
    exact ih (fun p hp => hval p (List.mem_cons_of_mem _ hp)) (min m0 w)

/-- Effect of the update between the two ends of a circuit on a sum over the arcs, in
each of the four branches of the source: equal ends; arc `(start, fin)` present;
arc `(fin, start)` present; no arc between the two. -/
theorem total_ajusterExtremites_gen {M : Type} [AddCancelCommMonoid M] (φ : T × T × W → M)
    {g : Digraph T W} (hinv : g.Inv) (start fin : T) (hs : g.sommet start = true)
    (hf : g.sommet fin = true) {m : W} (hm0 : 0 ≤ m) (hm : 0 < m)
    (hplus : ∀ w, (fin, w) ∈ g.voisinsDe start → ¬ (w + m ≤ 0) → 0 < w + m)
    (hmoins : ∀ w, (start, w) ∈ g.voisinsDe fin → ¬ (w - m ≤ 0) → 0 < w - m) :
    ∃ g', g.ajusterExtremites start fin m = .ok g' ∧ g'.Inv ∧ g'.cles = g.cles ∧
      ((start = fin ∧ g' = g) ∨
       (start ≠ fin ∧ ∃ w, (fin, w) ∈ g.voisinsDe start ∧
          total φ g' + φ (start, fin, w)
            = total φ g + (if w + m ≤ 0 then 0 else φ (start, fin, w + m))) ∨
       (start ≠ fin ∧ g.arc start fin = false ∧ ∃ w, (start, w) ∈ g.voisinsDe fin ∧
          total φ g' + φ (fin, start, w)
            = total φ g + (if w - m ≤ 0 then 0 else φ (fin, start, w - m))) ∨
       (start ≠ fin ∧ g.arc start fin = false ∧ g.arc fin start = false ∧
          total φ g' = total φ g + φ (start, fin, m))) := by
  unfold ajusterExtremites
  by_cases hse : start = fin
  · simp only [hse, ne_eq, not_true_eq_false, if_false]
    exact ⟨g, rfl, hinv, rfl, Or.inl ⟨trivial, rfl⟩⟩
  · simp only [ne_eq, hse, not_false_eq_true, if_true, inserer_of_sommet hs,
      inserer_of_sommet hf]
    by_cases ha : g.arc start fin = true
    · simp only [ha, if_true]
      obtain ⟨w, hw⟩ := (arc_iff _ _ _).1 ha
      exact ⟨_, rfl, inv_modifierPoids_gen hinv _ _ _ hplus, cles_maj _ _ _,
        Or.inr (Or.inl ⟨trivial, w, hw,
          total_modifierPoids φ hinv hw (fun emprunt => emprunt + m)⟩)⟩
    · simp only [ha, if_false]
      have ha' : g.arc start fin = false := by simpa using ha
      by_cases hb : g.arc fin start = true
      · simp only [hb, if_true]
        obtain ⟨w, hw⟩ := (arc_iff _ _ _).1 hb
        exact ⟨_, rfl, inv_modifierPoids_gen hinv _ _ _ hmoins, cles_maj _ _ _,
          Or.inr (Or.inr (Or.inl ⟨trivial, trivial, w, hw,
            total_modifierPoids φ hinv hw (fun emprunt => emprunt - m)⟩))⟩
      · simp only [hb, if_false]
        have hb' : g.arc fin start = false := by simpa using hb
        obtain ⟨g', e, -, -, i⟩ := insererArc_spec g hse hm0
        have hform : g.insererArc start fin m = .ok ⟨surVoisins g.graphe start
            (fun voisins => insererTuple voisins (fin, m))⟩ := by
          have hany : (g.voisinsDe start).any (fun voisin => decide (voisin.1 = fin)) = false := by
            rw [← arc_eq_any]; exact ha'
          unfold insererArc
          rw [inserer_of_sommet hs, inserer_of_sommet hf]
          simp only [ne_eq, hse, not_false_eq_true, ge_iff_le, hm0, and_self, if_true,
            hany, Bool.false_eq_true, if_false]
        rw [hform] at e ⊢
        cases e
        refine ⟨_, rfl, i hinv hm, cles_maj _ _ _,
          Or.inr (Or.inr (Or.inr ⟨trivial, trivial, trivial, ?_⟩))⟩
        have e1 := total_maj φ hs (fun voisins => insererTuple voisins (fin, m))
        have hp := ((perm_insererTuple (g.voisinsDe start) (fin, m)
          ((arc_eq_false_iff _ _ _).1 ha')).map (fun x => φ (start, x.1, x.2))).sum_eq
        simp only at e1
        rw [hp, List.map_cons, List.sum_cons] at e1
        rw [← add_assoc] at e1
        exact add_right_cancel e1

/-- A condition on the weights of selected arcs, as a count of the arcs that break it. -/
theorem condition_iff_total (c : T → T → Prop) [∀ a b, Decidable (c a b)] (P : W → Prop)
    [DecidablePred P] (g : Digraph T W) :
    (∀ e ∈ g.aretes, c e.1 e.2.1 → P e.2.2) ↔
      total (fun e => if c e.1 e.2.1 ∧ ¬ P e.2.2 then (1 : ℕ) else 0) g = 0 := by
  rw [total_eq_zero_iff]
  constructor
  · intro h e he
    by_cases hc : c e.1 e.2.1
    · simp [hc, h e he hc]
    · simp [hc]
  · intro h e he hc
    by_contra hP
    have := h e he
    simp [hc, hP] at this

end Digraph

namespace Digraph

variable {T : Type} [LinearOrder T] {W : Type} [OfNat W 0] [Add W] [Sub W] [LE W] [LT W] [Min W]
  [DecidableRel (LE.le : W → W → Prop)] [DecidableRel (LT.lt : W → W → Prop)] [Limites W]

/-- The tuples of an adjacency after the second loop of `reduireDetteCirculaire`: the
arcs off the path are kept, and an arc of the path of weight `w` is kept with the weight
`w - m` unless `w - m <= 0`. -/
theorem mem_reduirePaires_gen (L : List (T × T)) (m : W) (g : Digraph T W) (h : g.Inv)
    (hsrc : (L.map Prod.fst).Nodup)
    (hval : ∀ uv ∈ L, ∃ w, (uv.2, w) ∈ g.voisinsDe uv.1)
    (hpos : ∀ uv ∈ L, ∀ w, (uv.2, w) ∈ g.voisinsDe uv.1 → ¬ (w - m ≤ 0) → 0 < w - m)
    (a : T) (x : T × W) :
    x ∈ (L.foldl (fun g uv => Digraph.mk (surVoisins (g.inserer uv.1).graphe uv.1
        (fun voisins => modifierPoids voisins uv.2 (fun emprunt => emprunt - m)))) g).voisinsDe a ↔
      (x ∈ g.voisinsDe a ∧ (a, x.1) ∉ L) ∨
      (∃ w, (a, x.1) ∈ L ∧ (x.1, w) ∈ g.voisinsDe a ∧ x.2 = w - m ∧ ¬ (w - m ≤ 0)) := by
  obtain ⟨-, -, s2, s3⟩ := reduirePaires_gen L m g h hsrc hval hpos
  by_cases ha : a ∈ L.map Prod.fst
  · obtain ⟨uv, huv, rfl⟩ := List.mem_map.1 ha
    rw [s3 uv huv]
    obtain ⟨w, hw⟩ := hval uv huv
    have hnd := (((inv_iff g).1 h).2 uv.1).2
    have hL : ∀ b, (uv.1, b) ∈ L ↔ b = uv.2 := by
      intro b
      constructor
      · intro hb
        have := List.inj_on_of_nodup_map hsrc hb huv rfl
        exact congrArg Prod.snd this
      · rintro rfl; exact huv
    have hpoids : ∀ w0, (uv.2, w0) ∈ g.voisinsDe uv.1 → w0 = w := by
      intro w0 hw0
      have := List.inj_on_of_nodup_map hnd hw0 hw rfl
      exact (Prod.mk.inj this).2
    rw [mem_modifierPoids_gen hnd hw]
    constructor
    · rintro (⟨h1, h2⟩ | ⟨rfl, h2⟩)
      · exact Or.inl ⟨h1, fun hb => h2 ((hL _).1 hb)⟩
      · exact Or.inr ⟨w, (hL _).2 rfl, hw, rfl, h2⟩
    · rintro (⟨h1, h2⟩ | ⟨w0, hb, hw0, hx, hn⟩)
      · exact Or.inl ⟨h1, fun e => h2 ((hL _).2 e)⟩
      · have e1 := (hL _).1 hb
        rw [e1] at hw0
        have e2 := hpoids w0 hw0
        subst e2
        exact Or.inr ⟨Prod.ext e1 hx, hn⟩
  · rw [s2 a ha]
    constructor
    · intro hx
      exact Or.inl ⟨hx, fun hb => ha (List.mem_map.2 ⟨(a, x.1), hb, rfl⟩)⟩
    · rintro (⟨h1, -⟩ | ⟨w, hb, -⟩)
      · exact h1
      · exact absurd (List.mem_map.2 ⟨(a, x.1), hb, rfl⟩) ha

/-- The subtraction loop of `reduireDetteCirculaire` along selected arcs does not raise
the number of selected arcs, and lowers it as soon as one of the differences on the path
is `<= 0`. -/
theorem compte_reduirePaires_gen (c : T → T → Prop) [∀ a b, Decidable (c a b)]
    (L : List (T × T)) (m : W) (g : Digraph T W) (h : g.Inv)
    (hsrc : (L.map Prod.fst).Nodup)
    (hval : ∀ uv ∈ L, ∃ w, (uv.2, w) ∈ g.voisinsDe uv.1)
    (hpos : ∀ uv ∈ L, ∀ w, (uv.2, w) ∈ g.voisinsDe uv.1 → ¬ (w - m ≤ 0) → 0 < w - m)
    (hc : ∀ uv ∈ L, c uv.1 uv.2) :
    total (fun e => if c e.1 e.2.1 then (1 : ℕ) else 0)
        (L.foldl (fun g uv => Digraph.mk (surVoisins (g.inserer uv.1).graphe uv.1
          (fun voisins => modifierPoids voisins uv.2 (fun emprunt => emprunt - m)))) g)
      ≤ total (fun e => if c e.1 e.2.1 then (1 : ℕ) else 0) g ∧
    ((∃ uv ∈ L, ∃ w, (uv.2, w) ∈ g.voisinsDe uv.1 ∧ w - m ≤ 0) →
      total (fun e => if c e.1 e.2.1 then (1 : ℕ) else 0)
        (L.foldl (fun g uv => Digraph.mk (surVoisins (g.inserer uv.1).graphe uv.1
          (fun voisins => modifierPoids voisins uv.2 (fun emprunt => emprunt - m)))) g)
      < total (fun e => if c e.1 e.2.1 then (1 : ℕ) else 0) g) := by
  have e := total_reduirePaires_gen (fun e => if c e.1 e.2.1 then (1 : ℕ) else 0)
    L m g h hsrc hval hpos
  have hA : L.map (fun uv => if c (uv.1, uv.2, (g.poids uv.1 uv.2).getD 0).1
        (uv.1, uv.2, (g.poids uv.1 uv.2).getD 0).2.1 then (1 : ℕ) else 0)
      = L.map (fun _ => (1 : ℕ)) :=
    List.map_congr_left (fun p hp => by simp only [hc p hp, if_true])
  have hB : L.map (fun uv => if (g.poids uv.1 uv.2).getD 0 - m ≤ 0 then (0 : ℕ)
        else if c (uv.1, uv.2, (g.poids uv.1 uv.2).getD 0 - m).1
          (uv.1, uv.2, (g.poids uv.1 uv.2).getD 0 - m).2.1 then (1 : ℕ) else 0)
      = L.map (fun uv => if (g.poids uv.1 uv.2).getD 0 - m ≤ 0 then (0 : ℕ) else 1) :=
    List.map_congr_left (fun p hp => by simp only [hc p hp, if_true])
  rw [hA, hB, somme_uns] at e
  constructor
  · have h1 : (L.map (fun uv => if (g.poids uv.1 uv.2).getD 0 - m ≤ 0 then 0 else 1)).sum
        ≤ L.length := somme_indic_le L (fun uv => (g.poids uv.1 uv.2).getD 0 - m ≤ 0)
    omega
  · intro hex
    have h1 : (L.map (fun uv => if (g.poids uv.1 uv.2).getD 0 - m ≤ 0 then 0 else 1)).sum
        < L.length := somme_indic_lt L (fun uv => (g.poids uv.1 uv.2).getD 0 - m ≤ 0) (by
      obtain ⟨uv, huv, w, hw, hle⟩ := hex
      refine ⟨uv, huv, ?_⟩
      show (g.poids uv.1 uv.2).getD 0 - m ≤ 0
      rw [poids_of_mem h hw]
      exact hle)
    omega

/-- The arcs that have an end outside `SG` are among the arcs. -/
theorem arcsExternes_le_arcs (g SG : Digraph T W) : g.arcsExternes SG ≤ g.arcs := by
  rw [arcs_eq_total]
  unfold arcsExternes
  apply total_le_total
  intro e _
  split_ifs <;> omega

end Digraph

/-! ## The cancellation on finite `double` weights -/

namespace Digraph

variable {T : Type} [LinearOrder T]

/-- The minimum taken by `std::min` along a path whose weights are finite, from a finite
start value: a finite value, below the start value and below every weight of the path,
that is the start value or one of the weights. -/
theorem minChemin_fini (L : List (T × T)) (g : Digraph T Double) (h : g.Inv)
    (hval : ∀ uv ∈ L, ∃ w, (uv.2, w) ∈ g.voisinsDe uv.1)
    (hfin : ∀ uv ∈ L, ∀ w, (uv.2, w) ∈ g.voisinsDe uv.1 → Double.PoidsFini w) (a0 : ℚ) :
    ∃ a, L.foldl (fun acc uv => min acc ((g.poids uv.1 uv.2).getD 0)) (Double.fini a0)
        = Double.fini a ∧
      a ≤ a0 ∧ (∀ uv ∈ L, ∀ w, (uv.2, w) ∈ g.voisinsDe uv.1 → a ≤ w.valeur) ∧
      (a = a0 ∨ ∃ uv ∈ L, (uv.2, Double.fini a) ∈ g.voisinsDe uv.1) := by
  induction L generalizing a0 with
  | nil => exact ⟨a0, rfl, le_refl _, by simp, Or.inl rfl⟩
  | cons uv reste ih =>
    obtain ⟨w, hw⟩ := hval uv (List.mem_cons_self _ _)
    have hfw := hfin uv (List.mem_cons_self _ _) w hw
    have ew := hfw.valeur_eq
    have hnd := (((inv_iff g).1 h).2 uv.1).2
    simp only [List.foldl_cons]
    rw [poids_of_mem h hw]
    have em : min (Double.fini a0) w = Double.fini (min a0 w.valeur) := by
      rw [← Double.min_fini, ← ew]
    rw [em]
    obtain ⟨a, e, h1, h2, h3⟩ := ih (fun p hp => hval p (List.mem_cons_of_mem _ hp))
      (fun p hp => hfin p (List.mem_cons_of_mem _ hp)) (min a0 w.valeur)
    refine ⟨a, e, le_trans h1 (min_le_left _ _), fun p hp w' hw' => ?_, ?_⟩
    · rcases List.mem_cons.1 hp with rfl | hp
      · have : w' = w := by
          have := List.inj_on_of_nodup_map hnd hw' hw rfl
          exact (Prod.mk.inj this).2
        rw [this]
        exact le_trans h1 (min_le_right _ _)
      · exact h2 p hp w' hw'
    · rcases h3 with e3 | ⟨p, hp, hmem⟩
      · rcases min_choice a0 w.valeur with e4 | e4
        · exact Or.inl (e3.trans e4)
        · right
          refine ⟨uv, List.mem_cons_self _ _, ?_⟩
          rw [e3, e4, ← ew]
          exact hw
      · exact Or.inr ⟨p, List.mem_cons_of_mem _ hp, hmem⟩

/-- The first loop of `reduireDetteCirculaire` along a non-empty path of the graph whose
weights are finite: the graph is unchanged, and `minDette` is the weight of one of the
arcs of the path, below all the others. -/
theorem minDetteCircuit_fini {g : Digraph T Double} (hinv : g.Inv) (c : List T)
    (hL : paires c ≠ [])
    (hval : ∀ uv ∈ paires c, ∃ w, (uv.2, w) ∈ g.voisinsDe uv.1)
    (hfin : ∀ uv ∈ paires c, ∀ w, (uv.2, w) ∈ g.voisinsDe uv.1 → Double.PoidsFini w) :
    ∃ m, g.minDetteCircuit c = (g, m) ∧ Double.PoidsFini m ∧
      (∃ uv ∈ paires c, (uv.2, m) ∈ g.voisinsDe uv.1) ∧
      ∀ uv ∈ paires c, ∀ w, (uv.2, w) ∈ g.voisinsDe uv.1 → m ≤ w := by
  obtain ⟨a, e, -, h2, h3⟩ := minChemin_fini (paires c) g hinv hval hfin doubleMax
  have hmem : ∃ uv ∈ paires c, (uv.2, Double.fini a) ∈ g.voisinsDe uv.1 := by
    rcases h3 with rfl | hmem
    · obtain ⟨uv, huv⟩ := List.exists_mem_of_ne_nil _ hL
      obtain ⟨w, hw⟩ := hval uv huv
      have hfw := hfin uv huv w hw
      have e1 : w.valeur = doubleMax := le_antisymm hfw.le_max (h2 uv huv w hw)
      refine ⟨uv, huv, ?_⟩
      rw [← e1, ← hfw.valeur_eq]
      exact hw
    · exact hmem
  refine ⟨Double.fini a, ?_, ?_, hmem, fun uv huv w hw => ?_⟩
  · unfold minDetteCircuit
    rw [minPaires_gen (paires c) g hinv hval, Double.limite_max, e]
  · obtain ⟨uv, huv, hw⟩ := hmem
    exact hfin uv huv _ hw
  · rw [(hfin uv huv w hw).valeur_eq, Double.fini_le_fini]
    exact h2 uv huv w hw

/-- Cancelling a cycle whose weights are finite: `reduireDetteCirculaire` is its second
loop alone, run with the smallest weight `m` of the cycle; the result satisfies the
invariants, has the same keys and at least one arc less, and its arcs are the arcs off
the cycle and, for the arcs of the cycle of weight `w` with `w - m` not `<= 0`, the same
arc with the weight `w - m`. -/
theorem annulation_cycle {g : Digraph T Double} (hinv : g.Inv) {s : T} {c : List T}
    (hc : g.EstCycle s c)
    (hfin : ∀ uv ∈ paires c, ∀ w, (uv.2, w) ∈ g.voisinsDe uv.1 → Double.PoidsFini w) :
    ∃ m, Double.PoidsFini m ∧ (∃ uv ∈ paires c, (uv.2, m) ∈ g.voisinsDe uv.1) ∧
      (∀ uv ∈ paires c, ∀ w, (uv.2, w) ∈ g.voisinsDe uv.1 → m ≤ w) ∧
      g.reduireDetteCirculaire c = .ok (g.reduireChemin c m) ∧
      (g.reduireChemin c m).Inv ∧ (g.reduireChemin c m).cles = g.cles ∧
      (g.reduireChemin c m).arcs < g.arcs ∧
      ∀ a x, x ∈ (g.reduireChemin c m).voisinsDe a ↔
        (x ∈ g.voisinsDe a ∧ (a, x.1) ∉ paires c) ∨
        (∃ w, (a, x.1) ∈ paires c ∧ (x.1, w) ∈ g.voisinsDe a ∧ x.2 = w - m ∧
          ¬ (w - m ≤ 0)) := by
  have hc' := hc
  obtain ⟨milieu, rfl, hne, hnd, hch⟩ := hc
  have harc : ∀ uv ∈ paires (s :: milieu ++ [s]), g.arc uv.1 uv.2 = true :=
    (chain_iff_paires _ _).1 hch
  have hsrc : (paires (s :: milieu ++ [s])).map Prod.fst = s :: milieu := by
    rw [paires_map_fst]
    exact List.dropLast_concat
  have hsnd : ((paires (s :: milieu ++ [s])).map Prod.fst).Nodup := by
    rw [hsrc]; exact hnd
  have hval : ∀ uv ∈ paires (s :: milieu ++ [s]), ∃ w, (uv.2, w) ∈ g.voisinsDe uv.1 :=
    fun uv huv => (arc_iff _ _ _).1 (harc uv huv)
  have hL : paires (s :: milieu ++ [s]) ≠ [] := by
    cases milieu with
    | nil => exact absurd rfl hne
    | cons a r => simp [paires]
  obtain ⟨m, em, hm, hmem, hmin⟩ := minDetteCircuit_fini hinv _ hL hval hfin
  have hpos : ∀ uv ∈ paires (s :: milieu ++ [s]), ∀ w, (uv.2, w) ∈ g.voisinsDe uv.1 →
      ¬ (w - m ≤ 0) → 0 < w - m :=
    fun uv huv w hw hn => ((hfin uv huv w hw).moins hm hn).pos
  have hlast : (milieu ++ [s]).getLastD s = s := by
    cases milieu with
    | nil => rfl
    | cons a r => simp [List.getLastD]
  obtain ⟨i2, c2, -, -⟩ := reduirePaires_gen _ m g hinv hsnd hval hpos
  refine ⟨m, hm, hmem, hmin, ?_, i2, c2, ?_,
    mem_reduirePaires_gen _ m g hinv hsnd hval hpos⟩
  · show g.reduireDetteCirculaire (s :: (milieu ++ [s])) = _
    unfold reduireDetteCirculaire
    simp only
    have em' : g.minDetteCircuit (s :: (milieu ++ [s])) = (g, m) := em
    rw [em', hlast]
    simp [ajusterExtremites]
  · apply (arcs_reduirePaires_gen _ m g hinv hsnd hval hpos).2
    obtain ⟨uv, huv, hw⟩ := hmem
    exact ⟨uv, huv, m, hw, hm.moins_soi⟩

end Digraph

namespace Digraph

variable {T : Type} [LinearOrder T] {W : Type} [OfNat W 0] [Add W] [Sub W] [LE W] [LT W] [Min W]
  [DecidableRel (LE.le : W → W → Prop)] [DecidableRel (LT.lt : W → W → Prop)] [Limites W]

/-- The update between the two ends of the circuit does not change a sum over the arcs
that ignores the arcs between these two ends, and adds at most one arc. -/
theorem ajusterExtremites_gen {M : Type} [AddCancelCommMonoid M] (φ : T × T × W → M)
    {g : Digraph T W} (hinv : g.Inv) (start fin : T) (hs : g.sommet start = true)
    (hf : g.sommet fin = true) {m : W} (hm0 : 0 ≤ m) (hm : 0 < m)
    (hplus : ∀ w, (fin, w) ∈ g.voisinsDe start → ¬ (w + m ≤ 0) → 0 < w + m)
    (hmoins : ∀ w, (start, w) ∈ g.voisinsDe fin → ¬ (w - m ≤ 0) → 0 < w - m)
    (hφ : ∀ w, φ (start, fin, w) = 0 ∧ φ (fin, start, w) = 0) :
    ∃ g', g.ajusterExtremites start fin m = .ok g' ∧ g'.Inv ∧ g'.cles = g.cles ∧
      total φ g' = total φ g ∧ g'.arcs ≤ g.arcs + 1 := by
  obtain ⟨g', e, i, k, h⟩ := total_ajusterExtremites_gen φ hinv start fin hs hf hm0 hm
    hplus hmoins
  obtain ⟨g'', e', -, -, h'⟩ := total_ajusterExtremites_gen (fun _ : T × T × W => (1 : ℕ))
    hinv start fin hs hf hm0 hm hplus hmoins
  rw [e] at e'
  cases e'
  refine ⟨g', e, i, k, ?_, ?_⟩
  · rcases h with ⟨-, rfl⟩ | ⟨-, w, -, h2⟩ | ⟨-, -, w, -, h2⟩ | ⟨-, -, -, h2⟩
    · rfl
    · rw [(hφ _).1, (hφ _).1, ite_self, add_zero, add_zero] at h2
      exact h2
    · rw [(hφ _).2, (hφ _).2, ite_self, add_zero, add_zero] at h2
      exact h2
    · rw [(hφ _).1, add_zero] at h2
      exact h2
  · rw [← arcs_eq_total, ← arcs_eq_total] at h'
    rcases h' with ⟨-, rfl⟩ | ⟨-, w, -, h2⟩ | ⟨-, -, w, -, h2⟩ | ⟨-, -, -, h2⟩
    · omega
    · split_ifs at h2 <;> omega
    · split_ifs at h2 <;> omega
    · omega

end Digraph

namespace Digraph

variable {T : Type} [LinearOrder T]

theorem poidsFinis_iff {g : Digraph T Double} (hinv : g.Inv) :
    g.PoidsFinis ↔ ∀ a x, x ∈ g.voisinsDe a → Double.PoidsFini x.2 := by
  constructor
  · intro h a x hx
    exact h (a, x.1, x.2) ((mem_aretes_iff hinv.1 _).2 hx)
  · intro h e he
    exact h e.1 (e.2.1, e.2.2) ((mem_aretes_iff hinv.1 e).1 he)

theorem poidsFinisSG_iff {g : Digraph T Double} (hinv : g.Inv) (SG : Digraph T Double) :
    g.PoidsFinisSG SG ↔ ∀ a x, x ∈ g.voisinsDe a →
      ¬ (SG.sommet a = true ∧ SG.sommet x.1 = true) → Double.PoidsFini x.2 := by
  constructor
  · intro h a x hx
    exact h (a, x.1, x.2) ((mem_aretes_iff hinv.1 _).2 hx)
  · intro h e he
    exact h e.1 (e.2.1, e.2.2) ((mem_aretes_iff hinv.1 e).1 he)

theorem poidsFinisSG_of_poidsFinis {g : Digraph T Double} (h : g.PoidsFinis)
    (SG : Digraph T Double) : g.PoidsFinisSG SG :=
  fun e he _ => h e he

/-- Cancelling a cycle of a graph whose weights are finite removes at least one arc and
adds none, and keeps the invariants, the keys and the finiteness of the weights. -/
theorem annulation_cycle_bilan {g : Digraph T Double} (hinv : g.Inv) (hf : g.PoidsFinis)
    {s : T} {c : List T} (hc : g.EstCycle s c) :
    ∃ g1, g.reduireDetteCirculaire c = .ok g1 ∧ g1.Inv ∧ g1.PoidsFinis ∧ g1.cles = g.cles ∧
      g1.arcs < g.arcs ∧ (∀ a b, g1.arc a b = true → g.arc a b = true) := by
  have hf' := (poidsFinis_iff hinv).1 hf
  obtain ⟨m, hm, -, -, e, i, k, a, hmem⟩ :=
    annulation_cycle hinv hc (fun uv _ w hw => hf' uv.1 (uv.2, w) hw)
  refine ⟨_, e, i, (poidsFinis_iff i).2 (fun b x hx => ?_), k, a, fun b d hbd => ?_⟩
  · rcases (hmem b x).1 hx with ⟨h1, -⟩ | ⟨w, -, hw, hx2, hn⟩
    · exact hf' b x h1
    · rw [hx2]
      exact (hf' b (x.1, w) hw).moins hm hn
  · obtain ⟨w, hw⟩ := (arc_iff _ _ _).1 hbd
    rcases (hmem b (d, w)).1 hw with ⟨h1, -⟩ | ⟨w0, -, hw0, -, -⟩
    · exact (arc_iff _ _ _).2 ⟨w, h1⟩
    · exact (arc_iff _ _ _).2 ⟨w0, hw0⟩

/-- The loop of `reduire(s)` on finite weights returns as soon as the fuel of the
searches is at least the number of vertices and the number of rounds exceeds the number
of arcs. -/
theorem boucleReduire_fini {s : T} {n : Nat} (k : Nat) :
    ∀ g : Digraph T Double, g.Inv → g.PoidsFinis → g.sommet s = true → g.sommets ≤ n →
      g.arcs < k → ∃ g', boucleReduire s n k g = .ok g' := by
  induction k with
  | zero => intro g _ _ _ _ hk; omega
  | succ k ih =>
    intro g hinv hf hs hn hk
    obtain ⟨c, a, hc⟩ := rechercheProfondeur_spec hinv hs hn
    unfold boucleReduire
    simp only [a]
    rcases hc with ⟨rfl, -⟩ | hcyc
    · simp only [List.isEmpty_nil, if_true]
      exact ⟨g, rfl⟩
    · have hne : c.isEmpty = false := by
        obtain ⟨milieu, rfl, -⟩ := hcyc
        rfl
      simp only [hne, Bool.false_eq_true, if_false]
      obtain ⟨g1, e1, i1, f1, c1, a1, -⟩ := annulation_cycle_bilan hinv hf hcyc
      simp only [e1]
      exact ih g1 i1 f1 (by rw [sommet_eq_of_cles c1]; exact hs)
        (by rw [sommets_eq_of_cles c1]; exact hn) (by omega)

/-- Cancelling a circuit that leaves `SG` and comes back to it, when the weights of the
arcs with an end outside `SG` are finite: the invariants, the keys and the finiteness of
these weights are kept, the number of arcs with an end outside `SG` drops, and the
number of arcs does not grow. -/
theorem annulation_circuitSG {g : Digraph T Double} (hinv : g.Inv) (SG : Digraph T Double)
    (hf : g.PoidsFinisSG SG) {c : List T} (hc : g.EstCircuitSG SG c) :
    ∃ g1, g.reduireDetteCirculaire c = .ok g1 ∧ g1.Inv ∧ g1.PoidsFinisSG SG ∧
      g1.cles = g.cles ∧ g1.arcsExternes SG < g.arcsExternes SG ∧ g1.arcs ≤ g.arcs := by
  obtain ⟨v0, xs, v, rfl, hne, hv0, hv, hxs, hnd, hch⟩ := hc
  have hf' := (poidsFinisSG_iff hinv SG).1 hf
  have harc : ∀ uv ∈ paires (v0 :: (xs ++ [v])), g.arc uv.1 uv.2 = true :=
    (chain_iff_paires _ _).1 hch
  have hsrc : (paires (v0 :: (xs ++ [v]))).map Prod.fst = v0 :: xs := by
    rw [paires_map_fst]
    exact @List.dropLast_concat T (v0 :: xs) v
  have hsnd : ((paires (v0 :: (xs ++ [v]))).map Prod.fst).Nodup := by
    rw [hsrc, List.nodup_cons]
    refine ⟨fun hmem => ?_, hnd⟩
    rw [hxs v0 hmem] at hv0
    exact absurd hv0 (by simp)
  have hval : ∀ uv ∈ paires (v0 :: (xs ++ [v])), ∃ w, (uv.2, w) ∈ g.voisinsDe uv.1 :=
    fun uv huv => (arc_iff _ _ _).1 (harc uv huv)
  have hL : paires (v0 :: (xs ++ [v])) ≠ [] := by
    cases xs with
    | nil => exact absurd rfl hne
    | cons a r => simp [paires]
  have hlast : (xs ++ [v]).getLastD v0 = v := by
    cases xs with
    | nil => exact absurd rfl hne
    | cons a r => simp [List.getLastD]
  have hcond : ∀ uv ∈ paires (v0 :: (xs ++ [v])),
      ¬ (SG.sommet uv.1 = true ∧ SG.sommet uv.2 = true) := by
    intro uv huv hboth
    rcases paires_circuitSG xs hne v0 v uv huv with h | h
    · rw [hxs _ h] at hboth; simp at hboth
    · rw [hxs _ h] at hboth; simp at hboth
  have hfin : ∀ uv ∈ paires (v0 :: (xs ++ [v])), ∀ w, (uv.2, w) ∈ g.voisinsDe uv.1 →
      Double.PoidsFini w := fun uv huv w hw => hf' uv.1 (uv.2, w) hw (hcond uv huv)
  have hsv0 : g.sommet v0 = true := by
    have : v0 ∈ (paires (v0 :: (xs ++ [v]))).map Prod.fst := by rw [hsrc]; simp
    obtain ⟨uv, huv, e⟩ := List.mem_map.1 this
    exact e ▸ sommet_of_arc (harc uv huv)
  have hsv : g.sommet v = true := by
    have : v ∈ (paires (v0 :: (xs ++ [v]))).map Prod.snd := by
      rw [paires_map_snd]; simp
    obtain ⟨uv, huv, e⟩ := List.mem_map.1 this
    obtain ⟨w, hw⟩ := (arc_iff _ _ _).1 (harc uv huv)
    exact e ▸ ((((inv_iff g).1 hinv).2 uv.1).1 _ hw).2.2
  obtain ⟨m, em, hm, hmem, hmin⟩ := minDetteCircuit_fini hinv _ hL hval hfin
  have hpos : ∀ uv ∈ paires (v0 :: (xs ++ [v])), ∀ w, (uv.2, w) ∈ g.voisinsDe uv.1 →
      ¬ (w - m ≤ 0) → 0 < w - m :=
    fun uv huv w hw hn => ((hfin uv huv w hw).moins hm hn).pos
  obtain ⟨i2, c2, -, -⟩ := reduirePaires_gen _ m g hinv hsnd hval hpos
  have hmem2 := mem_reduirePaires_gen _ m g hinv hsnd hval hpos
  have hex : ∃ uv ∈ paires (v0 :: (xs ++ [v])), ∃ w, (uv.2, w) ∈ g.voisinsDe uv.1 ∧
      w - m ≤ 0 := by
    obtain ⟨uv, huv, hw⟩ := hmem
    exact ⟨uv, huv, m, hw, hm.moins_soi⟩
  have a2 := (arcs_reduirePaires_gen _ m g hinv hsnd hval hpos).2 hex
  have x2 := (compte_reduirePaires_gen
    (fun a b => ¬ (SG.sommet a = true ∧ SG.sommet b = true)) _ m g hinv hsnd hval hpos
    hcond).2 hex
  generalize hg2 : (paires (v0 :: (xs ++ [v]))).foldl
    (fun g uv => Digraph.mk (surVoisins (g.inserer uv.1).graphe uv.1
      (fun voisins => modifierPoids voisins uv.2 (fun emprunt => emprunt - m)))) g = g2
    at i2 c2 hmem2 a2 x2
  have f2 : g2.PoidsFinisSG SG := by
    rw [poidsFinisSG_iff i2]
    intro b x hx hext
    rcases (hmem2 b x).1 hx with ⟨h1, -⟩ | ⟨w, hb, hw, hx2, hn⟩
    · exact hf' b x h1 hext
    · rw [hx2]
      exact (hfin (b, x.1) hb w hw).moins hm hn
  have hs2 : g2.sommet v0 = true := by rw [sommet_eq_of_cles c2]; exact hsv0
  have hf2 : g2.sommet v = true := by rw [sommet_eq_of_cles c2]; exact hsv
  have hplus : ∀ w, (v, w) ∈ g2.voisinsDe v0 → ¬ (w + m ≤ 0) → 0 < w + m :=
    fun w hw hn => Double.plus_pos ((((inv_iff g2).1 i2).2 v0).1 _ hw).2.1 hm hn
  have hmoins : ∀ w, (v0, w) ∈ g2.voisinsDe v → ¬ (w - m ≤ 0) → 0 < w - m :=
    fun w hw hn => Double.moins_pos ((((inv_iff g2).1 i2).2 v).1 _ hw).2.1 hm hn
  obtain ⟨g3, e3, i3, c3, t3, a3⟩ := ajusterExtremites_gen
    (fun e : T × T × Double =>
      if ¬ (SG.sommet e.1 = true ∧ SG.sommet e.2.1 = true) then (1 : ℕ) else 0)
    i2 v0 v hs2 hf2 hm.nonneg hm.pos hplus hmoins (fun w => by simp [hv0, hv])
  obtain ⟨g4, e4, -, -, t4, -⟩ := ajusterExtremites_gen
    (fun e : T × T × Double =>
      if ¬ (SG.sommet e.1 = true ∧ SG.sommet e.2.1 = true) ∧ ¬ Double.PoidsFini e.2.2
      then (1 : ℕ) else 0)
    i2 v0 v hs2 hf2 hm.nonneg hm.pos hplus hmoins (fun w => by simp [hv0, hv])
  rw [e3] at e4
  cases e4
  refine ⟨g3, ?_, i3, ?_, c3.trans c2, ?_, by omega⟩
  · unfold reduireDetteCirculaire
    simp only
    rw [em, hlast]
    show (g.reduireChemin (v0 :: (xs ++ [v])) m).ajusterExtremites v0 v m = _
    unfold reduireChemin
    rw [hg2]
    exact e3
  · have z2 := (condition_iff_total (fun a b => ¬ (SG.sommet a = true ∧ SG.sommet b = true))
      Double.PoidsFini g2).1 f2
    exact (condition_iff_total (fun a b => ¬ (SG.sommet a = true ∧ SG.sommet b = true))
      Double.PoidsFini g3).2 (t4.trans z2)
  · unfold arcsExternes
    rw [t3]
    exact x2

/-- The loop of `reduire(SG)`, when the vertices of `SG` are vertices of the graph and
the weights of the arcs with an end outside `SG` are finite, returns as soon as the fuel
of the searches is at least the number of vertices and the number of rounds exceeds the
number of arcs with an end outside `SG`. -/
theorem boucleReduireSG_fini (SG : Digraph T Double) {n : Nat} (k : Nat) :
    ∀ g : Digraph T Double, g.Inv → g.PoidsFinisSG SG →
      (∀ x, SG.sommet x = true → g.sommet x = true) → g.sommets ≤ n →
      g.arcsExternes SG < k → ∃ g', boucleReduireSG SG n k g = .ok g' := by
  induction k with
  | zero => intro g _ _ _ _ hk; omega
  | succ k ih =>
    intro g hinv hf hsub hn hk
    have hcarte : ∀ p ∈ SG.graphe, g.sommet p.1 = true ∧ SG.sommet p.1 = true := by
      intro p hp
      have : SG.sommet p.1 = true := (sommet_iff _ _).2 (List.mem_map.2 ⟨p, hp, rfl⟩)
      exact ⟨hsub _ this, this⟩
    obtain ⟨c, a, hc⟩ := departsSG_spec hinv SG hn SG.graphe hcarte
    unfold boucleReduireSG
    have a' : g.rechercheProfondeurSG n SG = .ok c := a
    simp only [a']
    rcases hc with rfl | hcirc
    · simp only [List.isEmpty_nil, if_true]
      exact ⟨g, rfl⟩
    · have hne : c.isEmpty = false := by
        obtain ⟨v0, xs, v, rfl, -⟩ := hcirc
        rfl
      simp only [hne, Bool.false_eq_true, if_false]
      obtain ⟨g1, e1, i1, f1, c1, x1, -⟩ := annulation_circuitSG hinv SG hf hcirc
      simp only [e1]
      exact ih g1 i1 f1 (fun x hx => by rw [sommet_eq_of_cles c1]; exact hsub x hx)
        (by rw [sommets_eq_of_cles c1]; exact hn) (by omega)

end Digraph

/-! ## The induced sub-graph in any arithmetic -/

namespace Digraph

variable {T : Type} [LinearOrder T] {W : Type} [OfNat W 0] [Add W] [Sub W] [LE W] [LT W] [Min W]
  [DecidableRel (LE.le : W → W → Prop)] [DecidableRel (LT.lt : W → W → Prop)] [Limites W]

/-- One call `SG.inserer(u, v, emprunt)` of the inner loop of `cooperative`. -/
theorem cooperative_pas_gen {g SG : Digraph T W} (hle : ∀ w : W, 0 < w → 0 ≤ w)
    (hinv : g.Inv) {S : List T} {u : T} (hu : u ∈ S)
    {y : T × W} (hy : y ∈ g.voisinsDe u) (hyS : y.1 ∈ S) (hSG : SG.Inv)
    (hs : ∀ v, SG.sommet v = true ↔ v ∈ S)
    (hsub : ∀ b x, x ∈ SG.voisinsDe b → x ∈ g.voisinsDe b) :
    ∃ SG1, SG.insererArc u y.1 y.2 = .ok SG1 ∧ SG1.Inv ∧
      (∀ v, SG1.sommet v = true ↔ v ∈ S) ∧
      (∀ b x, x ∈ SG1.voisinsDe b ↔ x ∈ SG.voisinsDe b ∨ (b = u ∧ x = y)) := by
  obtain ⟨hg1, hg2⟩ := ((inv_iff g).1 hinv).2 u
  obtain ⟨hne, hpos, -⟩ := hg1 y hy
  obtain ⟨SG1, h1, h2, h3, h4⟩ := insererArc_spec SG (Ne.symm hne) (hle _ hpos)
  refine ⟨SG1, h1, h4 hSG hpos, fun v => ?_, fun b x => ?_⟩
  · rw [h2, hs]
    constructor
    · rintro (rfl | rfl | h) <;> assumption
    · exact fun h => Or.inr (Or.inr h)
  · rw [h3]
    by_cases hb : b = u
    · subst hb
      by_cases ha : SG.arc b y.1 = true
      · have : ¬ (SG.arc b y.1 = false) := by simp [ha]
        simp only [this, and_false, if_false, true_and]
        constructor
        · exact Or.inl
        · rintro (h | rfl)
          · exact h
          · obtain ⟨w', hw'⟩ := (arc_iff _ _ _).1 ha
            have hw'' := hsub _ _ hw'
            have : (x.1, w') = x := by
              have e1 := find_eq_some_of_mem hg2 hw''
              have e2 := find_eq_some_of_mem hg2 (show (x.1, x.2) ∈ g.voisinsDe b from hy)
              rw [e1] at e2
              exact Option.some.inj e2
            rw [← this]; exact hw'
      · have ha' : SG.arc b y.1 = false := by simpa using ha
        simp only [ha', and_self, if_true, true_and]
        rw [mem_insererTuple _ _ ((arc_eq_false_iff _ _ _).1 ha')]
        tauto
    · simp [hb]

theorem cooperative_interne_gen {g : Digraph T W} (hle : ∀ w : W, 0 < w → 0 ≤ w)
    (hinv : g.Inv) {S : List T} {u : T} (hu : u ∈ S)
    (R : Voisins T W) (hR : ∀ x ∈ R, x ∈ g.voisinsDe u) (SG : Digraph T W) (hSG : SG.Inv)
    (hs : ∀ v, SG.sommet v = true ↔ v ∈ S)
    (hsub : ∀ b x, x ∈ SG.voisinsDe b → x ∈ g.voisinsDe b) :
    ∃ SG1, R.foldlM (cooperativeArc S u) SG = .ok SG1 ∧
      SG1.Inv ∧ (∀ v, SG1.sommet v = true ↔ v ∈ S) ∧
      (∀ b x, x ∈ SG1.voisinsDe b ↔ x ∈ SG.voisinsDe b ∨ (b = u ∧ x ∈ R ∧ x.1 ∈ S)) := by
  induction R generalizing SG with
  | nil => exact ⟨SG, rfl, hSG, hs, by simp⟩
  | cons y reste ih =>
    have hR' : ∀ x ∈ reste, x ∈ g.voisinsDe u := fun x hx => hR x (List.mem_cons_of_mem _ hx)
    by_cases hyS : y.1 ∈ S
    · obtain ⟨SG1, e1, i1, s1, m1⟩ :=
        cooperative_pas_gen hle hinv hu (hR y (List.mem_cons_self _ _)) hyS hSG hs hsub
      have hsub1 : ∀ b x, x ∈ SG1.voisinsDe b → x ∈ g.voisinsDe b := by
        intro b x hx
        rcases (m1 b x).1 hx with h | ⟨rfl, rfl⟩
        · exact hsub b x h
        · exact hR x (List.mem_cons_self _ _)
      obtain ⟨SG2, e2, i2, s2, m2⟩ := ih hR' SG1 i1 s1 hsub1
      refine ⟨SG2, ?_, i2, s2, fun b x => ?_⟩
      · simp only [List.foldlM_cons, cooperativeArc, hyS, if_true, e1]
        exact e2
      · rw [m2, m1, List.mem_cons]
        constructor
        · rintro ((h | ⟨rfl, rfl⟩) | ⟨rfl, h1, h2⟩)
          · exact Or.inl h
          · exact Or.inr ⟨rfl, Or.inl rfl, hyS⟩
          · exact Or.inr ⟨rfl, Or.inr h1, h2⟩
        · rintro (h | ⟨rfl, rfl | h1, h2⟩)
          · exact Or.inl (Or.inl h)
          · exact Or.inl (Or.inr ⟨rfl, rfl⟩)
          · exact Or.inr ⟨rfl, h1, h2⟩
    · obtain ⟨SG2, e2, i2, s2, m2⟩ := ih hR' SG hSG hs hsub
      refine ⟨SG2, ?_, i2, s2, fun b x => ?_⟩
      · simp only [List.foldlM_cons, cooperativeArc, hyS, if_false]
        exact e2
      · rw [m2, List.mem_cons]
        constructor
        · rintro (h | ⟨rfl, h1, h2⟩)
          · exact Or.inl h
          · exact Or.inr ⟨rfl, Or.inr h1, h2⟩
        · rintro (h | ⟨rfl, rfl | h1, h2⟩)
          · exact Or.inl h
          · exact absurd h2 hyS
          · exact Or.inr ⟨rfl, h1, h2⟩

theorem cooperative_externe_gen {g : Digraph T W} (hle : ∀ w : W, 0 < w → 0 ≤ w)
    (hinv : g.Inv) {S : List T}
    (R : List T) (hR : ∀ u ∈ R, u ∈ S) (hS : ∀ u ∈ S, g.sommet u = true)
    (SG : Digraph T W) (hSG : SG.Inv)
    (hs : ∀ v, SG.sommet v = true ↔ v ∈ S)
    (hsub : ∀ b x, x ∈ SG.voisinsDe b → x ∈ g.voisinsDe b) :
    ∃ SG1, R.foldlM (cooperativeSommet g S) SG = .ok SG1 ∧
      SG1.Inv ∧ (∀ v, SG1.sommet v = true ↔ v ∈ S) ∧
      (∀ b x, x ∈ SG1.voisinsDe b ↔
        x ∈ SG.voisinsDe b ∨ (b ∈ R ∧ x ∈ g.voisinsDe b ∧ x.1 ∈ S)) := by
  induction R generalizing SG with
  | nil => exact ⟨SG, rfl, hSG, hs, by simp⟩
  | cons u reste ih =>
    have hu : u ∈ S := hR u (List.mem_cons_self _ _)
    have hR' : ∀ a ∈ reste, a ∈ S := fun a ha => hR a (List.mem_cons_of_mem _ ha)
    obtain ⟨SG1, e1, i1, s1, m1⟩ :=
      cooperative_interne_gen hle hinv hu (g.voisinsDe u) (fun x hx => hx) SG hSG hs hsub
    have hsub1 : ∀ b x, x ∈ SG1.voisinsDe b → x ∈ g.voisinsDe b := by
      intro b x hx
      rcases (m1 b x).1 hx with h | ⟨rfl, h, -⟩
      · exact hsub b x h
      · exact h
    obtain ⟨SG2, e2, i2, s2, m2⟩ := ih hR' SG1 i1 s1 hsub1
    refine ⟨SG2, ?_, i2, s2, fun b x => ?_⟩
    · simp only [List.foldlM_cons, cooperativeSommet, auSommet_of_sommet (hS u hu), e1]
      exact e2
    · rw [m2, m1, List.mem_cons]
      constructor
      · rintro ((h | ⟨rfl, h1, h2⟩) | ⟨h0, h1, h2⟩)
        · exact Or.inl h
        · exact Or.inr ⟨Or.inl rfl, h1, h2⟩
        · exact Or.inr ⟨Or.inr h0, h1, h2⟩
      · rintro (h | ⟨rfl | h0, h1, h2⟩)
        · exact Or.inl (Or.inl h)
        · exact Or.inl (Or.inr ⟨rfl, h1, h2⟩)
        · exact Or.inr ⟨h0, h1, h2⟩

/-- What `cooperative(S)` returns when every element of `S` is a vertex. -/
theorem cooperative_spec_gen {g : Digraph T W} (hle : ∀ w : W, 0 < w → 0 ≤ w)
    (hinv : g.Inv) {S : List T}
    (hS : ∀ u ∈ S, g.sommet u = true) :
    ∃ SG, g.cooperative S = .ok SG ∧ SG.Inv ∧ (∀ v, SG.sommet v = true ↔ v ∈ S) ∧
      (∀ b x, x ∈ SG.voisinsDe b ↔ b ∈ S ∧ x ∈ g.voisinsDe b ∧ x.1 ∈ S) := by
  obtain ⟨f1, f2, f3⟩ := foldl_inserer_spec S (vide : Digraph T W)
  have hv : ∀ v, (vide : Digraph T W).voisinsDe v = [] := fun v => rfl
  have hvs : ∀ v, ¬ ((vide : Digraph T W).sommet v = true) := fun v => by simp [vide, sommet, trouve]
  have hvi : (vide : Digraph T W).Inv := by simp [Inv, vide, cles]
  obtain ⟨SG, e, i, s, m⟩ := cooperative_externe_gen hle hinv S (fun u hu => hu) hS
    (S.foldl inserer vide) (f3 hvi) (fun v => by rw [f1]; simp [hvs])
    (fun b x hx => by rw [f2, hv] at hx; simp at hx)
  refine ⟨SG, ?_, i, s, fun b x => ?_⟩
  · unfold cooperative
    have : S.all (fun u => g.sommet u) = true := by
      rw [List.all_eq_true]; exact hS
    simp only [this, if_true]
    exact e
  · rw [m, f2, hv]; simp

end Digraph

namespace Digraph

variable {T : Type} [LinearOrder T]

/-- Cancelling the only cycle of a graph whose weights are finite: the result has the
arcs of weight above the smallest weight `m`, each with the weight `w - m`, and the
search from `s` finds nothing in it. -/
theorem annulation_cycle_isole {g : Digraph T Double} (hinv : g.Inv) (hf : g.PoidsFinis)
    {s : T} {c : List T} (hc : g.EstCycle s c)
    (hseul : ∀ a b, g.arc a b = true → (a, b) ∈ paires c) :
    ∃ m g1, Double.PoidsFini m ∧ (∃ uv ∈ paires c, (uv.2, m) ∈ g.voisinsDe uv.1) ∧
      (∀ a x, x ∈ g.voisinsDe a → m ≤ x.2) ∧
      g.reduireDetteCirculaire c = .ok g1 ∧ g1.Inv ∧ g1.cles = g.cles ∧
      (∀ a x, x ∈ g1.voisinsDe a ↔ ∃ w, (x.1, w) ∈ g.voisinsDe a ∧ m < w ∧ x.2 = w - m) ∧
      ∀ n c1, g1.rechercheProfondeur n s = .ok c1 → c1 = [] := by
  have hf' := (poidsFinis_iff hinv).1 hf
  obtain ⟨m, hm, hmem, hmin, e, i, k, -, hdesc⟩ :=
    annulation_cycle hinv hc (fun uv _ w hw => hf' uv.1 (uv.2, w) hw)
  have hs : g.sommet s = true := by
    obtain ⟨x, -, hx⟩ := atteint_of_estCycle hc
    obtain ⟨w, hw⟩ := (arc_iff _ _ _).1 hx
    exact ((((inv_iff g).1 hinv).2 x).1 _ hw).2.2
  have hdesc' : ∀ a x, x ∈ (g.reduireChemin c m).voisinsDe a ↔
      ∃ w, (x.1, w) ∈ g.voisinsDe a ∧ m < w ∧ x.2 = w - m := by
    intro a x
    rw [hdesc a x]
    constructor
    · rintro (⟨h1, h2⟩ | ⟨w, -, hw, hx, hn⟩)
      · exact absurd (hseul a x.1 (arc_of_mem h1)) h2
      · exact ⟨w, hw, ((hf' a _ hw).lt_iff_not_moins_le hm).2 hn, hx⟩
    · rintro ⟨w, hw, hlt, hx⟩
      exact Or.inr ⟨w, hseul a x.1 (arc_of_mem hw : g.arc a (x.1, w).1 = true), hw, hx,
        ((hf' a _ hw).lt_iff_not_moins_le hm).1 hlt⟩
  refine ⟨m, _, hm, hmem, fun a x hx => hmin (a, x.1) (hseul a x.1 (arc_of_mem hx)) x.2 hx,
    e, i, k, hdesc', fun n c1 h1 => ?_⟩
  have hs1 : (g.reduireChemin c m).sommet s = true := by
    rw [sommet_eq_of_cles k]; exact hs
  rcases rechercheProfondeur_correct i hs1 h1 with ⟨rfl, -⟩ | hcy1
  · rfl
  · exfalso
    have harcs : ∀ a b, (g.reduireChemin c m).arc a b = true → g.arc a b = true := by
      intro a b hab
      obtain ⟨w, hw⟩ := (arc_iff _ _ _).1 hab
      obtain ⟨w0, hw0, -, -⟩ := (hdesc' a (b, w)).1 hw
      exact (arc_iff _ _ _).2 ⟨w0, hw0⟩
    have hcy := estCycle_of_arcs harcs hcy1
    have e1 := cycle_unique hc hseul hcy
    subst e1
    obtain ⟨uv0, huv0, hw0⟩ := hmem
    obtain ⟨milieu, -, -, -, hch⟩ := hcy1
    have harc := (chain_iff_paires _ _).1 hch uv0 huv0
    obtain ⟨w1, hw1⟩ := (arc_iff _ _ _).1 harc
    obtain ⟨w, hw, hlt, -⟩ := (hdesc' uv0.1 (uv0.2, w1)).1 hw1
    have hww : w = m := by
      have := List.inj_on_of_nodup_map (((inv_iff g).1 hinv).2 uv0.1).2 hw hw0 rfl
      exact (Prod.mk.inj this).2
    rw [hww] at hlt
    have := (hm.lt_iff_not_moins_le hm).1 hlt
    exact this hm.moins_soi

/-- The loop of `reduire(s)` on a graph with finite weights whose arcs are those of one
cycle through `s`: whatever the fuel, the graph returned is the result of the
cancellation of this cycle. -/
theorem boucleReduire_cycle_isole_fini {g : Digraph T Double} (hinv : g.Inv)
    (hf : g.PoidsFinis) {s : T} {c : List T} (hc : g.EstCycle s c)
    (hseul : ∀ a b, g.arc a b = true → (a, b) ∈ paires c) (n k : Nat) (g' : Digraph T Double)
    (h : boucleReduire s n k g = .ok g') : g.reduireDetteCirculaire c = .ok g' := by
  obtain ⟨m, g1, -, -, -, e, -, -, -, hvide⟩ := annulation_cycle_isole hinv hf hc hseul
  have hs : g.sommet s = true := by
    obtain ⟨x, -, hx⟩ := atteint_of_estCycle hc
    obtain ⟨w, hw⟩ := (arc_iff _ _ _).1 hx
    exact ((((inv_iff g).1 hinv).2 x).1 _ hw).2.2
  cases k with
  | zero => simp [boucleReduire] at h
  | succ k =>
    unfold boucleReduire at h
    cases hr : g.rechercheProfondeur n s with
    | error err => simp [hr] at h
    | ok circuit =>
      simp only [hr] at h
      have hcy : circuit = c := by
        rcases rechercheProfondeur_correct hinv hs hr with ⟨-, hno⟩ | hcy
        · obtain ⟨x, hx, hxs⟩ := atteint_of_estCycle hc
          rw [hno x hx] at hxs
          exact absurd hxs (by simp)
        · exact cycle_unique hc hseul hcy
      subst hcy
      have hne : circuit.isEmpty = false := by
        obtain ⟨milieu, rfl, -⟩ := hc
        rfl
      simp only [hne, Bool.false_eq_true, if_false, e] at h
      cases k with
      | zero => simp [boucleReduire] at h
      | succ k =>
        unfold boucleReduire at h
        cases hr1 : g1.rechercheProfondeur n s with
        | error err => simp [hr1] at h
        | ok c1 =>
          simp only [hr1] at h
          have := hvide n c1 hr1
          subst this
          simp only [List.isEmpty_nil, if_true] at h
          rw [e, h]

end Digraph

section EnoncesPoidsFinisDouble

open Digraph

variable {T : Type} [LinearOrder T]

/-- C11 on finite weights: on a graph with `double` weights that satisfies the structural
invariants and in which every weight is finite (none is plus infinity): (1) every cycle
search from a vertex returns as soon as the fuel is at least the number of vertices;
(2) `reduire(s)`, `s` a vertex, returns as soon as the fuel exceeds the number of
vertices plus `arcs()`, and its loop returns within `arcs() + 1` searches, hence after
at most `arcs()` cancellations; (3) the cancellation of a cycle through `s` removes at
least one arc and adds none, and keeps the invariants and the finiteness of the weights;
(4) for `SG = cooperative(S)`, every search of a circuit returns, `reduire(SG)` returns
as soon as the fuel exceeds the number of vertices plus `arcs()`, its loop returns
within `arcs() + 1` searches, and the cancellation of a circuit that leaves `SG` and
comes back to it lowers the number of arcs that have an end outside `SG`, keeps the
invariants and the finiteness of their weights, and does not raise `arcs()`. -/
theorem C11_terminaison (g : Digraph T Double) (hinv : g.Inv) (hf : g.PoidsFinis) :
    (∀ s, g.sommet s = true → ∀ n, g.sommets ≤ n → ∃ c, g.rechercheProfondeur n s = .ok c) ∧
    (∀ s, g.sommet s = true →
      (∀ n, g.sommets + g.arcs < n → ∃ g', g.reduire n s = .ok g') ∧
      (∀ n, g.sommets ≤ n → ∃ g', boucleReduire s n (g.arcs + 1) g = .ok g')) ∧
    (∀ s c, g.EstCycle s c →
      ∃ g1, g.reduireDetteCirculaire c = .ok g1 ∧ g1.Inv ∧ g1.PoidsFinis ∧
        g1.arcs < g.arcs ∧ (∀ a b, g1.arc a b = true → g.arc a b = true)) ∧
    (∀ S, (∀ u ∈ S, g.sommet u = true) →
      ∃ SG, g.cooperative S = .ok SG ∧
        (∀ n, g.sommets ≤ n → ∃ c, g.rechercheProfondeurSG n SG = .ok c) ∧
        (∀ n, g.sommets + g.arcs < n → ∃ g', g.reduireSG n SG = .ok g') ∧
        (∀ n, g.sommets ≤ n → ∃ g', boucleReduireSG SG n (g.arcs + 1) g = .ok g') ∧
        (∀ c, g.EstCircuitSG SG c →
          ∃ g1, g.reduireDetteCirculaire c = .ok g1 ∧ g1.Inv ∧ g1.PoidsFinisSG SG ∧
            g1.arcsExternes SG < g.arcsExternes SG ∧ g1.arcs ≤ g.arcs)) := by
  refine ⟨fun s hs n hn => ?_, fun s hs => ⟨fun n hn => ?_, fun n hn => ?_⟩,
    fun s c hc => ?_, fun S hS => ?_⟩
  · obtain ⟨c, e, -⟩ := rechercheProfondeur_spec hinv hs hn
    exact ⟨c, e⟩
  · unfold reduire
    simp only [hs, if_true]
    exact boucleReduire_fini n g hinv hf hs (by omega) (by omega)
  · exact boucleReduire_fini (g.arcs + 1) g hinv hf hs hn (Nat.lt_succ_self _)
  · obtain ⟨g1, e, i, f, -, a, s1⟩ := annulation_cycle_bilan hinv hf hc
    exact ⟨g1, e, i, f, a, s1⟩
  · obtain ⟨SG, e, -, s, -⟩ := cooperative_spec_gen (fun _ h => Double.nonneg_of_pos h) hinv hS
    have hsub : ∀ x, SG.sommet x = true → g.sommet x = true := fun x hx => hS x ((s x).1 hx)
    have hfs := poidsFinisSG_of_poidsFinis hf SG
    have hle := arcsExternes_le_arcs g SG
    refine ⟨SG, e, fun n hn => ?_, fun n hn => ?_, fun n hn => ?_, fun c hc => ?_⟩
    · have hcarte : ∀ p ∈ SG.graphe, g.sommet p.1 = true ∧ SG.sommet p.1 = true := by
        intro p hp
        have : SG.sommet p.1 = true := (sommet_iff _ _).2 (List.mem_map.2 ⟨p, hp, rfl⟩)
        exact ⟨hsub _ this, this⟩
      obtain ⟨c, a, -⟩ := departsSG_spec hinv SG hn SG.graphe hcarte
      exact ⟨c, a⟩
    · exact boucleReduireSG_fini SG n g hinv hfs hsub (by omega) (by omega)
    · exact boucleReduireSG_fini SG (g.arcs + 1) g hinv hfs hsub hn (by omega)
    · obtain ⟨g1, e1, i1, f1, -, x1, a1⟩ := annulation_circuitSG hinv SG hfs hc
      exact ⟨g1, e1, i1, f1, x1, a1⟩

theorem C11_terminaison_witness :
    exempleAllerRetourDouble.Inv ∧ exempleAllerRetourDouble.PoidsFinis ∧
    exempleAllerRetourDouble.sommets = 2 ∧ exempleAllerRetourDouble.arcs = 2 ∧
    exempleAllerRetourDouble.reduire 5 0 = .ok ⟨[(0, [(1, Double.arrondi 6)]), (1, [])]⟩ ∧
    ((∀ s, exempleAllerRetourDouble.sommet s = true → ∀ n, exempleAllerRetourDouble.sommets ≤ n →
      ∃ c, exempleAllerRetourDouble.rechercheProfondeur n s = .ok c) ∧
    (∀ s, exempleAllerRetourDouble.sommet s = true →
      (∀ n, exempleAllerRetourDouble.sommets + exempleAllerRetourDouble.arcs < n →
        ∃ g', exempleAllerRetourDouble.reduire n s = .ok g') ∧
      (∀ n, exempleAllerRetourDouble.sommets ≤ n →
        ∃ g', boucleReduire s n (exempleAllerRetourDouble.arcs + 1) exempleAllerRetourDouble
          = .ok g')) ∧
    (∀ s c, exempleAllerRetourDouble.EstCycle s c →
      ∃ g1, exempleAllerRetourDouble.reduireDetteCirculaire c = .ok g1 ∧ g1.Inv ∧
        g1.PoidsFinis ∧ g1.arcs < exempleAllerRetourDouble.arcs ∧
        (∀ a b, g1.arc a b = true → exempleAllerRetourDouble.arc a b = true)) ∧
    (∀ S, (∀ u ∈ S, exempleAllerRetourDouble.sommet u = true) →
      ∃ SG, exempleAllerRetourDouble.cooperative S = .ok SG ∧
        (∀ n, exempleAllerRetourDouble.sommets ≤ n →
          ∃ c, exempleAllerRetourDouble.rechercheProfondeurSG n SG = .ok c) ∧
        (∀ n, exempleAllerRetourDouble.sommets + exempleAllerRetourDouble.arcs < n →
          ∃ g', exempleAllerRetourDouble.reduireSG n SG = .ok g') ∧
        (∀ n, exempleAllerRetourDouble.sommets ≤ n →
          ∃ g', boucleReduireSG SG n (exempleAllerRetourDouble.arcs + 1)
            exempleAllerRetourDouble = .ok g') ∧
        (∀ c, exempleAllerRetourDouble.EstCircuitSG SG c →
          ∃ g1, exempleAllerRetourDouble.reduireDetteCirculaire c = .ok g1 ∧ g1.Inv ∧
            g1.PoidsFinisSG SG ∧
            g1.arcsExternes SG < exempleAllerRetourDouble.arcsExternes SG ∧
            g1.arcs ≤ exempleAllerRetourDouble.arcs))) :=
  ⟨by decide!, by decide!, by decide, by decide, by decide!,
    C11_terminaison exempleAllerRetourDouble (by decide!) (by decide!)⟩

end EnoncesPoidsFinisDouble

section EnoncesCycleIsoleDouble

open Digraph

variable {T : Type} [LinearOrder T]

/-- C12 on finite weights: let the arcs of a graph with `double` weights that satisfies the
structural invariants, all of them finite, be exactly those of one cycle
`s = v0 -> v1 -> ... -> vk = s` with `k >= 2` and pairwise distinct `v0, ..., v(k-1)`,
and let `m` be the smallest weight. Then `reduire(s)` returns with enough fuel, and
whatever the fuel the graph it returns satisfies the invariants, has the same keys, and
has exactly the arcs `(u, v, w - m)` for the arcs `(u, v, w)` with `w > m`, where `w - m`
is the difference computed on `double`, rounded to nearest. In particular, on the arcs
`0 -> 1`, `1 -> 2`, `2 -> 0` of weight 10.0 (built by three insertions) `reduire(0)`
leaves 3 vertices and no arc, and on the arcs `0 -> 1` (10.0), `1 -> 0` (4.0) it leaves
the single arc `0 -> 1` of weight 6.0. -/
theorem C12_cycle_isole (g : Digraph T Double) (hinv : g.Inv) (hf : g.PoidsFinis) (s : T)
    (c : List T) (hc : g.EstCycle s c) (hseul : ∀ e ∈ g.aretes, (e.1, e.2.1) ∈ paires c)
    (m : Double) (hmin : ∀ e ∈ g.aretes, m ≤ e.2.2) (hatt : ∃ e ∈ g.aretes, e.2.2 = m) :
    ((∀ n, g.sommets + g.arcs < n → ∃ g', g.reduire n s = .ok g') ∧
      ∀ n g', g.reduire n s = .ok g' →
        g'.Inv ∧ g'.cles = g.cles ∧
        ∀ e, e ∈ g'.aretes ↔ ∃ w, (e.1, e.2.1, w) ∈ g.aretes ∧ m < w ∧ e.2.2 = w - m) ∧
    ((do
        let g1 ← (vide : Digraph Nat Double).insererArc 0 1 (Double.arrondi 10)
        let g2 ← g1.insererArc 1 2 (Double.arrondi 10)
        g2.insererArc 2 0 (Double.arrondi 10)) = .ok exempleTriangleDouble ∧
      (∀ n, 7 ≤ n → exempleTriangleDouble.reduire n 0 = .ok ⟨[(0, []), (1, []), (2, [])]⟩) ∧
      (⟨[(0, []), (1, []), (2, [])]⟩ : Digraph Nat Double).sommets = 3 ∧
      (⟨[(0, []), (1, []), (2, [])]⟩ : Digraph Nat Double).arcs = 0) ∧
    ((do
        let g1 ← (vide : Digraph Nat Double).insererArc 0 1 (Double.arrondi 10)
        g1.insererArc 1 0 (Double.arrondi 4)) = .ok exempleAllerRetourDouble ∧
      (∀ n, 5 ≤ n →
        exempleAllerRetourDouble.reduire n 0
          = .ok ⟨[(0, [(1, Double.arrondi 6)]), (1, [])]⟩) ∧
      (⟨[(0, [(1, Double.arrondi 6)]), (1, [])]⟩ : Digraph Nat Double).aretes
        = [(0, 1, Double.fini 6)]) := by
  have hs : g.sommet s = true := by
    obtain ⟨x, -, hx⟩ := atteint_of_estCycle hc
    obtain ⟨w, hw⟩ := (arc_iff _ _ _).1 hx
    exact ((((inv_iff g).1 hinv).2 x).1 _ hw).2.2
  have hf' := (poidsFinis_iff hinv).1 hf
  have hseul' : ∀ a b, g.arc a b = true → (a, b) ∈ paires c := by
    intro a b hab
    obtain ⟨w, hw⟩ := (arc_iff _ _ _).1 hab
    exact hseul (a, b, w) ((mem_aretes_iff hinv.1 _).2 hw)
  refine ⟨⟨fun n hn => ?_, fun n g' h => ?_⟩,
    ⟨by decide!, fun n hn => reduire_mono _ hn (by decide!), by decide, by decide⟩,
    ⟨by decide!, fun n hn => reduire_mono _ hn (by decide!), by decide!⟩⟩
  · unfold reduire
    simp only [hs, if_true]
    exact boucleReduire_fini n g hinv hf hs (by omega) (by omega)
  · unfold reduire at h
    simp only [hs, if_true] at h
    have e := boucleReduire_cycle_isole_fini hinv hf hc hseul' n n g' h
    obtain ⟨m1, g1, hm1, ⟨uv1, huv1, hw1⟩, hmin1, e1, i1, k1, hdesc, -⟩ :=
      annulation_cycle_isole hinv hf hc hseul'
    rw [e] at e1
    cases e1
    have hm : m1 = m := by
      obtain ⟨e0, he0, hm0⟩ := hatt
      have h0 := (mem_aretes_iff hinv.1 e0).1 he0
      rw [hm0] at h0
      have hfm : Double.PoidsFini m := hf' e0.1 (e0.2.1, m) h0
      exact hm1.eq_of_le hfm (hmin1 e0.1 (e0.2.1, m) h0)
        (hmin (uv1.1, uv1.2, m1) ((mem_aretes_iff hinv.1 _).2 hw1))
    subst hm
    refine ⟨i1, k1, fun e => ?_⟩
    rw [mem_aretes_iff i1.1, hdesc e.1 (e.2.1, e.2.2)]
    constructor
    · rintro ⟨w, hw, hlt, hx⟩
      exact ⟨w, (mem_aretes_iff hinv.1 _).2 hw, hlt, hx⟩
    · rintro ⟨w, hw, hlt, hx⟩
      exact ⟨w, (mem_aretes_iff hinv.1 _).1 hw, hlt, hx⟩

theorem C12_cycle_isole_witness :
    exempleAllerRetourDouble.Inv ∧ exempleAllerRetourDouble.PoidsFinis ∧
    exempleAllerRetourDouble.EstCycle 0 [0, 1, 0] ∧
    (∀ e ∈ exempleAllerRetourDouble.aretes, (e.1, e.2.1) ∈ paires [0, 1, 0]) ∧
    (∀ e ∈ exempleAllerRetourDouble.aretes, Double.arrondi 4 ≤ e.2.2) ∧
    (∃ e ∈ exempleAllerRetourDouble.aretes, e.2.2 = Double.arrondi 4) ∧
    (((∀ n, exempleAllerRetourDouble.sommets + exempleAllerRetourDouble.arcs < n →
        ∃ g', exempleAllerRetourDouble.reduire n 0 = .ok g') ∧
      ∀ n g', exempleAllerRetourDouble.reduire n 0 = .ok g' →
        g'.Inv ∧ g'.cles = exempleAllerRetourDouble.cles ∧
        ∀ e, e ∈ g'.aretes ↔
          ∃ w, (e.1, e.2.1, w) ∈ exempleAllerRetourDouble.aretes ∧ Double.arrondi 4 < w ∧
            e.2.2 = w - Double.arrondi 4) ∧
    ((do
        let g1 ← (vide : Digraph Nat Double).insererArc 0 1 (Double.arrondi 10)
        let g2 ← g1.insererArc 1 2 (Double.arrondi 10)
        g2.insererArc 2 0 (Double.arrondi 10)) = .ok exempleTriangleDouble ∧
      (∀ n, 7 ≤ n → exempleTriangleDouble.reduire n 0 = .ok ⟨[(0, []), (1, []), (2, [])]⟩) ∧
      (⟨[(0, []), (1, []), (2, [])]⟩ : Digraph Nat Double).sommets = 3 ∧
      (⟨[(0, []), (1, []), (2, [])]⟩ : Digraph Nat Double).arcs = 0) ∧
    ((do
        let g1 ← (vide : Digraph Nat Double).insererArc 0 1 (Double.arrondi 10)
        g1.insererArc 1 0 (Double.arrondi 4)) = .ok exempleAllerRetourDouble ∧
      (∀ n, 5 ≤ n →
        exempleAllerRetourDouble.reduire n 0
          = .ok ⟨[(0, [(1, Double.arrondi 6)]), (1, [])]⟩) ∧
      (⟨[(0, [(1, Double.arrondi 6)]), (1, [])]⟩ : Digraph Nat Double).aretes
        = [(0, 1, Double.fini 6)])) :=
  ⟨by decide!, by decide!,
    ⟨[1], rfl, by decide, by decide, (chain_iff_paires _ _).2 (by decide!)⟩,
    by decide!, by decide!, by decide!,
    C12_cycle_isole exempleAllerRetourDouble (by decide!) (by decide!) 0 [0, 1, 0]
      ⟨[1], rfl, by decide, by decide, (chain_iff_paires _ _).2 (by decide!)⟩
      (by decide!) (Double.arrondi 4) (by decide!) (by decide!)⟩

end EnoncesCycleIsoleDouble

section EnoncesObligations

open Digraph

variable {T : Type} [LinearOrder T]

end EnoncesObligations

end DepthGraph
